import Mathlib

/-!
# libjson: a shallow embedding of `libjson.h`

The development follows `src/libjson.h` function by function.

Conventions of the embedding
* a `char*` is an `Option (List Char)`: `none` is the `NULL` pointer and
  `some s` is the text before the terminating NUL;
* a heap buffer `T* elements` is a `List T`; `numberOfElements` is kept as the
  separate `int` field it is in C, because `a_remove` decrements it without a
  guard;
* `realloc` is taken to succeed, and freeing has no counterpart (values are
  not shared). A `realloc` that shrinks or appends keeps the cells it had, so
  the block is a list that is cut or extended. Only `a_setJSONElement` can
  tell whether the block was moved, because its shift loop goes through the
  pointer from before the call: `a_setJSONElement` is the call when the block
  stays where it was and `a_setJSONElement_moved` is the call when it moves;
  the two agree when the value is added at the end, which is how the parsers
  add values;
* a `long double` is idealised as an exact signed decimal fraction
  (`LongDouble`). Every finite binary floating value is such a fraction, but
  the infinities and NaN are not values of the model, and no rounding to the
  machine format is modelled: `sscanf_Lf` gives the decimal value of the text,
  which is the value C stores exactly when that value is a `long double`
  (`spec_longDoubleValue`);
* a loop `for(i = 0; i < len; i++)` over a text is a recursion over the text
  that is left, and a jump `i += k` inside it is a counter `skip` of
  characters still to pass over;
* undefined behaviour the serializer and the parsers can run into (overrunning
  the `tmp[128]` staging buffers, passing a `NULL` string to `%s`, for which
  some C libraries print `(null)`) is an explicit `Fault`;
* the call `sprintf(str, "%s%s%s", str, member, sep)` of the two container
  serializers reads the buffer it writes; it is taken to append `member` and
  `sep` to `str`, which is what writing the output front to back does.
-/

namespace LibJson

/-! ## Data structures -/

/-- The data type of a json value (`enum JSONType`). -/
inductive JSONType where
  | object
  | array
  | boolean
  | number
  | string
  | null
deriving DecidableEq, Repr

/-- Idealised `long double`, in sign and magnitude like the machine format:
the decimal fraction `± mant / 10 ^ exp`, kept in lowest terms so that equal
values of one sign are equal terms. The values are the finite ones: the
infinities and NaN of the machine format are not modelled, and not every
value of the model is a value of the machine format (`0.1` is not). -/
structure LongDouble where
  neg : Bool
  mant : Nat
  exp : Nat
  canon : exp = 0 ∨ mant % 10 ≠ 0
deriving DecidableEq, Repr

mutual
/-- The C `struct JSONElement`: every field is always present, `type` says
which one is meaningful. -/
inductive JSONElement where
  | mk (type : JSONType) (object : JSONObject) (array : JSONArray)
      (boolean : Bool) (number : LongDouble) (string : Option (List Char))
/-- The C `struct JSONObject`: a buffer of pairs and the pair count. -/
inductive JSONObject where
  | mk (elements : List JSONPair) (numberOfElements : Int)
/-- The C `struct JSONArray`: a buffer of values and the value count. -/
inductive JSONArray where
  | mk (elements : List JSONElement) (numberOfElements : Int)
/-- The C `struct JSONPair`: a key and its value. -/
inductive JSONPair where
  | mk (key : Option (List Char)) (value : JSONElement)
end

/-- Field `type` of a `JSONElement`. -/
def JSONElement.type : JSONElement → JSONType
  | .mk t _ _ _ _ _ => t

/-- Field `object` of a `JSONElement`. -/
def JSONElement.object : JSONElement → JSONObject
  | .mk _ o _ _ _ _ => o

/-- Field `array` of a `JSONElement`. -/
def JSONElement.array : JSONElement → JSONArray
  | .mk _ _ a _ _ _ => a

/-- Field `boolean` of a `JSONElement`. -/
def JSONElement.boolean : JSONElement → Bool
  | .mk _ _ _ b _ _ => b

/-- Field `number` of a `JSONElement`. -/
def JSONElement.number : JSONElement → LongDouble
  | .mk _ _ _ _ n _ => n

/-- Field `string` of a `JSONElement`. -/
def JSONElement.string : JSONElement → Option (List Char)
  | .mk _ _ _ _ _ s => s

/-- Field `elements` of a `JSONObject`. -/
def JSONObject.elements : JSONObject → List JSONPair
  | .mk es _ => es

/-- Field `numberOfElements` of a `JSONObject`. -/
def JSONObject.numberOfElements : JSONObject → Int
  | .mk _ n => n

/-- Field `elements` of a `JSONArray`. -/
def JSONArray.elements : JSONArray → List JSONElement
  | .mk es _ => es

/-- Field `numberOfElements` of a `JSONArray`. -/
def JSONArray.numberOfElements : JSONArray → Int
  | .mk _ n => n

/-- Field `key` of a `JSONPair`. -/
def JSONPair.key : JSONPair → Option (List Char)
  | .mk k _ => k

/-- Field `value` of a `JSONPair`. -/
def JSONPair.value : JSONPair → JSONElement
  | .mk _ v => v

/-! ## Numbers -/

/-- Strip common factors of ten: at most `e` of them. -/
def LongDouble.strip : Nat → Nat → Nat × Nat
  | 0, m => (m, 0)
  | e + 1, m => if m % 10 = 0 then LongDouble.strip e (m / 10) else (m, e + 1)

theorem LongDouble.strip_canon (e m : Nat) :
    (LongDouble.strip e m).2 = 0 ∨ (LongDouble.strip e m).1 % 10 ≠ 0 := by
  induction e generalizing m with
  | zero => exact Or.inl rfl
  | succ e ih =>
    unfold LongDouble.strip
    split
    · exact ih _
    · exact Or.inr (by assumption)

/-- The value `± m / 10 ^ e` in lowest terms. -/
def LongDouble.normalize (neg : Bool) (m e : Nat) : LongDouble :=
  ⟨neg, (LongDouble.strip e m).1, (LongDouble.strip e m).2, LongDouble.strip_canon e m⟩

/-- The conversion `(long double)n` of a `long`. -/
def LongDouble.ofLong (n : Int) : LongDouble :=
  ⟨decide (n < 0), n.natAbs, 0, Or.inl rfl⟩

/-- The constant `0`. -/
def LongDouble.zero : LongDouble :=
  LongDouble.ofLong 0

/-- The comparison `a == b` of C: equal terms, or two zeros of any sign. -/
def LongDouble.ceq (a b : LongDouble) : Bool :=
  (a.mant == 0 && b.mant == 0) || a == b

/-- Smallest value of a 64-bit `long`. -/
def LONG_MIN : Int := -(2 ^ 63)

/-- Largest value of a 64-bit `long`. -/
def LONG_MAX : Int := 2 ^ 63 - 1

/-- The conversion `(long)d`: truncation toward zero. A value that does not fit
a `long` has no defined conversion in C; the model returns `LONG_MIN` there
(what x86-64 produces). -/
def LongDouble.toLong (d : LongDouble) : Int :=
  let t : Int := if d.neg then -((d.mant / 10 ^ d.exp : Nat) : Int)
    else ((d.mant / 10 ^ d.exp : Nat) : Int)
  if LONG_MIN ≤ t ∧ t ≤ LONG_MAX then t else LONG_MIN

/-- Round a double down, truncating any decimal points off:
`(long double)(long)d`. -/
def libjson_floor (d : LongDouble) : LongDouble :=
  LongDouble.ofLong d.toLong

/-! ## String helpers -/

/-- Get the number of characters in a null terminated string (`0` for `NULL`). -/
def libjson_strlen : Option (List Char) → Nat
  | none => 0
  | some s => s.length

/-- Copy the contents of a string to another string (`NULL` for `NULL`). -/
def libjson_strcpy : Option (List Char) → Option (List Char)
  | none => none
  | some s => some s

/-- The `while` loop of `libjson_strcmp` and its final `s1[i] == s2[i]`: the
walk stops at the first NUL of either string. -/
def libjson_strcmp_loop : List Char → List Char → Bool
  | [], [] => true
  | [], _ :: _ => false
  | _ :: _, [] => false
  | a :: s1, b :: s2 => if a ≠ b then false else libjson_strcmp_loop s1 s2

/-- Compare that two strings are equal: true if the strings are identical and
not null. -/
def libjson_strcmp : Option (List Char) → Option (List Char) → Bool
  | some s1, some s2 => libjson_strcmp_loop s1 s2
  | _, _ => false

/-- Check if a character is a digit (0-9). -/
def libjson_isdigit (c : Char) : Bool :=
  decide ('0' ≤ c) && decide (c ≤ '9')

/-- Check if a character is whitespace. -/
def libjson_isspace (c : Char) : Bool :=
  c == ' ' || c == '\t' || c == '\n' || c == '\r' || c == Char.ofNat 12 || c == Char.ofNat 11

/-! ## Buffers -/

/-- The cells of the block `realloc(buf, n * sizeof(T))` returns: the cells
of `buf`, cut to `n` cells or extended to `n` cells; a new cell holds `fill`
(its content is indeterminate in C). -/
def realloc {α : Type} (buf : List α) (n : Nat) (fill : α) : List α :=
  (buf ++ List.replicate (n - buf.length) fill).take n

/-- The loop `for(i = index; i < n - 1; i++) buf[i] = buf[i+1];` with `k`
iterations left and `i` the current index. -/
def shiftLeft {α : Type} : Nat → Nat → List α → List α
  | 0, _, buf => buf
  | k + 1, i, buf =>
    shiftLeft k (i + 1) (match buf[i + 1]? with
      | some v => buf.set i v
      | none => buf)

/-- The loop `for(i = n; i > index; i--) buf[i] = buf[i-1];` with `k`
iterations left and `i` the current index. -/
def shiftRight {α : Type} : Nat → Nat → List α → List α
  | 0, _, buf => buf
  | k + 1, i, buf =>
    shiftRight k (i - 1) (match buf[i - 1]? with
      | some v => buf.set i v
      | none => buf)

/-! ## Constructors -/

/-- Create an empty json object. -/
def o_emptyJSONObject : JSONObject :=
  .mk [] 0

/-- Create an empty json array. -/
def a_emptyJSONArray : JSONArray :=
  .mk [] 0

/-- Create an empty, or null, json value. -/
def libjson_emptyJSONElement : JSONElement :=
  .mk .null o_emptyJSONObject a_emptyJSONArray false LongDouble.zero none

/-! ## JSONObject: lookup -/

/-- The loop of `o_getJSONElement` over `elements[i]`, `k` pairs left to
visit: the value of the first pair whose key compares equal. -/
def o_getJSONElement_loop (key : Option (List Char)) : List JSONPair → Nat → JSONElement
  | temp :: rest, k + 1 =>
    if libjson_strcmp key temp.key then temp.value else o_getJSONElement_loop key rest k
  | _, _ => libjson_emptyJSONElement

/-- Get a value from a json object by its key: the value, or a json null if
the key is not present. -/
def o_getJSONElement (json : JSONObject) (key : Option (List Char)) : JSONElement :=
  o_getJSONElement_loop key json.elements json.numberOfElements.toNat

/-- The loop of `o_has`, `k` pairs left to visit. -/
def o_has_loop (key : Option (List Char)) : List JSONPair → Nat → Bool
  | temp :: rest, k + 1 =>
    if libjson_strcmp key temp.key then true else o_has_loop key rest k
  | _, _ => false

/-- Check if a json object has a value for a given key. -/
def o_has (json : JSONObject) (key : Option (List Char)) : Bool :=
  o_has_loop key json.elements json.numberOfElements.toNat

/-- Check if the value for this key is a json object. -/
def o_isJSONObject (json : JSONObject) (key : Option (List Char)) : Bool :=
  (o_getJSONElement json key).type == JSONType.object

/-- Check if the value for this key is a json array. -/
def o_isJSONArray (json : JSONObject) (key : Option (List Char)) : Bool :=
  (o_getJSONElement json key).type == JSONType.array

/-- Check if the value for this key is a boolean. -/
def o_isBoolean (json : JSONObject) (key : Option (List Char)) : Bool :=
  (o_getJSONElement json key).type == JSONType.boolean

/-- Check if the value for this key is an integer. -/
def o_isInt (json : JSONObject) (key : Option (List Char)) : Bool :=
  let element := o_getJSONElement json key
  element.type == JSONType.number && element.number.ceq (libjson_floor element.number)

/-- Check if the value for this key is a double. -/
def o_isDouble (json : JSONObject) (key : Option (List Char)) : Bool :=
  (o_getJSONElement json key).type == JSONType.number

/-- Check if the value for this key is a string. -/
def o_isString (json : JSONObject) (key : Option (List Char)) : Bool :=
  (o_getJSONElement json key).type == JSONType.string

/-- Check if the value for this key is null (or the key is not present). -/
def o_isNull (json : JSONObject) (key : Option (List Char)) : Bool :=
  (o_getJSONElement json key).type == JSONType.null

/-- Get a json object from a json object by its key. -/
def o_getJSONObject (json : JSONObject) (key : Option (List Char)) : JSONObject :=
  (o_getJSONElement json key).object

/-- Get a json array from a json object by its key. -/
def o_getJSONArray (json : JSONObject) (key : Option (List Char)) : JSONArray :=
  (o_getJSONElement json key).array

/-- Get a boolean from a json object by its key. -/
def o_getBoolean (json : JSONObject) (key : Option (List Char)) : Bool :=
  (o_getJSONElement json key).boolean

/-- Get an integer from a json object by its key. -/
def o_getInt (json : JSONObject) (key : Option (List Char)) : Int :=
  (o_getJSONElement json key).number.toLong

/-- Get a double from a json object by its key. -/
def o_getDouble (json : JSONObject) (key : Option (List Char)) : LongDouble :=
  (o_getJSONElement json key).number

/-- Get a string from a json object by its key. -/
def o_getString (json : JSONObject) (key : Option (List Char)) : Option (List Char) :=
  (o_getJSONElement json key).string

/-- Get a json object by its key, or `dflt` if the looked-up value is null. -/
def o_optJSONObject (json : JSONObject) (key : Option (List Char)) (dflt : JSONObject) :
    JSONObject :=
  let element := o_getJSONElement json key
  if element.type = JSONType.null then dflt else element.object

/-- Get a json array by its key, or `dflt` if the looked-up value is null. -/
def o_optJSONArray (json : JSONObject) (key : Option (List Char)) (dflt : JSONArray) :
    JSONArray :=
  let element := o_getJSONElement json key
  if element.type = JSONType.null then dflt else element.array

/-- Get a boolean by its key, or `dflt` if the looked-up value is null. -/
def o_optBoolean (json : JSONObject) (key : Option (List Char)) (dflt : Bool) : Bool :=
  let element := o_getJSONElement json key
  if element.type = JSONType.null then dflt else element.boolean

/-- Get an integer by its key, or `dflt` if the looked-up value is null. -/
def o_optInt (json : JSONObject) (key : Option (List Char)) (dflt : Int) : Int :=
  let element := o_getJSONElement json key
  if element.type = JSONType.null then dflt else element.number.toLong

/-- Get a double by its key, or `dflt` if the looked-up value is null. -/
def o_optDouble (json : JSONObject) (key : Option (List Char)) (dflt : LongDouble) :
    LongDouble :=
  let element := o_getJSONElement json key
  if element.type = JSONType.null then dflt else element.number

/-- Get a string by its key, or `dflt` if the looked-up value is null. -/
def o_optString (json : JSONObject) (key : Option (List Char)) (dflt : Option (List Char)) :
    Option (List Char) :=
  let element := o_getJSONElement json key
  if element.type = JSONType.null then dflt else element.string

/-! ## JSONObject: mutators -/

/-- The search loop of `o_remove`: the index of the first pair whose key
compares equal, `i` the current index and `k` pairs left to visit. -/
def o_remove_find (key : Option (List Char)) : List JSONPair → Nat → Nat → Option Nat
  | temp :: rest, i, k + 1 =>
    if libjson_strcmp key temp.key then some i else o_remove_find key rest (i + 1) k
  | _, _, _ => none

/-- Remove a value from a json object by its key: when a pair matches, the
later pairs are shifted left, the count is decremented and the buffer shrunk.
(The freeing of the removed pair has no counterpart in a value model.) -/
def o_remove (json : JSONObject) (key : Option (List Char)) : JSONObject :=
  match o_remove_find key json.elements 0 json.numberOfElements.toNat with
  | none => json
  | some index =>
    let n := json.numberOfElements
    .mk ((shiftLeft (n - 1 - index).toNat index json.elements).take (n - 1).toNat) (n - 1)

/-- Set a value for a key in a json object: `o_remove`, then the pair is
written into the new last cell. -/
def o_setJSONElement (json : JSONObject) (key : Option (List Char)) (set : JSONElement) :
    JSONObject :=
  let json := o_remove json key
  let n := json.numberOfElements
  let pair := JSONPair.mk (libjson_strcpy key) set
  .mk ((realloc json.elements (n + 1).toNat pair).set n.toNat pair) (n + 1)

/-- Set a json object for a key in a json object. -/
def o_setJSONObject (json : JSONObject) (key : Option (List Char)) (set : JSONObject) :
    JSONObject :=
  o_setJSONElement json key
    (.mk .object set a_emptyJSONArray false LongDouble.zero none)

/-- Set a json array for a key in a json object. -/
def o_setJSONArray (json : JSONObject) (key : Option (List Char)) (set : JSONArray) :
    JSONObject :=
  o_setJSONElement json key
    (.mk .array o_emptyJSONObject set false LongDouble.zero none)

/-- Set a boolean for a key in a json object. -/
def o_setBoolean (json : JSONObject) (key : Option (List Char)) (set : Bool) : JSONObject :=
  o_setJSONElement json key
    (.mk .boolean o_emptyJSONObject a_emptyJSONArray set LongDouble.zero none)

/-- Set an integer (a `long`) for a key in a json object. -/
def o_setInt (json : JSONObject) (key : Option (List Char)) (set : Int) : JSONObject :=
  o_setJSONElement json key
    (.mk .number o_emptyJSONObject a_emptyJSONArray false (LongDouble.ofLong set) none)

/-- Set a double for a key in a json object. -/
def o_setDouble (json : JSONObject) (key : Option (List Char)) (set : LongDouble) :
    JSONObject :=
  o_setJSONElement json key
    (.mk .number o_emptyJSONObject a_emptyJSONArray false set none)

/-- Set a string for a key in a json object (the string is copied). -/
def o_setString (json : JSONObject) (key : Option (List Char)) (set : Option (List Char)) :
    JSONObject :=
  o_setJSONElement json key
    (.mk .string o_emptyJSONObject a_emptyJSONArray false LongDouble.zero (libjson_strcpy set))

/-- Set a null for a key in a json object. -/
def o_setNull (json : JSONObject) (key : Option (List Char)) : JSONObject :=
  o_setJSONElement json key libjson_emptyJSONElement

/-! ## JSONArray: lookup -/

/-- Get a value from a json array at an index: the value, or a json null if
the index is not in bounds. -/
def a_getJSONElement (json : JSONArray) (index : Int) : JSONElement :=
  if index < 0 ∨ index ≥ json.numberOfElements then libjson_emptyJSONElement
  else json.elements.getD index.toNat libjson_emptyJSONElement

/-- Check if the value at this index is a json object. -/
def a_isJSONObject (json : JSONArray) (index : Int) : Bool :=
  (a_getJSONElement json index).type == JSONType.object

/-- Check if the value at this index is a json array. -/
def a_isJSONArray (json : JSONArray) (index : Int) : Bool :=
  (a_getJSONElement json index).type == JSONType.array

/-- Check if the value at this index is a boolean. -/
def a_isBoolean (json : JSONArray) (index : Int) : Bool :=
  (a_getJSONElement json index).type == JSONType.boolean

/-- Check if the value at this index is an integer. -/
def a_isInt (json : JSONArray) (index : Int) : Bool :=
  let element := a_getJSONElement json index
  element.type == JSONType.number && element.number.ceq (libjson_floor element.number)

/-- Check if the value at this index is a double. -/
def a_isDouble (json : JSONArray) (index : Int) : Bool :=
  (a_getJSONElement json index).type == JSONType.number

/-- Check if the value at this index is a string. -/
def a_isString (json : JSONArray) (index : Int) : Bool :=
  (a_getJSONElement json index).type == JSONType.string

/-- Check if the value at this index is null (or the index is out of bounds). -/
def a_isNull (json : JSONArray) (index : Int) : Bool :=
  (a_getJSONElement json index).type == JSONType.null

/-- Get an object from a json array at an index. -/
def a_getJSONObject (json : JSONArray) (index : Int) : JSONObject :=
  (a_getJSONElement json index).object

/-- Get an array from a json array at an index. -/
def a_getJSONArray (json : JSONArray) (index : Int) : JSONArray :=
  (a_getJSONElement json index).array

/-- Get a boolean from a json array at an index. -/
def a_getBoolean (json : JSONArray) (index : Int) : Bool :=
  (a_getJSONElement json index).boolean

/-- Get an integer from a json array at an index. -/
def a_getInt (json : JSONArray) (index : Int) : Int :=
  (a_getJSONElement json index).number.toLong

/-- Get a double from a json array at an index. -/
def a_getDouble (json : JSONArray) (index : Int) : LongDouble :=
  (a_getJSONElement json index).number

/-- Get a string from a json array at an index. -/
def a_getString (json : JSONArray) (index : Int) : Option (List Char) :=
  (a_getJSONElement json index).string

/-- Get a json object at an index, or `dflt` if the looked-up value is null. -/
def a_optJSONObject (json : JSONArray) (index : Int) (dflt : JSONObject) : JSONObject :=
  let element := a_getJSONElement json index
  if element.type = JSONType.null then dflt else element.object

/-- Get a json array at an index, or `dflt` if the looked-up value is null. -/
def a_optJSONArray (json : JSONArray) (index : Int) (dflt : JSONArray) : JSONArray :=
  let element := a_getJSONElement json index
  if element.type = JSONType.null then dflt else element.array

/-- Get a boolean at an index, or `dflt` if the looked-up value is null. -/
def a_optBoolean (json : JSONArray) (index : Int) (dflt : Bool) : Bool :=
  let element := a_getJSONElement json index
  if element.type = JSONType.null then dflt else element.boolean

/-- Get an integer at an index, or `dflt` if the looked-up value is null. -/
def a_optInt (json : JSONArray) (index : Int) (dflt : Int) : Int :=
  let element := a_getJSONElement json index
  if element.type = JSONType.null then dflt else element.number.toLong

/-- Get a double at an index, or `dflt` if the looked-up value is null. -/
def a_optDouble (json : JSONArray) (index : Int) (dflt : LongDouble) : LongDouble :=
  let element := a_getJSONElement json index
  if element.type = JSONType.null then dflt else element.number

/-- Get a string at an index, or `dflt` if the looked-up value is null. -/
def a_optString (json : JSONArray) (index : Int) (dflt : Option (List Char)) :
    Option (List Char) :=
  let element := a_getJSONElement json index
  if element.type = JSONType.null then dflt else element.string

/-! ## JSONArray: mutators -/

/-- Add a value at an index to a json array, pushing the later elements one
cell to the right. The index is clamped to `0 .. numberOfElements`. The C loop
shifts the cells through `json->elements`, the pointer from before the
`realloc`, and only then is `json->elements = tmp` assigned. This definition
is the call when `realloc` grows the block where it is (`tmp` is the old
pointer), so that the loop shifts the cells of `tmp`; the call when `realloc`
moves the block is `a_setJSONElement_moved`. -/
def a_setJSONElement (json : JSONArray) (index : Int) (set : JSONElement) : JSONArray :=
  let n := json.numberOfElements
  let index := if index < 0 then 0 else if index > n then n else index
  let tmp := realloc json.elements (n + 1).toNat set
  .mk ((shiftRight (n - index).toNat n.toNat tmp).set index.toNat set) (n + 1)

/-- The call `a_setJSONElement(json, index, set)` when `realloc` moves the
block: `tmp` is a new block holding the old cells and one more cell whose
content is indeterminate (`junk`), and `json->elements` still points to the
old block, which is freed. The shift loop reads and writes that freed block
(undefined in C) and leaves `tmp` as it is; then `json->elements = tmp` and
`json->elements[index] = set`. No cell of the array is shifted. -/
def a_setJSONElement_moved (junk : JSONElement) (json : JSONArray) (index : Int)
    (set : JSONElement) : JSONArray :=
  let n := json.numberOfElements
  let index := if index < 0 then 0 else if index > n then n else index
  let tmp := realloc json.elements (n + 1).toNat junk
  .mk (tmp.set index.toNat set) (n + 1)

/-- Add a json object to a json array. -/
def a_setJSONObject (json : JSONArray) (index : Int) (set : JSONObject) : JSONArray :=
  a_setJSONElement json index
    (.mk .object set a_emptyJSONArray false LongDouble.zero none)

/-- Add a json array to a json array. -/
def a_setJSONArray (json : JSONArray) (index : Int) (set : JSONArray) : JSONArray :=
  a_setJSONElement json index
    (.mk .array o_emptyJSONObject set false LongDouble.zero none)

/-- Add a boolean to a json array. -/
def a_setBoolean (json : JSONArray) (index : Int) (set : Bool) : JSONArray :=
  a_setJSONElement json index
    (.mk .boolean o_emptyJSONObject a_emptyJSONArray set LongDouble.zero none)

/-- Add an integer (a `long`) to a json array. -/
def a_setInt (json : JSONArray) (index : Int) (set : Int) : JSONArray :=
  a_setJSONElement json index
    (.mk .number o_emptyJSONObject a_emptyJSONArray false (LongDouble.ofLong set) none)

/-- Add a double to a json array. -/
def a_setDouble (json : JSONArray) (index : Int) (set : LongDouble) : JSONArray :=
  a_setJSONElement json index
    (.mk .number o_emptyJSONObject a_emptyJSONArray false set none)

/-- Add a string to a json array (the string is copied). -/
def a_setString (json : JSONArray) (index : Int) (set : Option (List Char)) : JSONArray :=
  a_setJSONElement json index
    (.mk .string o_emptyJSONObject a_emptyJSONArray false LongDouble.zero (libjson_strcpy set))

/-- Add a null to a json array. -/
def a_setNull (json : JSONArray) (index : Int) : JSONArray :=
  a_setJSONElement json index libjson_emptyJSONElement

/-- Remove a value from a json array by its index: the loop
`for(i = index; i < n - 1; i++) elements[i] = elements[i+1];`, then the count
is decremented (with no guard) and the buffer shrunk. With a negative index
the C loop also writes before the buffer, which is undefined; the model
performs the in-range assignments only. -/
def a_remove (json : JSONArray) (index : Int) : JSONArray :=
  let n := json.numberOfElements
  .mk ((shiftLeft (n - 1 - max index 0).toNat index.toNat json.elements).take (n - 1).toNat)
    (n - 1)

/-! ## Scanner -/

/-- The scan loop of `libjson_extractString`: the index `end` of the closing
quote, or `0` when the text runs out. `i` is the current index and `escapes`
the length of the run of backslashes just before it. -/
def libjson_extractString_loop : List Char → Nat → Nat → Nat
  | [], _, _ => 0
  | c :: cs, i, escapes =>
    let escapes := if c = '\\' then escapes + 1 else escapes
    if c = '"' ∧ i > 0 ∧ escapes % 2 = 0 then i
    else libjson_extractString_loop cs (i + 1) (if c ≠ '\\' then 0 else escapes)

/-- Copy the string enclosed by quotation marks from the beginning of `str`:
the cells `str[1] .. str[end-1]`. -/
def libjson_extractString (str : List Char) : List Char :=
  (str.drop 1).take (libjson_extractString_loop str 0 0 - 1)

/-- The scan loop of `libjson_extractRaw`: the index `end` of the closing
character that brings `depth` back to zero, or `0` when the text runs out.
`skip` counts the cells an `i += k` still has to jump over. -/
def libjson_extractRaw_loop (open_ close : Char) : List Char → Nat → Nat → Int → Nat
  | [], _, _, _ => 0
  | _ :: cs, i, skip + 1, depth => libjson_extractRaw_loop open_ close cs (i + 1) skip depth
  | c :: cs, i, 0, depth =>
    if c = open_ then libjson_extractRaw_loop open_ close cs (i + 1) 0 (depth + 1)
    else if c = close then
      if depth - 1 = 0 then i
      else libjson_extractRaw_loop open_ close cs (i + 1) 0 (depth - 1)
    else if c = '"' then
      libjson_extractRaw_loop open_ close cs (i + 1)
        ((libjson_extractString (c :: cs)).length + 1) depth
    else libjson_extractRaw_loop open_ close cs (i + 1) 0 depth

/-- Get a token from a string beginning with a character, and ending with
another: the cells `str[0] .. str[end]`. -/
def libjson_extractRaw (str : List Char) (open_ close : Char) : List Char :=
  str.take (libjson_extractRaw_loop open_ close str 0 0 0 + 1)

/-! ## The C library: `%Lf` -/

/-- What the model makes explicit of C's undefined behaviour, and the one
artefact of the embedding (`outOfFuel`). -/
inductive Fault where
  | bufferOverrun
  | nullString
  | outOfFuel
deriving DecidableEq, Repr

/-- The character `'0' + d`. -/
def digitChar (d : Nat) : Char :=
  Char.ofNat (48 + d)

/-- The value `c - '0'` of a digit character. -/
def digitVal (c : Char) : Nat :=
  c.toNat - 48

/-- The decimal digits of `n`, most significant first (`fuel` bounds their
number). -/
def decimalDigits : Nat → Nat → List Char
  | 0, _ => []
  | fuel + 1, n =>
    if n < 10 then [digitChar n] else decimalDigits fuel (n / 10) ++ [digitChar (n % 10)]

/-- The last `k` decimal digits of `n`, zero padded. -/
def fixedDigits : Nat → Nat → List Char
  | 0, _ => []
  | k + 1, n => fixedDigits k (n / 10) ++ [digitChar (n % 10)]

/-- The quotient `a / d` rounded to nearest, ties to even. -/
def roundHalfEven (a d : Nat) : Nat :=
  let q := a / d
  let r := a % d
  if 2 * r < d then q else if d < 2 * r then q + 1 else if q % 2 = 0 then q else q + 1

/-- The text `sprintf(tmp, "%Lf", x)` writes: sign, integer part, a point and
six fractional digits (`m` is the magnitude in millionths, rounded). -/
def sprintf_Lf (x : LongDouble) : List Char :=
  let m := if x.exp ≤ 6 then x.mant * 10 ^ (6 - x.exp)
    else roundHalfEven x.mant (10 ^ (x.exp - 6))
  (if x.neg then ['-'] else []) ++
    (decimalDigits (m / 10 ^ 6 + 1) (m / 10 ^ 6) ++ '.' :: fixedDigits 6 (m % 10 ^ 6))

/-- Read a run of digits: its value on top of `acc`, its length on top of
`cnt`, and the rest of the text. -/
def readDigits : List Char → Nat → Nat → Nat × Nat × List Char
  | [], acc, cnt => (acc, cnt, [])
  | c :: cs, acc, cnt =>
    if libjson_isdigit c then readDigits cs (acc * 10 + digitVal c) (cnt + 1)
    else (acc, cnt, c :: cs)

/-- The value `sscanf(tmp, "%Lf", &num)` leaves in `num` (initially `0`) for a
text made of digits, points and minus signs: an optional sign, digits, an
optional point and digits; with no digit at all the match fails and `num`
keeps its `0`. The model gives the decimal value of the text; C stores the
`long double` nearest to it, which is that value exactly when the value is a
`long double`. -/
def sscanf_Lf (tmp : List Char) : LongDouble :=
  let neg := decide (tmp.head? = some '-')
  let s := if neg then tmp.drop 1 else tmp
  let ip := readDigits s 0 0
  let fp := match ip.2.2 with
    | '.' :: s2 => readDigits s2 0 0
    | _ => (0, 0, [])
  if ip.2.1 + fp.2.1 = 0 then LongDouble.zero
  else LongDouble.normalize neg (ip.1 * 10 ^ fp.2.1 + fp.1) fp.2.1

/-! ## Serializer -/

/-- The scan of the number case of `libjson_JSONElementToString`: the indices
`lastNonZero` and `decimal`. -/
def libjson_trim_loop : List Char → Nat → Nat → Nat → Nat × Nat
  | [], _, lastNonZero, decimal => (lastNonZero, decimal)
  | c :: cs, i, lastNonZero, decimal =>
    if c ≠ '0' then libjson_trim_loop cs (i + 1) i (if c = '.' then i else decimal)
    else libjson_trim_loop cs (i + 1) lastNonZero decimal

/-- The number case of `libjson_JSONElementToString` after `sprintf`: cut
`tmp` at the point when the fraction is all zeros, else after the last
non-zero digit. -/
def libjson_trim (tmp : List Char) : List Char :=
  let r := libjson_trim_loop tmp 0 0 0
  if r.2 ≠ 0 then
    if r.1 = r.2 then tmp.take r.2 else tmp.take (r.1 + 1)
  else tmp

/-- The number case of `libjson_JSONElementToString`; `tmp` has 128 cells, so
a text of 128 characters or more overruns it. -/
def libjson_numberToString (number : LongDouble) : Except Fault (List Char) :=
  let tmp := sprintf_Lf number
  if 128 ≤ tmp.length then .error .bufferOverrun else .ok (libjson_trim tmp)

mutual
/-- Convert a json value to a string. -/
def libjson_JSONElementToString : JSONElement → Except Fault (List Char)
  | .mk .object o _ _ _ _ => o_JSONObjectToString o
  | .mk .array _ a _ _ _ => a_JSONArrayToString a
  | .mk .boolean _ _ b _ _ => .ok (if b then ['t', 'r', 'u', 'e'] else ['f', 'a', 'l', 's', 'e'])
  | .mk .number _ _ _ n _ => libjson_numberToString n
  | .mk .string _ _ _ _ none => .error .nullString
  | .mk .string _ _ _ _ (some s) => .ok ('"' :: (s ++ ['"']))
  | .mk .null _ _ _ _ _ => .ok ['n', 'u', 'l', 'l']
/-- Convert a key/value pair to a string: `"key":value`. -/
def libjson_JSONPairToString : JSONPair → Except Fault (List Char)
  | .mk key value =>
    match libjson_JSONElementToString value with
    | .error e => .error e
    | .ok v =>
      match key with
      | none => .error .nullString
      | some k => .ok ('"' :: (k ++ '"' :: ':' :: v))
/-- Convert a json object to a string. -/
def o_JSONObjectToString : JSONObject → Except Fault (List Char)
  | .mk elements n => o_JSONObjectToString_loop elements 0 n (if n = 0 then ['{', '}'] else ['{'])
/-- The loop of `o_JSONObjectToString` from index `i`, over the cells that are
left (a count beyond the buffer would read past it; the loop of the model
stops there). -/
def o_JSONObjectToString_loop : List JSONPair → Int → Int → List Char →
    Except Fault (List Char)
  | [], _, _, str => .ok str
  | p :: rest, i, n, str =>
    if i < n then
      match libjson_JSONPairToString p with
      | .error e => .error e
      | .ok pair =>
        o_JSONObjectToString_loop rest (i + 1) n (str ++ pair ++ (if i < n - 1 then [','] else ['}']))
    else .ok str
/-- Convert a json array to a string. -/
def a_JSONArrayToString : JSONArray → Except Fault (List Char)
  | .mk elements n => a_JSONArrayToString_loop elements 0 n (if n = 0 then ['[', ']'] else ['['])
/-- The loop of `a_JSONArrayToString` from index `i`, over the cells that are
left. -/
def a_JSONArrayToString_loop : List JSONElement → Int → Int → List Char →
    Except Fault (List Char)
  | [], _, _, str => .ok str
  | e :: rest, i, n, str =>
    if i < n then
      match libjson_JSONElementToString e with
      | .error e => .error e
      | .ok elem =>
        a_JSONArrayToString_loop rest (i + 1) n (str ++ elem ++ (if i < n - 1 then [','] else [']']))
    else .ok str
end

/-! ## Parser -/

/-- The staging loop of the number case: the cells `tmp[0 .. j-1]` (a cell
that is not written keeps its NUL) and the number `j` of characters consumed.
Writing `tmp[j]` with `j ≥ 128` overruns the buffer. -/
def libjson_stage_loop : List Char → Nat → Bool → List Char →
    Except Fault (List Char × Nat)
  | [], j, _, tmp => .ok (tmp, j)
  | d :: ds, j, hadPoint, tmp =>
    if d ≠ '.' ∧ libjson_isdigit d = false ∧ d ≠ '-' then .ok (tmp, j)
    else if d = '.' ∧ hadPoint = false then
      if j < 128 then libjson_stage_loop ds (j + 1) true (tmp ++ [d]) else .error .bufferOverrun
    else if d ≠ '.' ∧ ¬(d = '-' ∧ j ≠ 0) then
      if j < 128 then libjson_stage_loop ds (j + 1) hadPoint (tmp ++ [d])
      else .error .bufferOverrun
    else libjson_stage_loop ds (j + 1) hadPoint (tmp ++ [Char.ofNat 0])

/-- The number case of both parsers: stage the literal at the start of `str`,
read it with `sscanf`; returns the number and how many characters were
consumed. A `tmp` filled to its last cell has no terminator. -/
def libjson_stageNumber (str : List Char) : Except Fault (LongDouble × Nat) :=
  match libjson_stage_loop str 0 false [] with
  | .error e => .error e
  | .ok (tmp, j) =>
    if 128 ≤ (tmp.takeWhile (fun c => c ≠ Char.ofNat 0)).length then .error .bufferOverrun
    else .ok (sscanf_Lf (tmp.takeWhile (fun c => c ≠ Char.ofNat 0)), j)

/-- The `for` loop of `o_parseJSONObject` over the text from index `i` on;
`skip` counts the cells an `i += k` still has to jump over. The recursive
calls are the parameters `parseO` and `parseA`. -/
def o_parseJSONObject_loop (parseO : List Char → Except Fault JSONObject)
    (parseA : List Char → Except Fault JSONArray) :
    List Char → Nat → Bool → JSONObject → Option (List Char) → Bool → Except Fault JSONObject
  | [], _, _, o, _, _ => .ok o
  | _ :: cs, skip + 1, firstBrace, o, key, onValue =>
    o_parseJSONObject_loop parseO parseA cs skip firstBrace o key onValue
  | c :: cs, 0, firstBrace, o, key, onValue =>
    if libjson_isspace c then o_parseJSONObject_loop parseO parseA cs 0 firstBrace o key onValue
    else if c = '{' then
      if firstBrace then o_parseJSONObject_loop parseO parseA cs 0 false o key onValue
      else
        let child := libjson_extractRaw (c :: cs) '{' '}'
        match parseO child with
        | .error e => .error e
        | .ok v =>
          o_parseJSONObject_loop parseO parseA cs (child.length - 1) firstBrace
            (o_setJSONObject o key v) none false
    else if c = '}' then .ok o
    else if c = '"' then
      let s := libjson_extractString (c :: cs)
      if onValue then
        o_parseJSONObject_loop parseO parseA cs (s.length + 1) firstBrace
          (o_setString o key (some s)) none false
      else o_parseJSONObject_loop parseO parseA cs (s.length + 1) firstBrace o (some s) onValue
    else if c = '[' then
      let child := libjson_extractRaw (c :: cs) '[' ']'
      match parseA child with
      | .error e => .error e
      | .ok v =>
        o_parseJSONObject_loop parseO parseA cs (child.length - 1) firstBrace
          (o_setJSONArray o key v) none false
    else if c = 'n' then
      o_parseJSONObject_loop parseO parseA cs 3 firstBrace (o_setNull o key) none false
    else if c = 't' ∨ c = 'f' then
      o_parseJSONObject_loop parseO parseA cs (3 + (if c ≠ 't' then 1 else 0)) firstBrace
        (o_setBoolean o key (c == 't')) none false
    else if c = ':' then o_parseJSONObject_loop parseO parseA cs 0 firstBrace o key true
    else if c = ',' then o_parseJSONObject_loop parseO parseA cs 0 firstBrace o key onValue
    else if libjson_isdigit c ∨ c = '-' then
      match libjson_stageNumber (c :: cs) with
      | .error e => .error e
      | .ok (num, j) =>
        o_parseJSONObject_loop parseO parseA cs j firstBrace (o_setDouble o key num) none false
    else o_parseJSONObject_loop parseO parseA cs 0 firstBrace o key onValue

/-- The `for` loop of `a_parseJSONArray` over the text from index `i` on. -/
def a_parseJSONArray_loop (parseO : List Char → Except Fault JSONObject)
    (parseA : List Char → Except Fault JSONArray) :
    List Char → Nat → Bool → JSONArray → Except Fault JSONArray
  | [], _, _, a => .ok a
  | _ :: cs, skip + 1, firstBrace, a => a_parseJSONArray_loop parseO parseA cs skip firstBrace a
  | c :: cs, 0, firstBrace, a =>
    if libjson_isspace c then a_parseJSONArray_loop parseO parseA cs 0 firstBrace a
    else if c = '[' then
      if firstBrace then a_parseJSONArray_loop parseO parseA cs 0 false a
      else
        let child := libjson_extractRaw (c :: cs) '[' ']'
        match parseA child with
        | .error e => .error e
        | .ok v =>
          a_parseJSONArray_loop parseO parseA cs (child.length - 1) firstBrace
            (a_setJSONArray a a.numberOfElements v)
    else if c = ']' then .ok a
    else if c = '"' then
      let s := libjson_extractString (c :: cs)
      a_parseJSONArray_loop parseO parseA cs (s.length + 1) firstBrace
        (a_setString a a.numberOfElements (some s))
    else if c = '{' then
      let child := libjson_extractRaw (c :: cs) '{' '}'
      match parseO child with
      | .error e => .error e
      | .ok v =>
        a_parseJSONArray_loop parseO parseA cs (child.length - 1) firstBrace
          (a_setJSONObject a a.numberOfElements v)
    else if c = 'n' then
      a_parseJSONArray_loop parseO parseA cs 3 firstBrace (a_setNull a a.numberOfElements)
    else if c = 't' ∨ c = 'f' then
      a_parseJSONArray_loop parseO parseA cs (3 + (if c ≠ 't' then 1 else 0)) firstBrace
        (a_setBoolean a a.numberOfElements (c == 't'))
    else if c = ',' then a_parseJSONArray_loop parseO parseA cs 0 firstBrace a
    else if libjson_isdigit c ∨ c = '-' then
      match libjson_stageNumber (c :: cs) with
      | .error e => .error e
      | .ok (num, j) =>
        a_parseJSONArray_loop parseO parseA cs j firstBrace (a_setDouble a a.numberOfElements num)
    else a_parseJSONArray_loop parseO parseA cs 0 firstBrace a

mutual
/-- The parser `o_parseJSONObject` with a budget of nested calls. -/
def o_parseFuel : Nat → List Char → Except Fault JSONObject
  | 0, _ => .error .outOfFuel
  | fuel + 1, str =>
    o_parseJSONObject_loop (o_parseFuel fuel) (a_parseFuel fuel) str 0 true
      o_emptyJSONObject none false
/-- The parser `a_parseJSONArray` with a budget of nested calls. -/
def a_parseFuel : Nat → List Char → Except Fault JSONArray
  | 0, _ => .error .outOfFuel
  | fuel + 1, str =>
    a_parseJSONArray_loop (o_parseFuel fuel) (a_parseFuel fuel) str 0 true a_emptyJSONArray
end

/-- Parse a string into a JSONObject. A child is never longer than the text
it is cut from, and is shorter from the second nested call on, so a budget of
`2 * length + 2` nested calls is never used up. (A `NULL` text has length 0
and parses like the empty text.) -/
def o_parseJSONObject (str : List Char) : Except Fault JSONObject :=
  o_parseFuel (2 * str.length + 2) str

/-- Parse a string into a JSONArray. -/
def a_parseJSONArray (str : List Char) : Except Fault JSONArray :=
  a_parseFuel (2 * str.length + 2) str

/-! ## Vocabulary of the statements -/

/-- The count of an object is the size of its buffer. -/
def JSONObject.WF (json : JSONObject) : Prop :=
  json.numberOfElements = json.elements.length

/-- The count of an array is the size of its buffer. -/
def JSONArray.WF (json : JSONArray) : Prop :=
  json.numberOfElements = json.elements.length

instance (json : JSONObject) : Decidable json.WF :=
  inferInstanceAs (Decidable (json.numberOfElements = json.elements.length))

instance (json : JSONArray) : Decidable json.WF :=
  inferInstanceAs (Decidable (json.numberOfElements = json.elements.length))

/-- No two pairs of the list have keys that `libjson_strcmp` finds equal. -/
def keysDistinct (pairs : List JSONPair) : Prop :=
  pairs.Pairwise (fun p q => libjson_strcmp p.key q.key = false)

/-- The data-model invariant of an object: the count is the buffer size and
the keys are pairwise different for `libjson_strcmp`. -/
def JSONObject.Valid (json : JSONObject) : Prop :=
  json.WF ∧ keysDistinct json.elements

instance (pairs : List JSONPair) : Decidable (keysDistinct pairs) :=
  inferInstanceAs (Decidable
    (List.Pairwise (fun (p q : JSONPair) => libjson_strcmp p.key q.key = false) pairs))

instance (json : JSONObject) : Decidable json.Valid :=
  inferInstanceAs (Decidable (json.WF ∧ keysDistinct json.elements))

/-- The argument of one of the typed setters `*_setJSONObject`,
`*_setJSONArray`, `*_setBoolean`, `*_setInt`, `*_setDouble`, `*_setString`,
`*_setNull`. -/
inductive SetArg where
  | jsonObject (set : JSONObject)
  | jsonArray (set : JSONArray)
  | boolean (set : Bool)
  | int (set : Int)
  | double (set : LongDouble)
  | string (set : Option (List Char))
  | null

/-- The typed setter of an object selected by the argument: `o_set*`. -/
def o_set (json : JSONObject) (key : Option (List Char)) : SetArg → JSONObject
  | .jsonObject set => o_setJSONObject json key set
  | .jsonArray set => o_setJSONArray json key set
  | .boolean set => o_setBoolean json key set
  | .int set => o_setInt json key set
  | .double set => o_setDouble json key set
  | .string set => o_setString json key set
  | .null => o_setNull json key

/-- The typed setter of an array selected by the argument: `a_set*`. -/
def a_set (json : JSONArray) (index : Int) : SetArg → JSONArray
  | .jsonObject set => a_setJSONObject json index set
  | .jsonArray set => a_setJSONArray json index set
  | .boolean set => a_setBoolean json index set
  | .int set => a_setInt json index set
  | .double set => a_setDouble json index set
  | .string set => a_setString json index set
  | .null => a_setNull json index

/-- The element a typed setter stores for its argument. -/
def SetArg.element : SetArg → JSONElement
  | .jsonObject set => .mk .object set a_emptyJSONArray false LongDouble.zero none
  | .jsonArray set => .mk .array o_emptyJSONObject set false LongDouble.zero none
  | .boolean set => .mk .boolean o_emptyJSONObject a_emptyJSONArray set LongDouble.zero none
  | .int set =>
    .mk .number o_emptyJSONObject a_emptyJSONArray false (LongDouble.ofLong set) none
  | .double set => .mk .number o_emptyJSONObject a_emptyJSONArray false set none
  | .string set =>
    .mk .string o_emptyJSONObject a_emptyJSONArray false LongDouble.zero (libjson_strcpy set)
  | .null => libjson_emptyJSONElement

/-- One call of the object mutation API. -/
inductive ObjectCall where
  | set (key : Option (List Char)) (arg : SetArg)
  | remove (key : Option (List Char))

/-- The effect of one call on an object. -/
def ObjectCall.run (json : JSONObject) : ObjectCall → JSONObject
  | .set key arg => o_set json key arg
  | .remove key => o_remove json key

/-- The object reached from `o_emptyJSONObject` by a sequence of calls. -/
def o_runCalls (calls : List ObjectCall) : JSONObject :=
  calls.foldl ObjectCall.run o_emptyJSONObject

/-! ## Vocabulary of the round trip -/

/-- No quote of the text would end a string: every quote comes after a run of
backslashes of odd length, and the text does not end with such a run. `odd`
tells whether the run of backslashes just before the text has odd length. -/
def escapedFrom : List Char → Bool → Bool
  | [], odd => !odd
  | c :: cs, odd =>
    if c = '\\' then escapedFrom cs (!odd)
    else if c = '"' then odd && escapedFrom cs false
    else escapedFrom cs false

/-- Every quote of the text is escaped and the text does not end in an odd
run of backslashes. -/
def quotesEscaped (s : List Char) : Bool :=
  escapedFrom s false

/-- The `%Lf` text of the number and its terminator fit the 128 cells of
`tmp`. -/
def LongDouble.Fits (x : LongDouble) : Prop :=
  (sprintf_Lf x).length < 128

instance (x : LongDouble) : Decidable x.Fits :=
  inferInstanceAs (Decidable ((sprintf_Lf x).length < 128))

/-- What the mutation API handles: an object, an array, or the argument of a
typed setter. -/
inductive Node where
  | object (json : JSONObject)
  | array (json : JSONArray)
  | arg (arg : SetArg)

/-- The value trees built through the mutation API, from `o_emptyJSONObject`
and `a_emptyJSONArray` by `o_set*` and by `a_set*` at an index at or above the
length (the value is added at the end, where `a_setJSONElement` does not
depend on what `realloc` does), with keys and strings that are not `NULL` and
whose quotes are escaped, integers that are a `long` and doubles whose text
fits `tmp`; with `exact`, doubles have at most six fractional digits. -/
inductive Built (exact : Bool) : Node → Prop where
  | emptyObject : Built exact (.object o_emptyJSONObject)
  | emptyArray : Built exact (.array a_emptyJSONArray)
  | o_set {json : JSONObject} (key : List Char) {arg : SetArg} :
    Built exact (.object json) → quotesEscaped key = true → Built exact (.arg arg) →
    Built exact (.object (LibJson.o_set json (some key) arg))
  | a_set {json : JSONArray} (index : Int) {arg : SetArg} :
    Built exact (.array json) → json.numberOfElements ≤ index → Built exact (.arg arg) →
    Built exact (.array (LibJson.a_set json index arg))
  | jsonObject {set : JSONObject} : Built exact (.object set) → Built exact (.arg (.jsonObject set))
  | jsonArray {set : JSONArray} : Built exact (.array set) → Built exact (.arg (.jsonArray set))
  | boolean (set : Bool) : Built exact (.arg (.boolean set))
  | int (set : Int) : LONG_MIN ≤ set → set ≤ LONG_MAX → Built exact (.arg (.int set))
  | double (set : LongDouble) : set.Fits → (exact = true → set.exp ≤ 6) →
    Built exact (.arg (.double set))
  | string (set : List Char) : quotesEscaped set = true → Built exact (.arg (.string (some set)))
  | null : Built exact (.arg .null)

mutual
/-- The text of a value: what `libjson_JSONElementToString` writes when it
does not fault. -/
def renderElement : JSONElement → List Char
  | .mk .object o _ _ _ _ => renderObject o
  | .mk .array _ a _ _ _ => renderArray a
  | .mk .boolean _ _ b _ _ => if b then ['t', 'r', 'u', 'e'] else ['f', 'a', 'l', 's', 'e']
  | .mk .number _ _ _ n _ => libjson_trim (sprintf_Lf n)
  | .mk .string _ _ _ _ s => '"' :: (s.getD [] ++ ['"'])
  | .mk .null _ _ _ _ _ => ['n', 'u', 'l', 'l']
/-- The text `"key":value` of a pair. -/
def renderPair : JSONPair → List Char
  | .mk key value => '"' :: (key.getD [] ++ '"' :: ':' :: renderElement value)
/-- The text of an object: its pairs between braces, comma separated. -/
def renderObject : JSONObject → List Char
  | .mk [] _ => ['{', '}']
  | .mk (p :: ps) _ => '{' :: (renderPair p ++ renderPairsTail ps)
/-- The text of an object after one of its pairs: the later pairs, each after
a comma, and the closing brace. -/
def renderPairsTail : List JSONPair → List Char
  | [] => ['}']
  | p :: ps => ',' :: (renderPair p ++ renderPairsTail ps)
/-- The text of an array: its elements between brackets, comma separated. -/
def renderArray : JSONArray → List Char
  | .mk [] _ => ['[', ']']
  | .mk (e :: es) _ => '[' :: (renderElement e ++ renderElementsTail es)
/-- The text of an array after one of its elements. -/
def renderElementsTail : List JSONElement → List Char
  | [] => [']']
  | e :: es => ',' :: (renderElement e ++ renderElementsTail es)
end

mutual
/-- The invariant of the values the mutation API builds: counts are buffer
sizes, keys are distinct, not `NULL` and escaped, unused fields hold the
placeholder's values, strings are not `NULL` and escaped, number texts fit
`tmp` (and with `exact` have at most six fractional digits). -/
def cleanElement (exact : Bool) : JSONElement → Prop
  | .mk .object o a b n s =>
    cleanObject exact o ∧ a = a_emptyJSONArray ∧ b = false ∧ n = LongDouble.zero ∧ s = none
  | .mk .array o a b n s =>
    o = o_emptyJSONObject ∧ cleanArray exact a ∧ b = false ∧ n = LongDouble.zero ∧ s = none
  | .mk .boolean o a _ n s =>
    o = o_emptyJSONObject ∧ a = a_emptyJSONArray ∧ n = LongDouble.zero ∧ s = none
  | .mk .number o a b n s =>
    o = o_emptyJSONObject ∧ a = a_emptyJSONArray ∧ b = false ∧
      (n.Fits ∧ (exact = true → n.exp ≤ 6)) ∧ s = none
  | .mk .string o a b n s =>
    o = o_emptyJSONObject ∧ a = a_emptyJSONArray ∧ b = false ∧ n = LongDouble.zero ∧
      ∃ t, s = some t ∧ quotesEscaped t = true
  | .mk .null o a b n s =>
    o = o_emptyJSONObject ∧ a = a_emptyJSONArray ∧ b = false ∧ n = LongDouble.zero ∧ s = none
/-- The invariant, for a pair. -/
def cleanPair (exact : Bool) : JSONPair → Prop
  | .mk key value => (∃ t, key = some t ∧ quotesEscaped t = true) ∧ cleanElement exact value
/-- The invariant, for an object. -/
def cleanObject (exact : Bool) : JSONObject → Prop
  | .mk es n => n = es.length ∧ keysDistinct es ∧ cleanPairs exact es
/-- The invariant, for the pairs of an object. -/
def cleanPairs (exact : Bool) : List JSONPair → Prop
  | [] => True
  | p :: ps => cleanPair exact p ∧ cleanPairs exact ps
/-- The invariant, for an array. -/
def cleanArray (exact : Bool) : JSONArray → Prop
  | .mk es n => n = es.length ∧ cleanElements exact es
/-- The invariant, for the elements of an array. -/
def cleanElements (exact : Bool) : List JSONElement → Prop
  | [] => True
  | e :: es => cleanElement exact e ∧ cleanElements exact es
end

mutual
/-- The nesting depth of a value: 0 for a scalar. -/
def depthElement : JSONElement → Nat
  | .mk .object o _ _ _ _ => depthObject o
  | .mk .array _ a _ _ _ => depthArray a
  | .mk .boolean _ _ _ _ _ => 0
  | .mk .number _ _ _ _ _ => 0
  | .mk .string _ _ _ _ _ => 0
  | .mk .null _ _ _ _ _ => 0
/-- The nesting depth of an object: one more than that of its deepest value. -/
def depthObject : JSONObject → Nat
  | .mk es _ => depthPairs es + 1
/-- The depth of the deepest value of a list of pairs. -/
def depthPairs : List JSONPair → Nat
  | [] => 0
  | .mk _ value :: ps => max (depthElement value) (depthPairs ps)
/-- The nesting depth of an array. -/
def depthArray : JSONArray → Nat
  | .mk es _ => depthElements es + 1
/-- The depth of the deepest value of a list of elements. -/
def depthElements : List JSONElement → Nat
  | [] => 0
  | e :: es => max (depthElement e) (depthElements es)
end

/-! ## Vocabulary of the number texts -/

/-- The value of a run of digits read after `acc`. -/
def digitsValue (acc : Nat) (ds : List Char) : Nat :=
  ds.foldl (fun a c => a * 10 + digitVal c) acc

/-- The digits without their trailing zeros. -/
def stripZeros : List Char → List Char
  | [] => []
  | c :: cs => if stripZeros cs = [] ∧ c = '0' then [] else c :: stripZeros cs

/-- The characters a number text is made of. -/
def isNumChar (c : Char) : Bool :=
  libjson_isdigit c || c == '.' || c == '-'

/-- The magnitude of the number in millionths, as `%Lf` rounds it. -/
def LongDouble.millionths (x : LongDouble) : Nat :=
  if x.exp ≤ 6 then x.mant * 10 ^ (6 - x.exp) else roundHalfEven x.mant (10 ^ (x.exp - 6))

/-! ## Vocabulary of the scanner -/

/-- The scan of `libjson_extractRaw` walks over the text `t` and leaves the
depth as it found it. -/
def scanPasses (open_ close : Char) (t : List Char) : Prop :=
  ∀ (rest : List Char) (i : Nat) (d : Int), 1 ≤ d →
    libjson_extractRaw_loop open_ close (t ++ rest) i 0 d =
      libjson_extractRaw_loop open_ close rest (i + t.length) 0 d

/-- The scans for braces and for brackets both walk over the text. -/
def scanPassesBoth (t : List Char) : Prop :=
  scanPasses '{' '}' t ∧ scanPasses '[' ']' t

/-! ## Vocabulary of the idempotence -/

mutual
/-- The value with every number replaced by what the parser reads back from
its serialized text. -/
def rereadElement : JSONElement → JSONElement
  | .mk .object o a b n s => .mk .object (rereadObject o) a b n s
  | .mk .array o a b n s => .mk .array o (rereadArray a) b n s
  | .mk .boolean o a b n s => .mk .boolean o a b n s
  | .mk .number o a b n s => .mk .number o a b (sscanf_Lf (libjson_trim (sprintf_Lf n))) s
  | .mk .string o a b n s => .mk .string o a b n s
  | .mk .null o a b n s => .mk .null o a b n s
/-- The pair with its value reread. -/
def rereadPair : JSONPair → JSONPair
  | .mk key value => .mk key (rereadElement value)
/-- The object with its values reread. -/
def rereadObject : JSONObject → JSONObject
  | .mk es n => .mk (rereadPairs es) n
/-- The pairs with their values reread. -/
def rereadPairs : List JSONPair → List JSONPair
  | [] => []
  | p :: ps => rereadPair p :: rereadPairs ps
/-- The array with its elements reread. -/
def rereadArray : JSONArray → JSONArray
  | .mk es n => .mk (rereadElements es) n
/-- The elements reread. -/
def rereadElements : List JSONElement → List JSONElement
  | [] => []
  | e :: es => rereadElement e :: rereadElements es
end

/-! ## Vocabulary of the scanner claims -/

/-- The length of the run of backslashes that ends the text. -/
def backslashRun (s : List Char) : Nat :=
  (s.reverse.takeWhile (fun c => c == '\\')).length

/-- In the words of the spec, the quote that terminates a string: the
character at index `i` is a quote after the opening one, and the run of
backslashes just before it has even length (zero included). -/
def spec_closesString (str : List Char) (i : Nat) : Prop :=
  0 < i ∧ str[i]? = some '"' ∧ backslashRun (str.take i) % 2 = 0

instance (str : List Char) (i : Nat) : Decidable (spec_closesString str i) :=
  inferInstanceAs (Decidable (0 < i ∧ str[i]? = some '"' ∧ backslashRun (str.take i) % 2 = 0))

mutual
/-- In the words of the spec, balanced-delimiter scanning outside a quoted
string: the depth goes up on the open character and down on the close
character, the scan ends at the close character that brings the depth back to
zero, and a quote enters a string. The result is the index of that close
character, `none` when the text runs out first. -/
def spec_balancedEnd (open_ close : Char) : List Char → Nat → Int → Option Nat
  | [], _, _ => none
  | c :: cs, i, depth =>
    if c = open_ then spec_balancedEnd open_ close cs (i + 1) (depth + 1)
    else if c = close then
      if depth - 1 = 0 then some i else spec_balancedEnd open_ close cs (i + 1) (depth - 1)
    else if c = '"' then spec_insideString open_ close cs (i + 1) depth 0
    else spec_balancedEnd open_ close cs (i + 1) depth
/-- In the words of the spec, scanning inside a quoted string: no character
changes the depth, and the string ends at the first quote that comes after a
run of backslashes of even length (`run` is the length of the run so far). -/
def spec_insideString (open_ close : Char) : List Char → Nat → Int → Nat → Option Nat
  | [], _, _, _ => none
  | c :: cs, i, depth, run =>
    if c = '"' ∧ run % 2 = 0 then spec_balancedEnd open_ close cs (i + 1) depth
    else spec_insideString open_ close cs (i + 1) depth (if c = '\\' then run + 1 else 0)
end

/-! ## Vocabulary of the serializer claims -/

/-- In the words of the spec, number trimming: of a fixed-point text keep the
integer part, then the fraction without its trailing zeros, and no point when
nothing of the fraction is left. -/
def spec_trimNumber (text : List Char) : List Char :=
  let ip := text.takeWhile (fun c => c != '.')
  let fr := (text.dropWhile (fun c => c != '.')).drop 1
  if stripZeros fr = [] then ip else ip ++ '.' :: stripZeros fr

/-! ## Vocabulary of the parser claims -/

/-- In the words of the spec, last-write-wins: of the pairs of a text, those
whose key does not occur again further on, in their order. -/
def spec_lastWriteWins : List JSONPair → List JSONPair
  | [] => []
  | p :: ps =>
    if ps.any (fun q => decide (q.key = p.key)) then spec_lastWriteWins ps
    else p :: spec_lastWriteWins ps

/-! ## Vocabulary of the array invariant -/

/-- One call of the array mutation API. -/
inductive ArrayCall where
  | set (index : Int) (arg : SetArg)
  | remove (index : Int)

/-- The effect of one call on an array. -/
def ArrayCall.run (json : JSONArray) : ArrayCall → JSONArray
  | .set index arg => a_set json index arg
  | .remove index => a_remove json index

/-- The array reached from `a_emptyJSONArray` by a sequence of calls. -/
def a_runCalls (calls : List ArrayCall) : JSONArray :=
  calls.foldl ArrayCall.run a_emptyJSONArray

/-! ## Vocabulary of the integer predicate -/

/-- In the words of the spec, the truncation of a number toward zero, as an
integer. -/
def spec_truncation (d : LongDouble) : Int :=
  if d.neg then -((d.mant / 10 ^ d.exp : Nat) : Int) else ((d.mant / 10 ^ d.exp : Nat) : Int)

/-- In the words of the spec, a number whose value equals its own truncation:
the magnitude `mant / 10 ^ exp` has no fractional part. -/
def spec_isWhole (d : LongDouble) : Prop :=
  d.mant % 10 ^ d.exp = 0

instance (d : LongDouble) : Decidable (spec_isWhole d) :=
  inferInstanceAs (Decidable (d.mant % 10 ^ d.exp = 0))

/-! ## Vocabulary of the number literals -/

/-- In the words of the spec, the six whitespace characters: space, tab,
newline, carriage return, form feed, vertical tab. -/
def spec_whitespace (c : Char) : Prop :=
  c = ' ' ∨ c = '\t' ∨ c = '\n' ∨ c = '\r' ∨ c = Char.ofNat 12 ∨ c = Char.ofNat 11

instance (c : Char) : Decidable (spec_whitespace c) := by
  unfold spec_whitespace
  infer_instance

/-- The comma. -/
def spec_comma (c : Char) : Prop :=
  c = ','

instance (c : Char) : Decidable (spec_comma c) := by
  unfold spec_comma
  infer_instance

mutual
/-- The texts of a value with filler between its tokens: the tokens of the
serializer's text in their order, and between two tokens (never inside a
string, a number or a literal) any characters that satisfy `P`. -/
def looseElement (P : Char → Prop) : JSONElement → List Char → Prop
  | .mk .object o _ _ _ _, text => looseObject P o text
  | .mk .array _ a _ _ _, text => looseArray P a text
  | .mk .boolean o a b n s, text => text = renderElement (.mk .boolean o a b n s)
  | .mk .number o a b n s, text => text = renderElement (.mk .number o a b n s)
  | .mk .string o a b n s, text => text = renderElement (.mk .string o a b n s)
  | .mk .null o a b n s, text => text = renderElement (.mk .null o a b n s)
/-- The texts of a pair: the quoted key, filler, the colon, filler, a text of
the value. -/
def loosePair (P : Char → Prop) : JSONPair → List Char → Prop
  | .mk key value, text =>
    ∃ g1 g2 tv : List Char, (∀ c ∈ g1, P c) ∧ (∀ c ∈ g2, P c) ∧ looseElement P value tv ∧
      text = '"' :: (key.getD [] ++ '"' :: (g1 ++ ':' :: (g2 ++ tv)))
/-- The texts of an object: the opening brace and a text of its pairs up to
the closing brace. -/
def looseObject (P : Char → Prop) : JSONObject → List Char → Prop
  | .mk ps _, text => ∃ body : List Char, loosePairs P ps body ∧ text = '{' :: body
/-- The texts of an object after its opening brace: filler, the first pair,
and what follows a pair. -/
def loosePairs (P : Char → Prop) : List JSONPair → List Char → Prop
  | [], text => ∃ g : List Char, (∀ c ∈ g, P c) ∧ text = g ++ ['}']
  | p :: ps, text =>
    ∃ g tp rest : List Char, (∀ c ∈ g, P c) ∧ loosePair P p tp ∧ looseMorePairs P ps rest ∧
      text = g ++ (tp ++ rest)
/-- The texts of an object after one of its pairs: filler and the closing
brace, or filler, the separating comma, filler, the next pair and what
follows it. -/
def looseMorePairs (P : Char → Prop) : List JSONPair → List Char → Prop
  | [], text => ∃ g : List Char, (∀ c ∈ g, P c) ∧ text = g ++ ['}']
  | p :: ps, text =>
    ∃ g1 g2 tp rest : List Char, (∀ c ∈ g1, P c) ∧ (∀ c ∈ g2, P c) ∧ loosePair P p tp ∧
      looseMorePairs P ps rest ∧ text = g1 ++ ',' :: (g2 ++ (tp ++ rest))
/-- The texts of an array: the opening bracket and a text of its elements up
to the closing bracket. -/
def looseArray (P : Char → Prop) : JSONArray → List Char → Prop
  | .mk es _, text => ∃ body : List Char, looseElements P es body ∧ text = '[' :: body
/-- The texts of an array after its opening bracket. -/
def looseElements (P : Char → Prop) : List JSONElement → List Char → Prop
  | [], text => ∃ g : List Char, (∀ c ∈ g, P c) ∧ text = g ++ [']']
  | e :: es, text =>
    ∃ g te rest : List Char, (∀ c ∈ g, P c) ∧ looseElement P e te ∧
      looseMoreElements P es rest ∧ text = g ++ (te ++ rest)
/-- The texts of an array after one of its elements. -/
def looseMoreElements (P : Char → Prop) : List JSONElement → List Char → Prop
  | [], text => ∃ g : List Char, (∀ c ∈ g, P c) ∧ text = g ++ [']']
  | e :: es, text =>
    ∃ g1 g2 te rest : List Char, (∀ c ∈ g1, P c) ∧ (∀ c ∈ g2, P c) ∧ looseElement P e te ∧
      looseMoreElements P es rest ∧ text = g1 ++ ',' :: (g2 ++ (te ++ rest))
end

/-! ## Vocabulary of the restricted trees -/

/-- In the words of the spec: the text contains no quote and no backslash
character. -/
def spec_plain (s : List Char) : Prop :=
  '"' ∉ s ∧ '\\' ∉ s

instance (s : List Char) : Decidable (spec_plain s) := by
  unfold spec_plain
  infer_instance

/-- In the words of the spec: an integer or a decimal with at most six
fractional digits, rendering in fewer than 128 characters. -/
def spec_sixDigits (x : LongDouble) : Prop :=
  x.exp ≤ 6 ∧ (sprintf_Lf x).length < 128

instance (x : LongDouble) : Decidable (spec_sixDigits x) := by
  unfold spec_sixDigits
  infer_instance

/-- Every quote character of the text is escaped: it comes after a run of
backslashes of odd length, and the text does not end in such a run. -/
def spec_escaped (s : List Char) : Prop :=
  quotesEscaped s = true

instance (s : List Char) : Decidable (spec_escaped s) := by
  unfold spec_escaped
  infer_instance

/-- No restriction on a number. -/
def spec_anyNumber (_ : LongDouble) : Prop :=
  True

mutual
/-- The value trees of the data model whose keys and string values satisfy
`S` and whose numbers satisfy `N`: a count is the size of its buffer, the
keys of an object are unique and not `NULL`, a string is not `NULL`, and the
fields the tag does not select hold what `libjson_emptyJSONElement` gives (as
in every element the setters store). -/
def treeElement (S : List Char → Prop) (N : LongDouble → Prop) : JSONElement → Prop
  | .mk .object o a b n s =>
    treeObject S N o ∧ a = a_emptyJSONArray ∧ b = false ∧ n = LongDouble.zero ∧ s = none
  | .mk .array o a b n s =>
    o = o_emptyJSONObject ∧ treeArray S N a ∧ b = false ∧ n = LongDouble.zero ∧ s = none
  | .mk .boolean o a _ n s =>
    o = o_emptyJSONObject ∧ a = a_emptyJSONArray ∧ n = LongDouble.zero ∧ s = none
  | .mk .number o a b n s =>
    o = o_emptyJSONObject ∧ a = a_emptyJSONArray ∧ b = false ∧ N n ∧ s = none
  | .mk .string o a b n s =>
    o = o_emptyJSONObject ∧ a = a_emptyJSONArray ∧ b = false ∧ n = LongDouble.zero ∧
      ∃ t, s = some t ∧ S t
  | .mk .null o a b n s =>
    o = o_emptyJSONObject ∧ a = a_emptyJSONArray ∧ b = false ∧ n = LongDouble.zero ∧ s = none
/-- The restricted trees, for a pair. -/
def treePair (S : List Char → Prop) (N : LongDouble → Prop) : JSONPair → Prop
  | .mk key value => (∃ t, key = some t ∧ S t) ∧ treeElement S N value
/-- The restricted trees, for an object. -/
def treeObject (S : List Char → Prop) (N : LongDouble → Prop) : JSONObject → Prop
  | .mk es n => n = es.length ∧ keysDistinct es ∧ treePairs S N es
/-- The restricted trees, for the pairs of an object. -/
def treePairs (S : List Char → Prop) (N : LongDouble → Prop) : List JSONPair → Prop
  | [] => True
  | p :: ps => treePair S N p ∧ treePairs S N ps
/-- The restricted trees, for an array. -/
def treeArray (S : List Char → Prop) (N : LongDouble → Prop) : JSONArray → Prop
  | .mk es n => n = es.length ∧ treeElements S N es
/-- The restricted trees, for the elements of an array. -/
def treeElements (S : List Char → Prop) (N : LongDouble → Prop) : List JSONElement → Prop
  | [] => True
  | e :: es => treeElement S N e ∧ treeElements S N es
end

/-! ## Vocabulary of the termination claim -/

/-- Every run of number characters (digits, the point, the minus sign) in
the text is shorter than 128 characters: no number literal fills `tmp`. -/
def spec_shortNumbers (text : List Char) : Prop :=
  ∀ run : List Char, run <:+: text → (∀ c ∈ run, isNumChar c = true) → run.length < 128

/-- The parser returned, or stopped on a fault that satisfies `Q`. -/
def returnsOr {α : Type} (Q : Fault → Prop) : Except Fault α → Prop
  | .ok _ => True
  | .error e => Q e

/-! ## Buffers: what the shift loops compute -/

theorem getElem?_shiftLeft {α : Type} (k i : Nat) (buf : List α) (h : i + k < buf.length)
    (j : Nat) :
    (shiftLeft k i buf)[j]? = if i ≤ j ∧ j < i + k then buf[j + 1]? else buf[j]? := by
  induction k generalizing i buf with
  | zero =>
    have : ¬ (i ≤ j ∧ j < i + 0) := by omega
    rw [if_neg this, shiftLeft]
  | succ k ih =>
    have h1 : i + 1 < buf.length := by omega
    have e : buf[i + 1]? = some buf[i + 1] := List.getElem?_eq_getElem h1
    rw [shiftLeft, e]
    simp only []
    rw [ih (i + 1) _ (by simp; omega)]
    simp only [List.getElem?_set]
    by_cases c1 : i = j
    · subst c1
      have : ¬ (i + 1 ≤ i ∧ i < i + 1 + k) := by omega
      simp [this, e]
      omega
    · by_cases c2 : i + 1 ≤ j ∧ j < i + 1 + k
      · have c3 : i ≤ j ∧ j < i + (k + 1) := by omega
        have c4 : ¬ i = j + 1 := by omega
        simp [c2, c3, c4]
      · have c3 : ¬ (i ≤ j ∧ j < i + (k + 1)) := by omega
        simp [c1, c2, c3]

theorem length_shiftLeft {α : Type} (k i : Nat) (buf : List α) :
    (shiftLeft k i buf).length = buf.length := by
  induction k generalizing i buf with
  | zero => simp [shiftLeft]
  | succ k ih =>
    rw [shiftLeft, ih]
    split <;> simp

theorem shiftLeft_take {α : Type} (i : Nat) (buf : List α) (h : i < buf.length) :
    (shiftLeft (buf.length - 1 - i) i buf).take (buf.length - 1) = buf.eraseIdx i := by
  apply List.ext_getElem?
  intro j
  rw [List.getElem?_take, List.getElem?_eraseIdx]
  by_cases c : j < buf.length - 1
  · rw [if_pos c, getElem?_shiftLeft _ _ _ (by omega)]
    by_cases c1 : j < i
    · have : ¬ (i ≤ j ∧ j < i + (buf.length - 1 - i)) := by omega
      simp [c1, this]
    · have : i ≤ j ∧ j < i + (buf.length - 1 - i) := by omega
      simp [c1, this]
  · rw [if_neg c]
    by_cases c1 : j < i
    · omega
    · simp only [c1, if_false]
      symm
      apply List.getElem?_eq_none
      omega

theorem getElem?_shiftRight {α : Type} (k i : Nat) (buf : List α) (h : i < buf.length)
    (hk : k ≤ i) (j : Nat) :
    (shiftRight k i buf)[j]? = if i - k < j ∧ j ≤ i then buf[j - 1]? else buf[j]? := by
  induction k generalizing i buf with
  | zero =>
    have : ¬ (i - 0 < j ∧ j ≤ i) := by omega
    rw [if_neg this, shiftRight]
  | succ k ih =>
    have h1 : i - 1 < buf.length := by omega
    have e : buf[i - 1]? = some buf[i - 1] := List.getElem?_eq_getElem h1
    rw [shiftRight, e]
    simp only []
    rw [ih (i - 1) _ (by simp; omega) (by omega)]
    simp only [List.getElem?_set]
    by_cases c1 : i = j
    · subst c1
      have : ¬ (i - 1 - k < i ∧ i ≤ i - 1) := by omega
      have c3 : i - (k + 1) < i ∧ i ≤ i := by omega
      simp [this, e, c3]
      omega
    · by_cases c2 : i - 1 - k < j ∧ j ≤ i - 1
      · have c3 : i - (k + 1) < j ∧ j ≤ i := by omega
        have c4 : ¬ i = j - 1 := by omega
        simp [c2, c3, c4]
      · have c3 : ¬ (i - (k + 1) < j ∧ j ≤ i) := by omega
        simp [c1, c2, c3]

theorem length_shiftRight {α : Type} (k i : Nat) (buf : List α) :
    (shiftRight k i buf).length = buf.length := by
  induction k generalizing i buf with
  | zero => simp [shiftRight]
  | succ k ih =>
    rw [shiftRight, ih]
    split <;> simp

theorem realloc_grow {α : Type} (buf : List α) (fill : α) :
    realloc buf (buf.length + 1) fill = buf ++ [fill] := by
  simp [realloc]

/-! ## Projections -/

@[simp] theorem o_elements_mk (es : List JSONPair) (n : Int) :
    (JSONObject.mk es n).elements = es := rfl

@[simp] theorem o_numberOfElements_mk (es : List JSONPair) (n : Int) :
    (JSONObject.mk es n).numberOfElements = n := rfl

@[simp] theorem a_elements_mk (es : List JSONElement) (n : Int) :
    (JSONArray.mk es n).elements = es := rfl

@[simp] theorem a_numberOfElements_mk (es : List JSONElement) (n : Int) :
    (JSONArray.mk es n).numberOfElements = n := rfl

@[simp] theorem pair_key_mk (k : Option (List Char)) (v : JSONElement) :
    (JSONPair.mk k v).key = k := rfl

@[simp] theorem pair_value_mk (k : Option (List Char)) (v : JSONElement) :
    (JSONPair.mk k v).value = v := rfl

/-! ## String comparison -/

theorem libjson_strcmp_loop_iff (s1 s2 : List Char) :
    libjson_strcmp_loop s1 s2 = true ↔ s1 = s2 := by
  induction s1 generalizing s2 with
  | nil => cases s2 <;> simp [libjson_strcmp_loop]
  | cons a s1 ih =>
    cases s2 with
    | nil => simp [libjson_strcmp_loop]
    | cons b s2 =>
      by_cases h : a = b
      · simp [libjson_strcmp_loop, h, ih]
      · simp [libjson_strcmp_loop, h]

theorem libjson_strcmp_iff (a b : Option (List Char)) :
    libjson_strcmp a b = true ↔ ∃ s, a = some s ∧ b = some s := by
  cases a <;> cases b <;> simp [libjson_strcmp, libjson_strcmp_loop_iff]
  exact eq_comm

theorem libjson_strcmp_some (s t : List Char) :
    libjson_strcmp (some s) (some t) = decide (s = t) := by
  by_cases h : s = t
  · simp [h, libjson_strcmp, libjson_strcmp_loop_iff]
  · have : libjson_strcmp (some s) (some t) ≠ true := by
      rw [Ne, libjson_strcmp_iff]
      rintro ⟨u, h1, h2⟩
      cases h1
      cases h2
      exact h rfl
    simp [h, this]

theorem libjson_strcmp_none (b : Option (List Char)) : libjson_strcmp none b = false := by
  cases b <;> rfl

theorem libjson_strcmp_comm (a b : Option (List Char)) :
    libjson_strcmp a b = libjson_strcmp b a := by
  cases a with
  | none => cases b <;> rfl
  | some s =>
    cases b with
    | none => rfl
    | some t =>
      rw [libjson_strcmp_some, libjson_strcmp_some]
      exact decide_eq_decide.2 eq_comm

theorem libjson_strcmp_trans_false (k a b : Option (List Char))
    (h1 : libjson_strcmp k a = true) (h2 : libjson_strcmp a b = false) :
    libjson_strcmp k b = false := by
  obtain ⟨s, rfl, rfl⟩ := (libjson_strcmp_iff _ _).1 h1
  exact h2

theorem libjson_strcpy_eq (s : Option (List Char)) : libjson_strcpy s = s := by
  cases s <;> rfl

/-! ## The loops over the pairs of an object -/

theorem o_has_loop_eq (key : Option (List Char)) (l : List JSONPair) :
    o_has_loop key l l.length = l.any (fun p => libjson_strcmp key p.key) := by
  induction l with
  | nil => rfl
  | cons p l ih =>
    simp only [List.length_cons, o_has_loop, List.any_cons, ih]
    cases libjson_strcmp key p.key <;> simp

theorem o_getJSONElement_loop_of_has_false (key : Option (List Char)) (l : List JSONPair)
    (k : Nat) (h : o_has_loop key l k = false) :
    o_getJSONElement_loop key l k = libjson_emptyJSONElement := by
  induction l generalizing k with
  | nil => cases k <;> rfl
  | cons p l ih =>
    cases k with
    | zero => rfl
    | succ k =>
      simp only [o_has_loop] at h
      simp only [o_getJSONElement_loop]
      split at h
      · cases h
      · rename_i hc
        rw [if_neg hc]
        exact ih k h

theorem o_getJSONElement_loop_append (key : Option (List Char)) (l : List JSONPair)
    (p : JSONPair) (hl : ∀ q ∈ l, libjson_strcmp key q.key = false) :
    o_getJSONElement_loop key (l ++ [p]) (l.length + 1) =
      if libjson_strcmp key p.key then p.value else libjson_emptyJSONElement := by
  induction l with
  | nil => simp [o_getJSONElement_loop]
  | cons q l ih =>
    have hq := hl q (List.mem_cons_self _ _)
    simp only [List.cons_append, List.length_cons, o_getJSONElement_loop, hq]
    exact ih (fun r hr => hl r (List.mem_cons_of_mem _ hr))

theorem o_has_loop_append (key : Option (List Char)) (l : List JSONPair)
    (p : JSONPair) (hl : ∀ q ∈ l, libjson_strcmp key q.key = false) :
    o_has_loop key (l ++ [p]) (l.length + 1) = libjson_strcmp key p.key := by
  rw [← List.length_singleton p, ← List.length_append, o_has_loop_eq]
  rw [List.any_append]
  have : l.any (fun p => libjson_strcmp key p.key) = false := by
    rw [List.any_eq_false]
    intro q hq
    simp [hl q hq]
  simp [this]

theorem o_remove_find_none (key : Option (List Char)) (l : List JSONPair) (i : Nat)
    (h : o_remove_find key l i l.length = none) :
    ∀ p ∈ l, libjson_strcmp key p.key = false := by
  induction l generalizing i with
  | nil => intro p hp; cases hp
  | cons q l ih =>
    simp only [List.length_cons, o_remove_find] at h
    split at h
    · cases h
    · rename_i hc
      intro p hp
      rcases List.mem_cons.1 hp with rfl | hp
      · simpa using hc
      · exact ih (i + 1) h p hp

theorem o_remove_find_some (key : Option (List Char)) (l : List JSONPair) (i j : Nat)
    (h : o_remove_find key l i l.length = some j) :
    i ≤ j ∧ j - i < l.length ∧
      l.eraseIdx (j - i) = l.eraseP (fun p => libjson_strcmp key p.key) := by
  induction l generalizing i with
  | nil => simp [o_remove_find] at h
  | cons q l ih =>
    simp only [List.length_cons, o_remove_find] at h
    split at h
    · rename_i hc
      cases h
      simp [hc]
    · rename_i hc
      obtain ⟨h1, h2, h3⟩ := ih (i + 1) h
      have e : j - i = (j - (i + 1)) + 1 := by omega
      refine ⟨by omega, by simp; omega, ?_⟩
      rw [e, List.eraseIdx_cons_succ, h3, List.eraseP_cons_of_neg (by simpa using hc)]

theorem eraseP_of_forall_false (key : Option (List Char)) (l : List JSONPair)
    (h : ∀ p ∈ l, libjson_strcmp key p.key = false) :
    l.eraseP (fun p => libjson_strcmp key p.key) = l := by
  induction l with
  | nil => rfl
  | cons q l ih =>
    rw [List.eraseP_cons_of_neg (by simp [h q (List.mem_cons_self _ _)]),
      ih (fun p hp => h p (List.mem_cons_of_mem _ hp))]

/-- On a well-formed object `o_remove` erases the first pair whose key
matches. -/
theorem o_remove_eq (json : JSONObject) (h : json.WF) (key : Option (List Char)) :
    o_remove json key =
      .mk (json.elements.eraseP (fun p => libjson_strcmp key p.key))
        ((json.elements.eraseP (fun p => libjson_strcmp key p.key)).length : Nat) := by
  cases json with
  | mk es n =>
    simp only [JSONObject.WF, o_elements_mk, o_numberOfElements_mk] at h
    subst h
    simp only [o_remove, o_elements_mk, o_numberOfElements_mk,
      Int.toNat_ofNat]
    cases hf : o_remove_find key es 0 es.length with
    | none =>
      have := eraseP_of_forall_false key es (o_remove_find_none key es 0 hf)
      simp [this]
    | some j =>
      obtain ⟨_, h2, h3⟩ := o_remove_find_some key es 0 j hf
      simp only [Nat.sub_zero] at h2 h3
      have e1 : ((es.length : Int) - 1 - (j : Int)).toNat = es.length - 1 - j := by omega
      have e2 : ((es.length : Int) - 1).toNat = es.length - 1 := by omega
      simp only [e1, e2]
      rw [shiftLeft_take j es h2, h3]
      congr 1
      rw [← h3, List.length_eraseIdx, if_pos h2]
      omega

theorem keysDistinct_eraseP (key : Option (List Char)) (l : List JSONPair)
    (h : keysDistinct l) : keysDistinct (l.eraseP (fun p => libjson_strcmp key p.key)) :=
  List.Pairwise.sublist (List.eraseP_sublist l) h

/-- With distinct keys, erasing the first match erases every match. -/
theorem eraseP_eq_filter (key : Option (List Char)) (l : List JSONPair)
    (h : keysDistinct l) :
    l.eraseP (fun p => libjson_strcmp key p.key) =
      l.filter (fun p => !libjson_strcmp key p.key) := by
  induction l with
  | nil => rfl
  | cons q l ih =>
    have hq := List.pairwise_cons.1 h
    by_cases c : libjson_strcmp key q.key = true
    · rw [List.eraseP_cons_of_pos (by simpa using c), List.filter_cons_of_neg (by simp [c])]
      symm
      rw [List.filter_eq_self]
      intro p hp
      simp [libjson_strcmp_trans_false key q.key p.key c (hq.1 p hp)]
    · rw [List.eraseP_cons_of_neg (by simpa using c), List.filter_cons_of_pos (by simpa using c),
        ih hq.2]

theorem o_remove_valid (json : JSONObject) (h : json.Valid) (key : Option (List Char)) :
    (o_remove json key).Valid := by
  rw [o_remove_eq json h.1 key]
  exact ⟨rfl, keysDistinct_eraseP key _ h.2⟩

/-- After `o_remove` of a valid object no pair matches the key. -/
theorem o_remove_no_match (json : JSONObject) (h : json.Valid) (key : Option (List Char)) :
    ∀ p ∈ (o_remove json key).elements, libjson_strcmp key p.key = false := by
  rw [o_remove_eq json h.1 key, eraseP_eq_filter key _ h.2]
  intro p hp
  simpa using (List.mem_filter.1 hp).2

/-- On a valid object `o_setJSONElement` drops the pairs with that key and
appends the new pair. -/
theorem o_setJSONElement_eq (json : JSONObject) (h : json.Valid) (key : Option (List Char))
    (set : JSONElement) :
    o_setJSONElement json key set =
      .mk (json.elements.filter (fun p => !libjson_strcmp key p.key) ++ [.mk key set])
        ((json.elements.filter (fun p => !libjson_strcmp key p.key) ++
          [JSONPair.mk key set]).length : Nat) := by
  unfold o_setJSONElement
  rw [o_remove_eq json h.1 key, eraseP_eq_filter key _ h.2]
  simp only [o_elements_mk, o_numberOfElements_mk, libjson_strcpy_eq]
  have e1 : (((List.filter (fun p => !libjson_strcmp key p.key) json.elements).length : Int)
      + 1).toNat = (List.filter (fun p => !libjson_strcmp key p.key) json.elements).length + 1 := by
    omega
  rw [e1, realloc_grow, Int.toNat_ofNat]
  congr 1
  · rw [List.set_append_right _ _ (le_refl _)]
    simp
  · simp

theorem o_setJSONElement_valid (json : JSONObject) (h : json.Valid)
    (key : Option (List Char)) (set : JSONElement) :
    (o_setJSONElement json key set).Valid := by
  rw [o_setJSONElement_eq json h key set]
  refine ⟨rfl, ?_⟩
  simp only [o_elements_mk, keysDistinct]
  rw [List.pairwise_append]
  refine ⟨List.Pairwise.sublist (List.filter_sublist _) h.2, List.pairwise_singleton _ _, ?_⟩
  intro p hp q hq
  rw [List.mem_singleton] at hq
  subst hq
  have := (List.mem_filter.1 hp).2
  rw [libjson_strcmp_comm]
  simpa using this

theorem o_set_eq (json : JSONObject) (key : Option (List Char)) (arg : SetArg) :
    o_set json key arg = o_setJSONElement json key arg.element := by
  cases arg <;> rfl

theorem a_set_eq (json : JSONArray) (index : Int) (arg : SetArg) :
    a_set json index arg = a_setJSONElement json index arg.element := by
  cases arg <;> rfl

theorem o_emptyJSONObject_valid : o_emptyJSONObject.Valid :=
  ⟨rfl, List.Pairwise.nil⟩

theorem o_runCalls_valid (calls : List ObjectCall) : (o_runCalls calls).Valid := by
  unfold o_runCalls
  generalize hj : o_emptyJSONObject = json
  have hv : json.Valid := hj ▸ o_emptyJSONObject_valid
  clear hj
  induction calls generalizing json with
  | nil => exact hv
  | cons c calls ih =>
    rw [List.foldl_cons]
    apply ih
    cases c with
    | set key arg =>
      simp only [ObjectCall.run, o_set_eq]
      exact o_setJSONElement_valid json hv key _
    | remove key => exact o_remove_valid json hv key

/-! ## Arrays -/

theorem a_setJSONElement_eq (es : List JSONElement) (i : Nat) (hi : i ≤ es.length)
    (x : JSONElement) :
    a_setJSONElement (.mk es es.length) (i : Int) x =
      .mk (es.take i ++ x :: es.drop i) ((es.length : Int) + 1) := by
  have c1 : ¬ ((i : Int) < 0) := by omega
  have c2 : ¬ ((i : Int) > (es.length : Int)) := by omega
  simp only [a_setJSONElement, a_numberOfElements_mk, a_elements_mk, c1, c2,
    if_false]
  have e1 : ((es.length : Int) + 1).toNat = es.length + 1 := by omega
  have e2 : ((es.length : Int) - (i : Int)).toNat = es.length - i := by omega
  rw [e1, e2, Int.toNat_ofNat, Int.toNat_ofNat, realloc_grow]
  congr 1
  apply List.ext_getElem?
  intro j
  rw [List.getElem?_set, length_shiftRight,
    getElem?_shiftRight _ _ _ (by simp) (Nat.sub_le _ _)]
  by_cases c : i = j
  · subst c
    have : i < (es ++ [x]).length := by simp; omega
    rw [if_pos rfl, if_pos this, List.getElem?_append_right (by simp)]
    simp [Nat.min_eq_left hi]
  · rw [if_neg c]
    have e3 : es.length - (es.length - i) = i := by omega
    rw [e3]
    by_cases c3 : j < i
    · have : ¬ (i < j ∧ j ≤ es.length) := by omega
      rw [if_neg this, List.getElem?_append_left (by omega),
        List.getElem?_append_left (by simp; omega), List.getElem?_take_of_lt c3]
    · by_cases c4 : j ≤ es.length
      · have : i < j ∧ j ≤ es.length := by omega
        rw [if_pos this, List.getElem?_append_left (by omega),
          List.getElem?_append_right (by simp; omega)]
        have e4 : j - (List.take i es).length = (j - i - 1) + 1 := by
          simp [Nat.min_eq_left hi]; omega
        rw [e4, List.getElem?_cons_succ, List.getElem?_drop]
        congr 1
        omega
      · have : ¬ (i < j ∧ j ≤ es.length) := by omega
        rw [if_neg this, List.getElem?_eq_none (by simp; omega),
          List.getElem?_eq_none (by simp; omega)]

theorem a_setJSONElement_append (es : List JSONElement) (x : JSONElement) :
    a_setJSONElement (.mk es es.length) (es.length : Int) x =
      .mk (es ++ [x]) ((es.length : Int) + 1) := by
  rw [a_setJSONElement_eq es es.length (le_refl _) x]
  simp

theorem a_setJSONElement_neg (json : JSONArray) (h : 0 ≤ json.numberOfElements) (i : Int)
    (hi : i < 0) (x : JSONElement) :
    a_setJSONElement json i x = a_setJSONElement json 0 x := by
  have c2 : ¬ ((0 : Int) > json.numberOfElements) := by omega
  simp [a_setJSONElement, hi, c2]

theorem a_setJSONElement_ge (json : JSONArray) (h : 0 ≤ json.numberOfElements) (i : Int)
    (hi : json.numberOfElements ≤ i) (x : JSONElement) :
    a_setJSONElement json i x = a_setJSONElement json json.numberOfElements x := by
  have c1 : ¬ (i < 0) := by omega
  have c2 : ¬ (json.numberOfElements < 0) := by omega
  simp only [a_setJSONElement, c1, c2, if_false, gt_iff_lt, lt_self_iff_false]
  by_cases c : json.numberOfElements < i
  · simp [c]
  · have : i = json.numberOfElements := by omega
    subst this
    simp

theorem a_remove_eq (es : List JSONElement) (i : Nat) (hi : i < es.length) :
    a_remove (.mk es es.length) (i : Int) = .mk (es.eraseIdx i) ((es.length : Int) - 1) := by
  simp only [a_remove, a_numberOfElements_mk, a_elements_mk]
  have e0 : max (i : Int) 0 = i := by omega
  have e1 : ((es.length : Int) - 1 - (i : Int)).toNat = es.length - 1 - i := by omega
  have e2 : ((es.length : Int) - 1).toNat = es.length - 1 := by omega
  rw [e0, e1, e2, Int.toNat_ofNat, shiftLeft_take i es hi]

theorem a_getJSONElement_mk (es : List JSONElement) (j : Nat) :
    a_getJSONElement (.mk es es.length) (j : Int) = es.getD j libjson_emptyJSONElement := by
  simp only [a_getJSONElement, a_numberOfElements_mk, a_elements_mk,
    Int.toNat_ofNat]
  by_cases c : j < es.length
  · have : ¬ ((j : Int) < 0 ∨ (j : Int) ≥ (es.length : Int)) := by omega
    rw [if_neg this]
  · have : ((j : Int) < 0 ∨ (j : Int) ≥ (es.length : Int)) := by omega
    rw [if_pos this, List.getD_eq_getElem?_getD, List.getElem?_eq_none (by omega)]
    rfl

theorem a_eq_mk_of_WF (json : JSONArray) (h : json.WF) :
    json = .mk json.elements json.elements.length := by
  cases json with
  | mk es n =>
    simp only [JSONArray.WF, a_elements_mk, a_numberOfElements_mk] at h
    subst h
    rfl

theorem o_eq_mk_of_WF (json : JSONObject) (h : json.WF) :
    json = .mk json.elements json.elements.length := by
  cases json with
  | mk es n =>
    simp only [JSONObject.WF, o_elements_mk, o_numberOfElements_mk] at h
    subst h
    rfl

/-! ## Lookup after a mutation -/

theorem o_has_eq_any (json : JSONObject) (h : json.WF) (key : Option (List Char)) :
    o_has json key = json.elements.any (fun p => libjson_strcmp key p.key) := by
  rw [o_eq_mk_of_WF json h]
  simp only [o_has, o_elements_mk, o_numberOfElements_mk, Int.toNat_ofNat]
  exact o_has_loop_eq key _

theorem o_getJSONElement_of_has_false (json : JSONObject) (key : Option (List Char))
    (h : o_has json key = false) : o_getJSONElement json key = libjson_emptyJSONElement :=
  o_getJSONElement_loop_of_has_false key _ _ h

theorem filter_no_match (key : Option (List Char)) (l : List JSONPair) :
    ∀ q ∈ l.filter (fun p => !libjson_strcmp key p.key), libjson_strcmp key q.key = false := by
  intro q hq
  simpa using (List.mem_filter.1 hq).2

theorem o_getJSONElement_set (json : JSONObject) (h : json.Valid) (k : List Char)
    (set : JSONElement) :
    o_getJSONElement (o_setJSONElement json (some k) set) (some k) = set := by
  rw [o_setJSONElement_eq json h]
  simp only [o_getJSONElement, o_elements_mk, o_numberOfElements_mk,
    Int.toNat_ofNat, List.length_append, List.length_singleton]
  rw [o_getJSONElement_loop_append _ _ _ (filter_no_match _ _)]
  simp [libjson_strcmp_some]

theorem o_has_set (json : JSONObject) (h : json.Valid) (k : List Char) (set : JSONElement) :
    o_has (o_setJSONElement json (some k) set) (some k) = true := by
  rw [o_setJSONElement_eq json h]
  simp only [o_has, o_elements_mk, o_numberOfElements_mk,
    Int.toNat_ofNat, List.length_append, List.length_singleton]
  rw [o_has_loop_append _ _ _ (filter_no_match _ _)]
  simp [libjson_strcmp_some]

theorem toLong_ofLong (n : Int) (h0 : LONG_MIN ≤ n) (h1 : n ≤ LONG_MAX) :
    (LongDouble.ofLong n).toLong = n := by
  have e : (if decide (n < 0) = true then -((n.natAbs / 10 ^ 0 : Nat) : Int)
      else ((n.natAbs / 10 ^ 0 : Nat) : Int)) = n := by
    simp only [pow_zero, Nat.div_one, decide_eq_true_eq]
    split <;> omega
  simp only [LongDouble.toLong, LongDouble.ofLong, e]
  rw [if_pos ⟨h0, h1⟩]

theorem length_filter_of_any_false (key : Option (List Char)) (l : List JSONPair)
    (h : l.any (fun p => libjson_strcmp key p.key) = false) :
    l.filter (fun p => !libjson_strcmp key p.key) = l := by
  rw [List.filter_eq_self]
  intro p hp
  rw [List.any_eq_false] at h
  simpa using h p hp

theorem length_eraseP_of_any (key : Option (List Char)) (l : List JSONPair)
    (h : l.any (fun p => libjson_strcmp key p.key) = true) :
    (l.eraseP (fun p => libjson_strcmp key p.key)).length = l.length - 1 := by
  rw [List.any_eq_true] at h
  obtain ⟨p, hp, hm⟩ := h
  exact List.length_eraseP_of_mem hp hm

theorem any_pos_length (key : Option (List Char)) (l : List JSONPair)
    (h : l.any (fun p => libjson_strcmp key p.key) = true) : 0 < l.length := by
  cases l with
  | nil => simp at h
  | cons _ _ => simp

/-! ## Claims C3 to C10 -/

/-- C3 (as stated, refuted): two `o_setNull` calls with the `NULL` key leave
two pairs whose keys are equal (both `NULL`), because `libjson_strcmp` never
matches a `NULL` key. -/
theorem C3_null_keys_repeat :
    (o_runCalls [.set none .null, .set none .null]).numberOfElements = 2 ∧
      ¬ ((o_runCalls [.set none .null, .set none .null]).elements.map JSONPair.key).Nodup := by
  decide

/-- C3 (amended): starting from `o_emptyJSONObject`, after any finite
sequence of `o_set*` and `o_remove` calls the count is the buffer size, no
two pairs have keys that `libjson_strcmp` finds equal, and two pairs with the
same key can only both have the `NULL` key. -/
theorem C3_key_uniqueness (calls : List ObjectCall) :
    (o_runCalls calls).WF ∧
      (o_runCalls calls).elements.Pairwise
        (fun p q => libjson_strcmp p.key q.key = false ∧ (p.key = q.key → p.key = none)) := by
  obtain ⟨h1, h2⟩ := o_runCalls_valid calls
  refine ⟨h1, List.Pairwise.imp ?_ h2⟩
  intro p q hpq
  refine ⟨hpq, fun e => ?_⟩
  cases hk : p.key with
  | none => rfl
  | some s =>
    rw [← e, hk, libjson_strcmp_some] at hpq
    simp at hpq

/-- C4 (as stated, refuted): after `o_setInt(obj, NULL, 5)` on the empty
object, `o_has(obj, NULL)` is false and `o_getInt(obj, NULL)` is 0. -/
theorem C4_null_key_not_found :
    o_has (o_setInt o_emptyJSONObject none 5) none = false ∧
      o_getInt (o_setInt o_emptyJSONObject none 5) none = 0 := by
  decide

/-- C4 (amended): get-after-set for a key that is not `NULL`. For every valid
object, every key `k` and every setter argument, after `o_set*(obj, k, v)` the
key is present and the lookup returns the element just stored, so each typed
getter returns the value of its typed setter with the matching tag. -/
theorem C4_get_after_set (json : JSONObject) (h : json.Valid) (k : List Char) :
    (∀ arg : SetArg, o_has (o_set json (some k) arg) (some k) = true ∧
      o_getJSONElement (o_set json (some k) arg) (some k) = arg.element) ∧
    (∀ b : Bool, o_getBoolean (o_setBoolean json (some k) b) (some k) = b ∧
      o_isBoolean (o_setBoolean json (some k) b) (some k) = true) ∧
    (∀ s : Option (List Char), o_getString (o_setString json (some k) s) (some k) = s ∧
      o_isString (o_setString json (some k) s) (some k) = true) ∧
    (∀ n : Int, LONG_MIN ≤ n → n ≤ LONG_MAX →
      o_getInt (o_setInt json (some k) n) (some k) = n ∧
      o_isDouble (o_setInt json (some k) n) (some k) = true) ∧
    (∀ d : LongDouble, o_getDouble (o_setDouble json (some k) d) (some k) = d ∧
      o_isDouble (o_setDouble json (some k) d) (some k) = true) ∧
    (∀ c : JSONObject, o_getJSONObject (o_setJSONObject json (some k) c) (some k) = c ∧
      o_isJSONObject (o_setJSONObject json (some k) c) (some k) = true) ∧
    (∀ a : JSONArray, o_getJSONArray (o_setJSONArray json (some k) a) (some k) = a ∧
      o_isJSONArray (o_setJSONArray json (some k) a) (some k) = true) ∧
    o_isNull (o_setNull json (some k)) (some k) = true := by
  refine ⟨fun arg => ?_, fun b => ?_, fun s => ?_, fun n h0 h1 => ?_, fun d => ?_, fun c => ?_,
    fun a => ?_, ?_⟩
  · rw [o_set_eq]
    exact ⟨o_has_set json h k _, o_getJSONElement_set json h k _⟩
  · simp [o_getBoolean, o_isBoolean, o_setBoolean, o_getJSONElement_set json h k,
      JSONElement.boolean, JSONElement.type]
  · simp [o_getString, o_isString, o_setString, o_getJSONElement_set json h k,
      JSONElement.string, JSONElement.type, libjson_strcpy_eq]
  · simp [o_getInt, o_isDouble, o_setInt, o_getJSONElement_set json h k,
      JSONElement.number, JSONElement.type, toLong_ofLong n h0 h1]
  · simp [o_getDouble, o_isDouble, o_setDouble, o_getJSONElement_set json h k,
      JSONElement.number, JSONElement.type]
  · simp [o_getJSONObject, o_isJSONObject, o_setJSONObject, o_getJSONElement_set json h k,
      JSONElement.object, JSONElement.type]
  · simp [o_getJSONArray, o_isJSONArray, o_setJSONArray, o_getJSONElement_set json h k,
      JSONElement.array, JSONElement.type]
  · simp [o_isNull, o_setNull, o_getJSONElement_set json h k, libjson_emptyJSONElement,
      JSONElement.type]

/-- C4, witness: the object `{"a":1}` and the key `b`. -/
theorem C4_get_after_set_witness :
    (o_setInt o_emptyJSONObject (some ['a']) 1).Valid ∧
      o_getBoolean (o_setBoolean (o_setInt o_emptyJSONObject (some ['a']) 1) (some ['b']) true)
        (some ['b']) = true :=
  ⟨o_setJSONElement_valid _ o_emptyJSONObject_valid _ _,
    ((C4_get_after_set (o_setInt o_emptyJSONObject (some ['a']) 1)
      (o_setJSONElement_valid _ o_emptyJSONObject_valid _ _) ['b']).2.1 true).1⟩

/-- Insertion when `realloc` keeps the block where it is: for every
well-formed array of length `n`, every index `0 ≤ i ≤ n` and every setter
argument, after `a_set*(arr, i, x)` the length is `n + 1`, the element at `i`
is `x`, the elements before `i` keep their index and the elements from `i` on
move up by one. -/
theorem a_set_insertion (json : JSONArray) (h : json.WF) (i : Int) (h0 : 0 ≤ i)
    (h1 : i ≤ json.numberOfElements) (x : SetArg) :
    (a_set json i x).numberOfElements = json.numberOfElements + 1 ∧
    (a_set json i x).WF ∧
    a_getJSONElement (a_set json i x) i = x.element ∧
    (∀ j : Int, 0 ≤ j → j < i →
      a_getJSONElement (a_set json i x) j = a_getJSONElement json j) ∧
    (∀ j : Int, i ≤ j → j < json.numberOfElements →
      a_getJSONElement (a_set json i x) (j + 1) = a_getJSONElement json j) := by
  obtain ⟨es, rfl⟩ : ∃ es, json = .mk es es.length := ⟨_, a_eq_mk_of_WF json h⟩
  rw [a_set_eq]
  simp only [a_numberOfElements_mk] at h1 ⊢
  obtain ⟨m, rfl⟩ := Int.eq_ofNat_of_zero_le h0
  have hm : m ≤ es.length := by omega
  rw [a_setJSONElement_eq es m hm]
  have hlen : (List.take m es ++ x.element :: List.drop m es).length = es.length + 1 := by
    simp [Nat.min_eq_left hm]; omega
  have hcast : ((es.length : Int) + 1) = ((List.take m es ++ x.element :: List.drop m es).length : Nat) := by
    rw [hlen]; rfl
  refine ⟨rfl, ?_, ?_, ?_, ?_⟩
  · simp only [JSONArray.WF, a_numberOfElements_mk, a_elements_mk, hlen]
    rfl
  · rw [hcast, a_getJSONElement_mk, List.getD_eq_getElem?_getD,
      List.getElem?_append_right (by simp)]
    simp [Nat.min_eq_left hm]
  · intro j hj0 hj1
    obtain ⟨t, rfl⟩ := Int.eq_ofNat_of_zero_le hj0
    have ht : t < m := by omega
    rw [hcast, a_getJSONElement_mk, a_getJSONElement_mk, List.getD_eq_getElem?_getD,
      List.getD_eq_getElem?_getD, List.getElem?_append_left (by simp; omega),
      List.getElem?_take_of_lt ht]
  · intro j hj0 hj1
    have hj : 0 ≤ j := by omega
    obtain ⟨t, rfl⟩ := Int.eq_ofNat_of_zero_le hj
    have ht : m ≤ t := by omega
    have e : ((t : Int) + 1) = ((t + 1 : Nat) : Int) := rfl
    rw [hcast, e, a_getJSONElement_mk, a_getJSONElement_mk, List.getD_eq_getElem?_getD,
      List.getD_eq_getElem?_getD, List.getElem?_append_right (by simp; omega)]
    have e4 : t + 1 - (List.take m es).length = (t - m) + 1 := by
      simp [Nat.min_eq_left hm]; omega
    rw [e4, List.getElem?_cons_succ, List.getElem?_drop]
    congr 2
    omega

/-- Clamping when `realloc` keeps the block where it is: a negative index
gives the same array as index 0 and prepends the element; an index at or
above the length gives the same array as the length and appends the element. -/
theorem a_set_clamping (json : JSONArray) (h : json.WF) (i : Int) (x : SetArg) :
    (i < 0 → a_set json i x = a_set json 0 x ∧
      (a_set json i x).elements = x.element :: json.elements) ∧
    (json.numberOfElements ≤ i → a_set json i x = a_set json json.numberOfElements x ∧
      (a_set json i x).elements = json.elements ++ [x.element]) := by
  have hn : 0 ≤ json.numberOfElements := by rw [h]; omega
  simp only [a_set_eq]
  constructor
  · intro hi
    rw [a_setJSONElement_neg json hn i hi]
    refine ⟨rfl, ?_⟩
    rw [a_eq_mk_of_WF json h]
    have := a_setJSONElement_eq json.elements 0 (Nat.zero_le _) x.element
    simp only [Nat.cast_zero] at this
    rw [this]
    simp
  · intro hi
    rw [a_setJSONElement_ge json hn i hi]
    refine ⟨rfl, ?_⟩
    rw [a_eq_mk_of_WF json h]
    simp only [a_numberOfElements_mk, a_elements_mk]
    rw [a_setJSONElement_append]
    simp

theorem a_setJSONElement_moved_eq (junk : JSONElement) (es : List JSONElement) (i : Nat)
    (hi : i ≤ es.length) (x : JSONElement) :
    a_setJSONElement_moved junk (.mk es es.length) (i : Int) x =
      .mk ((es ++ [junk]).set i x) ((es.length : Int) + 1) := by
  have c1 : ¬ ((i : Int) < 0) := by omega
  have c2 : ¬ ((i : Int) > (es.length : Int)) := by omega
  simp only [a_setJSONElement_moved, a_numberOfElements_mk, a_elements_mk, c1, c2, if_false]
  have e1 : ((es.length : Int) + 1).toNat = es.length + 1 := by omega
  rw [e1, Int.toNat_ofNat, realloc_grow]

theorem a_setJSONElement_moved_neg (junk : JSONElement) (json : JSONArray)
    (h : 0 ≤ json.numberOfElements) (i : Int) (hi : i < 0) (x : JSONElement) :
    a_setJSONElement_moved junk json i x = a_setJSONElement_moved junk json 0 x := by
  have c2 : ¬ ((0 : Int) > json.numberOfElements) := by omega
  simp [a_setJSONElement_moved, hi, c2]

theorem a_setJSONElement_moved_ge (junk : JSONElement) (json : JSONArray)
    (h : 0 ≤ json.numberOfElements) (i : Int) (hi : json.numberOfElements ≤ i)
    (x : JSONElement) :
    a_setJSONElement_moved junk json i x =
      a_setJSONElement_moved junk json json.numberOfElements x := by
  have c1 : ¬ (i < 0) := by omega
  have c2 : ¬ (json.numberOfElements < 0) := by omega
  simp only [a_setJSONElement_moved, c1, c2, if_false, gt_iff_lt, lt_self_iff_false]
  by_cases c : json.numberOfElements < i
  · simp [c]
  · have : i = json.numberOfElements := by omega
    subst this
    simp

/-- Adding a value at the end does not depend on what `realloc` does. -/
theorem a_setJSONElement_moved_end (junk : JSONElement) (json : JSONArray) (h : json.WF)
    (x : JSONElement) :
    a_setJSONElement_moved junk json json.numberOfElements x =
      a_setJSONElement json json.numberOfElements x := by
  rw [a_eq_mk_of_WF json h]
  simp only [a_numberOfElements_mk]
  rw [a_setJSONElement_moved_eq junk _ _ (le_refl _), a_setJSONElement_append]
  congr 1
  simp

/-- C5 (the defect): `a_setJSONElement` shifts the cells through
`json->elements`, the pointer from before the `realloc`, and assigns
`json->elements = tmp` only after the loop. When `realloc` moves the block no
cell of the new block is shifted: inserting `true` at index 0 of `[1, 2]`
gives `[true, 2, junk]`, the element 1 is lost and the last cell is
indeterminate; in general every cell after the index keeps the element it
had. When the value is added at the end the result does not depend on
`realloc`, and when `realloc` keeps the block where it is the insertion is as
claimed. -/
theorem C5_insertion_moved :
    (∀ junk : JSONElement,
      a_setJSONElement_moved junk (a_setInt (a_setInt a_emptyJSONArray 0 1) 1 2) 0
          (SetArg.boolean true).element =
        .mk [(SetArg.boolean true).element, (SetArg.int 2).element, junk] 3) ∧
    (a_setInt (a_setInt a_emptyJSONArray 0 1) 1 2).elements =
      [(SetArg.int 1).element, (SetArg.int 2).element] ∧
    (∀ (junk : JSONElement) (json : JSONArray), json.WF → ∀ i : Int, 0 ≤ i →
      ∀ (x : JSONElement) (j : Int), i < j → j < json.numberOfElements →
        a_getJSONElement (a_setJSONElement_moved junk json i x) j =
          a_getJSONElement json j) ∧
    (∀ (junk : JSONElement) (json : JSONArray), json.WF → ∀ x : JSONElement,
      a_setJSONElement_moved junk json json.numberOfElements x =
        a_setJSONElement json json.numberOfElements x) ∧
    (∀ json : JSONArray, json.WF → ∀ i : Int, 0 ≤ i → i ≤ json.numberOfElements →
      ∀ x : SetArg,
        (a_set json i x).numberOfElements = json.numberOfElements + 1 ∧
        (a_set json i x).WF ∧
        a_getJSONElement (a_set json i x) i = x.element ∧
        (∀ j : Int, 0 ≤ j → j < i →
          a_getJSONElement (a_set json i x) j = a_getJSONElement json j) ∧
        (∀ j : Int, i ≤ j → j < json.numberOfElements →
          a_getJSONElement (a_set json i x) (j + 1) = a_getJSONElement json j)) := by
  refine ⟨fun _ => rfl, rfl, ?_, fun junk json h x => a_setJSONElement_moved_end junk json h x,
    fun json h i h0 h1 x => a_set_insertion json h i h0 h1 x⟩
  intro junk json h i h0 x j hj0 hj1
  obtain ⟨es, rfl⟩ : ∃ es, json = .mk es es.length := ⟨_, a_eq_mk_of_WF json h⟩
  simp only [a_numberOfElements_mk] at hj1
  obtain ⟨m, rfl⟩ := Int.eq_ofNat_of_zero_le h0
  have hj : 0 ≤ j := by omega
  obtain ⟨t, rfl⟩ := Int.eq_ofNat_of_zero_le hj
  have hm : m ≤ es.length := by omega
  rw [a_setJSONElement_moved_eq junk es m hm]
  have hlen : ((es ++ [junk]).set m x).length = es.length + 1 := by simp
  have hcast : ((es.length : Int) + 1) = (((es ++ [junk]).set m x).length : Nat) := by
    rw [hlen]; rfl
  rw [hcast, a_getJSONElement_mk, a_getJSONElement_mk, List.getD_eq_getElem?_getD,
    List.getD_eq_getElem?_getD, List.getElem?_set_ne (by omega),
    List.getElem?_append_left (by omega)]

/-- C5, witness: on `[1, 2]` with index 0, the cell 1 keeps its element when
`realloc` moves the block, and holds the former element 0 when it does not. -/
theorem C5_insertion_moved_witness :
    a_getJSONElement
        (a_setJSONElement_moved libjson_emptyJSONElement
          (a_setInt (a_setInt a_emptyJSONArray 0 1) 1 2) 0 (SetArg.boolean true).element) 1 =
      a_getJSONElement (a_setInt (a_setInt a_emptyJSONArray 0 1) 1 2) 1 ∧
    a_getJSONElement (a_set (a_setInt (a_setInt a_emptyJSONArray 0 1) 1 2) 0 (.boolean true))
        (0 + 1) =
      a_getJSONElement (a_setInt (a_setInt a_emptyJSONArray 0 1) 1 2) 0 ∧
    a_setJSONElement_moved libjson_emptyJSONElement
        (a_setInt (a_setInt a_emptyJSONArray 0 1) 1 2)
        (a_setInt (a_setInt a_emptyJSONArray 0 1) 1 2).numberOfElements
        (SetArg.boolean true).element =
      a_setJSONElement (a_setInt (a_setInt a_emptyJSONArray 0 1) 1 2)
        (a_setInt (a_setInt a_emptyJSONArray 0 1) 1 2).numberOfElements
        (SetArg.boolean true).element :=
  ⟨C5_insertion_moved.2.2.1 libjson_emptyJSONElement
      (a_setInt (a_setInt a_emptyJSONArray 0 1) 1 2) (by decide) 0 (by decide)
      (SetArg.boolean true).element 1 (by decide) (by decide),
    (C5_insertion_moved.2.2.2.2 (a_setInt (a_setInt a_emptyJSONArray 0 1) 1 2) (by decide) 0
      (by decide) (by decide) (.boolean true)).2.2.2.2 0 (by decide) (by decide),
    C5_insertion_moved.2.2.2.1 libjson_emptyJSONElement
      (a_setInt (a_setInt a_emptyJSONArray 0 1) 1 2) (by decide) (SetArg.boolean true).element⟩

/-- C6 (the defect): the index is clamped as claimed, whatever `realloc`
does, and an index at or above the length appends the value. But a negative
index prepends the value only when `realloc` keeps the block where it is:
when it moves the block, `a_setJSONElement` with index -5 on `[1, 2]` gives
`[true, 2, junk]` and not `[true, 1, 2]`, because the shift loop goes through
the pointer from before the `realloc` (the defect of C5). -/
theorem C6_prepend_moved :
    (∀ junk : JSONElement,
      (a_setJSONElement_moved junk (a_setInt (a_setInt a_emptyJSONArray 0 1) 1 2) (-5)
          (SetArg.boolean true).element).elements =
        [(SetArg.boolean true).element, (SetArg.int 2).element, junk]) ∧
    (a_setInt (a_setInt a_emptyJSONArray 0 1) 1 2).elements =
      [(SetArg.int 1).element, (SetArg.int 2).element] ∧
    (∀ (junk : JSONElement) (json : JSONArray), json.WF → ∀ (i : Int) (x : JSONElement),
      (i < 0 → a_setJSONElement_moved junk json i x = a_setJSONElement_moved junk json 0 x) ∧
      (json.numberOfElements ≤ i →
        a_setJSONElement_moved junk json i x =
          a_setJSONElement_moved junk json json.numberOfElements x ∧
        (a_setJSONElement_moved junk json i x).elements = json.elements ++ [x])) ∧
    (∀ json : JSONArray, json.WF → ∀ (i : Int) (x : SetArg),
      (i < 0 → a_set json i x = a_set json 0 x ∧
        (a_set json i x).elements = x.element :: json.elements) ∧
      (json.numberOfElements ≤ i → a_set json i x = a_set json json.numberOfElements x ∧
        (a_set json i x).elements = json.elements ++ [x.element])) := by
  refine ⟨fun _ => rfl, rfl, ?_, fun json h i x => a_set_clamping json h i x⟩
  intro junk json h i x
  have hn : 0 ≤ json.numberOfElements := by rw [h]; omega
  refine ⟨fun hi => a_setJSONElement_moved_neg junk json hn i hi x, fun hi => ?_⟩
  have e := a_setJSONElement_moved_ge junk json hn i hi x
  refine ⟨e, ?_⟩
  rw [e, a_setJSONElement_moved_end junk json h x]
  rw [a_eq_mk_of_WF json h]
  simp only [a_numberOfElements_mk, a_elements_mk]
  rw [a_setJSONElement_append]
  simp

/-- C6, witness: on `[1, 2]`, index -5 is index 0 and index 7 appends,
whatever `realloc` does; index -5 prepends when `realloc` keeps the block. -/
theorem C6_prepend_moved_witness :
    a_setJSONElement_moved libjson_emptyJSONElement
        (a_setInt (a_setInt a_emptyJSONArray 0 1) 1 2) (-5) (SetArg.boolean true).element =
      a_setJSONElement_moved libjson_emptyJSONElement
        (a_setInt (a_setInt a_emptyJSONArray 0 1) 1 2) 0 (SetArg.boolean true).element ∧
    (a_setJSONElement_moved libjson_emptyJSONElement
        (a_setInt (a_setInt a_emptyJSONArray 0 1) 1 2) 7 (SetArg.boolean true).element).elements =
      (a_setInt (a_setInt a_emptyJSONArray 0 1) 1 2).elements ++
        [(SetArg.boolean true).element] ∧
    (a_set (a_setInt (a_setInt a_emptyJSONArray 0 1) 1 2) (-5) (.boolean true)).elements =
      (SetArg.boolean true).element ::
        (a_setInt (a_setInt a_emptyJSONArray 0 1) 1 2).elements ∧
    (a_set (a_setInt (a_setInt a_emptyJSONArray 0 1) 1 2) 7 (.boolean true)).elements =
      (a_setInt (a_setInt a_emptyJSONArray 0 1) 1 2).elements ++
        [(SetArg.boolean true).element] :=
  ⟨(C6_prepend_moved.2.2.1 libjson_emptyJSONElement
      (a_setInt (a_setInt a_emptyJSONArray 0 1) 1 2) (by decide) (-5)
      (SetArg.boolean true).element).1 (by decide),
    ((C6_prepend_moved.2.2.1 libjson_emptyJSONElement
      (a_setInt (a_setInt a_emptyJSONArray 0 1) 1 2) (by decide) 7
      (SetArg.boolean true).element).2 (by decide)).2,
    ((C6_prepend_moved.2.2.2 (a_setInt (a_setInt a_emptyJSONArray 0 1) 1 2) (by decide) (-5)
      (.boolean true)).1 (by decide)).2,
    ((C6_prepend_moved.2.2.2 (a_setInt (a_setInt a_emptyJSONArray 0 1) 1 2) (by decide) 7
      (.boolean true)).2 (by decide)).2⟩

/-- C7: array removal. For every well-formed array of length `n` and every
index `0 ≤ i < n`, after `a_remove(arr, i)` the length is `n - 1`, the
elements before `i` keep their index and the elements after `i` move down by
one. -/
theorem C7_array_removal (json : JSONArray) (h : json.WF) (i : Int) (h0 : 0 ≤ i)
    (h1 : i < json.numberOfElements) :
    (a_remove json i).numberOfElements = json.numberOfElements - 1 ∧
    (a_remove json i).WF ∧
    (∀ j : Int, 0 ≤ j → j < i →
      a_getJSONElement (a_remove json i) j = a_getJSONElement json j) ∧
    (∀ j : Int, i < j → j < json.numberOfElements →
      a_getJSONElement (a_remove json i) (j - 1) = a_getJSONElement json j) := by
  obtain ⟨es, rfl⟩ : ∃ es, json = .mk es es.length := ⟨_, a_eq_mk_of_WF json h⟩
  simp only [a_numberOfElements_mk] at h1 ⊢
  obtain ⟨m, rfl⟩ := Int.eq_ofNat_of_zero_le h0
  have hm : m < es.length := by omega
  rw [a_remove_eq es m hm]
  have hlen : (es.eraseIdx m).length = es.length - 1 := by
    rw [List.length_eraseIdx, if_pos hm]
  have hcast : ((es.length : Int) - 1) = ((es.eraseIdx m).length : Nat) := by
    rw [hlen]; omega
  refine ⟨rfl, ?_, ?_, ?_⟩
  · simp only [JSONArray.WF, a_numberOfElements_mk, a_elements_mk]
    exact hcast
  · intro j hj0 hj1
    obtain ⟨t, rfl⟩ := Int.eq_ofNat_of_zero_le hj0
    have ht : t < m := by omega
    rw [hcast, a_getJSONElement_mk, a_getJSONElement_mk, List.getD_eq_getElem?_getD,
      List.getD_eq_getElem?_getD, List.getElem?_eraseIdx_of_lt _ _ _ ht]
  · intro j hj0 hj1
    have hj : 0 ≤ j - 1 := by omega
    obtain ⟨t, ht⟩ := Int.eq_ofNat_of_zero_le hj
    have e : j = ((t + 1 : Nat) : Int) := by omega
    rw [ht, e, hcast, a_getJSONElement_mk, a_getJSONElement_mk, List.getD_eq_getElem?_getD,
      List.getD_eq_getElem?_getD, List.getElem?_eraseIdx_of_ge _ _ _ (by omega)]

/-- C7, witness: removing index 0 of `[1, 2]`. -/
theorem C7_array_removal_witness :
    (a_remove (a_setInt (a_setInt a_emptyJSONArray 0 1) 1 2) 0).numberOfElements =
      (a_setInt (a_setInt a_emptyJSONArray 0 1) 1 2).numberOfElements - 1 :=
  (C7_array_removal (a_setInt (a_setInt a_emptyJSONArray 0 1) 1 2) (by decide) 0
    (by decide) (by decide)).1

/-- C8: object removal. For every valid object and key: if the key is present
then after `o_remove` the count is one less, the key is absent and the pairs
are the former pairs with other keys in their former order; if the key is
absent the object is unchanged. -/
theorem C8_object_removal (json : JSONObject) (h : json.Valid) (key : Option (List Char)) :
    (o_has json key = true →
      (o_remove json key).numberOfElements = json.numberOfElements - 1 ∧
      (o_remove json key).WF ∧
      o_has (o_remove json key) key = false ∧
      (o_remove json key).elements =
        json.elements.filter (fun p => !libjson_strcmp key p.key)) ∧
    (o_has json key = false → o_remove json key = json) := by
  have hv := o_remove_valid json h key
  constructor
  · intro hh
    rw [o_has_eq_any json h.1] at hh
    refine ⟨?_, hv.1, ?_, ?_⟩
    · rw [o_remove_eq json h.1, o_numberOfElements_mk, length_eraseP_of_any key _ hh,
        h.1]
      have := any_pos_length key _ hh
      omega
    · rw [o_has_eq_any _ hv.1, List.any_eq_false]
      intro p hp
      simp [o_remove_no_match json h key p hp]
    · rw [o_remove_eq json h.1, o_elements_mk, eraseP_eq_filter key _ h.2]
  · intro hh
    rw [o_has_eq_any json h.1] at hh
    rw [o_remove_eq json h.1, eraseP_eq_filter key _ h.2, length_filter_of_any_false key _ hh]
    exact (o_eq_mk_of_WF json h.1).symm

/-- C8, witness: removing `a` from `{"a":1}`. -/
theorem C8_object_removal_witness :
    o_has (o_remove (o_setInt o_emptyJSONObject (some ['a']) 1) (some ['a'])) (some ['a']) =
      false :=
  ((C8_object_removal (o_setInt o_emptyJSONObject (some ['a']) 1)
    (o_setJSONElement_valid _ o_emptyJSONObject_valid _ _) (some ['a'])).1 (by decide)).2.2.1

/-- C9: set moves the key to the end. For every valid object, key and setter
argument, after `o_set*(obj, k, v)` the pairs are the former pairs with other
keys, in their former order, followed by the pair `(k, v)`; the count is
unchanged when the key was present and one more when it was absent. -/
theorem C9_set_moves_to_end (json : JSONObject) (h : json.Valid) (key : Option (List Char))
    (arg : SetArg) :
    (o_set json key arg).elements =
      json.elements.filter (fun p => !libjson_strcmp key p.key) ++
        [JSONPair.mk key arg.element] ∧
    (o_set json key arg).numberOfElements =
      (if o_has json key = true then json.numberOfElements else json.numberOfElements + 1) := by
  rw [o_set_eq, o_setJSONElement_eq json h]
  refine ⟨rfl, ?_⟩
  rw [o_numberOfElements_mk, List.length_append, List.length_singleton,
    ← eraseP_eq_filter key _ h.2, o_has_eq_any json h.1, h.1]
  by_cases c : json.elements.any (fun p => libjson_strcmp key p.key) = true
  · rw [if_pos c, length_eraseP_of_any key _ c]
    have := any_pos_length key _ c
    omega
  · rw [if_neg c]
    simp only [Bool.not_eq_true] at c
    rw [eraseP_eq_filter key _ h.2, length_filter_of_any_false key _ c]
    rfl

/-- C9, witness: setting `a` again in `{"a":1,"b":2}` gives the keys `b, a`. -/
theorem C9_set_moves_to_end_witness :
    (o_set (o_setInt (o_setInt o_emptyJSONObject (some ['a']) 1) (some ['b']) 2) (some ['a'])
        (.boolean true)).elements =
      (o_setInt (o_setInt o_emptyJSONObject (some ['a']) 1) (some ['b']) 2).elements.filter
          (fun p => !libjson_strcmp (some ['a']) p.key) ++
        [JSONPair.mk (some ['a']) (SetArg.boolean true).element] :=
  (C9_set_moves_to_end (o_setInt (o_setInt o_emptyJSONObject (some ['a']) 1) (some ['b']) 2)
    (o_setJSONElement_valid _ (o_setJSONElement_valid _ o_emptyJSONObject_valid _ _) _ _)
    (some ['a']) (.boolean true)).1

/-- C10: default fallback on objects. For every object, every key that is not
present and every default, each of `o_optJSONObject`, `o_optJSONArray`,
`o_optBoolean`, `o_optInt`, `o_optDouble` and `o_optString` returns the
default. -/
theorem C10_opt_default (json : JSONObject) (key : Option (List Char))
    (h : o_has json key = false) :
    (∀ d : JSONObject, o_optJSONObject json key d = d) ∧
    (∀ d : JSONArray, o_optJSONArray json key d = d) ∧
    (∀ d : Bool, o_optBoolean json key d = d) ∧
    (∀ d : Int, o_optInt json key d = d) ∧
    (∀ d : LongDouble, o_optDouble json key d = d) ∧
    (∀ d : Option (List Char), o_optString json key d = d) := by
  have e := o_getJSONElement_of_has_false json key h
  have t : libjson_emptyJSONElement.type = JSONType.null := rfl
  refine ⟨fun d => ?_, fun d => ?_, fun d => ?_, fun d => ?_, fun d => ?_, fun d => ?_⟩
  · simp [o_optJSONObject, e, t]
  · simp [o_optJSONArray, e, t]
  · simp [o_optBoolean, e, t]
  · simp [o_optInt, e, t]
  · simp [o_optDouble, e, t]
  · simp [o_optString, e, t]

/-- C10, witness: the key `missing` in `{"a":1}` with the default 7. -/
theorem C10_opt_default_witness :
    o_optInt (o_setInt o_emptyJSONObject (some ['a']) 1)
      (some ['m', 'i', 's', 's', 'i', 'n', 'g']) 7 = 7 :=
  (C10_opt_default (o_setInt o_emptyJSONObject (some ['a']) 1)
    (some ['m', 'i', 's', 's', 'i', 'n', 'g']) (by decide)).2.2.2.1 7

/-! ## Characters -/

theorem digitChar_spec (d : Nat) (h : d < 10) :
    libjson_isdigit (digitChar d) = true ∧ digitVal (digitChar d) = d ∧
      (digitChar d = '0' ↔ d = 0) := by
  interval_cases d <;> decide

theorem isdigit_ne_point (c : Char) (h : libjson_isdigit c = true) : c ≠ '.' := by
  intro e; subst e; revert h; decide

theorem isdigit_ne_minus (c : Char) (h : libjson_isdigit c = true) : c ≠ '-' := by
  intro e; subst e; revert h; decide

theorem isdigit_ne_nul (c : Char) (h : libjson_isdigit c = true) : c ≠ Char.ofNat 0 := by
  intro e; subst e; revert h; decide

theorem isNumChar_of_isdigit (c : Char) (h : libjson_isdigit c = true) : isNumChar c = true := by
  simp [isNumChar, h]

/-! ## Digits -/

theorem digitsValue_append (acc : Nat) (xs ys : List Char) :
    digitsValue acc (xs ++ ys) = digitsValue (digitsValue acc xs) ys := by
  simp [digitsValue, List.foldl_append]

theorem decimalDigits_spec (f n : Nat) (h : n < f) :
    decimalDigits f n ≠ [] ∧ (∀ c ∈ decimalDigits f n, libjson_isdigit c = true) ∧
      digitsValue 0 (decimalDigits f n) = n := by
  induction f generalizing n with
  | zero => omega
  | succ f ih =>
    unfold decimalDigits
    by_cases c : n < 10
    · rw [if_pos c]
      obtain ⟨h1, h2, _⟩ := digitChar_spec n c
      refine ⟨by simp, ?_, ?_⟩
      · intro x hx
        rw [List.mem_singleton] at hx
        rw [hx]; exact h1
      · simp [digitsValue, h2]
    · rw [if_neg c]
      obtain ⟨_, i2, i3⟩ := ih (n / 10) (by omega)
      obtain ⟨h1, h2, _⟩ := digitChar_spec (n % 10) (Nat.mod_lt _ (by decide))
      refine ⟨by simp, ?_, ?_⟩
      · intro x hx
        rcases List.mem_append.1 hx with hx | hx
        · exact i2 x hx
        · rw [List.mem_singleton] at hx
          rw [hx]; exact h1
      · rw [digitsValue_append, i3]
        simp only [digitsValue, List.foldl_cons, List.foldl_nil, h2]
        omega

theorem fixedDigits_spec (k n : Nat) :
    (fixedDigits k n).length = k ∧ (∀ c ∈ fixedDigits k n, libjson_isdigit c = true) ∧
      digitsValue 0 (fixedDigits k n) = n % 10 ^ k := by
  induction k generalizing n with
  | zero => simp [fixedDigits, digitsValue, Nat.mod_one]
  | succ k ih =>
    unfold fixedDigits
    obtain ⟨i1, i2, i3⟩ := ih (n / 10)
    obtain ⟨h1, h2, _⟩ := digitChar_spec (n % 10) (Nat.mod_lt _ (by decide))
    refine ⟨by simp [i1], ?_, ?_⟩
    · intro x hx
      rcases List.mem_append.1 hx with hx | hx
      · exact i2 x hx
      · rw [List.mem_singleton] at hx
        rw [hx]; exact h1
    · rw [digitsValue_append, i3]
      simp only [digitsValue, List.foldl_cons, List.foldl_nil, h2]
      rw [pow_succ', Nat.mod_mul]
      omega

theorem readDigits_digits (ds rest : List Char) (acc cnt : Nat)
    (h : ∀ c ∈ ds, libjson_isdigit c = true) :
    readDigits (ds ++ rest) acc cnt = readDigits rest (digitsValue acc ds) (cnt + ds.length) := by
  induction ds generalizing acc cnt with
  | nil => simp [digitsValue]
  | cons c cs ih =>
    have hc := h c (List.mem_cons_self _ _)
    rw [List.cons_append, readDigits, if_pos hc,
      ih _ _ (fun x hx => h x (List.mem_cons_of_mem _ hx))]
    simp only [digitsValue, List.foldl_cons, List.length_cons]
    congr 1
    omega

/-! ## Trailing zeros -/

theorem stripZeros_spec (fd : List Char) :
    ∃ z, fd = stripZeros fd ++ List.replicate z '0' := by
  induction fd with
  | nil => exact ⟨0, rfl⟩
  | cons c cs ih =>
    obtain ⟨z, hz⟩ := ih
    unfold stripZeros
    by_cases h : stripZeros cs = [] ∧ c = '0'
    · rw [if_pos h]
      refine ⟨z + 1, ?_⟩
      rw [h.1] at hz
      rw [hz, h.2]
      simp [List.replicate_succ]
    · rw [if_neg h]
      refine ⟨z, ?_⟩
      rw [List.cons_append, ← hz]

theorem digitsValue_zeros (acc z : Nat) :
    digitsValue acc (List.replicate z '0') = acc * 10 ^ z := by
  induction z generalizing acc with
  | zero => simp [digitsValue]
  | succ z ih =>
    have e : digitsValue acc (List.replicate (z + 1) '0') =
        digitsValue (acc * 10 + digitVal '0') (List.replicate z '0') := rfl
    rw [e, ih]
    have : digitVal '0' = 0 := by decide
    rw [this, pow_succ]
    ring

theorem stripZeros_mem (fd : List Char) : ∀ c ∈ stripZeros fd, c ∈ fd := by
  obtain ⟨z, hz⟩ := stripZeros_spec fd
  intro c hc
  rw [hz]
  exact List.mem_append_left _ hc

theorem stripZeros_length_le (fd : List Char) : (stripZeros fd).length ≤ fd.length := by
  obtain ⟨z, hz⟩ := stripZeros_spec fd
  have := congrArg List.length hz
  simp at this
  omega

/-- The scan of `libjson_trim` over digits: where the last non-zero digit is. -/
theorem trim_loop_digits (fd : List Char) (i l d : Nat)
    (h : ∀ c ∈ fd, libjson_isdigit c = true) :
    libjson_trim_loop fd i l d =
      (if stripZeros fd = [] then l else i + (stripZeros fd).length - 1, d) := by
  induction fd generalizing i l with
  | nil => simp [libjson_trim_loop, stripZeros]
  | cons c cs ih =>
    have hc := isdigit_ne_point c (h c (List.mem_cons_self _ _))
    have hcs := fun x hx => h x (List.mem_cons_of_mem _ hx)
    unfold libjson_trim_loop stripZeros
    by_cases c0 : c = '0'
    · have : ¬ (c ≠ '0') := by simp [c0]
      rw [if_neg this, ih _ _ hcs]
      by_cases e : stripZeros cs = []
      · simp [e, c0]
      · simp [e]
    · rw [if_pos c0, if_neg hc, ih _ _ hcs]
      by_cases e : stripZeros cs = []
      · simp [e, c0]
      · simp [e]

theorem trim_loop_noPoint (xs : List Char) (i l d : Nat) (h : ∀ c ∈ xs, c ≠ '.') :
    (libjson_trim_loop xs i l d).2 = d := by
  induction xs generalizing i l with
  | nil => rfl
  | cons c cs ih =>
    have hc := h c (List.mem_cons_self _ _)
    have hcs := fun x hx => h x (List.mem_cons_of_mem _ hx)
    unfold libjson_trim_loop
    split
    · exact ih _ _ hcs
    · exact ih _ _ hcs

theorem trim_loop_append (xs ys : List Char) (i l d : Nat) :
    libjson_trim_loop (xs ++ ys) i l d =
      libjson_trim_loop ys (i + xs.length) (libjson_trim_loop xs i l d).1
        (libjson_trim_loop xs i l d).2 := by
  induction xs generalizing i l d with
  | nil => simp [libjson_trim_loop]
  | cons c cs ih =>
    rw [List.cons_append, libjson_trim_loop, libjson_trim_loop, List.length_cons]
    split
    · rw [ih]; congr 1; omega
    · rw [ih]; congr 1; omega

/-- What `libjson_trim` keeps of a text `pre . fd`: the fraction without its
trailing zeros, and no point when nothing of it is left. -/
theorem trim_spec (pre fd : List Char) (hp : pre ≠ []) (hpre : ∀ c ∈ pre, c ≠ '.')
    (hfd : ∀ c ∈ fd, libjson_isdigit c = true) :
    libjson_trim (pre ++ '.' :: fd) =
      pre ++ (if stripZeros fd = [] then [] else '.' :: stripZeros fd) := by
  have hlen : 0 < pre.length := List.length_pos.2 hp
  have e : libjson_trim_loop (pre ++ '.' :: fd) 0 0 0 =
      (if stripZeros fd = [] then pre.length else pre.length + 1 + (stripZeros fd).length - 1,
        pre.length) := by
    rw [trim_loop_append, trim_loop_noPoint pre 0 0 0 hpre]
    simp only [Nat.zero_add]
    rw [libjson_trim_loop, if_pos (by decide), if_pos rfl, trim_loop_digits fd _ _ _ hfd]
  unfold libjson_trim
  rw [e]
  rw [if_pos (by show pre.length ≠ 0; omega)]
  obtain ⟨z, hz⟩ := stripZeros_spec fd
  by_cases c : stripZeros fd = []
  · simp [c]
  · have hs : 0 < (stripZeros fd).length := List.length_pos.2 c
    rw [if_neg c, if_neg c, if_neg (by omega)]
    have e2 : pre.length + 1 + (stripZeros fd).length - 1 + 1 =
        pre.length + (1 + (stripZeros fd).length) := by omega
    rw [e2]
    have key : ∀ S Z : List Char,
        List.take (pre.length + (1 + S.length)) (pre ++ '.' :: (S ++ Z)) = pre ++ '.' :: S := by
      intro S Z
      rw [List.take_append, Nat.add_comm 1, List.take_succ_cons, List.take_left']
      rfl
    have k2 := key (stripZeros fd) (List.replicate z '0')
    rw [← hz] at k2
    exact k2

/-! ## Lowest terms -/

theorem strip_value (k M : Nat) :
    (LongDouble.strip k M).1 * 10 ^ k = M * 10 ^ (LongDouble.strip k M).2 ∧
      (LongDouble.strip k M).2 ≤ k := by
  induction k generalizing M with
  | zero => simp [LongDouble.strip]
  | succ k ih =>
    unfold LongDouble.strip
    split
    · rename_i h
      obtain ⟨i1, i2⟩ := ih (M / 10)
      refine ⟨?_, by omega⟩
      have hM : M / 10 * 10 = M := by omega
      rw [pow_succ, ← mul_assoc, i1]
      calc M / 10 * 10 ^ (LongDouble.strip k (M / 10)).2 * 10
          = M / 10 * 10 * 10 ^ (LongDouble.strip k (M / 10)).2 := by ring
        _ = M * 10 ^ (LongDouble.strip k (M / 10)).2 := by rw [hM]
    · exact ⟨rfl, le_refl _⟩

theorem strip_unique (k M a e : Nat) (hc : e = 0 ∨ a % 10 ≠ 0) (h : M * 10 ^ e = a * 10 ^ k) :
    LongDouble.strip k M = (a, e) := by
  induction k generalizing M with
  | zero =>
    rcases Nat.eq_zero_or_pos e with he | he
    · subst he
      simp at h
      simp [LongDouble.strip, h]
    · exfalso
      have ha : a % 10 ≠ 0 := by
        rcases hc with hc | hc
        · omega
        · exact hc
      obtain ⟨e', rfl⟩ : ∃ e', e = e' + 1 := ⟨e - 1, by omega⟩
      rw [pow_zero, mul_one, pow_succ] at h
      apply ha
      rw [← h, ← mul_assoc]
      exact Nat.mul_mod_left _ _
  | succ k ih =>
    unfold LongDouble.strip
    by_cases hm : M % 10 = 0
    · rw [if_pos hm]
      have hM : M = M / 10 * 10 := by omega
      by_cases he : e = k + 1
      · subst he
        exfalso
        have h2 : M = a := Nat.eq_of_mul_eq_mul_right (by positivity) h
        rcases hc with hc | hc
        · omega
        · exact hc (h2 ▸ hm)
      · apply ih
        rw [hM, pow_succ] at h
        have h3 : M / 10 * 10 ^ e * 10 = a * 10 ^ k * 10 := by
          calc M / 10 * 10 ^ e * 10 = M / 10 * 10 * 10 ^ e := by ring
            _ = a * (10 ^ k * 10) := h
            _ = a * 10 ^ k * 10 := by ring
        exact Nat.eq_of_mul_eq_mul_right (by decide) h3
    · rw [if_neg hm]
      have he : e = k + 1 := by
        by_contra hne
        rcases Nat.lt_or_gt_of_ne hne with hlt | hgt
        · apply hm
          have : a * 10 ^ (k + 1) = a * 10 ^ (k + 1 - e) * 10 ^ e := by
            rw [mul_assoc, ← pow_add]
            congr 2
            omega
          rw [this] at h
          have h2 : M = a * 10 ^ (k + 1 - e) := Nat.eq_of_mul_eq_mul_right (by positivity) h
          obtain ⟨t, ht⟩ : ∃ t, k + 1 - e = t + 1 := ⟨k - e, by omega⟩
          rw [h2, ht, pow_succ, ← mul_assoc]
          exact Nat.mul_mod_left _ _
        · have ha : a % 10 ≠ 0 := by
            rcases hc with hc | hc
            · omega
            · exact hc
          apply ha
          have : M * 10 ^ e = M * 10 ^ (e - (k + 1)) * 10 ^ (k + 1) := by
            rw [mul_assoc, ← pow_add]
            congr 2
            omega
          rw [this] at h
          have h2 : M * 10 ^ (e - (k + 1)) = a := Nat.eq_of_mul_eq_mul_right (by positivity) h
          obtain ⟨t, ht⟩ : ∃ t, e - (k + 1) = t + 1 := ⟨e - (k + 1) - 1, by omega⟩
          rw [← h2, ht, pow_succ, ← mul_assoc]
          exact Nat.mul_mod_left _ _
      subst he
      have h2 : M = a := Nat.eq_of_mul_eq_mul_right (by positivity) h
      rw [h2]

/-! ## The text of a number -/

theorem sprintf_Lf_eq (x : LongDouble) :
    sprintf_Lf x = (if x.neg then ['-'] else []) ++
      (decimalDigits (x.millionths / 10 ^ 6 + 1) (x.millionths / 10 ^ 6) ++
        '.' :: fixedDigits 6 (x.millionths % 10 ^ 6)) := rfl

/-- The shape of a serialized number: a sign, integer digits, and when the
fraction is not zero a point and the fraction digits up to the last non-zero
one; the digits read back give the magnitude in millionths. -/
theorem numText_shape (x : LongDouble) :
    ∃ D S : List Char, D ≠ [] ∧ (∀ c ∈ D, libjson_isdigit c = true) ∧
      (∀ c ∈ S, libjson_isdigit c = true) ∧ S.length ≤ 6 ∧
      libjson_trim (sprintf_Lf x) =
        (if x.neg then ['-'] else []) ++ D ++ (if S = [] then [] else '.' :: S) ∧
      (digitsValue 0 D * 10 ^ S.length + digitsValue 0 S) * 10 ^ (6 - S.length) =
        x.millionths := by
  obtain ⟨d1, d2, d3⟩ := decimalDigits_spec (x.millionths / 10 ^ 6 + 1) (x.millionths / 10 ^ 6)
    (Nat.lt_succ_self _)
  obtain ⟨f1, f2, f3⟩ := fixedDigits_spec 6 (x.millionths % 10 ^ 6)
  obtain ⟨z, hz⟩ := stripZeros_spec (fixedDigits 6 (x.millionths % 10 ^ 6))
  have hS := stripZeros_length_le (fixedDigits 6 (x.millionths % 10 ^ 6))
  rw [f1] at hS
  refine ⟨_, stripZeros (fixedDigits 6 (x.millionths % 10 ^ 6)), d1, d2,
    fun c hc => f2 c (stripZeros_mem _ c hc), hS, ?_, ?_⟩
  · have hne : (if x.neg then ['-'] else []) ++
        decimalDigits (x.millionths / 10 ^ 6 + 1) (x.millionths / 10 ^ 6) ≠ [] := by
      intro h
      exact d1 (List.append_eq_nil.1 h).2
    have hnp : ∀ c ∈ (if x.neg then ['-'] else []) ++
        decimalDigits (x.millionths / 10 ^ 6 + 1) (x.millionths / 10 ^ 6), c ≠ '.' := by
      intro c hc
      rcases List.mem_append.1 hc with hc | hc
      · split at hc
        · rw [List.mem_singleton] at hc
          rw [hc]; decide
        · cases hc
      · exact isdigit_ne_point c (d2 c hc)
    rw [sprintf_Lf_eq, ← List.append_assoc, trim_spec _ _ hne hnp f2]
  · have hlen := congrArg List.length hz
    rw [f1, List.length_append, List.length_replicate] at hlen
    have hv := congrArg (digitsValue 0) hz
    rw [f3, digitsValue_append, digitsValue_zeros, Nat.mod_mod] at hv
    have e6 : 6 - (stripZeros (fixedDigits 6 (x.millionths % 10 ^ 6))).length = z := by omega
    rw [d3, e6, add_mul, ← hv, mul_assoc, ← pow_add]
    have : (stripZeros (fixedDigits 6 (x.millionths % 10 ^ 6))).length + z = 6 := by omega
    rw [this]
    exact Nat.div_add_mod' _ _

/-! ## Staging and reading the text back -/

theorem stage_loop_digits (ds rest : List Char) (j : Nat) (hp : Bool) (tmp : List Char)
    (hd : ∀ c ∈ ds, libjson_isdigit c = true) (hj : j + ds.length ≤ 128) :
    libjson_stage_loop (ds ++ rest) j hp tmp =
      libjson_stage_loop rest (j + ds.length) hp (tmp ++ ds) := by
  induction ds generalizing j tmp with
  | nil => simp
  | cons c cs ih =>
    have hc := hd c (List.mem_cons_self _ _)
    have h1 := isdigit_ne_point c hc
    have h2 := isdigit_ne_minus c hc
    have c1 : ¬ (c ≠ '.' ∧ libjson_isdigit c = false ∧ c ≠ '-') := by simp [hc]
    have c2 : ¬ (c = '.' ∧ hp = false) := by simp [h1]
    have c3 : c ≠ '.' ∧ ¬ (c = '-' ∧ j ≠ 0) := by simp [h1, h2]
    simp only [List.length_cons] at hj
    rw [List.cons_append, libjson_stage_loop, if_neg c1, if_neg c2, if_pos c3,
      if_pos (by omega), ih _ _ (fun x hx => hd x (List.mem_cons_of_mem _ hx)) (by omega)]
    simp only [List.length_cons, List.append_assoc, List.singleton_append]
    congr 1
    omega

theorem stage_loop_end (rest : List Char) (j : Nat) (hp : Bool) (tmp : List Char)
    (hr : ∀ c ∈ rest.head?, isNumChar c = false) :
    libjson_stage_loop rest j hp tmp = .ok (tmp, j) := by
  cases rest with
  | nil => rfl
  | cons c cs =>
    have hc := hr c (by simp)
    simp only [isNumChar, Bool.or_eq_false_iff, beq_eq_false_iff_ne, ne_eq] at hc
    have c1 : c ≠ '.' ∧ libjson_isdigit c = false ∧ c ≠ '-' := ⟨hc.1.2, hc.1.1, hc.2⟩
    rw [libjson_stage_loop, if_pos c1]

/-- Staging a text of the shape of `numText_shape` copies it whole. -/
theorem stage_loop_shape (neg : Bool) (D S rest : List Char)
    (hD : ∀ c ∈ D, libjson_isdigit c = true) (hS : ∀ c ∈ S, libjson_isdigit c = true)
    (hr : ∀ c ∈ rest.head?, isNumChar c = false)
    (hlen : ((if neg then ['-'] else []) ++ D ++ (if S = [] then [] else '.' :: S)).length ≤ 128) :
    libjson_stage_loop
        (((if neg then ['-'] else []) ++ D ++ (if S = [] then [] else '.' :: S)) ++ rest)
        0 false [] =
      .ok ((if neg then ['-'] else []) ++ D ++ (if S = [] then [] else '.' :: S),
        ((if neg then ['-'] else []) ++ D ++ (if S = [] then [] else '.' :: S)).length) := by
  have tail : ∀ (j : Nat) (tmp : List Char),
      j + D.length + (if S = [] then [] else '.' :: S).length ≤ 128 →
      libjson_stage_loop (D ++ ((if S = [] then [] else '.' :: S) ++ rest)) j false tmp =
        .ok (tmp ++ D ++ (if S = [] then [] else '.' :: S),
          j + D.length + (if S = [] then [] else '.' :: S).length) := by
    intro j tmp hj
    rw [stage_loop_digits D _ j false tmp hD (by omega)]
    by_cases hs : S = []
    · simp only [hs, if_true, List.nil_append, List.append_nil, List.length_nil, Nat.add_zero]
      exact stage_loop_end rest _ _ _ hr
    · simp only [hs, if_false, List.length_cons] at hj ⊢
      have c1 : ¬ (('.' : Char) ≠ '.' ∧ libjson_isdigit '.' = false ∧ ('.' : Char) ≠ '-') := by
        decide
      rw [List.cons_append, libjson_stage_loop, if_neg c1, if_pos ⟨rfl, rfl⟩, if_pos (by omega),
        stage_loop_digits S rest _ true _ hS (by omega), stage_loop_end rest _ _ _ hr]
      simp only [List.append_assoc, List.singleton_append]
      congr 2
      omega
  cases neg with
  | false =>
    simp only [Bool.false_eq_true, if_false, List.nil_append, List.append_assoc] at hlen ⊢
    rw [tail 0 [] (by simp only [List.length_append] at hlen; omega)]
    simp [Nat.add_assoc]
  | true =>
    simp only [if_true, List.append_assoc, List.singleton_append, List.cons_append] at hlen ⊢
    have c1 : ¬ (('-' : Char) ≠ '.' ∧ libjson_isdigit '-' = false ∧ ('-' : Char) ≠ '-') := by
      decide
    have c2 : ¬ (('-' : Char) = '.' ∧ false = false) := by decide
    have c3 : ('-' : Char) ≠ '.' ∧ ¬ (('-' : Char) = '-' ∧ (0 : Nat) ≠ 0) := by decide
    rw [libjson_stage_loop, if_neg c1, if_neg c2, if_pos c3, if_pos (by decide)]
    simp only [List.nil_append, Nat.zero_add] at hlen ⊢
    rw [tail 1 _ (by simp only [List.length_cons, List.length_append] at hlen; omega)]
    simp only [List.singleton_append, List.cons_append, List.length_cons,
      List.length_append, List.nil_append]
    congr 2
    omega

theorem takeWhile_numChars (text : List Char) (h : ∀ c ∈ text, isNumChar c = true) :
    text.takeWhile (fun c => c ≠ Char.ofNat 0) = text := by
  rw [List.takeWhile_eq_self_iff]
  intro c hc
  have := h c hc
  simp only [decide_eq_true_eq, ne_eq]
  intro e
  subst e
  revert this
  decide

/-- Reading a text of the shape of `numText_shape` back. -/
theorem sscanf_shape (neg : Bool) (D S : List Char) (hne : D ≠ [])
    (hD : ∀ c ∈ D, libjson_isdigit c = true) (hS : ∀ c ∈ S, libjson_isdigit c = true) :
    sscanf_Lf ((if neg then ['-'] else []) ++ D ++ (if S = [] then [] else '.' :: S)) =
      LongDouble.normalize neg (digitsValue 0 D * 10 ^ S.length + digitsValue 0 S) S.length := by
  obtain ⟨d0, D', rfl⟩ := List.exists_cons_of_ne_nil hne
  have hd0 := isdigit_ne_minus d0 (hD d0 (List.mem_cons_self _ _))
  have hneg : decide (((if neg then ['-'] else []) ++ (d0 :: D') ++
      (if S = [] then [] else '.' :: S)).head? = some '-') = neg := by
    cases neg
    · simp [hd0]
    · simp
  have hdrop : (if neg = true then
      ((if neg then ['-'] else []) ++ (d0 :: D') ++ (if S = [] then [] else '.' :: S)).drop 1
      else ((if neg then ['-'] else []) ++ (d0 :: D') ++ (if S = [] then [] else '.' :: S))) =
      (d0 :: D') ++ (if S = [] then [] else '.' :: S) := by
    cases neg <;> simp
  have hread : readDigits ((d0 :: D') ++ (if S = [] then [] else '.' :: S)) 0 0 =
      (digitsValue 0 (d0 :: D'), (d0 :: D').length, (if S = [] then [] else '.' :: S)) := by
    rw [readDigits_digits _ _ _ _ hD]
    by_cases hs : S = []
    · simp [hs, readDigits]
    · have : libjson_isdigit '.' = false := by decide
      simp [hs, readDigits, this]
  unfold sscanf_Lf
  simp only [hneg, hdrop, hread]
  by_cases hs : S = []
  · subst hs
    simp [digitsValue]
  · have hrS : readDigits S 0 0 = (digitsValue 0 S, S.length, []) := by
      have := readDigits_digits S [] 0 0 hS
      rw [List.append_nil] at this
      rw [this]
      simp [readDigits]
    simp only [hs, if_false, hrS]
    rw [if_neg (by simp)]

/-- What reading a serialized number back gives: the value of the text, in
lowest terms. -/
theorem sscanf_numText (x : LongDouble) :
    ∃ M k : Nat, k ≤ 6 ∧ M * 10 ^ (6 - k) = x.millionths ∧
      sscanf_Lf (libjson_trim (sprintf_Lf x)) = LongDouble.normalize x.neg M k := by
  obtain ⟨D, S, h1, h2, h3, h4, h5, h6⟩ := numText_shape x
  exact ⟨_, S.length, h4, h6, by rw [h5, sscanf_shape x.neg D S h1 h2 h3]⟩

/-- A number with at most six fractional digits is read back unchanged. -/
theorem sscanf_numText_exact (x : LongDouble) (h : x.exp ≤ 6) :
    sscanf_Lf (libjson_trim (sprintf_Lf x)) = x := by
  obtain ⟨M, k, hk, hM, hs⟩ := sscanf_numText x
  rw [hs]
  have hm : x.millionths = x.mant * 10 ^ (6 - x.exp) := by
    simp [LongDouble.millionths, h]
  have key : M * 10 ^ x.exp = x.mant * 10 ^ k := by
    have e1 : M * 10 ^ x.exp * 10 ^ 6 = M * 10 ^ (6 - k) * 10 ^ (k + x.exp) := by
      rw [mul_assoc, mul_assoc, ← pow_add, ← pow_add]
      congr 2
      omega
    have e2 : x.mant * 10 ^ k * 10 ^ 6 = x.mant * 10 ^ (6 - x.exp) * 10 ^ (k + x.exp) := by
      rw [mul_assoc, mul_assoc, ← pow_add, ← pow_add]
      congr 2
      omega
    apply Nat.eq_of_mul_eq_mul_right (show 0 < 10 ^ 6 by positivity)
    rw [e1, e2, hM, hm]
  have := strip_unique k M x.mant x.exp x.canon key
  cases x with
  | mk neg mant exp canon =>
    simp only [LongDouble.normalize, LongDouble.mk.injEq, true_and]
    simp only at this
    rw [this]
    exact ⟨rfl, rfl⟩

/-- The number read back is printed like the number itself. -/
theorem sprintf_sscanf_numText (x : LongDouble) :
    sprintf_Lf (sscanf_Lf (libjson_trim (sprintf_Lf x))) = sprintf_Lf x ∧
      (sscanf_Lf (libjson_trim (sprintf_Lf x))).exp ≤ 6 := by
  obtain ⟨M, k, hk, hM, hs⟩ := sscanf_numText x
  obtain ⟨v1, v2⟩ := strip_value k M
  rw [hs]
  have he : (LongDouble.normalize x.neg M k).exp ≤ 6 := by
    simp only [LongDouble.normalize]
    omega
  refine ⟨?_, he⟩
  have hm : (LongDouble.normalize x.neg M k).millionths = x.millionths := by
    have hl : (LongDouble.normalize x.neg M k).millionths =
        (LongDouble.strip k M).1 * 10 ^ (6 - (LongDouble.strip k M).2) := by
      simp only [LongDouble.millionths, LongDouble.normalize]
      rw [if_pos (by omega)]
    rw [hl, ← hM]
    apply Nat.eq_of_mul_eq_mul_right (show 0 < 10 ^ (k + (LongDouble.strip k M).2) by positivity)
    have e1 : (LongDouble.strip k M).1 * 10 ^ (6 - (LongDouble.strip k M).2) *
        10 ^ (k + (LongDouble.strip k M).2) = (LongDouble.strip k M).1 * 10 ^ k * 10 ^ 6 := by
      rw [mul_assoc, mul_assoc, ← pow_add, ← pow_add]
      congr 2
      omega
    have e2 : M * 10 ^ (6 - k) * 10 ^ (k + (LongDouble.strip k M).2) =
        M * 10 ^ (LongDouble.strip k M).2 * 10 ^ 6 := by
      rw [mul_assoc, mul_assoc, ← pow_add, ← pow_add]
      congr 2
      omega
    rw [e1, e2, v1]
  rw [sprintf_Lf_eq, sprintf_Lf_eq, hm]
  rfl

/-- The characters of a serialized number. -/
theorem numText_chars (x : LongDouble) :
    libjson_trim (sprintf_Lf x) ≠ [] ∧
      (∀ c ∈ (libjson_trim (sprintf_Lf x)).head?, libjson_isdigit c = true ∨ c = '-') ∧
      (∀ c ∈ libjson_trim (sprintf_Lf x), isNumChar c = true) ∧
      (libjson_trim (sprintf_Lf x)).length ≤ (sprintf_Lf x).length := by
  obtain ⟨D, S, h1, h2, h3, h4, h5, h6⟩ := numText_shape x
  obtain ⟨d0, D', rfl⟩ := List.exists_cons_of_ne_nil h1
  refine ⟨?_, ?_, ?_, ?_⟩
  · rw [h5]; cases x.neg <;> simp
  · rw [h5]
    intro c hc
    cases hn : x.neg
    · simp only [hn, Bool.false_eq_true, if_false, List.nil_append, List.cons_append,
        List.head?_cons, Option.mem_def, Option.some.injEq] at hc
      exact Or.inl (hc ▸ h2 d0 (List.mem_cons_self _ _))
    · simp only [hn, if_true, List.singleton_append, List.cons_append, List.head?_cons,
        Option.mem_def, Option.some.injEq] at hc
      exact Or.inr hc.symm
  · rw [h5]
    intro c hc
    rcases List.mem_append.1 hc with hc | hc
    · rcases List.mem_append.1 hc with hc | hc
      · split at hc
        · rw [List.mem_singleton] at hc
          rw [hc]; decide
        · cases hc
      · exact isNumChar_of_isdigit c (h2 c hc)
    · split at hc
      · cases hc
      · rcases List.mem_cons.1 hc with hc | hc
        · rw [hc]; decide
        · exact isNumChar_of_isdigit c (h3 c hc)
  · unfold libjson_trim
    dsimp only
    split
    · split <;> (rw [List.length_take]; exact Nat.min_le_right _ _)
    · exact le_refl _

/-- The number case of the parsers on a serialized number that fits `tmp`,
followed by a character that is not part of a number (or by nothing). -/
theorem stageNumber_numText (x : LongDouble) (hx : x.Fits) (rest : List Char)
    (hr : ∀ c ∈ rest.head?, isNumChar c = false) :
    libjson_stageNumber (libjson_trim (sprintf_Lf x) ++ rest) =
      .ok (sscanf_Lf (libjson_trim (sprintf_Lf x)), (libjson_trim (sprintf_Lf x)).length) := by
  obtain ⟨c1, c2, c3, c4⟩ := numText_chars x
  obtain ⟨D, S, h1, h2, h3, h4, h5, h6⟩ := numText_shape x
  have hlen : (libjson_trim (sprintf_Lf x)).length < 128 := lt_of_le_of_lt c4 hx
  unfold libjson_stageNumber
  have hst := stage_loop_shape x.neg D S rest h2 h3 hr (by rw [← h5]; omega)
  rw [← h5] at hst
  rw [hst]
  simp only [takeWhile_numChars _ c3]
  rw [if_neg (by omega)]

/-! ## Scanner: strings -/

theorem extractString_loop_escaped (c rest : List Char) (i esc : Nat) (hi : 0 < i)
    (h : escapedFrom c (decide (esc % 2 = 1)) = true) :
    libjson_extractString_loop (c ++ '"' :: rest) i esc = i + c.length := by
  induction c generalizing i esc with
  | nil =>
    simp only [escapedFrom, Bool.not_eq_true', decide_eq_false_iff_not] at h
    have c1 : ¬ (('"' : Char) = '\\') := by decide
    simp only [List.nil_append, libjson_extractString_loop, c1, if_false, List.length_nil,
      Nat.add_zero]
    rw [if_pos ⟨trivial, hi, by omega⟩]
  | cons ch cs ih =>
    rw [List.cons_append, libjson_extractString_loop, List.length_cons]
    by_cases hb : ch = '\\'
    · subst hb
      have c1 : ¬ (('\\' : Char) = '"') := by decide
      simp only [if_true, c1, false_and, if_false, ne_eq, not_true_eq_false]
      rw [ih (i + 1) (esc + 1) (by omega)]
      · omega
      · simp only [escapedFrom, if_true] at h
        rw [← h]
        congr 1
        by_cases p : esc % 2 = 1
        · have : ¬ ((esc + 1) % 2 = 1) := by omega
          simp [p, this]
        · have : (esc + 1) % 2 = 1 := by omega
          simp [p, this]
    · by_cases hq : ch = '"'
      · subst hq
        simp only [escapedFrom, hb, if_false, if_true, Bool.and_eq_true,
          decide_eq_true_eq] at h
        have c2 : ¬ (True ∧ 0 < i ∧ esc % 2 = 0) := by omega
        simp only [hb, if_false, true_and, ne_eq, not_false_eq_true, if_true]
        rw [if_neg (by omega), ih (i + 1) 0 (by omega) (by simpa using h.2)]
        omega
      · simp only [escapedFrom, hb, hq, if_false] at h
        simp only [hb, hq, if_false, false_and, ne_eq, not_false_eq_true, if_true]
        rw [ih (i + 1) 0 (by omega) (by simpa using h)]
        omega

/-- String extraction on a quoted text whose quotes are escaped. -/
theorem extractString_quoted (s rest : List Char) (h : quotesEscaped s = true) :
    libjson_extractString ('"' :: (s ++ '"' :: rest)) = s := by
  have c1 : ¬ (('"' : Char) = '\\') := by decide
  have e : libjson_extractString_loop ('"' :: (s ++ '"' :: rest)) 0 0 = 1 + s.length := by
    rw [libjson_extractString_loop]
    simp only [c1, if_false, Nat.lt_irrefl, false_and, and_false, ne_eq, not_false_eq_true,
      if_true]
    exact extractString_loop_escaped s rest 1 0 (by omega) (by simpa [quotesEscaped] using h)
  unfold libjson_extractString
  rw [e]
  simp

/-! ## Scanner: balanced delimiters -/

theorem extractRaw_loop_skip (op cl : Char) (xs rest : List Char) (i : Nat) (d : Int) :
    libjson_extractRaw_loop op cl (xs ++ rest) i xs.length d =
      libjson_extractRaw_loop op cl rest (i + xs.length) 0 d := by
  induction xs generalizing i with
  | nil => rfl
  | cons c cs ih =>
    rw [List.cons_append, List.length_cons, libjson_extractRaw_loop, ih]
    congr 1
    omega

theorem scanPasses_nil (op cl : Char) : scanPasses op cl [] := by
  intro rest i d _
  rfl

theorem scanPasses_append (op cl : Char) (t1 t2 : List Char) (h1 : scanPasses op cl t1)
    (h2 : scanPasses op cl t2) : scanPasses op cl (t1 ++ t2) := by
  intro rest i d hd
  rw [List.append_assoc, h1 _ _ _ hd, h2 _ _ _ hd, List.length_append]
  congr 1
  omega

theorem scanPasses_plain (op cl : Char) (t : List Char)
    (h : ∀ c ∈ t, c ≠ op ∧ c ≠ cl ∧ c ≠ '"') : scanPasses op cl t := by
  induction t with
  | nil => exact scanPasses_nil op cl
  | cons c cs ih =>
    intro rest i d hd
    obtain ⟨h1, h2, h3⟩ := h c (List.mem_cons_self _ _)
    rw [List.cons_append, libjson_extractRaw_loop, if_neg h1, if_neg h2, if_neg h3,
      ih (fun x hx => h x (List.mem_cons_of_mem _ hx)) _ _ _ hd, List.length_cons]
    congr 1
    omega

theorem scanPasses_string (op cl : Char) (s : List Char) (h : quotesEscaped s = true)
    (h1 : '"' ≠ op) (h2 : '"' ≠ cl) : scanPasses op cl ('"' :: (s ++ ['"'])) := by
  intro rest i d _
  have e : '"' :: (s ++ ['"']) ++ rest = '"' :: (s ++ '"' :: rest) := by simp
  rw [e, libjson_extractRaw_loop, if_neg h1, if_neg h2, if_pos rfl, extractString_quoted s rest h]
  have e2 : s ++ '"' :: rest = (s ++ ['"']) ++ rest := by simp
  have e3 : s.length + 1 = (s ++ ['"']).length := by simp
  rw [e2, e3, extractRaw_loop_skip]
  simp only [List.length_cons, List.length_append, List.length_singleton, List.length_nil]
  congr 1
  omega

/-- A bracketed text of the scanned kind: the depth goes up and comes back. -/
theorem scanPasses_nested (op cl : Char) (body : List Char) (hne : cl ≠ op)
    (h : scanPasses op cl body) : scanPasses op cl (op :: (body ++ [cl])) := by
  intro rest i d hd
  have e : op :: (body ++ [cl]) ++ rest = op :: (body ++ cl :: rest) := by simp
  rw [e, libjson_extractRaw_loop, if_pos rfl, h _ _ _ (by omega), libjson_extractRaw_loop,
    if_neg hne, if_pos rfl, if_neg (by omega)]
  simp only [List.length_cons, List.length_append, List.length_singleton, List.length_nil]
  congr 1
  · omega
  · omega

theorem scanPassesBoth_append (t1 t2 : List Char) (h1 : scanPassesBoth t1)
    (h2 : scanPassesBoth t2) : scanPassesBoth (t1 ++ t2) :=
  ⟨scanPasses_append _ _ _ _ h1.1 h2.1, scanPasses_append _ _ _ _ h1.2 h2.2⟩

theorem scanPassesBoth_plain (t : List Char)
    (h : ∀ c ∈ t, c ≠ '{' ∧ c ≠ '}' ∧ c ≠ '[' ∧ c ≠ ']' ∧ c ≠ '"') : scanPassesBoth t :=
  ⟨scanPasses_plain _ _ _ (fun c hc => ⟨(h c hc).1, (h c hc).2.1, (h c hc).2.2.2.2⟩),
    scanPasses_plain _ _ _ (fun c hc => ⟨(h c hc).2.2.1, (h c hc).2.2.2.1, (h c hc).2.2.2.2⟩)⟩

theorem scanPassesBoth_string (s : List Char) (h : quotesEscaped s = true) :
    scanPassesBoth ('"' :: (s ++ ['"'])) :=
  ⟨scanPasses_string _ _ s h (by decide) (by decide),
    scanPasses_string _ _ s h (by decide) (by decide)⟩

theorem scanPassesBoth_braces (body : List Char) (h : scanPassesBoth body) :
    scanPassesBoth ('{' :: (body ++ ['}'])) := by
  refine ⟨scanPasses_nested _ _ body (by decide) h.1, ?_⟩
  have e : '{' :: (body ++ ['}']) = ['{'] ++ (body ++ ['}']) := rfl
  rw [e]
  refine scanPasses_append _ _ _ _ (scanPasses_plain _ _ _ ?_)
    (scanPasses_append _ _ _ _ h.2 (scanPasses_plain _ _ _ ?_))
  · intro c hc
    rw [List.mem_singleton] at hc
    rw [hc]; decide
  · intro c hc
    rw [List.mem_singleton] at hc
    rw [hc]; decide

theorem scanPassesBoth_brackets (body : List Char) (h : scanPassesBoth body) :
    scanPassesBoth ('[' :: (body ++ [']'])) := by
  refine ⟨?_, scanPasses_nested _ _ body (by decide) h.2⟩
  have e : '[' :: (body ++ [']']) = ['['] ++ (body ++ [']']) := rfl
  rw [e]
  refine scanPasses_append _ _ _ _ (scanPasses_plain _ _ _ ?_)
    (scanPasses_append _ _ _ _ h.1 (scanPasses_plain _ _ _ ?_))
  · intro c hc
    rw [List.mem_singleton] at hc
    rw [hc]; decide
  · intro c hc
    rw [List.mem_singleton] at hc
    rw [hc]; decide

theorem isNumChar_plain (c : Char) (h : isNumChar c = true) :
    c ≠ '{' ∧ c ≠ '}' ∧ c ≠ '[' ∧ c ≠ ']' ∧ c ≠ '"' := by
  refine ⟨?_, ?_, ?_, ?_, ?_⟩ <;> (intro e; subst e; revert h; decide)

/-- The token cut from a text that starts with a bracketed text the scan
walks over: that bracketed text. -/
theorem extractRaw_bracketed (op cl : Char) (body rest : List Char) (hne : cl ≠ op)
    (h : scanPasses op cl body) :
    libjson_extractRaw (op :: (body ++ [cl]) ++ rest) op cl = op :: (body ++ [cl]) := by
  have e : op :: (body ++ [cl]) ++ rest = op :: (body ++ cl :: rest) := by simp
  have e2 : libjson_extractRaw_loop op cl (op :: (body ++ cl :: rest)) 0 0 0 =
      body.length + 1 := by
    rw [libjson_extractRaw_loop, if_pos rfl, h _ _ _ (by omega), libjson_extractRaw_loop,
      if_neg hne, if_pos rfl, if_pos (by omega)]
    omega
  unfold libjson_extractRaw
  rw [e, e2]
  have e3 : op :: (body ++ cl :: rest) = (op :: (body ++ [cl])) ++ rest := by simp
  have e4 : body.length + 1 + 1 = (op :: (body ++ [cl])).length := by simp
  rw [e3, e4, List.take_left']
  rfl

/-! ## Lists of pairs and of elements -/

theorem cleanPairs_mem (b : Bool) (ps : List JSONPair) (h : cleanPairs b ps) :
    ∀ p ∈ ps, cleanPair b p := by
  induction ps with
  | nil => intro p hp; cases hp
  | cons q qs ih =>
    rw [cleanPairs] at h
    intro p hp
    rcases List.mem_cons.1 hp with rfl | hp
    · exact h.1
    · exact ih h.2 p hp

theorem cleanPairs_of_mem (b : Bool) (ps : List JSONPair) (h : ∀ p ∈ ps, cleanPair b p) :
    cleanPairs b ps := by
  induction ps with
  | nil => rw [cleanPairs]; trivial
  | cons q qs ih =>
    rw [cleanPairs]
    exact ⟨h q (List.mem_cons_self _ _), ih (fun p hp => h p (List.mem_cons_of_mem _ hp))⟩

theorem cleanElements_mem (b : Bool) (es : List JSONElement) (h : cleanElements b es) :
    ∀ e ∈ es, cleanElement b e := by
  induction es with
  | nil => intro p hp; cases hp
  | cons q qs ih =>
    rw [cleanElements] at h
    intro p hp
    rcases List.mem_cons.1 hp with rfl | hp
    · exact h.1
    · exact ih h.2 p hp

theorem cleanElements_of_mem (b : Bool) (es : List JSONElement)
    (h : ∀ e ∈ es, cleanElement b e) : cleanElements b es := by
  induction es with
  | nil => rw [cleanElements]; trivial
  | cons q qs ih =>
    rw [cleanElements]
    exact ⟨h q (List.mem_cons_self _ _), ih (fun p hp => h p (List.mem_cons_of_mem _ hp))⟩

theorem depthPairs_mem (ps : List JSONPair) :
    ∀ p ∈ ps, depthElement p.value ≤ depthPairs ps := by
  induction ps with
  | nil => intro p hp; cases hp
  | cons q qs ih =>
    cases q with
    | mk k v =>
      rw [depthPairs]
      intro p hp
      rcases List.mem_cons.1 hp with rfl | hp
      · exact le_max_left _ _
      · exact le_trans (ih p hp) (le_max_right _ _)

theorem depthElements_mem (es : List JSONElement) :
    ∀ e ∈ es, depthElement e ≤ depthElements es := by
  induction es with
  | nil => intro p hp; cases hp
  | cons q qs ih =>
    rw [depthElements]
    intro p hp
    rcases List.mem_cons.1 hp with rfl | hp
    · exact le_max_left _ _
    · exact le_trans (ih p hp) (le_max_right _ _)

/-! ## The scan over rendered lists -/

theorem comma_plain : ∀ c ∈ [','], c ≠ '{' ∧ c ≠ '}' ∧ c ≠ '[' ∧ c ≠ ']' ∧ c ≠ '"' := by
  intro c hc
  rw [List.mem_singleton] at hc
  rw [hc]; decide

theorem colon_plain : ∀ c ∈ [':'], c ≠ '{' ∧ c ≠ '}' ∧ c ≠ '[' ∧ c ≠ ']' ∧ c ≠ '"' := by
  intro c hc
  rw [List.mem_singleton] at hc
  rw [hc]; decide

theorem renderPairsTail_scan (ps : List JSONPair)
    (H : ∀ p ∈ ps, scanPassesBoth (renderPair p)) :
    ∃ body, renderPairsTail ps = body ++ ['}'] ∧ scanPassesBoth body := by
  induction ps with
  | nil => exact ⟨[], by rw [renderPairsTail]; rfl, scanPasses_nil _ _, scanPasses_nil _ _⟩
  | cons q qs ih =>
    obtain ⟨body, hb, hs⟩ := ih (fun p hp => H p (List.mem_cons_of_mem _ hp))
    refine ⟨[','] ++ (renderPair q ++ body), ?_, ?_⟩
    · rw [renderPairsTail, hb]
      simp
    · exact scanPassesBoth_append _ _ (scanPassesBoth_plain _ comma_plain)
        (scanPassesBoth_append _ _ (H q (List.mem_cons_self _ _)) hs)

theorem renderElementsTail_scan (es : List JSONElement)
    (H : ∀ e ∈ es, scanPassesBoth (renderElement e)) :
    ∃ body, renderElementsTail es = body ++ [']'] ∧ scanPassesBoth body := by
  induction es with
  | nil => exact ⟨[], by rw [renderElementsTail]; rfl, scanPasses_nil _ _, scanPasses_nil _ _⟩
  | cons q qs ih =>
    obtain ⟨body, hb, hs⟩ := ih (fun p hp => H p (List.mem_cons_of_mem _ hp))
    refine ⟨[','] ++ (renderElement q ++ body), ?_, ?_⟩
    · rw [renderElementsTail, hb]
      simp
    · exact scanPassesBoth_append _ _ (scanPassesBoth_plain _ comma_plain)
        (scanPassesBoth_append _ _ (H q (List.mem_cons_self _ _)) hs)

theorem renderObject_scan (es : List JSONPair) (n : Int)
    (H : ∀ p ∈ es, scanPassesBoth (renderPair p)) :
    ∃ body, renderObject (.mk es n) = '{' :: (body ++ ['}']) ∧ scanPassesBoth body := by
  cases es with
  | nil => exact ⟨[], by rw [renderObject]; rfl, scanPasses_nil _ _, scanPasses_nil _ _⟩
  | cons q qs =>
    obtain ⟨body, hb, hs⟩ := renderPairsTail_scan qs (fun p hp => H p (List.mem_cons_of_mem _ hp))
    refine ⟨renderPair q ++ body, ?_, scanPassesBoth_append _ _ (H q (List.mem_cons_self _ _)) hs⟩
    rw [renderObject, hb]
    simp

theorem renderArray_scan (es : List JSONElement) (n : Int)
    (H : ∀ e ∈ es, scanPassesBoth (renderElement e)) :
    ∃ body, renderArray (.mk es n) = '[' :: (body ++ [']']) ∧ scanPassesBoth body := by
  cases es with
  | nil => exact ⟨[], by rw [renderArray]; rfl, scanPasses_nil _ _, scanPasses_nil _ _⟩
  | cons q qs =>
    obtain ⟨body, hb, hs⟩ :=
      renderElementsTail_scan qs (fun p hp => H p (List.mem_cons_of_mem _ hp))
    refine ⟨renderElement q ++ body, ?_,
      scanPassesBoth_append _ _ (H q (List.mem_cons_self _ _)) hs⟩
    rw [renderArray, hb]
    simp

theorem renderPair_scan (k : List Char) (v : JSONElement) (hk : quotesEscaped k = true)
    (hv : scanPassesBoth (renderElement v)) : scanPassesBoth (renderPair (.mk (some k) v)) := by
  have e : renderPair (.mk (some k) v) = ('"' :: (k ++ ['"'])) ++ ([':'] ++ renderElement v) := by
    rw [renderPair]
    simp
  rw [e]
  exact scanPassesBoth_append _ _ (scanPassesBoth_string k hk)
    (scanPassesBoth_append _ _ (scanPassesBoth_plain _ colon_plain) hv)

/-! ## The serializer loops -/

theorem o_JSONObjectToString_loop_eq (ps : List JSONPair) (p : JSONPair) (i n : Int)
    (str : List Char) (hn : i + (ps.length + 1 : Nat) = n)
    (H : ∀ q ∈ p :: ps, libjson_JSONPairToString q = .ok (renderPair q)) :
    o_JSONObjectToString_loop (p :: ps) i n str =
      .ok (str ++ (renderPair p ++ renderPairsTail ps)) := by
  induction ps generalizing p i str with
  | nil =>
    simp only [List.length_nil, Nat.zero_add, Nat.cast_one] at hn
    rw [o_JSONObjectToString_loop, if_pos (by omega), H p (List.mem_cons_self _ _)]
    simp only []
    rw [if_neg (by omega), o_JSONObjectToString_loop, renderPairsTail]
    simp
  | cons q qs ih =>
    simp only [List.length_cons, Nat.cast_add, Nat.cast_one] at hn
    rw [o_JSONObjectToString_loop, if_pos (by omega), H p (List.mem_cons_self _ _)]
    simp only []
    rw [if_pos (by omega), ih q (i + 1) _ (by push_cast; omega)
      (fun r hr => H r (List.mem_cons_of_mem _ hr)), renderPairsTail]
    simp

theorem a_JSONArrayToString_loop_eq (es : List JSONElement) (e : JSONElement) (i n : Int)
    (str : List Char) (hn : i + (es.length + 1 : Nat) = n)
    (H : ∀ q ∈ e :: es, libjson_JSONElementToString q = .ok (renderElement q)) :
    a_JSONArrayToString_loop (e :: es) i n str =
      .ok (str ++ (renderElement e ++ renderElementsTail es)) := by
  induction es generalizing e i str with
  | nil =>
    simp only [List.length_nil, Nat.zero_add, Nat.cast_one] at hn
    rw [a_JSONArrayToString_loop, if_pos (by omega), H e (List.mem_cons_self _ _)]
    simp only []
    rw [if_neg (by omega), a_JSONArrayToString_loop, renderElementsTail]
    simp
  | cons q qs ih =>
    simp only [List.length_cons, Nat.cast_add, Nat.cast_one] at hn
    rw [a_JSONArrayToString_loop, if_pos (by omega), H e (List.mem_cons_self _ _)]
    simp only []
    rw [if_pos (by omega), ih q (i + 1) _ (by push_cast; omega)
      (fun r hr => H r (List.mem_cons_of_mem _ hr)), renderElementsTail]
    simp

theorem o_JSONObjectToString_eq (es : List JSONPair)
    (H : ∀ q ∈ es, libjson_JSONPairToString q = .ok (renderPair q)) :
    o_JSONObjectToString (.mk es es.length) = .ok (renderObject (.mk es es.length)) := by
  cases es with
  | nil => rw [o_JSONObjectToString, renderObject]; rfl
  | cons p ps =>
    rw [o_JSONObjectToString, renderObject,
      o_JSONObjectToString_loop_eq ps p 0 _ _ (by simp) H]
    simp only [List.length_cons, Nat.cast_add, Nat.cast_one]
    rw [if_neg (by omega)]
    rfl

theorem a_JSONArrayToString_eq (es : List JSONElement)
    (H : ∀ q ∈ es, libjson_JSONElementToString q = .ok (renderElement q)) :
    a_JSONArrayToString (.mk es es.length) = .ok (renderArray (.mk es es.length)) := by
  cases es with
  | nil => rw [a_JSONArrayToString, renderArray]; rfl
  | cons p ps =>
    rw [a_JSONArrayToString, renderArray,
      a_JSONArrayToString_loop_eq ps p 0 _ _ (by simp) H]
    simp only [List.length_cons, Nat.cast_add, Nat.cast_one]
    rw [if_neg (by omega)]
    rfl

/-! ## Rendered text: depth against length -/

theorem depthPairs_le_tail (ps : List JSONPair)
    (H : ∀ p ∈ ps, depthElement p.value ≤ (renderPair p).length) :
    depthPairs ps + 1 ≤ (renderPairsTail ps).length := by
  induction ps with
  | nil => rw [depthPairs, renderPairsTail]; simp
  | cons q qs ih =>
    have h1 := H q (List.mem_cons_self _ _)
    have h2 := ih (fun p hp => H p (List.mem_cons_of_mem _ hp))
    cases q with
    | mk k v =>
      rw [depthPairs, renderPairsTail]
      simp only [pair_value_mk] at h1
      simp only [List.length_cons, List.length_append]
      rcases max_cases (depthElement v) (depthPairs qs) with ⟨e, _⟩ | ⟨e, _⟩ <;> rw [e] <;> omega

theorem depthObject_le (es : List JSONPair) (n : Int)
    (H : ∀ p ∈ es, depthElement p.value ≤ (renderPair p).length) :
    depthObject (.mk es n) ≤ (renderObject (.mk es n)).length := by
  cases es with
  | nil => rw [depthObject, depthPairs, renderObject]; simp
  | cons q qs =>
    have h1 := H q (List.mem_cons_self _ _)
    have h2 := depthPairs_le_tail qs (fun p hp => H p (List.mem_cons_of_mem _ hp))
    cases q with
    | mk k v =>
      rw [depthObject, depthPairs, renderObject]
      simp only [pair_value_mk] at h1
      simp only [List.length_cons, List.length_append]
      rcases max_cases (depthElement v) (depthPairs qs) with ⟨e, _⟩ | ⟨e, _⟩ <;> rw [e] <;> omega

theorem depthElements_le_tail (es : List JSONElement)
    (H : ∀ e ∈ es, depthElement e ≤ (renderElement e).length) :
    depthElements es + 1 ≤ (renderElementsTail es).length := by
  induction es with
  | nil => rw [depthElements, renderElementsTail]; simp
  | cons q qs ih =>
    have h1 := H q (List.mem_cons_self _ _)
    have h2 := ih (fun p hp => H p (List.mem_cons_of_mem _ hp))
    rw [depthElements, renderElementsTail]
    simp only [List.length_cons, List.length_append]
    rcases max_cases (depthElement q) (depthElements qs) with ⟨e, _⟩ | ⟨e, _⟩ <;> rw [e] <;> omega

theorem depthArray_le (es : List JSONElement) (n : Int)
    (H : ∀ e ∈ es, depthElement e ≤ (renderElement e).length) :
    depthArray (.mk es n) ≤ (renderArray (.mk es n)).length := by
  cases es with
  | nil => rw [depthArray, depthElements, renderArray]; simp
  | cons q qs =>
    have h1 := H q (List.mem_cons_self _ _)
    have h2 := depthElements_le_tail qs (fun p hp => H p (List.mem_cons_of_mem _ hp))
    rw [depthArray, depthElements, renderArray]
    simp only [List.length_cons, List.length_append]
    rcases max_cases (depthElement q) (depthElements qs) with ⟨e, _⟩ | ⟨e, _⟩ <;> rw [e] <;> omega

/-! ## Clean values: the serializer writes the rendered text, and the scanner
walks over it -/

theorem clean_pair_facts (b : Bool) (p : JSONPair) (hp : cleanPair b p)
    (hv : scanPassesBoth (renderElement p.value) ∧
      libjson_JSONElementToString p.value = .ok (renderElement p.value) ∧
      depthElement p.value ≤ (renderElement p.value).length) :
    scanPassesBoth (renderPair p) ∧ libjson_JSONPairToString p = .ok (renderPair p) ∧
      depthElement p.value ≤ (renderPair p).length := by
  cases p with
  | mk k v =>
    rw [cleanPair] at hp
    obtain ⟨⟨t, rfl, ht⟩, _⟩ := hp
    simp only [pair_value_mk] at hv
    refine ⟨renderPair_scan t v ht hv.1, ?_, ?_⟩
    · rw [libjson_JSONPairToString, hv.2.1, renderPair]
      rfl
    · rw [renderPair]
      simp only [pair_value_mk, List.length_cons, List.length_append, Option.getD_some]
      omega

theorem clean_element_facts (b : Bool) (n : Nat) :
    ∀ e : JSONElement, depthElement e = n → cleanElement b e →
      scanPassesBoth (renderElement e) ∧
      libjson_JSONElementToString e = .ok (renderElement e) ∧
      depthElement e ≤ (renderElement e).length := by
  induction n using Nat.strong_induction_on with
  | _ n ih =>
    intro e hd hc
    cases e with
    | mk type o a bo num s =>
      cases type with
      | object =>
        rw [cleanElement] at hc
        rw [depthElement] at hd
        cases o with
        | mk es cnt =>
          rw [cleanObject] at hc
          obtain ⟨⟨rfl, _, hps⟩, _⟩ := hc
          rw [depthObject] at hd
          have hpf : ∀ p ∈ es, scanPassesBoth (renderPair p) ∧
              libjson_JSONPairToString p = .ok (renderPair p) ∧
              depthElement p.value ≤ (renderPair p).length := by
            intro p hp
            have hcp := cleanPairs_mem b es hps p hp
            have hdp := depthPairs_mem es p hp
            refine clean_pair_facts b p hcp (ih (depthElement p.value) (by omega) p.value rfl ?_)
            cases p with
            | mk k v =>
              rw [cleanPair] at hcp
              exact hcp.2
          obtain ⟨body, hb, hs⟩ := renderObject_scan es es.length (fun p hp => (hpf p hp).1)
          refine ⟨?_, ?_, ?_⟩
          · rw [renderElement, hb]
            exact scanPassesBoth_braces body hs
          · rw [libjson_JSONElementToString, renderElement]
            exact o_JSONObjectToString_eq es (fun p hp => (hpf p hp).2.1)
          · rw [depthElement, renderElement]
            exact depthObject_le es _ (fun p hp => (hpf p hp).2.2)
      | array =>
        rw [cleanElement] at hc
        rw [depthElement] at hd
        cases a with
        | mk es cnt =>
          rw [cleanArray] at hc
          obtain ⟨_, ⟨rfl, hes⟩, _⟩ := hc
          rw [depthArray] at hd
          have hef : ∀ e ∈ es, scanPassesBoth (renderElement e) ∧
              libjson_JSONElementToString e = .ok (renderElement e) ∧
              depthElement e ≤ (renderElement e).length := by
            intro e he
            have hde := depthElements_mem es e he
            exact ih (depthElement e) (by omega) e rfl (cleanElements_mem b es hes e he)
          obtain ⟨body, hb, hs⟩ := renderArray_scan es es.length (fun p hp => (hef p hp).1)
          refine ⟨?_, ?_, ?_⟩
          · rw [renderElement, hb]
            exact scanPassesBoth_brackets body hs
          · rw [libjson_JSONElementToString, renderElement]
            exact a_JSONArrayToString_eq es (fun p hp => (hef p hp).2.1)
          · rw [depthElement, renderElement]
            exact depthArray_le es _ (fun p hp => (hef p hp).2.2)
      | boolean =>
        refine ⟨?_, ?_, ?_⟩
        · rw [renderElement]
          apply scanPassesBoth_plain
          cases bo <;> decide
        · rw [libjson_JSONElementToString, renderElement]
        · rw [depthElement]; exact Nat.zero_le _
      | number =>
        rw [cleanElement] at hc
        obtain ⟨_, _, _, ⟨hfit, _⟩, _⟩ := hc
        obtain ⟨_, _, c3, _⟩ := numText_chars num
        refine ⟨?_, ?_, ?_⟩
        · rw [renderElement]
          exact scanPassesBoth_plain _ (fun c hc => isNumChar_plain c (c3 c hc))
        · rw [libjson_JSONElementToString, renderElement, libjson_numberToString]
          have : ¬ (128 ≤ (sprintf_Lf num).length) := by
            have := hfit
            unfold LongDouble.Fits at this
            omega
          simp only [this, if_false]
        · rw [depthElement]; exact Nat.zero_le _
      | string =>
        rw [cleanElement] at hc
        obtain ⟨_, _, _, _, t, rfl, ht⟩ := hc
        refine ⟨?_, ?_, ?_⟩
        · rw [renderElement]
          exact scanPassesBoth_string t ht
        · rw [libjson_JSONElementToString, renderElement]
          rfl
        · rw [depthElement]; exact Nat.zero_le _
      | null =>
        refine ⟨?_, ?_, ?_⟩
        · rw [renderElement]
          apply scanPassesBoth_plain
          decide
        · rw [libjson_JSONElementToString, renderElement]
        · rw [depthElement]; exact Nat.zero_le _

theorem clean_element_scan (b : Bool) (e : JSONElement) (h : cleanElement b e) :
    scanPassesBoth (renderElement e) :=
  (clean_element_facts b _ e rfl h).1

theorem clean_element_ser (b : Bool) (e : JSONElement) (h : cleanElement b e) :
    libjson_JSONElementToString e = .ok (renderElement e) :=
  (clean_element_facts b _ e rfl h).2.1

theorem clean_element_depth (b : Bool) (e : JSONElement) (h : cleanElement b e) :
    depthElement e ≤ (renderElement e).length :=
  (clean_element_facts b _ e rfl h).2.2

/-- The element a setter stores for a clean object is clean. -/
theorem cleanElement_object (b : Bool) (o : JSONObject) (h : cleanObject b o) :
    cleanElement b (.mk .object o a_emptyJSONArray false LongDouble.zero none) := by
  rw [cleanElement]
  exact ⟨h, rfl, rfl, rfl, rfl⟩

theorem cleanElement_array (b : Bool) (a : JSONArray) (h : cleanArray b a) :
    cleanElement b (.mk .array o_emptyJSONObject a false LongDouble.zero none) := by
  rw [cleanElement]
  exact ⟨rfl, h, rfl, rfl, rfl⟩

theorem clean_object_ser (b : Bool) (o : JSONObject) (h : cleanObject b o) :
    o_JSONObjectToString o = .ok (renderObject o) := by
  have := clean_element_ser b _ (cleanElement_object b o h)
  rw [libjson_JSONElementToString, renderElement] at this
  exact this

theorem clean_array_ser (b : Bool) (a : JSONArray) (h : cleanArray b a) :
    a_JSONArrayToString a = .ok (renderArray a) := by
  have := clean_element_ser b _ (cleanElement_array b a h)
  rw [libjson_JSONElementToString, renderElement] at this
  exact this

theorem clean_object_depth (b : Bool) (o : JSONObject) (h : cleanObject b o) :
    depthObject o ≤ (renderObject o).length := by
  have := clean_element_depth b _ (cleanElement_object b o h)
  rw [depthElement, renderElement] at this
  exact this

theorem clean_array_depth (b : Bool) (a : JSONArray) (h : cleanArray b a) :
    depthArray a ≤ (renderArray a).length := by
  have := clean_element_depth b _ (cleanElement_array b a h)
  rw [depthElement, renderElement] at this
  exact this

/-- Balanced-delimiter extraction cuts the rendered text of a clean object
out of any text that starts with it. -/
theorem extractRaw_renderObject (b : Bool) (o : JSONObject) (h : cleanObject b o)
    (rest : List Char) :
    libjson_extractRaw (renderObject o ++ rest) '{' '}' = renderObject o := by
  cases o with
  | mk es cnt =>
    have hc := h
    rw [cleanObject] at hc
    obtain ⟨body, hb, hs⟩ := renderObject_scan es cnt (fun p hp => by
      have hcp := cleanPairs_mem b es hc.2.2 p hp
      refine (clean_pair_facts b p hcp (clean_element_facts b _ p.value rfl ?_)).1
      cases p with
      | mk k v =>
        rw [cleanPair] at hcp
        exact hcp.2)
    rw [hb]
    exact extractRaw_bracketed '{' '}' body rest (by decide) hs.1

/-- Balanced-delimiter extraction cuts the rendered text of a clean array
out of any text that starts with it. -/
theorem extractRaw_renderArray (b : Bool) (a : JSONArray) (h : cleanArray b a)
    (rest : List Char) :
    libjson_extractRaw (renderArray a ++ rest) '[' ']' = renderArray a := by
  cases a with
  | mk es cnt =>
    have hc := h
    rw [cleanArray] at hc
    obtain ⟨body, hb, hs⟩ := renderArray_scan es cnt (fun e he =>
      clean_element_scan b e (cleanElements_mem b es hc.2 e he))
    rw [hb]
    exact extractRaw_bracketed '[' ']' body rest (by decide) hs.2

/-! ## Parser loops: jumps -/

theorem o_loop_skip (pO : List Char → Except Fault JSONObject)
    (pA : List Char → Except Fault JSONArray) (xs rest : List Char) (fb : Bool)
    (o : JSONObject) (key : Option (List Char)) (onValue : Bool) :
    o_parseJSONObject_loop pO pA (xs ++ rest) xs.length fb o key onValue =
      o_parseJSONObject_loop pO pA rest 0 fb o key onValue := by
  induction xs with
  | nil => rfl
  | cons c cs ih => rw [List.cons_append, List.length_cons, o_parseJSONObject_loop, ih]

theorem o_loop_skip_succ (pO : List Char → Except Fault JSONObject)
    (pA : List Char → Except Fault JSONArray) (xs rest : List Char) (fb : Bool)
    (o : JSONObject) (key : Option (List Char)) (onValue : Bool) :
    o_parseJSONObject_loop pO pA (xs ++ rest) (xs.length + 1) fb o key onValue =
      o_parseJSONObject_loop pO pA rest.tail 0 fb o key onValue := by
  induction xs with
  | nil =>
    cases rest with
    | nil => rfl
    | cons c cs => rfl
  | cons c cs ih => rw [List.cons_append, List.length_cons, o_parseJSONObject_loop, ih]

theorem a_loop_skip (pO : List Char → Except Fault JSONObject)
    (pA : List Char → Except Fault JSONArray) (xs rest : List Char) (fb : Bool)
    (a : JSONArray) :
    a_parseJSONArray_loop pO pA (xs ++ rest) xs.length fb a =
      a_parseJSONArray_loop pO pA rest 0 fb a := by
  induction xs with
  | nil => rfl
  | cons c cs ih => rw [List.cons_append, List.length_cons, a_parseJSONArray_loop, ih]

theorem a_loop_skip_succ (pO : List Char → Except Fault JSONObject)
    (pA : List Char → Except Fault JSONArray) (xs rest : List Char) (fb : Bool)
    (a : JSONArray) :
    a_parseJSONArray_loop pO pA (xs ++ rest) (xs.length + 1) fb a =
      a_parseJSONArray_loop pO pA rest.tail 0 fb a := by
  induction xs with
  | nil =>
    cases rest with
    | nil => rfl
    | cons c cs => rfl
  | cons c cs ih => rw [List.cons_append, List.length_cons, a_parseJSONArray_loop, ih]

/-! ## Parser loops: the first character of a number -/

theorem numStart_isspace (c : Char) (h : libjson_isdigit c = true ∨ c = '-') :
    libjson_isspace c = false := by
  cases hs : libjson_isspace c
  · rfl
  · exfalso
    simp only [libjson_isspace, Bool.or_eq_true, beq_iff_eq] at hs
    rcases hs with ((((hs | hs) | hs) | hs) | hs) | hs <;>
      (subst hs; rcases h with h | h <;> revert h <;> decide)

theorem numStart_ne (c x : Char) (h : libjson_isdigit c = true ∨ c = '-')
    (hx : x ∈ ['{', '}', '"', '[', ']', 'n', 't', 'f', ':', ',']) : c ≠ x := by
  intro e
  subst e
  simp only [List.mem_cons, List.mem_singleton, List.not_mem_nil, or_false] at hx
  rcases hx with hx | hx | hx | hx | hx | hx | hx | hx | hx | hx <;>
    (subst hx; rcases h with h | h <;> revert h <;> decide)

theorem o_loop_number (pO : List Char → Except Fault JSONObject)
    (pA : List Char → Except Fault JSONArray) (c : Char) (cs : List Char) (fb : Bool)
    (o : JSONObject) (key : Option (List Char)) (onValue : Bool)
    (h : libjson_isdigit c = true ∨ c = '-') (num : LongDouble) (j : Nat)
    (hst : libjson_stageNumber (c :: cs) = .ok (num, j)) :
    o_parseJSONObject_loop pO pA (c :: cs) 0 fb o key onValue =
      o_parseJSONObject_loop pO pA cs j fb (o_setDouble o key num) none false := by
  have h1 := numStart_isspace c h
  have n1 := numStart_ne c '{' h (by decide)
  have n2 := numStart_ne c '}' h (by decide)
  have n3 := numStart_ne c '"' h (by decide)
  have n4 := numStart_ne c '[' h (by decide)
  have n5 := numStart_ne c 'n' h (by decide)
  have n6 := numStart_ne c 't' h (by decide)
  have n7 := numStart_ne c 'f' h (by decide)
  have n8 := numStart_ne c ':' h (by decide)
  have n9 := numStart_ne c ',' h (by decide)
  have n67 : ¬ (c = 't' ∨ c = 'f') := by
    rintro (e | e)
    · exact n6 e
    · exact n7 e
  rw [o_parseJSONObject_loop, if_neg (by simp [h1]), if_neg n1, if_neg n2, if_neg n3, if_neg n4,
    if_neg n5, if_neg n67, if_neg n8, if_neg n9, if_pos h, hst]

theorem a_loop_number (pO : List Char → Except Fault JSONObject)
    (pA : List Char → Except Fault JSONArray) (c : Char) (cs : List Char) (fb : Bool)
    (a : JSONArray) (h : libjson_isdigit c = true ∨ c = '-') (num : LongDouble) (j : Nat)
    (hst : libjson_stageNumber (c :: cs) = .ok (num, j)) :
    a_parseJSONArray_loop pO pA (c :: cs) 0 fb a =
      a_parseJSONArray_loop pO pA cs j fb (a_setDouble a a.numberOfElements num) := by
  have h1 := numStart_isspace c h
  have n1 := numStart_ne c '[' h (by decide)
  have n2 := numStart_ne c ']' h (by decide)
  have n3 := numStart_ne c '"' h (by decide)
  have n4 := numStart_ne c '{' h (by decide)
  have n5 := numStart_ne c 'n' h (by decide)
  have n6 := numStart_ne c 't' h (by decide)
  have n7 := numStart_ne c 'f' h (by decide)
  have n9 := numStart_ne c ',' h (by decide)
  have n67 : ¬ (c = 't' ∨ c = 'f') := by
    rintro (e | e)
    · exact n6 e
    · exact n7 e
  rw [a_parseJSONArray_loop, if_neg (by simp [h1]), if_neg n1, if_neg n2, if_neg n3, if_neg n4,
    if_neg n5, if_neg n67, if_neg n9, if_pos h, hst]

/-! ## Parser loops: one value -/

theorem renderObject_cons (o : JSONObject) : ∃ r, renderObject o = '{' :: r := by
  cases o with
  | mk es n =>
    cases es with
    | nil => exact ⟨_, by rw [renderObject]⟩
    | cons p ps => exact ⟨_, by rw [renderObject]⟩

theorem renderArray_cons (a : JSONArray) : ∃ r, renderArray a = '[' :: r := by
  cases a with
  | mk es n =>
    cases es with
    | nil => exact ⟨_, by rw [renderArray]⟩
    | cons p ps => exact ⟨_, by rw [renderArray]⟩

/-- In object context, the loop reads the rendered text of a clean value and
binds it to the pending key; after a number it also jumps over the next
character. -/
theorem o_loop_value (pO : List Char → Except Fault JSONObject)
    (pA : List Char → Except Fault JSONArray) (m : Nat)
    (HO : ∀ c, cleanObject true c → depthObject c ≤ m → pO (renderObject c) = .ok c)
    (HA : ∀ c, cleanArray true c → depthArray c ≤ m → pA (renderArray c) = .ok c)
    (v : JSONElement) (hv : cleanElement true v) (hd : depthElement v ≤ m)
    (t : List Char) (ht : ∀ c ∈ t.head?, isNumChar c = false)
    (o : JSONObject) (key : Option (List Char)) :
    ∃ t', (t' = t ∨ t' = t.tail) ∧
      o_parseJSONObject_loop pO pA (renderElement v ++ t) 0 false o key true =
        o_parseJSONObject_loop pO pA t' 0 false (o_setJSONElement o key v) none false := by
  cases v with
  | mk type c a bo num s =>
    cases type with
    | object =>
      rw [cleanElement] at hv
      obtain ⟨hc, rfl, rfl, rfl, rfl⟩ := hv
      rw [depthElement] at hd
      refine ⟨t, Or.inl rfl, ?_⟩
      obtain ⟨r, hr⟩ := renderObject_cons c
      have hx := extractRaw_renderObject true c hc t
      rw [renderElement]
      rw [hr] at hx ⊢
      have step : o_parseJSONObject_loop pO pA ('{' :: r ++ t) 0 false o key true =
          (match pO (libjson_extractRaw ('{' :: r ++ t) '{' '}') with
            | .error e => .error e
            | .ok w =>
              o_parseJSONObject_loop pO pA (r ++ t)
                ((libjson_extractRaw ('{' :: r ++ t) '{' '}').length - 1) false
                (o_setJSONObject o key w) none false) := rfl
      rw [step, hx, ← hr, HO c hc hd, hr]
      simp only [List.length_cons, Nat.add_sub_cancel]
      rw [o_loop_skip]
      rfl
    | array =>
      rw [cleanElement] at hv
      obtain ⟨rfl, hc, rfl, rfl, rfl⟩ := hv
      rw [depthElement] at hd
      refine ⟨t, Or.inl rfl, ?_⟩
      obtain ⟨r, hr⟩ := renderArray_cons a
      have hx := extractRaw_renderArray true a hc t
      rw [renderElement]
      rw [hr] at hx ⊢
      have step : o_parseJSONObject_loop pO pA ('[' :: r ++ t) 0 false o key true =
          (match pA (libjson_extractRaw ('[' :: r ++ t) '[' ']') with
            | .error e => .error e
            | .ok w =>
              o_parseJSONObject_loop pO pA (r ++ t)
                ((libjson_extractRaw ('[' :: r ++ t) '[' ']').length - 1) false
                (o_setJSONArray o key w) none false) := rfl
      rw [step, hx, ← hr, HA a hc hd, hr]
      simp only [List.length_cons, Nat.add_sub_cancel]
      rw [o_loop_skip]
      rfl
    | boolean =>
      rw [cleanElement] at hv
      obtain ⟨rfl, rfl, rfl, rfl⟩ := hv
      refine ⟨t, Or.inl rfl, ?_⟩
      rw [renderElement]
      cases bo <;> rfl
    | number =>
      rw [cleanElement] at hv
      obtain ⟨rfl, rfl, rfl, ⟨hfit, hex⟩, rfl⟩ := hv
      refine ⟨t.tail, Or.inr rfl, ?_⟩
      rw [renderElement]
      obtain ⟨c1, c2, _, _⟩ := numText_chars num
      have hst := stageNumber_numText num hfit t ht
      obtain ⟨c0, r, hr⟩ := List.exists_cons_of_ne_nil c1
      rw [hr] at c2 hst ⊢
      rw [List.cons_append] at hst
      rw [List.cons_append,
        o_loop_number pO pA c0 (r ++ t) false o key true (c2 c0 (by simp)) _ _ hst]
      simp only [List.length_cons]
      rw [o_loop_skip_succ, ← hr, sscanf_numText_exact num (hex rfl)]
      rfl
    | string =>
      rw [cleanElement] at hv
      obtain ⟨rfl, rfl, rfl, rfl, s', rfl, hs⟩ := hv
      refine ⟨t, Or.inl rfl, ?_⟩
      rw [renderElement]
      have e : '"' :: ((some s').getD [] ++ ['"']) ++ t = '"' :: (s' ++ '"' :: t) := by simp
      have step : o_parseJSONObject_loop pO pA ('"' :: (s' ++ '"' :: t)) 0 false o key true =
          o_parseJSONObject_loop pO pA (s' ++ '"' :: t)
            ((libjson_extractString ('"' :: (s' ++ '"' :: t))).length + 1) false
            (o_setString o key (some (libjson_extractString ('"' :: (s' ++ '"' :: t)))))
            none false := rfl
      rw [e, step, extractString_quoted s' t hs]
      have e2 : s' ++ '"' :: t = (s' ++ ['"']) ++ t := by simp
      have e3 : s'.length + 1 = (s' ++ ['"']).length := by simp
      rw [e2, e3, o_loop_skip]
      rfl
    | null =>
      rw [cleanElement] at hv
      obtain ⟨rfl, rfl, rfl, rfl, rfl⟩ := hv
      refine ⟨t, Or.inl rfl, ?_⟩
      rw [renderElement]
      rfl

/-- In array context, the loop reads the rendered text of a clean value and
appends it; after a number it also jumps over the next character. -/
theorem a_loop_value (pO : List Char → Except Fault JSONObject)
    (pA : List Char → Except Fault JSONArray) (m : Nat)
    (HO : ∀ c, cleanObject true c → depthObject c ≤ m → pO (renderObject c) = .ok c)
    (HA : ∀ c, cleanArray true c → depthArray c ≤ m → pA (renderArray c) = .ok c)
    (v : JSONElement) (hv : cleanElement true v) (hd : depthElement v ≤ m)
    (t : List Char) (ht : ∀ c ∈ t.head?, isNumChar c = false)
    (arr : JSONArray) :
    ∃ t', (t' = t ∨ t' = t.tail) ∧
      a_parseJSONArray_loop pO pA (renderElement v ++ t) 0 false arr =
        a_parseJSONArray_loop pO pA t' 0 false
          (a_setJSONElement arr arr.numberOfElements v) := by
  cases v with
  | mk type c a bo num s =>
    cases type with
    | object =>
      rw [cleanElement] at hv
      obtain ⟨hc, rfl, rfl, rfl, rfl⟩ := hv
      rw [depthElement] at hd
      refine ⟨t, Or.inl rfl, ?_⟩
      obtain ⟨r, hr⟩ := renderObject_cons c
      have hx := extractRaw_renderObject true c hc t
      rw [renderElement]
      rw [hr] at hx ⊢
      have step : a_parseJSONArray_loop pO pA ('{' :: r ++ t) 0 false arr =
          (match pO (libjson_extractRaw ('{' :: r ++ t) '{' '}') with
            | .error e => .error e
            | .ok w =>
              a_parseJSONArray_loop pO pA (r ++ t)
                ((libjson_extractRaw ('{' :: r ++ t) '{' '}').length - 1) false
                (a_setJSONObject arr arr.numberOfElements w)) := rfl
      rw [step, hx, ← hr, HO c hc hd, hr]
      simp only [List.length_cons, Nat.add_sub_cancel]
      rw [a_loop_skip]
      rfl
    | array =>
      rw [cleanElement] at hv
      obtain ⟨rfl, hc, rfl, rfl, rfl⟩ := hv
      rw [depthElement] at hd
      refine ⟨t, Or.inl rfl, ?_⟩
      obtain ⟨r, hr⟩ := renderArray_cons a
      have hx := extractRaw_renderArray true a hc t
      rw [renderElement]
      rw [hr] at hx ⊢
      have step : a_parseJSONArray_loop pO pA ('[' :: r ++ t) 0 false arr =
          (match pA (libjson_extractRaw ('[' :: r ++ t) '[' ']') with
            | .error e => .error e
            | .ok w =>
              a_parseJSONArray_loop pO pA (r ++ t)
                ((libjson_extractRaw ('[' :: r ++ t) '[' ']').length - 1) false
                (a_setJSONArray arr arr.numberOfElements w)) := rfl
      rw [step, hx, ← hr, HA a hc hd, hr]
      simp only [List.length_cons, Nat.add_sub_cancel]
      rw [a_loop_skip]
      rfl
    | boolean =>
      rw [cleanElement] at hv
      obtain ⟨rfl, rfl, rfl, rfl⟩ := hv
      refine ⟨t, Or.inl rfl, ?_⟩
      rw [renderElement]
      cases bo <;> rfl
    | number =>
      rw [cleanElement] at hv
      obtain ⟨rfl, rfl, rfl, ⟨hfit, hex⟩, rfl⟩ := hv
      refine ⟨t.tail, Or.inr rfl, ?_⟩
      rw [renderElement]
      obtain ⟨c1, c2, _, _⟩ := numText_chars num
      have hst := stageNumber_numText num hfit t ht
      obtain ⟨c0, r, hr⟩ := List.exists_cons_of_ne_nil c1
      rw [hr] at c2 hst ⊢
      rw [List.cons_append] at hst
      rw [List.cons_append,
        a_loop_number pO pA c0 (r ++ t) false arr (c2 c0 (by simp)) _ _ hst]
      simp only [List.length_cons]
      rw [a_loop_skip_succ, ← hr, sscanf_numText_exact num (hex rfl)]
      rfl
    | string =>
      rw [cleanElement] at hv
      obtain ⟨rfl, rfl, rfl, rfl, s', rfl, hs⟩ := hv
      refine ⟨t, Or.inl rfl, ?_⟩
      rw [renderElement]
      have e : '"' :: ((some s').getD [] ++ ['"']) ++ t = '"' :: (s' ++ '"' :: t) := by simp
      have step : a_parseJSONArray_loop pO pA ('"' :: (s' ++ '"' :: t)) 0 false arr =
          a_parseJSONArray_loop pO pA (s' ++ '"' :: t)
            ((libjson_extractString ('"' :: (s' ++ '"' :: t))).length + 1) false
            (a_setString arr arr.numberOfElements
              (some (libjson_extractString ('"' :: (s' ++ '"' :: t))))) := rfl
      rw [e, step, extractString_quoted s' t hs]
      have e2 : s' ++ '"' :: t = (s' ++ ['"']) ++ t := by simp
      have e3 : s'.length + 1 = (s' ++ ['"']).length := by simp
      rw [e2, e3, a_loop_skip]
      rfl
    | null =>
      rw [cleanElement] at hv
      obtain ⟨rfl, rfl, rfl, rfl, rfl⟩ := hv
      refine ⟨t, Or.inl rfl, ?_⟩
      rw [renderElement]
      rfl

/-! ## Parser loops: the members of a container -/

theorem renderPairsTail_head (ps : List JSONPair) :
    ∀ c ∈ (renderPairsTail ps).head?, isNumChar c = false := by
  intro c hc
  cases ps with
  | nil =>
    rw [renderPairsTail] at hc
    simp only [List.head?_cons, Option.mem_def, Option.some.injEq] at hc
    rw [← hc]; decide
  | cons p ps =>
    rw [renderPairsTail] at hc
    simp only [List.head?_cons, Option.mem_def, Option.some.injEq] at hc
    rw [← hc]; decide

theorem renderElementsTail_head (es : List JSONElement) :
    ∀ c ∈ (renderElementsTail es).head?, isNumChar c = false := by
  intro c hc
  cases es with
  | nil =>
    rw [renderElementsTail] at hc
    simp only [List.head?_cons, Option.mem_def, Option.some.injEq] at hc
    rw [← hc]; decide
  | cons p ps =>
    rw [renderElementsTail] at hc
    simp only [List.head?_cons, Option.mem_def, Option.some.injEq] at hc
    rw [← hc]; decide

/-- Setting a key that no pair of the object has appends the pair. -/
theorem o_setJSONElement_fresh (o : JSONObject) (hw : o.WF) (k : List Char) (v : JSONElement)
    (hk : keysDistinct (o.elements ++ [JSONPair.mk (some k) v])) :
    o_setJSONElement o (some k) v =
      .mk (o.elements ++ [JSONPair.mk (some k) v])
        ((o.elements ++ [JSONPair.mk (some k) v]).length : Nat) := by
  have hd := List.pairwise_append.1 hk
  rw [o_setJSONElement_eq o ⟨hw, hd.1⟩]
  have hf : o.elements.filter (fun p => !libjson_strcmp (some k) p.key) = o.elements := by
    rw [List.filter_eq_self]
    intro q hq
    have := hd.2.2 q hq _ (List.mem_singleton_self _)
    rw [pair_key_mk, libjson_strcmp_comm] at this
    simp [this]
  rw [hf]

/-- After the opening brace, the loop of `o_parseJSONObject` reads the rest of
a rendered object and appends its pairs, whether or not the separator before
it was already jumped over. -/
theorem o_loop_pairsTail (pO : List Char → Except Fault JSONObject)
    (pA : List Char → Except Fault JSONArray) (m : Nat)
    (HO : ∀ c, cleanObject true c → depthObject c ≤ m → pO (renderObject c) = .ok c)
    (HA : ∀ c, cleanArray true c → depthArray c ≤ m → pA (renderArray c) = .ok c)
    (ps : List JSONPair) (hps : cleanPairs true ps) (hdp : depthPairs ps ≤ m) :
    ∀ o : JSONObject, o.WF → keysDistinct (o.elements ++ ps) →
      o_parseJSONObject_loop pO pA (renderPairsTail ps) 0 false o none false =
          .ok (.mk (o.elements ++ ps) ((o.elements ++ ps).length : Nat)) ∧
        o_parseJSONObject_loop pO pA (renderPairsTail ps).tail 0 false o none false =
          .ok (.mk (o.elements ++ ps) ((o.elements ++ ps).length : Nat)) := by
  induction ps with
  | nil =>
    intro o hw _
    have e : JSONObject.mk (o.elements ++ []) ((o.elements ++ []).length : Nat) = o := by
      rw [List.append_nil]
      exact (o_eq_mk_of_WF o hw).symm
    rw [e, renderPairsTail]
    exact ⟨rfl, rfl⟩
  | cons p ps ih =>
    intro o hw hk
    cases p with
    | mk key v =>
      rw [cleanPairs, cleanPair] at hps
      obtain ⟨⟨⟨k, rfl, hkq⟩, hv⟩, hps'⟩ := hps
      rw [depthPairs] at hdp
      have hdv : depthElement v ≤ m := le_trans (le_max_left _ _) hdp
      have hdps : depthPairs ps ≤ m := le_trans (le_max_right _ _) hdp
      have main : o_parseJSONObject_loop pO pA
          (renderPair (.mk (some k) v) ++ renderPairsTail ps) 0 false o none false =
          .ok (.mk (o.elements ++ JSONPair.mk (some k) v :: ps)
            ((o.elements ++ JSONPair.mk (some k) v :: ps).length : Nat)) := by
        have e1 : renderPair (.mk (some k) v) ++ renderPairsTail ps =
            '"' :: (k ++ '"' :: (':' :: (renderElement v ++ renderPairsTail ps))) := by
          rw [renderPair]
          simp
        have step1 : o_parseJSONObject_loop pO pA
            ('"' :: (k ++ '"' :: (':' :: (renderElement v ++ renderPairsTail ps)))) 0 false o
            none false =
            o_parseJSONObject_loop pO pA
              (k ++ '"' :: (':' :: (renderElement v ++ renderPairsTail ps)))
              ((libjson_extractString
                ('"' :: (k ++ '"' :: (':' :: (renderElement v ++ renderPairsTail ps))))).length
                + 1) false o
              (some (libjson_extractString
                ('"' :: (k ++ '"' :: (':' :: (renderElement v ++ renderPairsTail ps))))))
              false := rfl
        have e2 : k ++ '"' :: (':' :: (renderElement v ++ renderPairsTail ps)) =
            (k ++ ['"']) ++ (':' :: (renderElement v ++ renderPairsTail ps)) := by simp
        have e3 : k.length + 1 = (k ++ ['"']).length := by simp
        have step2 : o_parseJSONObject_loop pO pA
            (':' :: (renderElement v ++ renderPairsTail ps)) 0 false o (some k) false =
            o_parseJSONObject_loop pO pA (renderElement v ++ renderPairsTail ps) 0 false o
              (some k) true := rfl
        rw [e1, step1, extractString_quoted k _ hkq, e2, e3, o_loop_skip, step2]
        obtain ⟨t', ht', hval⟩ := o_loop_value pO pA m HO HA v hv hdv (renderPairsTail ps)
          (renderPairsTail_head ps) o (some k)
        rw [hval]
        have hk1 : keysDistinct (o.elements ++ [JSONPair.mk (some k) v]) := by
          have : (o.elements ++ [JSONPair.mk (some k) v]).Sublist
              (o.elements ++ JSONPair.mk (some k) v :: ps) := by
            apply List.Sublist.append_left
            exact List.Sublist.cons₂ _ (List.nil_sublist _)
          exact List.Pairwise.sublist this hk
        rw [o_setJSONElement_fresh o hw k v hk1]
        have hih := ih hps' hdps
          (.mk (o.elements ++ [JSONPair.mk (some k) v])
            ((o.elements ++ [JSONPair.mk (some k) v]).length : Nat)) rfl
          (by rw [o_elements_mk, List.append_assoc]; exact hk)
        rw [o_elements_mk, List.append_assoc, List.singleton_append] at hih
        rcases ht' with rfl | rfl
        · exact hih.1
        · exact hih.2
      rw [renderPairsTail]
      exact ⟨main, main⟩

/-- After the opening bracket, the loop of `a_parseJSONArray` reads the rest
of a rendered array and appends its elements. -/
theorem a_loop_elementsTail (pO : List Char → Except Fault JSONObject)
    (pA : List Char → Except Fault JSONArray) (m : Nat)
    (HO : ∀ c, cleanObject true c → depthObject c ≤ m → pO (renderObject c) = .ok c)
    (HA : ∀ c, cleanArray true c → depthArray c ≤ m → pA (renderArray c) = .ok c)
    (es : List JSONElement) (hes : cleanElements true es) (hde : depthElements es ≤ m) :
    ∀ arr : JSONArray, arr.WF →
      a_parseJSONArray_loop pO pA (renderElementsTail es) 0 false arr =
          .ok (.mk (arr.elements ++ es) ((arr.elements ++ es).length : Nat)) ∧
        a_parseJSONArray_loop pO pA (renderElementsTail es).tail 0 false arr =
          .ok (.mk (arr.elements ++ es) ((arr.elements ++ es).length : Nat)) := by
  induction es with
  | nil =>
    intro arr hw
    have e : JSONArray.mk (arr.elements ++ []) ((arr.elements ++ []).length : Nat) = arr := by
      rw [List.append_nil]
      exact (a_eq_mk_of_WF arr hw).symm
    rw [e, renderElementsTail]
    exact ⟨rfl, rfl⟩
  | cons v es ih =>
    intro arr hw
    rw [cleanElements] at hes
    obtain ⟨hv, hes'⟩ := hes
    rw [depthElements] at hde
    have hdv : depthElement v ≤ m := le_trans (le_max_left _ _) hde
    have hdes : depthElements es ≤ m := le_trans (le_max_right _ _) hde
    have main : a_parseJSONArray_loop pO pA (renderElement v ++ renderElementsTail es) 0 false
        arr = .ok (.mk (arr.elements ++ v :: es) ((arr.elements ++ v :: es).length : Nat)) := by
      obtain ⟨t', ht', hval⟩ := a_loop_value pO pA m HO HA v hv hdv (renderElementsTail es)
        (renderElementsTail_head es) arr
      rw [hval]
      have hset : a_setJSONElement arr arr.numberOfElements v =
          .mk (arr.elements ++ [v]) ((arr.elements ++ [v]).length : Nat) := by
        rw [a_eq_mk_of_WF arr hw, a_numberOfElements_mk, a_elements_mk,
          a_setJSONElement_append]
        simp
      rw [hset]
      have hih := ih hes' hdes (.mk (arr.elements ++ [v]) ((arr.elements ++ [v]).length : Nat)) rfl
      rw [a_elements_mk, List.append_assoc, List.singleton_append] at hih
      rcases ht' with rfl | rfl
      · exact hih.1
      · exact hih.2
    rw [renderElementsTail]
    exact ⟨main, main⟩

/-! ## The parsers on rendered text -/

/-- With a budget of nested calls that covers the depth, the parsers read the
rendered text of a clean container back. -/
theorem parseFuel_render (fuel : Nat) :
    (∀ o, cleanObject true o → depthObject o ≤ fuel → o_parseFuel fuel (renderObject o) = .ok o) ∧
    (∀ a, cleanArray true a → depthArray a ≤ fuel → a_parseFuel fuel (renderArray a) = .ok a) := by
  induction fuel with
  | zero =>
    constructor
    · intro o _ hd
      cases o with
      | mk es n => rw [depthObject] at hd; omega
    · intro a _ hd
      cases a with
      | mk es n => rw [depthArray] at hd; omega
  | succ fuel ih =>
    constructor
    · intro o hc hd
      cases o with
      | mk es n =>
        rw [cleanObject] at hc
        obtain ⟨rfl, hk, hps⟩ := hc
        rw [depthObject] at hd
        rw [o_parseFuel]
        cases es with
        | nil => rw [renderObject]; rfl
        | cons p ps =>
          rw [renderObject]
          have step : o_parseJSONObject_loop (o_parseFuel fuel) (a_parseFuel fuel)
              ('{' :: (renderPair p ++ renderPairsTail ps)) 0 true o_emptyJSONObject none false =
              o_parseJSONObject_loop (o_parseFuel fuel) (a_parseFuel fuel)
                (renderPairsTail (p :: ps)).tail 0 false o_emptyJSONObject none false := by
            rw [renderPairsTail]
            rfl
          rw [step]
          have := (o_loop_pairsTail (o_parseFuel fuel) (a_parseFuel fuel) fuel ih.1 ih.2
            (p :: ps) hps (by omega) o_emptyJSONObject rfl (by simpa [o_emptyJSONObject] using hk)).2
          rw [this]
          simp [o_emptyJSONObject]
    · intro a hc hd
      cases a with
      | mk es n =>
        rw [cleanArray] at hc
        obtain ⟨rfl, hes⟩ := hc
        rw [depthArray] at hd
        rw [a_parseFuel]
        cases es with
        | nil => rw [renderArray]; rfl
        | cons e es =>
          rw [renderArray]
          have step : a_parseJSONArray_loop (o_parseFuel fuel) (a_parseFuel fuel)
              ('[' :: (renderElement e ++ renderElementsTail es)) 0 true a_emptyJSONArray =
              a_parseJSONArray_loop (o_parseFuel fuel) (a_parseFuel fuel)
                (renderElementsTail (e :: es)).tail 0 false a_emptyJSONArray := by
            rw [renderElementsTail]
            rfl
          rw [step]
          have := (a_loop_elementsTail (o_parseFuel fuel) (a_parseFuel fuel) fuel ih.1 ih.2
            (e :: es) hes (by omega) a_emptyJSONArray rfl).2
          rw [this]
          simp [a_emptyJSONArray]

/-- Round trip on clean objects: the serializer writes the rendered text and
the parser reads it back. -/
theorem clean_object_round_trip (o : JSONObject) (h : cleanObject true o) :
    o_JSONObjectToString o = .ok (renderObject o) ∧
      o_parseJSONObject (renderObject o) = .ok o := by
  refine ⟨clean_object_ser true o h, ?_⟩
  unfold o_parseJSONObject
  exact (parseFuel_render _).1 o h (by have := clean_object_depth true o h; omega)

/-- Round trip on clean arrays. -/
theorem clean_array_round_trip (a : JSONArray) (h : cleanArray true a) :
    a_JSONArrayToString a = .ok (renderArray a) ∧
      a_parseJSONArray (renderArray a) = .ok a := by
  refine ⟨clean_array_ser true a h, ?_⟩
  unfold a_parseJSONArray
  exact (parseFuel_render _).2 a h (by have := clean_array_depth true a h; omega)

/-! ## A `long` fits the staging buffer -/

theorem decimalDigits_length_le (f n k : Nat) (hk : 1 ≤ k) (hn : n < 10 ^ k) :
    (decimalDigits f n).length ≤ k := by
  induction f generalizing n k with
  | zero => simp [decimalDigits]
  | succ f ih =>
    unfold decimalDigits
    by_cases c : n < 10
    · rw [if_pos c]
      simpa using hk
    · rw [if_neg c]
      obtain ⟨k', rfl⟩ : ∃ k', k = k' + 1 := ⟨k - 1, by omega⟩
      have hk' : 1 ≤ k' := by
        by_contra h0
        have : k' = 0 := by omega
        subst this
        simp at hn
        omega
      have : n / 10 < 10 ^ k' := by
        rw [pow_succ] at hn
        exact Nat.div_lt_of_lt_mul (by rw [Nat.mul_comm]; exact hn)
      have := ih (n / 10) k' hk' this
      simp only [List.length_append, List.length_singleton]
      omega

theorem ofLong_fits (n : Int) (h0 : LONG_MIN ≤ n) (h1 : n ≤ LONG_MAX) :
    (LongDouble.ofLong n).Fits := by
  unfold LongDouble.Fits
  rw [sprintf_Lf_eq]
  have hm : (LongDouble.ofLong n).millionths = n.natAbs * 10 ^ 6 := by
    simp [LongDouble.millionths, LongDouble.ofLong]
  have hq : n.natAbs * 10 ^ 6 / 10 ^ 6 = n.natAbs := Nat.mul_div_cancel _ (by positivity)
  rw [hm, hq]
  have hb : n.natAbs < 10 ^ 19 := by
    simp only [LONG_MIN, LONG_MAX] at h0 h1
    omega
  have hl := decimalDigits_length_le (n.natAbs + 1) n.natAbs 19 (by omega) hb
  have hf := (fixedDigits_spec 6 (n.natAbs * 10 ^ 6 % 10 ^ 6)).1
  simp only [List.length_append, List.length_cons, hf]
  split <;> simp <;> omega

/-! ## What the mutation API builds is clean -/

theorem cleanObject_valid (b : Bool) (o : JSONObject) (h : cleanObject b o) : o.Valid := by
  cases o with
  | mk es n =>
    rw [cleanObject] at h
    exact ⟨h.1, h.2.1⟩

theorem cleanObject_set (b : Bool) (o : JSONObject) (h : cleanObject b o) (k : List Char)
    (hk : quotesEscaped k = true) (v : JSONElement) (hv : cleanElement b v) :
    cleanObject b (o_setJSONElement o (some k) v) := by
  have hval := cleanObject_valid b o h
  have hv2 := o_setJSONElement_valid o hval (some k) v
  rw [o_setJSONElement_eq o hval] at hv2 ⊢
  rw [cleanObject]
  refine ⟨rfl, hv2.2, ?_⟩
  apply cleanPairs_of_mem
  intro p hp
  rcases List.mem_append.1 hp with hp | hp
  · have hp' := (List.mem_filter.1 hp).1
    cases o with
    | mk es n =>
      rw [cleanObject] at h
      exact cleanPairs_mem b es h.2.2 p hp'
  · rw [List.mem_singleton] at hp
    rw [hp, cleanPair]
    exact ⟨⟨k, rfl, hk⟩, hv⟩

theorem a_setJSONElement_cases (es : List JSONElement) (index : Int) (x : JSONElement) :
    ∃ i : Nat, i ≤ es.length ∧
      a_setJSONElement (.mk es es.length) index x =
        .mk (es.take i ++ x :: es.drop i) ((es.length : Int) + 1) := by
  by_cases c1 : index < 0
  · refine ⟨0, Nat.zero_le _, ?_⟩
    rw [a_setJSONElement_neg _ (by simp) index c1]
    exact a_setJSONElement_eq es 0 (Nat.zero_le _) x
  · by_cases c2 : (es.length : Int) ≤ index
    · refine ⟨es.length, le_refl _, ?_⟩
      rw [a_setJSONElement_ge _ (by simp) index (by simpa using c2)]
      exact a_setJSONElement_eq es es.length (le_refl _) x
    · obtain ⟨i, rfl⟩ := Int.eq_ofNat_of_zero_le (by omega : 0 ≤ index)
      exact ⟨i, by omega, a_setJSONElement_eq es i (by omega) x⟩

theorem cleanArray_set (b : Bool) (a : JSONArray) (h : cleanArray b a) (index : Int)
    (v : JSONElement) (hv : cleanElement b v) :
    cleanArray b (a_setJSONElement a index v) := by
  cases a with
  | mk es n =>
    rw [cleanArray] at h
    obtain ⟨rfl, hes⟩ := h
    obtain ⟨i, hi, e⟩ := a_setJSONElement_cases es index v
    rw [e, cleanArray]
    refine ⟨?_, ?_⟩
    · simp only [List.length_append, List.length_take, List.length_cons, List.length_drop]
      omega
    · apply cleanElements_of_mem
      intro x hx
      rcases List.mem_append.1 hx with hx | hx
      · exact cleanElements_mem b es hes x (List.mem_of_mem_take hx)
      · rcases List.mem_cons.1 hx with hx | hx
        · rw [hx]; exact hv
        · exact cleanElements_mem b es hes x (List.mem_of_mem_drop hx)

/-- The invariant a node of the mutation API has to keep. -/
theorem built_clean (b : Bool) (node : Node) (h : Built b node) :
    match node with
    | .object o => cleanObject b o
    | .array a => cleanArray b a
    | .arg x => cleanElement b x.element := by
  induction h with
  | emptyObject =>
    show cleanObject b o_emptyJSONObject
    rw [o_emptyJSONObject, cleanObject, cleanPairs]
    exact ⟨rfl, List.Pairwise.nil, trivial⟩
  | emptyArray =>
    show cleanArray b a_emptyJSONArray
    rw [a_emptyJSONArray, cleanArray, cleanElements]
    exact ⟨rfl, trivial⟩
  | o_set key _ hk _ ih1 ih2 =>
    show cleanObject b (o_set _ (some key) _)
    rw [o_set_eq]
    exact cleanObject_set b _ ih1 key hk _ ih2
  | a_set index _ _ _ ih1 ih2 =>
    show cleanArray b (a_set _ index _)
    rw [a_set_eq]
    exact cleanArray_set b _ ih1 index _ ih2
  | jsonObject _ ih => exact cleanElement_object b _ ih
  | jsonArray _ ih => exact cleanElement_array b _ ih
  | boolean set =>
    show cleanElement b (SetArg.boolean set).element
    rw [SetArg.element, cleanElement]
    exact ⟨rfl, rfl, rfl, rfl⟩
  | int set h0 h1 =>
    show cleanElement b (SetArg.int set).element
    rw [SetArg.element, cleanElement]
    exact ⟨rfl, rfl, rfl, ⟨ofLong_fits set h0 h1, fun _ => Nat.zero_le _⟩, rfl⟩
  | double set hf he =>
    show cleanElement b (SetArg.double set).element
    rw [SetArg.element, cleanElement]
    exact ⟨rfl, rfl, rfl, ⟨hf, he⟩, rfl⟩
  | string set hs =>
    show cleanElement b (SetArg.string (some set)).element
    rw [SetArg.element, cleanElement]
    exact ⟨rfl, rfl, rfl, rfl, set, rfl, hs⟩
  | null =>
    show cleanElement b SetArg.null.element
    rw [SetArg.element, libjson_emptyJSONElement, cleanElement]
    exact ⟨rfl, rfl, rfl, rfl, rfl⟩

/-! ## Rereading the numbers -/

theorem rereadPairs_keys (ps : List JSONPair) :
    (rereadPairs ps).map JSONPair.key = ps.map JSONPair.key := by
  induction ps with
  | nil => rw [rereadPairs]
  | cons p ps ih =>
    cases p with
    | mk k v => rw [rereadPairs, rereadPair, List.map_cons, List.map_cons, ih]; rfl

theorem keysDistinct_iff_map (ps : List JSONPair) :
    keysDistinct ps ↔ (ps.map JSONPair.key).Pairwise (fun a b => libjson_strcmp a b = false) := by
  unfold keysDistinct
  rw [List.pairwise_map]

theorem rereadPairs_length (ps : List JSONPair) : (rereadPairs ps).length = ps.length := by
  have := congrArg List.length (rereadPairs_keys ps)
  simpa using this

theorem rereadElements_length (es : List JSONElement) :
    (rereadElements es).length = es.length := by
  induction es with
  | nil => rw [rereadElements]
  | cons e es ih => rw [rereadElements, List.length_cons, List.length_cons, ih]

theorem renderPairsTail_congr (ps : List JSONPair)
    (H : ∀ p ∈ ps, renderPair (rereadPair p) = renderPair p) :
    renderPairsTail (rereadPairs ps) = renderPairsTail ps := by
  induction ps with
  | nil => rw [rereadPairs]
  | cons p ps ih =>
    rw [rereadPairs, renderPairsTail, renderPairsTail, H p (List.mem_cons_self _ _),
      ih (fun q hq => H q (List.mem_cons_of_mem _ hq))]

theorem renderElementsTail_congr (es : List JSONElement)
    (H : ∀ e ∈ es, renderElement (rereadElement e) = renderElement e) :
    renderElementsTail (rereadElements es) = renderElementsTail es := by
  induction es with
  | nil => rw [rereadElements]
  | cons p ps ih =>
    rw [rereadElements, renderElementsTail, renderElementsTail, H p (List.mem_cons_self _ _),
      ih (fun q hq => H q (List.mem_cons_of_mem _ hq))]

theorem rereadPairs_clean (ps : List JSONPair)
    (H : ∀ p ∈ ps, cleanPair true (rereadPair p)) : cleanPairs true (rereadPairs ps) := by
  induction ps with
  | nil => rw [rereadPairs, cleanPairs]; trivial
  | cons p ps ih =>
    rw [rereadPairs, cleanPairs]
    exact ⟨H p (List.mem_cons_self _ _), ih (fun q hq => H q (List.mem_cons_of_mem _ hq))⟩

theorem rereadElements_clean (es : List JSONElement)
    (H : ∀ e ∈ es, cleanElement true (rereadElement e)) :
    cleanElements true (rereadElements es) := by
  induction es with
  | nil => rw [rereadElements, cleanElements]; trivial
  | cons p ps ih =>
    rw [rereadElements, cleanElements]
    exact ⟨H p (List.mem_cons_self _ _), ih (fun q hq => H q (List.mem_cons_of_mem _ hq))⟩

/-- Rereading the numbers of a clean value gives a value that is read back
exactly and has the same text. -/
theorem reread_facts (b : Bool) (n : Nat) :
    ∀ e : JSONElement, depthElement e = n → cleanElement b e →
      cleanElement true (rereadElement e) ∧
      renderElement (rereadElement e) = renderElement e := by
  induction n using Nat.strong_induction_on with
  | _ n ih =>
    intro e hd hc
    cases e with
    | mk type o a bo num s =>
      cases type with
      | object =>
        rw [cleanElement] at hc
        rw [depthElement] at hd
        cases o with
        | mk es cnt =>
          rw [cleanObject] at hc
          obtain ⟨⟨rfl, hk, hps⟩, rfl, rfl, rfl, rfl⟩ := hc
          rw [depthObject] at hd
          have hpf : ∀ p ∈ es, cleanPair true (rereadPair p) ∧
              renderPair (rereadPair p) = renderPair p := by
            intro p hp
            have hcp := cleanPairs_mem b es hps p hp
            have hdp := depthPairs_mem es p hp
            cases p with
            | mk k v =>
              rw [cleanPair] at hcp
              have := ih (depthElement v) (by simp only [pair_value_mk] at hdp; omega) v rfl hcp.2
              rw [rereadPair, cleanPair, renderPair, renderPair, this.2]
              exact ⟨⟨hcp.1, this.1⟩, rfl⟩
          rw [rereadElement, rereadObject, cleanElement, cleanObject, renderElement,
            renderElement]
          refine ⟨⟨⟨?_, ?_, rereadPairs_clean es (fun p hp => (hpf p hp).1)⟩, rfl, rfl, rfl,
            rfl⟩, ?_⟩
          · rw [rereadPairs_length]
          · rw [keysDistinct_iff_map, rereadPairs_keys, ← keysDistinct_iff_map]
            exact hk
          · cases es with
            | nil => rw [rereadPairs]
            | cons p ps =>
              rw [rereadPairs, renderObject, renderObject, (hpf p (List.mem_cons_self _ _)).2,
                renderPairsTail_congr ps (fun q hq => (hpf q (List.mem_cons_of_mem _ hq)).2)]
      | array =>
        rw [cleanElement] at hc
        rw [depthElement] at hd
        cases a with
        | mk es cnt =>
          rw [cleanArray] at hc
          obtain ⟨rfl, ⟨rfl, hes⟩, rfl, rfl, rfl⟩ := hc
          rw [depthArray] at hd
          have hef : ∀ e ∈ es, cleanElement true (rereadElement e) ∧
              renderElement (rereadElement e) = renderElement e := by
            intro e he
            have hde := depthElements_mem es e he
            exact ih (depthElement e) (by omega) e rfl (cleanElements_mem b es hes e he)
          rw [rereadElement, rereadArray, cleanElement, cleanArray, renderElement,
            renderElement]
          refine ⟨⟨rfl, ⟨?_, rereadElements_clean es (fun p hp => (hef p hp).1)⟩, rfl, rfl,
            rfl⟩, ?_⟩
          · rw [rereadElements_length]
          · cases es with
            | nil => rw [rereadElements]
            | cons p ps =>
              rw [rereadElements, renderArray, renderArray, (hef p (List.mem_cons_self _ _)).2,
                renderElementsTail_congr ps (fun q hq => (hef q (List.mem_cons_of_mem _ hq)).2)]
      | boolean =>
        rw [cleanElement] at hc
        rw [rereadElement, cleanElement]
        exact ⟨hc, rfl⟩
      | number =>
        rw [cleanElement] at hc
        obtain ⟨rfl, rfl, rfl, ⟨hfit, _⟩, rfl⟩ := hc
        obtain ⟨h1, h2⟩ := sprintf_sscanf_numText num
        rw [rereadElement, cleanElement, renderElement, renderElement, h1]
        refine ⟨⟨rfl, rfl, rfl, ⟨?_, fun _ => h2⟩, rfl⟩, rfl⟩
        unfold LongDouble.Fits at hfit ⊢
        rw [h1]
        exact hfit
      | string =>
        rw [cleanElement] at hc
        rw [rereadElement, cleanElement]
        exact ⟨hc, rfl⟩
      | null =>
        rw [cleanElement] at hc
        rw [rereadElement, cleanElement]
        exact ⟨hc, rfl⟩

theorem reread_object (b : Bool) (o : JSONObject) (h : cleanObject b o) :
    cleanObject true (rereadObject o) ∧ renderObject (rereadObject o) = renderObject o := by
  have := reread_facts b _ _ rfl (cleanElement_object b o h)
  rw [rereadElement, cleanElement, renderElement, renderElement] at this
  exact ⟨this.1.1, this.2⟩

/-- Serialize, parse, serialize on a clean object: the text of the first
serialization. -/
theorem clean_object_idempotent (b : Bool) (o : JSONObject) (h : cleanObject b o) :
    o_JSONObjectToString o = .ok (renderObject o) ∧
      o_parseJSONObject (renderObject o) = .ok (rereadObject o) ∧
      o_JSONObjectToString (rereadObject o) = .ok (renderObject o) := by
  obtain ⟨h1, h2⟩ := reread_object b o h
  obtain ⟨h3, h4⟩ := clean_object_round_trip (rereadObject o) h1
  rw [h2] at h3 h4
  exact ⟨clean_object_ser b o h, h4, h3⟩

/-! ## C1 and C2: trees that do not survive -/

/-- C1 (as stated, refuted): trees built through the mutation API that do not
survive the round trip. A string value `a"b` is serialized without escaping
and parsed back as `a`; the double 0.1234567 is printed with six fractional
digits and parsed back as 0.123457. -/
theorem C1_round_trip_fails :
    ((o_JSONObjectToString (o_setString o_emptyJSONObject (some ['k']) (some ['a', '"', 'b']))
        >>= o_parseJSONObject) =
      .ok (o_setString o_emptyJSONObject (some ['k']) (some ['a'])) ∧
     o_getString (o_setString o_emptyJSONObject (some ['k']) (some ['a', '"', 'b']))
        (some ['k']) = some ['a', '"', 'b'] ∧
     o_getString (o_setString o_emptyJSONObject (some ['k']) (some ['a'])) (some ['k']) =
        some ['a']) ∧
    ((o_JSONObjectToString
        (o_setDouble o_emptyJSONObject (some ['k']) ⟨false, 1234567, 7, Or.inr (by decide)⟩)
        >>= o_parseJSONObject) =
      .ok (o_setDouble o_emptyJSONObject (some ['k']) ⟨false, 123457, 6, Or.inr (by decide)⟩)) :=
  ⟨⟨rfl, rfl, rfl⟩, rfl⟩

/-- C2 (as stated, refuted): for the object with the key `a"b` bound to
`true`, the serializer writes `{"a"b":true}` and serializing what the parser
reads from that text gives `{"":true}`. -/
theorem C2_idempotence_fails :
    o_JSONObjectToString (o_setBoolean o_emptyJSONObject (some ['a', '"', 'b']) true) =
      .ok ['{', '"', 'a', '"', 'b', '"', ':', 't', 'r', 'u', 'e', '}'] ∧
    (o_JSONObjectToString (o_setBoolean o_emptyJSONObject (some ['a', '"', 'b']) true)
        >>= o_parseJSONObject >>= o_JSONObjectToString) =
      .ok ['{', '"', '"', ':', 't', 'r', 'u', 'e', '}'] :=
  ⟨rfl, rfl⟩

/-! ## Claims C11 and C12: lookup misses -/

/-- C11: lookup miss on objects. For every object and every key that is not
present, the looked-up element is the null placeholder: its tag is null, so
`o_isNull` is true and every other type predicate is false, and the typed
getters return the placeholder's fields (false, 0, 0, the `NULL` string, the
empty object and the empty array). -/
theorem C11_lookup_miss (json : JSONObject) (key : Option (List Char))
    (h : o_has json key = false) :
    o_getJSONElement json key = libjson_emptyJSONElement ∧
    (o_getJSONElement json key).type = JSONType.null ∧
    o_isNull json key = true ∧
    o_isJSONObject json key = false ∧
    o_isJSONArray json key = false ∧
    o_isBoolean json key = false ∧
    o_isInt json key = false ∧
    o_isDouble json key = false ∧
    o_isString json key = false ∧
    o_getBoolean json key = false ∧
    o_getInt json key = 0 ∧
    o_getDouble json key = LongDouble.zero ∧
    o_getString json key = none ∧
    o_getJSONObject json key = o_emptyJSONObject ∧
    o_getJSONArray json key = a_emptyJSONArray := by
  have e := o_getJSONElement_of_has_false json key h
  refine ⟨e, ?_, ?_, ?_, ?_, ?_, ?_, ?_, ?_, ?_, ?_, ?_, ?_, ?_, ?_⟩
  · rw [e]; rfl
  · unfold o_isNull; rw [e]; rfl
  · unfold o_isJSONObject; rw [e]; rfl
  · unfold o_isJSONArray; rw [e]; rfl
  · unfold o_isBoolean; rw [e]; rfl
  · unfold o_isInt; rw [e]; rfl
  · unfold o_isDouble; rw [e]; rfl
  · unfold o_isString; rw [e]; rfl
  · unfold o_getBoolean; rw [e]; rfl
  · unfold o_getInt; rw [e]; decide
  · unfold o_getDouble; rw [e]; rfl
  · unfold o_getString; rw [e]; rfl
  · unfold o_getJSONObject; rw [e]; rfl
  · unfold o_getJSONArray; rw [e]; rfl

/-- C11, witness: the key `b` in `{"a":true}`. -/
theorem C11_lookup_miss_witness :
    o_has (o_setBoolean o_emptyJSONObject (some ['a']) true) (some ['b']) = false ∧
      o_isNull (o_setBoolean o_emptyJSONObject (some ['a']) true) (some ['b']) = true ∧
      o_getBoolean (o_setBoolean o_emptyJSONObject (some ['a']) true) (some ['b']) = false :=
  ⟨by decide,
    (C11_lookup_miss (o_setBoolean o_emptyJSONObject (some ['a']) true) (some ['b'])
      (by decide)).2.2.1,
    (C11_lookup_miss (o_setBoolean o_emptyJSONObject (some ['a']) true) (some ['b'])
      (by decide)).2.2.2.2.2.2.2.2.2.1⟩

theorem a_getJSONElement_out (json : JSONArray) (i : Int)
    (h : i < 0 ∨ json.numberOfElements ≤ i) :
    a_getJSONElement json i = libjson_emptyJSONElement := by
  unfold a_getJSONElement
  rw [if_pos h]

/-- C12: out-of-range array indices. For every array with count `n` and every
index `i` with `i < 0` or `i ≥ n`, the lookup returns the null placeholder, so
`a_isNull` is true, every `a_get*` returns the placeholder's field and every
`a_opt*` returns its default; and when the count is the buffer size, for
`0 ≤ i < n` the lookup returns the element stored at `i`. -/
theorem C12_index_out_of_range (json : JSONArray) (i : Int) :
    (i < 0 ∨ json.numberOfElements ≤ i →
      a_getJSONElement json i = libjson_emptyJSONElement ∧
      a_isNull json i = true ∧
      a_getBoolean json i = false ∧
      a_getInt json i = 0 ∧
      a_getDouble json i = LongDouble.zero ∧
      a_getString json i = none ∧
      a_getJSONObject json i = o_emptyJSONObject ∧
      a_getJSONArray json i = a_emptyJSONArray ∧
      (∀ d : JSONObject, a_optJSONObject json i d = d) ∧
      (∀ d : JSONArray, a_optJSONArray json i d = d) ∧
      (∀ d : Bool, a_optBoolean json i d = d) ∧
      (∀ d : Int, a_optInt json i d = d) ∧
      (∀ d : LongDouble, a_optDouble json i d = d) ∧
      (∀ d : Option (List Char), a_optString json i d = d)) ∧
    (json.WF → 0 ≤ i → i < json.numberOfElements →
      json.elements[i.toNat]? = some (a_getJSONElement json i)) := by
  constructor
  · intro h
    have e := a_getJSONElement_out json i h
    refine ⟨e, ?_, ?_, ?_, ?_, ?_, ?_, ?_, ?_, ?_, ?_, ?_, ?_, ?_⟩
    · unfold a_isNull; rw [e]; rfl
    · unfold a_getBoolean; rw [e]; rfl
    · unfold a_getInt; rw [e]; decide
    · unfold a_getDouble; rw [e]; rfl
    · unfold a_getString; rw [e]; rfl
    · unfold a_getJSONObject; rw [e]; rfl
    · unfold a_getJSONArray; rw [e]; rfl
    · intro d; unfold a_optJSONObject; rw [e]; rfl
    · intro d; unfold a_optJSONArray; rw [e]; rfl
    · intro d; unfold a_optBoolean; rw [e]; rfl
    · intro d; unfold a_optInt; rw [e]; rfl
    · intro d; unfold a_optDouble; rw [e]; rfl
    · intro d; unfold a_optString; rw [e]; rfl
  · intro hw h0 h1
    have hlen : i.toNat < json.elements.length := by
      have : json.numberOfElements = json.elements.length := hw
      omega
    unfold a_getJSONElement
    rw [if_neg (by omega), List.getD_eq_getElem?_getD, List.getElem?_eq_getElem hlen]
    rfl

/-- C12, witness: the indices -1, 2 and 1 of the array `[1, 2]`. -/
theorem C12_index_out_of_range_witness :
    a_isNull (a_setInt (a_setInt a_emptyJSONArray 0 1) 1 2) (-1) = true ∧
      a_optInt (a_setInt (a_setInt a_emptyJSONArray 0 1) 1 2) 2 7 = 7 ∧
      (a_setInt (a_setInt a_emptyJSONArray 0 1) 1 2).elements[(1 : Int).toNat]? =
        some (a_getJSONElement (a_setInt (a_setInt a_emptyJSONArray 0 1) 1 2) 1) :=
  ⟨((C12_index_out_of_range (a_setInt (a_setInt a_emptyJSONArray 0 1) 1 2) (-1)).1
      (Or.inl (by decide))).2.1,
    ((C12_index_out_of_range (a_setInt (a_setInt a_emptyJSONArray 0 1) 1 2) 2).1
      (Or.inr (by decide))).2.2.2.2.2.2.2.2.2.2.2.1 7,
    (C12_index_out_of_range (a_setInt (a_setInt a_emptyJSONArray 0 1) 1 2) 1).2
      (by decide) (by decide) (by decide)⟩

/-! ## Claim C13: the string extraction rule -/

theorem backslashRun_snoc (pre : List Char) (c : Char) :
    backslashRun (pre ++ [c]) = if c = '\\' then backslashRun pre + 1 else 0 := by
  unfold backslashRun
  rw [List.reverse_append, List.reverse_singleton, List.singleton_append, List.takeWhile_cons]
  by_cases h : c = '\\'
  · subst h
    simp
  · have : (c == '\\') = false := by simpa using h
    simp [this, h]

/-- The scan loop from index `pre.length` on, with the run of backslashes of
what was read so far: it stops at the first index that closes the string. -/
theorem extractString_loop_first (suf : List Char) :
    ∀ (pre : List Char) (i : Nat), pre.length ≤ i → spec_closesString (pre ++ suf) i →
      (∀ j, pre.length ≤ j → j < i → ¬ spec_closesString (pre ++ suf) j) →
      libjson_extractString_loop suf pre.length (backslashRun pre) = i := by
  induction suf with
  | nil =>
    intro pre i hi hc _
    obtain ⟨_, h2, _⟩ := hc
    rw [List.append_nil] at h2
    have := List.getElem?_eq_none hi
    rw [this] at h2
    cases h2
  | cons c cs ih =>
    intro pre i hi hc hmin
    have hrec : ∀ r, r = backslashRun (pre ++ [c]) → pre.length < i →
        libjson_extractString_loop cs (pre.length + 1) r = i := by
      intro r hr hlt
      have e : pre ++ c :: cs = (pre ++ [c]) ++ cs := by simp
      have := ih (pre ++ [c]) i (by simp; omega) (by rw [← e]; exact hc)
        (by
          intro j hj hji
          rw [← e]
          exact hmin j (by simp at hj; omega) hji)
      rw [List.length_append, List.length_singleton] at this
      rw [hr]
      exact this
    have hat : (pre ++ c :: cs)[pre.length]? = some c := by
      rw [List.getElem?_append_right (le_refl _), Nat.sub_self, List.getElem?_cons_zero]
    have htake : (pre ++ c :: cs).take pre.length = pre := by simp
    rw [libjson_extractString_loop]
    by_cases hq : c = '"'
    · subst hq
      have c1 : ¬ (('"' : Char) = '\\') := by decide
      simp only [c1, if_false, true_and, ne_eq, not_false_eq_true, if_true]
      by_cases hcl : pre.length > 0 ∧ backslashRun pre % 2 = 0
      · rw [if_pos hcl]
        by_contra hne
        exact hmin pre.length (le_refl _) (by omega) ⟨hcl.1, hat, by rw [htake]; exact hcl.2⟩
      · rw [if_neg hcl]
        have hlt : pre.length < i := by
          rcases Nat.lt_or_ge pre.length i with h | h
          · exact h
          · exfalso
            have hei : i = pre.length := by omega
            subst hei
            obtain ⟨h1, _, h3⟩ := hc
            rw [htake] at h3
            exact hcl ⟨h1, h3⟩
        exact hrec 0 (by rw [backslashRun_snoc, if_neg c1]) hlt
    · have hlt : pre.length < i := by
        rcases Nat.lt_or_ge pre.length i with h | h
        · exact h
        · exfalso
          have hei : i = pre.length := by omega
          subst hei
          obtain ⟨_, h2, _⟩ := hc
          rw [hat] at h2
          exact hq (Option.some.inj h2)
      simp only [hq, false_and, if_false]
      apply hrec _ _ hlt
      rw [backslashRun_snoc]
      by_cases hb : c = '\\'
      · simp [hb]
      · simp [hb]

/-- C13: the string extraction rule. For every text that starts with a quote,
if `i` is the first later index that holds a quote preceded by a run of
backslashes of even length (zero included), the scan of
`libjson_extractString` ends at `i` and the result is the characters strictly
between index 0 and index `i`, unchanged; the scan never ends at a quote
preceded by a run of odd length. -/
theorem C13_string_extraction (str : List Char) (i : Nat) (hq : str.head? = some '"')
    (h : spec_closesString str i) (hmin : ∀ j, j < i → ¬ spec_closesString str j) :
    str[0]? = some '"' ∧
    libjson_extractString_loop str 0 0 = i ∧
    libjson_extractString str = (str.drop 1).take (i - 1) ∧
    (∀ j, str[j]? = some '"' → backslashRun (str.take j) % 2 = 1 →
      libjson_extractString_loop str 0 0 ≠ j) := by
  have e : libjson_extractString_loop str 0 0 = i := by
    have := extractString_loop_first str [] i (Nat.zero_le _) (by simpa using h)
      (by intro j _ hj; simpa using hmin j hj)
    simpa [backslashRun] using this
  refine ⟨?_, e, ?_, ?_⟩
  · cases str with
    | nil => cases hq
    | cons c cs => simpa using hq
  · unfold libjson_extractString
    rw [e]
  · intro j _ hodd hj
    rw [e] at hj
    subst hj
    have := h.2.2
    omega

/-- C13, witness: in the text `"a\"b"c` the quote at index 3 follows one
backslash and does not end the string; the quote at index 5 does, and the
result is `a\"b`. -/
theorem C13_string_extraction_witness :
    libjson_extractString ['"', 'a', '\\', '"', 'b', '"', 'c'] =
        (['"', 'a', '\\', '"', 'b', '"', 'c'].drop 1).take (5 - 1) ∧
      libjson_extractString_loop ['"', 'a', '\\', '"', 'b', '"', 'c'] 0 0 ≠ 3 :=
  ⟨(C13_string_extraction ['"', 'a', '\\', '"', 'b', '"', 'c'] 5 rfl (by decide)
      (by decide)).2.2.1,
    (C13_string_extraction ['"', 'a', '\\', '"', 'b', '"', 'c'] 5 rfl (by decide)
      (by decide)).2.2.2 3 (by decide) (by decide)⟩

/-! ## Claim C14: balanced-delimiter extraction -/

/-- Inside a string, the scan loop of `libjson_extractString` and the scan of
the spec leave the string at the same quote. -/
theorem insideString_skip (op cl : Char) (cs : List Char) :
    ∀ (i run : Nat), 0 < i →
      (∀ (j : Nat) (d : Int), spec_insideString op cl cs j d run = none) ∨
      ∃ k, k < cs.length ∧ libjson_extractString_loop cs i run = i + k ∧
        ∀ (j : Nat) (d : Int), spec_insideString op cl cs j d run =
          spec_balancedEnd op cl (cs.drop (k + 1)) (j + k + 1) d := by
  induction cs with
  | nil =>
    intro i run _
    exact Or.inl (fun _ _ => rfl)
  | cons c cs ih =>
    intro i run hi
    by_cases hq : c = '"' ∧ run % 2 = 0
    · refine Or.inr ⟨0, by simp, ?_, ?_⟩
      · obtain ⟨rfl, hr⟩ := hq
        have c1 : ¬ (('"' : Char) = '\\') := by decide
        rw [libjson_extractString_loop]
        simp only [c1, if_false]
        rw [if_pos ⟨trivial, hi, hr⟩]
        rfl
      · intro j d
        rw [spec_insideString, if_pos hq]
        rfl
    · have hcode : libjson_extractString_loop (c :: cs) i run =
          libjson_extractString_loop cs (i + 1) (if c = '\\' then run + 1 else 0) := by
        rw [libjson_extractString_loop]
        by_cases hb : c = '\\'
        · subst hb
          have c1 : ¬ (('\\' : Char) = '"') := by decide
          simp [c1]
        · simp only [hb, if_false, ne_eq, not_false_eq_true, if_true]
          rw [if_neg]
          intro hh
          exact hq ⟨hh.1, hh.2.2⟩
      rcases ih (i + 1) (if c = '\\' then run + 1 else 0) (by omega) with h | ⟨k, hk, h1, h2⟩
      · left
        intro j d
        rw [spec_insideString, if_neg hq]
        exact h _ _
      · right
        refine ⟨k + 1, by simp; omega, ?_, ?_⟩
        · rw [hcode, h1]
          omega
        · intro j d
          rw [spec_insideString, if_neg hq, h2]
          have e : j + 1 + k + 1 = j + (k + 1) + 1 := by omega
          rw [e]
          rfl

/-- The token of a text that starts with a quote, when the string is closed at
index `1 + k`. -/
theorem extractString_length (cs : List Char) (k : Nat) (hk : k < cs.length)
    (h : libjson_extractString_loop cs 1 0 = 1 + k) :
    (libjson_extractString ('"' :: cs)).length = k := by
  have c1 : ¬ (('"' : Char) = '\\') := by decide
  have e : libjson_extractString_loop ('"' :: cs) 0 0 = 1 + k := by
    rw [libjson_extractString_loop]
    simp only [c1, if_false, Nat.lt_irrefl, false_and, and_false, ne_eq, not_false_eq_true,
      if_true]
    exact h
  unfold libjson_extractString
  rw [e, List.drop_one, List.tail_cons, List.length_take]
  omega

/-- Where the scan of the spec finds the closing character, the scan loop of
`libjson_extractRaw` ends. -/
theorem extractRaw_loop_spec (op cl : Char) (n : Nat) :
    ∀ text : List Char, text.length ≤ n → ∀ (i : Nat) (d : Int) (e : Nat),
      spec_balancedEnd op cl text i d = some e →
      libjson_extractRaw_loop op cl text i 0 d = e := by
  induction n with
  | zero =>
    intro text hl i d e h
    have : text = [] := List.eq_nil_of_length_eq_zero (by omega)
    subst this
    cases h
  | succ n ih =>
    intro text hl i d e h
    cases text with
    | nil => cases h
    | cons c cs =>
      have hcs : cs.length ≤ n := by
        rw [List.length_cons] at hl
        omega
      rw [spec_balancedEnd] at h
      rw [libjson_extractRaw_loop]
      by_cases h1 : c = op
      · rw [if_pos h1] at h ⊢
        exact ih cs hcs _ _ _ h
      · rw [if_neg h1] at h ⊢
        by_cases h2 : c = cl
        · rw [if_pos h2] at h ⊢
          by_cases h3 : d - 1 = 0
          · rw [if_pos h3] at h ⊢
            exact Option.some.inj h
          · rw [if_neg h3] at h ⊢
            exact ih cs hcs _ _ _ h
        · rw [if_neg h2] at h ⊢
          by_cases h3 : c = '"'
          · rw [if_pos h3] at h ⊢
            subst h3
            rcases insideString_skip op cl cs 1 0 (by omega) with hn | ⟨k, hk, hk1, hk2⟩
            · rw [hn] at h
              cases h
            · rw [hk2] at h
              rw [extractString_length cs k hk hk1]
              have hsplit : cs = cs.take (k + 1) ++ cs.drop (k + 1) :=
                (List.take_append_drop _ _).symm
              have hlen : (cs.take (k + 1)).length = k + 1 := by
                rw [List.length_take]
                omega
              have hskip := extractRaw_loop_skip op cl (cs.take (k + 1)) (cs.drop (k + 1))
                (i + 1) d
              rw [← hsplit, hlen] at hskip
              rw [hskip]
              have e2 : i + 1 + (k + 1) = i + 1 + k + 1 := by omega
              rw [e2]
              exact ih (cs.drop (k + 1)) (by rw [List.length_drop]; omega) _ _ _ h
          · rw [if_neg h3] at h ⊢
            exact ih cs hcs _ _ _ h

/-- The index the scan of the spec returns holds the close character. -/
theorem spec_balancedEnd_close (op cl : Char) (n : Nat) :
    ∀ text : List Char, text.length ≤ n →
      (∀ (i : Nat) (d : Int) (e : Nat), spec_balancedEnd op cl text i d = some e →
        i ≤ e ∧ text[e - i]? = some cl) ∧
      (∀ (i : Nat) (d : Int) (run e : Nat), spec_insideString op cl text i d run = some e →
        i ≤ e ∧ text[e - i]? = some cl) := by
  induction n with
  | zero =>
    intro text hl
    have : text = [] := List.eq_nil_of_length_eq_zero (by omega)
    subst this
    exact ⟨fun _ _ _ h => (by cases h), fun _ _ _ _ h => (by cases h)⟩
  | succ n ih =>
    intro text hl
    cases text with
    | nil => exact ⟨fun _ _ _ h => (by cases h), fun _ _ _ _ h => (by cases h)⟩
    | cons c cs =>
      have hcs : cs.length ≤ n := by
        rw [List.length_cons] at hl
        omega
      have lift : ∀ (i e : Nat), (i + 1 ≤ e ∧ cs[e - (i + 1)]? = some cl) →
          i ≤ e ∧ (c :: cs)[e - i]? = some cl := by
        intro i e ⟨h1, h2⟩
        refine ⟨by omega, ?_⟩
        have : e - i = (e - (i + 1)) + 1 := by omega
        rw [this, List.getElem?_cons_succ]
        exact h2
      constructor
      · intro i d e h
        rw [spec_balancedEnd] at h
        by_cases h1 : c = op
        · rw [if_pos h1] at h
          exact lift i e ((ih cs hcs).1 _ _ _ h)
        · rw [if_neg h1] at h
          by_cases h2 : c = cl
          · rw [if_pos h2] at h
            by_cases h3 : d - 1 = 0
            · rw [if_pos h3] at h
              have := Option.some.inj h
              subst this
              rw [Nat.sub_self, List.getElem?_cons_zero, h2]
              exact ⟨le_refl _, rfl⟩
            · rw [if_neg h3] at h
              exact lift i e ((ih cs hcs).1 _ _ _ h)
          · rw [if_neg h2] at h
            by_cases h3 : c = '"'
            · rw [if_pos h3] at h
              exact lift i e ((ih cs hcs).2 _ _ _ _ h)
            · rw [if_neg h3] at h
              exact lift i e ((ih cs hcs).1 _ _ _ h)
      · intro i d run e h
        rw [spec_insideString] at h
        by_cases h1 : c = '"' ∧ run % 2 = 0
        · rw [if_pos h1] at h
          exact lift i e ((ih cs hcs).1 _ _ _ h)
        · rw [if_neg h1] at h
          exact lift i e ((ih cs hcs).2 _ _ _ _ h)

/-- C14: balanced-delimiter extraction. For every text that starts with the
open character, if scanning with a depth counter that only counts open and
close characters outside quoted strings finds the first close character that
brings the depth back to zero at index `e`, then `libjson_extractRaw` returns
the text up to and including index `e`, and that index holds the close
character. -/
theorem C14_balanced_extraction (str : List Char) (open_ close : Char) (e : Nat)
    (hstart : str.head? = some open_)
    (h : spec_balancedEnd open_ close str 0 0 = some e) :
    str[0]? = some open_ ∧
    libjson_extractRaw str open_ close = str.take (e + 1) ∧
    str[e]? = some close := by
  refine ⟨?_, ?_, ?_⟩
  · cases str with
    | nil => cases hstart
    | cons c cs => simpa using hstart
  · unfold libjson_extractRaw
    rw [extractRaw_loop_spec open_ close str.length str (le_refl _) 0 0 e h]
  · exact ((spec_balancedEnd_close open_ close str.length str (le_refl _)).1 0 0 e h).2

/-- C14, witness: in the text `{"}":["{"]}x` the braces inside the two strings
do not count, the brackets do not count for the scan of braces, and the token
ends at index 10. -/
theorem C14_balanced_extraction_witness :
    libjson_extractRaw ['{', '"', '}', '"', ':', '[', '"', '{', '"', ']', '}', 'x'] '{' '}' =
      ['{', '"', '}', '"', ':', '[', '"', '{', '"', ']', '}', 'x'].take (10 + 1) :=
  (C14_balanced_extraction ['{', '"', '}', '"', ':', '[', '"', '{', '"', ']', '}', 'x'] '{' '}'
    10 rfl (by decide)).2.1

/-! ## Claim C15: escaped quotes -/

/-- The element `*_setString` stores for a string. -/
theorem cleanElement_string (b : Bool) (c : List Char) (h : quotesEscaped c = true) :
    cleanElement b (.mk .string o_emptyJSONObject a_emptyJSONArray false LongDouble.zero
      (some c)) := by
  rw [cleanElement]
  exact ⟨rfl, rfl, rfl, rfl, c, rfl, h⟩

/-- C15: escaped quotes survive parse and serialize. For every string content
`c` in which each quote comes after a run of backslashes of odd length and
which does not end in such a run, the scanner extracts exactly `c` from the
quoted text, the array parser reads `["c"]` as the array holding the String
`c` and the object parser reads `{"k":"c"}` as the object binding `k` to the
String `c` (raw, not decoded), and serializing that String value gives the
quoted text again. -/
theorem C15_escaped_quotes (c : List Char) (h : quotesEscaped c = true) :
    (∀ rest : List Char, libjson_extractString (['"'] ++ c ++ ['"'] ++ rest) = c) ∧
    a_parseJSONArray (['['] ++ (['"'] ++ c ++ ['"']) ++ [']']) =
      .ok (a_setString a_emptyJSONArray 0 (some c)) ∧
    a_getString (a_setString a_emptyJSONArray 0 (some c)) 0 = some c ∧
    a_isString (a_setString a_emptyJSONArray 0 (some c)) 0 = true ∧
    o_parseJSONObject (['{', '"', 'k', '"', ':'] ++ (['"'] ++ c ++ ['"']) ++ ['}']) =
      .ok (o_setString o_emptyJSONObject (some ['k']) (some c)) ∧
    o_getString (o_setString o_emptyJSONObject (some ['k']) (some c)) (some ['k']) = some c ∧
    libjson_JSONElementToString
        (a_getJSONElement (a_setString a_emptyJSONArray 0 (some c)) 0) =
      .ok (['"'] ++ c ++ ['"']) := by
  have hel := cleanElement_string true c h
  have ha : a_setString a_emptyJSONArray 0 (some c) =
      .mk [.mk .string o_emptyJSONObject a_emptyJSONArray false LongDouble.zero (some c)]
        (([.mk .string o_emptyJSONObject a_emptyJSONArray false LongDouble.zero
          (some c)] : List JSONElement).length : Nat) := rfl
  have ho : o_setString o_emptyJSONObject (some ['k']) (some c) =
      .mk [.mk (some ['k'])
          (.mk .string o_emptyJSONObject a_emptyJSONArray false LongDouble.zero (some c))]
        (([.mk (some ['k'])
          (.mk .string o_emptyJSONObject a_emptyJSONArray false LongDouble.zero
            (some c))] : List JSONPair).length : Nat) := rfl
  refine ⟨?_, ?_, rfl, rfl, ?_, rfl, ?_⟩
  · intro rest
    have e : ['"'] ++ c ++ ['"'] ++ rest = '"' :: (c ++ '"' :: rest) := by simp
    rw [e]
    exact extractString_quoted c rest h
  · have hc : cleanArray true (a_setString a_emptyJSONArray 0 (some c)) := by
      rw [ha, cleanArray, cleanElements, cleanElements]
      exact ⟨rfl, hel, trivial⟩
    have := (clean_array_round_trip _ hc).2
    rw [← this, ha, renderArray, renderElement, renderElementsTail]
    simp
  · have hc : cleanObject true (o_setString o_emptyJSONObject (some ['k']) (some c)) := by
      rw [ho, cleanObject, cleanPairs, cleanPairs, cleanPair]
      refine ⟨rfl, ?_, ⟨⟨['k'], rfl, rfl⟩, hel⟩, trivial⟩
      exact List.pairwise_singleton _ _
    have := (clean_object_round_trip _ hc).2
    rw [← this, ho, renderObject, renderPair, renderElement, renderPairsTail]
    simp
  · have e : a_getJSONElement (a_setString a_emptyJSONArray 0 (some c)) 0 =
        .mk .string o_emptyJSONObject a_emptyJSONArray false LongDouble.zero (some c) := rfl
    rw [e, libjson_JSONElementToString]
    simp

/-- C15, witness: the content `a\"b`. -/
theorem C15_escaped_quotes_witness :
    a_parseJSONArray (['['] ++ (['"'] ++ ['a', '\\', '"', 'b'] ++ ['"']) ++ [']']) =
        .ok (a_setString a_emptyJSONArray 0 (some ['a', '\\', '"', 'b'])) ∧
      libjson_JSONElementToString
          (a_getJSONElement (a_setString a_emptyJSONArray 0 (some ['a', '\\', '"', 'b'])) 0) =
        .ok (['"'] ++ ['a', '\\', '"', 'b'] ++ ['"']) :=
  ⟨(C15_escaped_quotes ['a', '\\', '"', 'b'] rfl).2.1,
    (C15_escaped_quotes ['a', '\\', '"', 'b'] rfl).2.2.2.2.2.2⟩

/-! ## Claim C16: number trimming -/

theorem stripZeros_getLast (fd : List Char) : (stripZeros fd).getLast? ≠ some '0' := by
  induction fd with
  | nil => simp [stripZeros]
  | cons c cs ih =>
    rw [stripZeros]
    by_cases h : stripZeros cs = [] ∧ c = '0'
    · rw [if_pos h]
      simp
    · rw [if_neg h]
      by_cases hs : stripZeros cs = []
      · rw [hs, List.getLast?_singleton]
        intro hc
        exact h ⟨hs, Option.some.inj hc⟩
      · rw [List.getLast?_cons]
        cases hl : (stripZeros cs).getLast? with
        | none => exact absurd (List.getLast?_eq_none_iff.1 hl) hs
        | some y =>
          rw [hl] at ih
          simpa using ih

/-- The trimming of the spec on a text `pre . fd` whose part `pre` has no
point. -/
theorem spec_trimNumber_point (pre fd : List Char) (hpre : ∀ c ∈ pre, c ≠ '.') :
    spec_trimNumber (pre ++ '.' :: fd) =
      pre ++ (if stripZeros fd = [] then [] else '.' :: stripZeros fd) := by
  have hp : ∀ a ∈ pre, (a != '.') = true := by
    intro a ha
    simpa using hpre a ha
  have e1 : (pre ++ '.' :: fd).takeWhile (fun c => c != '.') = pre := by
    rw [List.takeWhile_append_of_pos hp, List.takeWhile_cons_of_neg (by simp)]
    simp
  have e2 : ((pre ++ '.' :: fd).dropWhile (fun c => c != '.')).drop 1 = fd := by
    rw [List.dropWhile_append_of_pos hp, List.dropWhile_cons_of_neg (by simp)]
    rfl
  unfold spec_trimNumber
  simp only [e1, e2]
  split <;> simp

/-- The sign and integer digits of a `%Lf` text. -/
theorem sprintf_Lf_parts (x : LongDouble) :
    ∃ pre fd : List Char, sprintf_Lf x = pre ++ '.' :: fd ∧ pre ≠ [] ∧
      (∀ c ∈ pre, c ≠ '.') ∧ (∀ c ∈ pre.getLast?, libjson_isdigit c = true) ∧
      (∀ c ∈ fd, libjson_isdigit c = true) ∧ fd.length = 6 := by
  have hD := decimalDigits_spec (x.millionths / 10 ^ 6 + 1) (x.millionths / 10 ^ 6)
    (Nat.lt_succ_self _)
  have hF := fixedDigits_spec 6 (x.millionths % 10 ^ 6)
  refine ⟨(if x.neg then ['-'] else []) ++
      decimalDigits (x.millionths / 10 ^ 6 + 1) (x.millionths / 10 ^ 6),
    fixedDigits 6 (x.millionths % 10 ^ 6), ?_, ?_, ?_, ?_, hF.2.1, hF.1⟩
  · rw [sprintf_Lf_eq, List.append_assoc]
  · intro h
    exact hD.1 (List.append_eq_nil.1 h).2
  · intro c hc
    rcases List.mem_append.1 hc with h | h
    · split at h
      · rw [List.mem_singleton] at h
        rw [h]
        decide
      · cases h
    · exact isdigit_ne_point c (hD.2.1 c h)
  · intro c hc
    rw [Option.mem_def, List.getLast?_append] at hc
    cases hl : (decimalDigits (x.millionths / 10 ^ 6 + 1) (x.millionths / 10 ^ 6)).getLast? with
    | none => exact absurd (List.getLast?_eq_none_iff.1 hl) hD.1
    | some y =>
      rw [hl] at hc
      have : y = c := by simpa using hc
      subst this
      exact hD.2.1 y (List.mem_of_getLast?_eq_some hl)

/-- What the serializer writes for a number is the trimming of the spec
applied to the `%Lf` text. -/
theorem libjson_trim_eq_spec (x : LongDouble) :
    libjson_trim (sprintf_Lf x) = spec_trimNumber (sprintf_Lf x) := by
  obtain ⟨pre, fd, e, hne, hpre, _, hfd, _⟩ := sprintf_Lf_parts x
  rw [e, trim_spec pre fd hne hpre hfd, spec_trimNumber_point pre fd hpre]

/-- C16 (as stated, refuted): the number 10^120 is a Number whose `%Lf` text
has 128 characters; with its terminator it does not fit the 128 cells of
`tmp`, and the serializer has no text for it. -/
theorem C16_number_overrun :
    (sprintf_Lf ⟨false, 10 ^ 120, 0, Or.inl rfl⟩).length = 128 ∧
      libjson_JSONElementToString
          (.mk .number o_emptyJSONObject a_emptyJSONArray false
            ⟨false, 10 ^ 120, 0, Or.inl rfl⟩ none) =
        .error Fault.bufferOverrun := by
  set_option maxRecDepth 100000 in
  exact ⟨by decide, rfl⟩

/-- C16 (amended): number trimming. For every Number whose `%Lf` text is
shorter than 128 characters, the serialized text is that fixed-point text
(six fractional digits) with the trailing zeros of the fraction removed, and
the point removed too when the fraction is all zeros; it does not end in a
point, it does not end in `0` when it has a point, and its integer part is
that of the fixed-point text. The numbers 100, 3.0 and 3.14 are written
`100`, `3` and `3.14`. -/
theorem C16_number_trimming :
    (∀ (x : LongDouble) (o : JSONObject) (a : JSONArray) (b : Bool) (s : Option (List Char)),
      x.Fits →
      libjson_JSONElementToString (.mk .number o a b x s) =
        .ok (spec_trimNumber (sprintf_Lf x)) ∧
      (spec_trimNumber (sprintf_Lf x)).getLast? ≠ some '.' ∧
      ('.' ∈ spec_trimNumber (sprintf_Lf x) →
        (spec_trimNumber (sprintf_Lf x)).getLast? ≠ some '0') ∧
      (spec_trimNumber (sprintf_Lf x)).takeWhile (fun c => c != '.') =
        (sprintf_Lf x).takeWhile (fun c => c != '.')) ∧
    libjson_JSONElementToString
        (.mk .number o_emptyJSONObject a_emptyJSONArray false (LongDouble.ofLong 100) none) =
      .ok ['1', '0', '0'] ∧
    libjson_JSONElementToString
        (.mk .number o_emptyJSONObject a_emptyJSONArray false (LongDouble.ofLong 3) none) =
      .ok ['3'] ∧
    libjson_JSONElementToString
        (.mk .number o_emptyJSONObject a_emptyJSONArray false
          ⟨false, 314, 2, Or.inr (by decide)⟩ none) =
      .ok ['3', '.', '1', '4'] := by
  refine ⟨?_, rfl, rfl, rfl⟩
  intro x o a b s hx
  obtain ⟨pre, fd, e, hne, hpre, hlast, hfd, _⟩ := sprintf_Lf_parts x
  have hp : ∀ a ∈ pre, (a != '.') = true := by
    intro a ha
    simpa using hpre a ha
  have hT := spec_trimNumber_point pre fd hpre
  rw [← e] at hT
  have hsz : ∀ c ∈ stripZeros fd, c ≠ '.' := fun c hc =>
    isdigit_ne_point c (hfd c (stripZeros_mem fd c hc))
  refine ⟨?_, ?_, ?_, ?_⟩
  · rw [libjson_JSONElementToString, libjson_numberToString]
    have hlen : ¬ (128 ≤ (sprintf_Lf x).length) := by
      have : (sprintf_Lf x).length < 128 := hx
      omega
    simp only [if_neg hlen]
    rw [libjson_trim_eq_spec]
  · rw [hT]
    intro hl
    have hm := List.mem_of_getLast?_eq_some hl
    by_cases hs : stripZeros fd = []
    · rw [if_pos hs, List.append_nil] at hl hm
      exact hpre _ hm rfl
    · rw [if_neg hs, List.getLast?_append, List.getLast?_cons] at hl
      cases hz : (stripZeros fd).getLast? with
      | none => exact hs (List.getLast?_eq_none_iff.1 hz)
      | some y =>
        rw [hz] at hl
        have : y = '.' := by simpa using hl
        subst this
        exact hsz _ (List.mem_of_getLast?_eq_some hz) rfl
  · rw [hT]
    intro hmem hl
    by_cases hs : stripZeros fd = []
    · rw [if_pos hs, List.append_nil] at hmem
      exact hpre _ hmem rfl
    · rw [if_neg hs, List.getLast?_append, List.getLast?_cons] at hl
      cases hz : (stripZeros fd).getLast? with
      | none => exact hs (List.getLast?_eq_none_iff.1 hz)
      | some y =>
        rw [hz] at hl
        have : y = '0' := by simpa using hl
        subst this
        exact stripZeros_getLast fd hz
  · rw [hT]
    have e1 : (sprintf_Lf x).takeWhile (fun c => c != '.') = pre := by
      rw [e, List.takeWhile_append_of_pos hp, List.takeWhile_cons_of_neg (by simp)]
      simp
    rw [e1]
    by_cases hs : stripZeros fd = []
    · rw [if_pos hs, List.append_nil]
      exact List.takeWhile_eq_self_iff.2 hp
    · rw [if_neg hs, List.takeWhile_append_of_pos hp, List.takeWhile_cons_of_neg (by simp)]
      simp

/-- C16, witness: the number 2.5, written `2.5`: it has a point and does not
end in `0`. -/
theorem C16_number_trimming_witness :
    libjson_JSONElementToString
        (.mk .number o_emptyJSONObject a_emptyJSONArray false
          ⟨false, 25, 1, Or.inr (by decide)⟩ none) =
        .ok (spec_trimNumber (sprintf_Lf ⟨false, 25, 1, Or.inr (by decide)⟩)) ∧
      (spec_trimNumber (sprintf_Lf ⟨false, 25, 1, Or.inr (by decide)⟩)).getLast? ≠ some '0' :=
  ⟨(C16_number_trimming.1 ⟨false, 25, 1, Or.inr (by decide)⟩ o_emptyJSONObject
      a_emptyJSONArray false none (by decide)).1,
    (C16_number_trimming.1 ⟨false, 25, 1, Or.inr (by decide)⟩ o_emptyJSONObject
      a_emptyJSONArray false none (by decide)).2.2.1 (by decide)⟩

/-! ## Claim C17: duplicate keys in a parsed text -/

/-- The object the parser builds from the pairs of a text: one
`o_setJSONElement` per pair, in the order of the text. -/
theorem o_loop_pairsFold (pO : List Char → Except Fault JSONObject)
    (pA : List Char → Except Fault JSONArray) (m : Nat)
    (HO : ∀ c, cleanObject true c → depthObject c ≤ m → pO (renderObject c) = .ok c)
    (HA : ∀ c, cleanArray true c → depthArray c ≤ m → pA (renderArray c) = .ok c)
    (ps : List JSONPair) (hps : cleanPairs true ps) (hdp : depthPairs ps ≤ m) :
    ∀ o : JSONObject,
      o_parseJSONObject_loop pO pA (renderPairsTail ps) 0 false o none false =
          .ok (ps.foldl (fun acc p => o_setJSONElement acc p.key p.value) o) ∧
        o_parseJSONObject_loop pO pA (renderPairsTail ps).tail 0 false o none false =
          .ok (ps.foldl (fun acc p => o_setJSONElement acc p.key p.value) o) := by
  induction ps with
  | nil =>
    intro o
    rw [renderPairsTail]
    exact ⟨rfl, rfl⟩
  | cons p ps ih =>
    intro o
    cases p with
    | mk key v =>
      rw [cleanPairs, cleanPair] at hps
      obtain ⟨⟨⟨k, rfl, hkq⟩, hv⟩, hps'⟩ := hps
      rw [depthPairs] at hdp
      have hdv : depthElement v ≤ m := le_trans (le_max_left _ _) hdp
      have hdps : depthPairs ps ≤ m := le_trans (le_max_right _ _) hdp
      have main : o_parseJSONObject_loop pO pA
          (renderPair (.mk (some k) v) ++ renderPairsTail ps) 0 false o none false =
          .ok ((JSONPair.mk (some k) v :: ps).foldl
            (fun acc p => o_setJSONElement acc p.key p.value) o) := by
        have e1 : renderPair (.mk (some k) v) ++ renderPairsTail ps =
            '"' :: (k ++ '"' :: (':' :: (renderElement v ++ renderPairsTail ps))) := by
          rw [renderPair]
          simp
        have step1 : o_parseJSONObject_loop pO pA
            ('"' :: (k ++ '"' :: (':' :: (renderElement v ++ renderPairsTail ps)))) 0 false o
            none false =
            o_parseJSONObject_loop pO pA
              (k ++ '"' :: (':' :: (renderElement v ++ renderPairsTail ps)))
              ((libjson_extractString
                ('"' :: (k ++ '"' :: (':' :: (renderElement v ++ renderPairsTail ps))))).length
                + 1) false o
              (some (libjson_extractString
                ('"' :: (k ++ '"' :: (':' :: (renderElement v ++ renderPairsTail ps))))))
              false := rfl
        have e2 : k ++ '"' :: (':' :: (renderElement v ++ renderPairsTail ps)) =
            (k ++ ['"']) ++ (':' :: (renderElement v ++ renderPairsTail ps)) := by simp
        have e3 : k.length + 1 = (k ++ ['"']).length := by simp
        have step2 : o_parseJSONObject_loop pO pA
            (':' :: (renderElement v ++ renderPairsTail ps)) 0 false o (some k) false =
            o_parseJSONObject_loop pO pA (renderElement v ++ renderPairsTail ps) 0 false o
              (some k) true := rfl
        rw [e1, step1, extractString_quoted k _ hkq, e2, e3, o_loop_skip, step2]
        obtain ⟨t', ht', hval⟩ := o_loop_value pO pA m HO HA v hv hdv (renderPairsTail ps)
          (renderPairsTail_head ps) o (some k)
        rw [hval, List.foldl_cons, pair_key_mk, pair_value_mk]
        have hih := ih hps' hdps (o_setJSONElement o (some k) v)
        rcases ht' with rfl | rfl
        · exact hih.1
        · exact hih.2
      rw [renderPairsTail]
      exact ⟨main, main⟩

theorem libjson_strcmp_decide (a : Option (List Char)) (k : List Char) :
    libjson_strcmp a (some k) = decide (a = some k) := by
  cases a with
  | none => rw [libjson_strcmp_none]; simp
  | some s => rw [libjson_strcmp_some]; simp

/-- Setting the pairs of a list one after the other, on a valid object: the
pairs of the object that no pair of the list overrides, then the pairs of the
list that no later one overrides. -/
theorem foldl_set_lastWriteWins (ps : List JSONPair) (hk : ∀ p ∈ ps, ∃ k, p.key = some k) :
    ∀ o : JSONObject, o.Valid →
      (ps.foldl (fun acc p => o_setJSONElement acc p.key p.value) o).Valid ∧
      ps.foldl (fun acc p => o_setJSONElement acc p.key p.value) o =
        .mk (o.elements.filter (fun q => !ps.any (fun p => libjson_strcmp p.key q.key)) ++
            spec_lastWriteWins ps)
          ((o.elements.filter (fun q => !ps.any (fun p => libjson_strcmp p.key q.key)) ++
            spec_lastWriteWins ps).length : Nat) := by
  induction ps with
  | nil =>
    intro o ho
    refine ⟨ho, ?_⟩
    have e : o.elements.filter (fun q => !([] : List JSONPair).any
        (fun p => libjson_strcmp p.key q.key)) ++ spec_lastWriteWins [] = o.elements := by
      simp [spec_lastWriteWins]
    rw [e]
    exact o_eq_mk_of_WF o ho.1
  | cons p ps ih =>
    intro o ho
    obtain ⟨k, hpk⟩ := hk p (List.mem_cons_self _ _)
    have hk' : ∀ q ∈ ps, ∃ k, q.key = some k := fun q hq => hk q (List.mem_cons_of_mem _ hq)
    have hset := o_setJSONElement_eq o ho p.key p.value
    have hval := o_setJSONElement_valid o ho p.key p.value
    obtain ⟨h1, h2⟩ := ih hk' (o_setJSONElement o p.key p.value) hval
    rw [List.foldl_cons]
    refine ⟨h1, ?_⟩
    rw [h2]
    have hp : JSONPair.mk p.key p.value = p := by cases p; rfl
    have hany : ps.any (fun q => libjson_strcmp q.key p.key) =
        ps.any (fun q => decide (q.key = p.key)) := by
      congr 1
      funext q
      rw [hpk, libjson_strcmp_decide]
    have hL : (o_setJSONElement o p.key p.value).elements.filter
          (fun q => !ps.any (fun p => libjson_strcmp p.key q.key)) ++ spec_lastWriteWins ps =
        o.elements.filter (fun q => !(p :: ps).any (fun p => libjson_strcmp p.key q.key)) ++
          spec_lastWriteWins (p :: ps) := by
      rw [hset, o_elements_mk, hp, List.filter_append, List.filter_filter, spec_lastWriteWins,
        ← hany]
      have hf : o.elements.filter (fun a =>
            (!ps.any (fun p => libjson_strcmp p.key a.key)) && !libjson_strcmp p.key a.key) =
          o.elements.filter (fun q => !(p :: ps).any (fun p => libjson_strcmp p.key q.key)) := by
        congr 1
        funext a
        rw [List.any_cons, Bool.not_or, Bool.and_comm]
      rw [hf]
      by_cases ha : ps.any (fun q => libjson_strcmp q.key p.key) = true
      · simp [ha]
      · simp [ha]
    rw [hL]

/-- On a buffer with distinct keys the lookup of the key of a pair of the
buffer returns that pair's value. -/
theorem o_getJSONElement_mem (l : List JSONPair) (hd : keysDistinct l) (q : JSONPair)
    (hq : q ∈ l) (k : List Char) (hk : q.key = some k) :
    o_getJSONElement (.mk l l.length) (some k) = q.value := by
  unfold o_getJSONElement
  rw [o_elements_mk, o_numberOfElements_mk, Int.toNat_ofNat]
  induction l with
  | nil => cases hq
  | cons r rs ih =>
    rw [List.length_cons, o_getJSONElement_loop]
    rw [keysDistinct, List.pairwise_cons] at hd
    rcases List.mem_cons.1 hq with rfl | hmem
    · rw [hk, libjson_strcmp_some]
      simp
    · have := hd.1 q hmem
      rw [hk, libjson_strcmp_comm] at this
      rw [this]
      exact ih hd.2 hmem

theorem spec_lastWriteWins_subset (pre l : List JSONPair) :
    ∀ q ∈ spec_lastWriteWins l, q ∈ spec_lastWriteWins (pre ++ l) := by
  induction pre with
  | nil => intro q hq; exact hq
  | cons a pre ih =>
    intro q hq
    rw [List.cons_append, spec_lastWriteWins]
    split
    · exact ih q hq
    · exact List.mem_cons_of_mem _ (ih q hq)

theorem spec_lastWriteWins_mem (ps : List JSONPair) :
    ∀ q ∈ spec_lastWriteWins ps, q ∈ ps := by
  induction ps with
  | nil => intro q hq; exact hq
  | cons a ps ih =>
    intro q hq
    rw [spec_lastWriteWins] at hq
    split at hq
    · exact List.mem_cons_of_mem _ (ih q hq)
    · rcases List.mem_cons.1 hq with rfl | h
      · exact List.mem_cons_self _ _
      · exact List.mem_cons_of_mem _ (ih q h)

theorem cleanPairs_depth (ps : List JSONPair) (h : cleanPairs true ps) :
    ∀ p ∈ ps, depthElement p.value ≤ (renderPair p).length := by
  intro p hp
  have hc := cleanPairs_mem true ps h p hp
  have hv : cleanElement true p.value := by
    cases p with
    | mk key value =>
      rw [cleanPair] at hc
      exact hc.2
  exact (clean_pair_facts true p hc
    ⟨clean_element_scan true _ hv, clean_element_ser true _ hv,
      clean_element_depth true _ hv⟩).2.2

theorem cleanPairs_key (ps : List JSONPair) (h : cleanPairs true ps) :
    ∀ p ∈ ps, ∃ k, p.key = some k := by
  intro p hp
  have hc := cleanPairs_mem true ps h p hp
  cases p with
  | mk key value =>
    rw [cleanPair] at hc
    obtain ⟨⟨t, ht, _⟩, _⟩ := hc
    exact ⟨t, ht⟩

/-- With a budget that covers the depth of the values, the object parser
reads the text of a list of pairs as the object built by one
`o_setJSONElement` per pair. -/
theorem parseFuel_fold (fuel : Nat) (ps : List JSONPair) (hps : cleanPairs true ps)
    (hd : depthPairs ps ≤ fuel) (n : Int) :
    o_parseFuel (fuel + 1) (renderObject (.mk ps n)) =
      .ok (ps.foldl (fun acc p => o_setJSONElement acc p.key p.value) o_emptyJSONObject) := by
  rw [o_parseFuel]
  cases ps with
  | nil => rw [renderObject]; rfl
  | cons p ps =>
    rw [renderObject]
    have step : o_parseJSONObject_loop (o_parseFuel fuel) (a_parseFuel fuel)
        ('{' :: (renderPair p ++ renderPairsTail ps)) 0 true o_emptyJSONObject none false =
        o_parseJSONObject_loop (o_parseFuel fuel) (a_parseFuel fuel)
          (renderPairsTail (p :: ps)).tail 0 false o_emptyJSONObject none false := by
      rw [renderPairsTail]
      rfl
    rw [step]
    exact (o_loop_pairsFold (o_parseFuel fuel) (a_parseFuel fuel) fuel
      (parseFuel_render fuel).1 (parseFuel_render fuel).2 (p :: ps) hps hd
      o_emptyJSONObject).2

/-- C17: duplicate keys in a parsed text resolve by last-write-wins. For every
object text made of pairs `"key":value` between braces, separated by commas,
whatever keys repeat (the values written as the serializer writes them), the
parser returns the pairs whose key does not occur again further on, in their
order: every key is held once, and the lookup of a key returns the value of
its last occurrence in the text. The text `{"a":1,"a":2}` parses to the
single pair `a = 2`. -/
theorem C17_last_write_wins :
    (∀ ps : List JSONPair, cleanPairs true ps →
      o_parseJSONObject (renderObject (.mk ps ps.length)) =
        .ok (.mk (spec_lastWriteWins ps) (spec_lastWriteWins ps).length) ∧
      ((spec_lastWriteWins ps).map JSONPair.key).Nodup ∧
      (∀ (pre : List JSONPair) (q : JSONPair) (post : List JSONPair),
        ps = pre ++ q :: post → (∀ r ∈ post, r.key ≠ q.key) →
        o_has (.mk (spec_lastWriteWins ps) (spec_lastWriteWins ps).length) q.key = true ∧
        o_getJSONElement (.mk (spec_lastWriteWins ps) (spec_lastWriteWins ps).length) q.key =
          q.value)) ∧
    o_parseJSONObject ['{', '"', 'a', '"', ':', '1', ',', '"', 'a', '"', ':', '2', '}'] =
      .ok (o_setInt o_emptyJSONObject (some ['a']) 2) := by
  refine ⟨?_, rfl⟩
  intro ps hps
  have hkeys := cleanPairs_key ps hps
  obtain ⟨hvalid, hfold⟩ := foldl_set_lastWriteWins ps hkeys o_emptyJSONObject
    o_emptyJSONObject_valid
  have hnil : (o_emptyJSONObject.elements.filter
      (fun q => !ps.any (fun p => libjson_strcmp p.key q.key)) ++ spec_lastWriteWins ps) =
      spec_lastWriteWins ps := rfl
  rw [hnil] at hfold
  have hdist : keysDistinct (spec_lastWriteWins ps) := by
    have := hvalid.2
    rw [hfold, o_elements_mk] at this
    exact this
  refine ⟨?_, ?_, ?_⟩
  · unfold o_parseJSONObject
    have hdepth : depthPairs ps ≤ 2 * (renderObject (.mk ps ps.length)).length + 1 := by
      have := depthObject_le ps ps.length (cleanPairs_depth ps hps)
      rw [depthObject] at this
      omega
    have e : 2 * (renderObject (.mk ps ps.length)).length + 2 =
        (2 * (renderObject (.mk ps ps.length)).length + 1) + 1 := rfl
    rw [e, parseFuel_fold _ ps hps hdepth, hfold]
  · rw [List.Nodup, List.pairwise_map]
    refine List.Pairwise.imp_of_mem ?_ hdist
    intro a b ha _ hab heq
    obtain ⟨k, hk⟩ := hkeys a (spec_lastWriteWins_mem ps a ha)
    rw [← heq, hk, libjson_strcmp_some] at hab
    simp at hab
  · intro pre q post he hlast
    obtain ⟨k, hk⟩ := hkeys q (by rw [he]; simp)
    have hq : q ∈ spec_lastWriteWins ps := by
      rw [he]
      apply spec_lastWriteWins_subset pre (q :: post)
      rw [spec_lastWriteWins]
      have hany : post.any (fun r => decide (r.key = q.key)) = false := by
        rw [List.any_eq_false]
        intro r hr
        simpa using hlast r hr
      rw [hany]
      exact List.mem_cons_self _ _
    constructor
    · rw [o_has_eq_any (.mk (spec_lastWriteWins ps) (spec_lastWriteWins ps).length) rfl,
        o_elements_mk, List.any_eq_true]
      refine ⟨q, hq, ?_⟩
      rw [hk, libjson_strcmp_some]
      simp
    · rw [hk]
      exact o_getJSONElement_mem _ hdist q hq k hk

/-- C17, witness: the pairs `a = 1`, `b = true`, `a = 2`, whose text is
`{"a":1,"b":true,"a":2}`; the lookup of `a` gives 2. -/
theorem C17_last_write_wins_witness :
    o_parseJSONObject (renderObject (.mk
        [.mk (some ['a']) (SetArg.int 1).element, .mk (some ['b']) (SetArg.boolean true).element,
          .mk (some ['a']) (SetArg.int 2).element] 3)) =
      .ok (.mk (spec_lastWriteWins
        [.mk (some ['a']) (SetArg.int 1).element, .mk (some ['b']) (SetArg.boolean true).element,
          .mk (some ['a']) (SetArg.int 2).element]) 2) ∧
    o_getJSONElement (.mk (spec_lastWriteWins
        [.mk (some ['a']) (SetArg.int 1).element, .mk (some ['b']) (SetArg.boolean true).element,
          .mk (some ['a']) (SetArg.int 2).element]) 2) (some ['a']) =
      (SetArg.int 2).element :=
  have h := C17_last_write_wins.1
    [.mk (some ['a']) (SetArg.int 1).element, .mk (some ['b']) (SetArg.boolean true).element,
      .mk (some ['a']) (SetArg.int 2).element]
    ⟨⟨⟨['a'], rfl, rfl⟩, rfl, rfl, rfl, ⟨by decide, fun _ => by decide⟩, rfl⟩,
      ⟨⟨['b'], rfl, rfl⟩, rfl, rfl, rfl, rfl⟩,
      ⟨⟨['a'], rfl, rfl⟩, rfl, rfl, rfl, ⟨by decide, fun _ => by decide⟩, rfl⟩, trivial⟩
  ⟨h.1,
    (h.2.2 [.mk (some ['a']) (SetArg.int 1).element,
        .mk (some ['b']) (SetArg.boolean true).element]
      (.mk (some ['a']) (SetArg.int 2).element) [] rfl (fun _ hr => nomatch hr)).2⟩

/-! ## Claims C18 and C19: parsing two texts -/

/-- C18: nested containers parse recursively. The parser reads
`{"a":{"b":[1,2,3]}}` as the object binding `a` to the object binding `b` to
the array of the numbers 1, 2, 3; `o_getJSONObject` for `a`, then
`o_getJSONArray` for `b`, gives an array of length 3 whose element at index 1
is the number 2. -/
theorem C18_nested_parse :
    o_parseJSONObject ['{', '"', 'a', '"', ':', '{', '"', 'b', '"', ':', '[', '1', ',', '2',
        ',', '3', ']', '}', '}'] =
      .ok (o_setJSONObject o_emptyJSONObject (some ['a'])
        (o_setJSONArray o_emptyJSONObject (some ['b'])
          (a_setInt (a_setInt (a_setInt a_emptyJSONArray 0 1) 1 2) 2 3))) ∧
    o_getJSONArray
        (o_getJSONObject
          (o_setJSONObject o_emptyJSONObject (some ['a'])
            (o_setJSONArray o_emptyJSONObject (some ['b'])
              (a_setInt (a_setInt (a_setInt a_emptyJSONArray 0 1) 1 2) 2 3)))
          (some ['a']))
        (some ['b']) =
      a_setInt (a_setInt (a_setInt a_emptyJSONArray 0 1) 1 2) 2 3 ∧
    (a_setInt (a_setInt (a_setInt a_emptyJSONArray 0 1) 1 2) 2 3).numberOfElements = 3 ∧
    (a_setInt (a_setInt (a_setInt a_emptyJSONArray 0 1) 1 2) 2 3).elements.length = 3 ∧
    a_isDouble (a_setInt (a_setInt (a_setInt a_emptyJSONArray 0 1) 1 2) 2 3) 1 = true ∧
    a_isInt (a_setInt (a_setInt (a_setInt a_emptyJSONArray 0 1) 1 2) 2 3) 1 = true ∧
    a_getDouble (a_setInt (a_setInt (a_setInt a_emptyJSONArray 0 1) 1 2) 2 3) 1 =
      LongDouble.ofLong 2 ∧
    a_getInt (a_setInt (a_setInt (a_setInt a_emptyJSONArray 0 1) 1 2) 2 3) 1 = 2 :=
  ⟨rfl, rfl, rfl, rfl, rfl, rfl, rfl, by decide⟩

/-- C19: end-to-end parse. The parser reads `{"x":true,"y":null,"z":[1,2]}` as
the object binding `x` to true, `y` to null and `z` to the array of the
numbers 1, 2: `o_has` for `x` is true, `o_getBoolean` for `x` is true,
`o_isNull` for `y` is true, and `o_getJSONArray` for `z` has length 2 with the
number 1 at index 0. -/
theorem C19_end_to_end :
    o_parseJSONObject ['{', '"', 'x', '"', ':', 't', 'r', 'u', 'e', ',', '"', 'y', '"', ':',
        'n', 'u', 'l', 'l', ',', '"', 'z', '"', ':', '[', '1', ',', '2', ']', '}'] =
      .ok (o_setJSONArray (o_setNull (o_setBoolean o_emptyJSONObject (some ['x']) true)
        (some ['y'])) (some ['z']) (a_setInt (a_setInt a_emptyJSONArray 0 1) 1 2)) ∧
    o_has (o_setJSONArray (o_setNull (o_setBoolean o_emptyJSONObject (some ['x']) true)
        (some ['y'])) (some ['z']) (a_setInt (a_setInt a_emptyJSONArray 0 1) 1 2))
      (some ['x']) = true ∧
    o_getBoolean (o_setJSONArray (o_setNull (o_setBoolean o_emptyJSONObject (some ['x']) true)
        (some ['y'])) (some ['z']) (a_setInt (a_setInt a_emptyJSONArray 0 1) 1 2))
      (some ['x']) = true ∧
    o_has (o_setJSONArray (o_setNull (o_setBoolean o_emptyJSONObject (some ['x']) true)
        (some ['y'])) (some ['z']) (a_setInt (a_setInt a_emptyJSONArray 0 1) 1 2))
      (some ['y']) = true ∧
    o_isNull (o_setJSONArray (o_setNull (o_setBoolean o_emptyJSONObject (some ['x']) true)
        (some ['y'])) (some ['z']) (a_setInt (a_setInt a_emptyJSONArray 0 1) 1 2))
      (some ['y']) = true ∧
    o_getJSONArray (o_setJSONArray (o_setNull (o_setBoolean o_emptyJSONObject (some ['x']) true)
        (some ['y'])) (some ['z']) (a_setInt (a_setInt a_emptyJSONArray 0 1) 1 2))
      (some ['z']) = a_setInt (a_setInt a_emptyJSONArray 0 1) 1 2 ∧
    (a_setInt (a_setInt a_emptyJSONArray 0 1) 1 2).numberOfElements = 2 ∧
    (a_setInt (a_setInt a_emptyJSONArray 0 1) 1 2).elements.length = 2 ∧
    a_getDouble (a_setInt (a_setInt a_emptyJSONArray 0 1) 1 2) 0 = LongDouble.ofLong 1 ∧
    a_getInt (a_setInt (a_setInt a_emptyJSONArray 0 1) 1 2) 0 = 1 :=
  ⟨rfl, rfl, rfl, rfl, rfl, rfl, rfl, rfl, rfl, by decide⟩

/-! ## Claim C20: container rendering -/

theorem intercalate_cons_cons (sep t u : List Char) (us : List (List Char)) :
    List.intercalate sep (t :: u :: us) = t ++ sep ++ List.intercalate sep (u :: us) := by
  simp [List.intercalate, List.intersperse]

theorem o_JSONObjectToString_loop_texts (ps : List JSONPair) :
    ∀ (p : JSONPair) (t : List Char) (texts : List (List Char)) (i n : Int) (str : List Char),
      i + (ps.length + 1 : Nat) = n → libjson_JSONPairToString p = .ok t →
      List.Forall₂ (fun q u => libjson_JSONPairToString q = .ok u) ps texts →
      o_JSONObjectToString_loop (p :: ps) i n str =
        .ok (str ++ List.intercalate [','] (t :: texts) ++ ['}']) := by
  induction ps with
  | nil =>
    intro p t texts i n str hn hp hF
    cases hF
    simp only [List.length_nil, Nat.zero_add, Nat.cast_one] at hn
    rw [o_JSONObjectToString_loop, if_pos (by omega), hp]
    simp only []
    rw [if_neg (by omega), o_JSONObjectToString_loop]
    simp [List.intercalate]
  | cons q qs ih =>
    intro p t texts i n str hn hp hF
    cases hF with
    | cons hq hrest =>
      simp only [List.length_cons, Nat.cast_add, Nat.cast_one] at hn
      rw [o_JSONObjectToString_loop, if_pos (by omega), hp]
      simp only []
      rw [if_pos (by omega), ih q _ _ (i + 1) n _ (by push_cast; omega) hq hrest,
        intercalate_cons_cons]
      simp

theorem a_JSONArrayToString_loop_texts (es : List JSONElement) :
    ∀ (e : JSONElement) (t : List Char) (texts : List (List Char)) (i n : Int)
      (str : List Char),
      i + (es.length + 1 : Nat) = n → libjson_JSONElementToString e = .ok t →
      List.Forall₂ (fun q u => libjson_JSONElementToString q = .ok u) es texts →
      a_JSONArrayToString_loop (e :: es) i n str =
        .ok (str ++ List.intercalate [','] (t :: texts) ++ [']']) := by
  induction es with
  | nil =>
    intro e t texts i n str hn he hF
    cases hF
    simp only [List.length_nil, Nat.zero_add, Nat.cast_one] at hn
    rw [a_JSONArrayToString_loop, if_pos (by omega), he]
    simp only []
    rw [if_neg (by omega), a_JSONArrayToString_loop]
    simp [List.intercalate]
  | cons q qs ih =>
    intro e t texts i n str hn he hF
    cases hF with
    | cons hq hrest =>
      simp only [List.length_cons, Nat.cast_add, Nat.cast_one] at hn
      rw [a_JSONArrayToString_loop, if_pos (by omega), he]
      simp only []
      rw [if_pos (by omega), ih q _ _ (i + 1) n _ (by push_cast; omega) hq hrest,
        intercalate_cons_cons]
      simp

/-- C20: container rendering. For every object whose count is its buffer size
and whose pairs have the texts `texts`, `o_JSONObjectToString` is `{`, the
texts in the order of the pairs separated by single commas, and `}`, with
nothing else; the text of a pair is `"key":value`; likewise
`a_JSONArrayToString` is `[`, the texts of the elements in index order
separated by single commas, and `]`; the empty object is written `{}` and the
empty array `[]`. -/
theorem C20_container_rendering :
    (∀ (json : JSONObject) (texts : List (List Char)), json.WF →
      List.Forall₂ (fun p t => libjson_JSONPairToString p = .ok t) json.elements texts →
      o_JSONObjectToString json = .ok (['{'] ++ List.intercalate [','] texts ++ ['}'])) ∧
    (∀ (key : List Char) (value : JSONElement) (t : List Char),
      libjson_JSONElementToString value = .ok t →
      libjson_JSONPairToString (.mk (some key) value) = .ok (['"'] ++ key ++ ['"', ':'] ++ t)) ∧
    (∀ (json : JSONArray) (texts : List (List Char)), json.WF →
      List.Forall₂ (fun e t => libjson_JSONElementToString e = .ok t) json.elements texts →
      a_JSONArrayToString json = .ok (['['] ++ List.intercalate [','] texts ++ [']'])) ∧
    o_JSONObjectToString o_emptyJSONObject = .ok ['{', '}'] ∧
    a_JSONArrayToString a_emptyJSONArray = .ok ['[', ']'] := by
  refine ⟨?_, ?_, ?_, rfl, rfl⟩
  · intro json texts hw hF
    rw [o_eq_mk_of_WF json hw] at hF ⊢
    rw [o_elements_mk] at hF
    generalize json.elements = es at hF
    cases hF with
    | nil => rfl
    | cons hp hrest =>
      rw [o_JSONObjectToString, o_JSONObjectToString_loop_texts _ _ _ _ 0 _ _ (by simp) hp hrest]
      simp only [List.length_cons, Nat.cast_add, Nat.cast_one]
      rw [if_neg (by omega)]
  · intro key value t hv
    rw [libjson_JSONPairToString, hv]
    simp
  · intro json texts hw hF
    rw [a_eq_mk_of_WF json hw] at hF ⊢
    rw [a_elements_mk] at hF
    generalize json.elements = es at hF
    cases hF with
    | nil => rfl
    | cons hp hrest =>
      rw [a_JSONArrayToString, a_JSONArrayToString_loop_texts _ _ _ _ 0 _ _ (by simp) hp hrest]
      simp only [List.length_cons, Nat.cast_add, Nat.cast_one]
      rw [if_neg (by omega)]

/-- C20, witness: the object `{"a":1,"b":true}`, its pair `"b":true` and the
array `[1,true]`. -/
theorem C20_container_rendering_witness :
    o_JSONObjectToString (o_setBoolean (o_setInt o_emptyJSONObject (some ['a']) 1) (some ['b'])
        true) =
      .ok (['{'] ++ List.intercalate [',']
        [['"', 'a', '"', ':', '1'], ['"', 'b', '"', ':', 't', 'r', 'u', 'e']] ++ ['}']) ∧
    libjson_JSONPairToString (.mk (some ['b']) (SetArg.boolean true).element) =
      .ok (['"'] ++ ['b'] ++ ['"', ':'] ++ ['t', 'r', 'u', 'e']) ∧
    a_JSONArrayToString (a_setBoolean (a_setInt a_emptyJSONArray 0 1) 1 true) =
      .ok (['['] ++ List.intercalate [','] [['1'], ['t', 'r', 'u', 'e']] ++ [']']) :=
  ⟨C20_container_rendering.1
      (o_setBoolean (o_setInt o_emptyJSONObject (some ['a']) 1) (some ['b']) true)
      [['"', 'a', '"', ':', '1'], ['"', 'b', '"', ':', 't', 'r', 'u', 'e']]
      (by decide) (List.Forall₂.cons rfl (List.Forall₂.cons rfl List.Forall₂.nil)),
    C20_container_rendering.2.1 ['b'] (SetArg.boolean true).element ['t', 'r', 'u', 'e'] rfl,
    C20_container_rendering.2.2.1 (a_setBoolean (a_setInt a_emptyJSONArray 0 1) 1 true)
      [['1'], ['t', 'r', 'u', 'e']]
      (by decide) (List.Forall₂.cons rfl (List.Forall₂.cons rfl List.Forall₂.nil))⟩

/-! ## Claim C21: scalar rendering -/

/-- C21: scalar rendering. For every element, `libjson_JSONElementToString`
writes `true` or `false` for a Bool, `null` for a Null, and for a String with
content `c` the text `"c"`: a quote, the characters of `c` unchanged, a
quote. The fields the tag does not select have no effect. -/
theorem C21_scalar_rendering (o : JSONObject) (a : JSONArray) (b : Bool) (n : LongDouble)
    (s : Option (List Char)) :
    libjson_JSONElementToString (.mk .boolean o a true n s) = .ok ['t', 'r', 'u', 'e'] ∧
    libjson_JSONElementToString (.mk .boolean o a false n s) = .ok ['f', 'a', 'l', 's', 'e'] ∧
    libjson_JSONElementToString (.mk .null o a b n s) = .ok ['n', 'u', 'l', 'l'] ∧
    (∀ c : List Char,
      libjson_JSONElementToString (.mk .string o a b n (some c)) =
        .ok (['"'] ++ c ++ ['"'])) := by
  refine ⟨?_, ?_, ?_, ?_⟩
  · rw [libjson_JSONElementToString]; rfl
  · rw [libjson_JSONElementToString]; rfl
  · rw [libjson_JSONElementToString]
  · intro c
    rw [libjson_JSONElementToString]
    simp

/-! ## Claim C22: the array length invariant -/

theorem a_set_WF (json : JSONArray) (h : json.WF) (i : Int) (x : SetArg) :
    (a_set json i x).WF ∧ 0 ≤ (a_set json i x).numberOfElements := by
  rw [a_set_eq, a_eq_mk_of_WF json h]
  obtain ⟨k, hk, e⟩ := a_setJSONElement_cases json.elements i x.element
  rw [e]
  constructor
  · show ((json.elements.length : Int) + 1) = _
    simp only [a_elements_mk, List.length_append, List.length_take, List.length_cons,
      List.length_drop]
    omega
  · rw [a_numberOfElements_mk]
    omega

theorem a_remove_WF_iff (json : JSONArray) (h : json.WF) (i : Int) :
    ((a_remove json i).WF ∧ 0 ≤ (a_remove json i).numberOfElements) ↔
      1 ≤ json.numberOfElements := by
  have hn : json.numberOfElements = json.elements.length := h
  unfold a_remove
  simp only [JSONArray.WF, a_numberOfElements_mk, a_elements_mk, List.length_take,
    length_shiftLeft]
  omega

/-- C22 (the defect): `a_remove` decrements the count and shrinks the buffer
with no check of the index or of the count. On the empty array, `a_remove`
with index 0 leaves the count -1 with no element. Every `a_set*` call keeps
the invariant for any index, and `a_remove` keeps it exactly on the arrays
that are not empty. -/
theorem C22_remove_on_empty :
    (a_runCalls [.remove 0]).numberOfElements = -1 ∧
    (a_runCalls [.remove 0]).elements = [] ∧
    ¬ (a_runCalls [.remove 0]).WF ∧
    (∀ (json : JSONArray) (i : Int) (x : SetArg), json.WF →
      (a_set json i x).WF ∧ 0 ≤ (a_set json i x).numberOfElements) ∧
    (∀ (json : JSONArray) (i : Int), json.WF →
      (((a_remove json i).WF ∧ 0 ≤ (a_remove json i).numberOfElements) ↔
        1 ≤ json.numberOfElements)) :=
  ⟨by decide, rfl, by decide, fun json i x h => a_set_WF json h i x,
    fun json i h => a_remove_WF_iff json h i⟩

/-- C22, witness: on the array `[1]` a call `a_setNull` with index -3 keeps
the invariant, and `a_remove` with index 7 keeps it too. -/
theorem C22_remove_on_empty_witness :
    (a_set (a_setInt a_emptyJSONArray 0 1) (-3) .null).WF ∧
      (a_remove (a_setInt a_emptyJSONArray 0 1) 7).WF :=
  ⟨(C22_remove_on_empty.2.2.2.1 (a_setInt a_emptyJSONArray 0 1) (-3) .null (by decide)).1,
    ((C22_remove_on_empty.2.2.2.2 (a_setInt a_emptyJSONArray 0 1) 7 (by decide)).2
      (by decide)).1⟩

/-! ## Claim C23: the null predicate -/

/-- With distinct keys, the lookup of a key that a pair of the buffer has
returns that pair's value. -/
theorem o_getJSONElement_match (json : JSONObject) (h : json.Valid) (key : Option (List Char))
    (p : JSONPair) (hp : p ∈ json.elements) (hm : libjson_strcmp key p.key = true) :
    o_getJSONElement json key = p.value := by
  obtain ⟨s, hk, hpk⟩ := (libjson_strcmp_iff key p.key).1 hm
  rw [o_eq_mk_of_WF json h.1, hk]
  exact o_getJSONElement_mem json.elements h.2 p hp s hpk

/-- When the key is present, the lookup returns the value of a pair of the
buffer whose key matches. -/
theorem o_getJSONElement_loop_has (key : Option (List Char)) (l : List JSONPair) (k : Nat)
    (h : o_has_loop key l k = true) :
    ∃ p ∈ l, libjson_strcmp key p.key = true ∧ o_getJSONElement_loop key l k = p.value := by
  induction l generalizing k with
  | nil => simp [o_has_loop] at h
  | cons q qs ih =>
    cases k with
    | zero => simp [o_has_loop] at h
    | succ k =>
      rw [o_has_loop] at h
      rw [o_getJSONElement_loop]
      by_cases hq : libjson_strcmp key q.key = true
      · rw [if_pos hq]
        exact ⟨q, List.mem_cons_self _ _, hq, rfl⟩
      · rw [if_neg hq] at h ⊢
        obtain ⟨p, hp, h1, h2⟩ := ih k h
        exact ⟨p, List.mem_cons_of_mem _ hp, h1, h2⟩

/-- C23 (as stated, refuted): after `o_setNull(obj, NULL)` on the empty object
`o_has(obj, NULL)` is false, because `libjson_strcmp` never matches the `NULL`
key. -/
theorem C23_null_key_absent :
    o_has (o_setNull o_emptyJSONObject none) none = false ∧
      o_isNull (o_setNull o_emptyJSONObject none) none = true ∧
      (o_setNull o_emptyJSONObject none).numberOfElements = 1 :=
  ⟨by decide, by decide, by decide⟩

/-- C23 (amended): the null predicate. For every valid object and every key,
`o_isNull` is true if and only if the key is not present or a pair of the
object has that key and a value with the null tag; and after `o_setNull` with
a key that is not `NULL` both `o_has` and `o_isNull` are true for that key. -/
theorem C23_is_null (json : JSONObject) (h : json.Valid) :
    (∀ key : Option (List Char),
      o_isNull json key = true ↔
        (o_has json key = false ∨
          ∃ p ∈ json.elements, libjson_strcmp key p.key = true ∧
            p.value.type = JSONType.null)) ∧
    (∀ k : List Char,
      o_has (o_setNull json (some k)) (some k) = true ∧
      o_isNull (o_setNull json (some k)) (some k) = true) := by
  constructor
  · intro key
    constructor
    · intro hn
      by_cases hh : o_has json key = true
      · right
        obtain ⟨p, hp, h1, h2⟩ := o_getJSONElement_loop_has key json.elements
          json.numberOfElements.toNat hh
        refine ⟨p, hp, h1, ?_⟩
        unfold o_isNull o_getJSONElement at hn
        rw [h2] at hn
        simpa using hn
      · left
        simpa using hh
    · rintro (hh | ⟨p, hp, h1, h2⟩)
      · unfold o_isNull
        rw [o_getJSONElement_of_has_false json key hh]
        rfl
      · unfold o_isNull
        rw [o_getJSONElement_match json h key p hp h1, h2]
        rfl
  · intro k
    refine ⟨o_has_set json h k _, ?_⟩
    unfold o_isNull o_setNull
    rw [o_getJSONElement_set json h k]
    rfl

/-- C23, witness: the object `{"a":1}` and the key `b`. -/
theorem C23_is_null_witness :
    o_has (o_setNull (o_setInt o_emptyJSONObject (some ['a']) 1) (some ['b'])) (some ['b']) =
        true ∧
      o_isNull (o_setNull (o_setInt o_emptyJSONObject (some ['a']) 1) (some ['b']))
        (some ['b']) = true :=
  (C23_is_null (o_setInt o_emptyJSONObject (some ['a']) 1) (by decide)).2 ['b']

/-! ## Claim C24: the integer predicate -/

theorem spec_isWhole_iff (d : LongDouble) : spec_isWhole d ↔ d.exp = 0 := by
  unfold spec_isWhole
  constructor
  · intro h
    rcases d.canon with h0 | h1
    · exact h0
    · by_contra hne
      apply h1
      have hd : 10 ∣ 10 ^ d.exp := dvd_pow_self 10 hne
      have hm : 10 ^ d.exp ∣ d.mant := Nat.dvd_of_mod_eq_zero h
      exact Nat.mod_eq_zero_of_dvd (dvd_trans hd hm)
  · intro h
    rw [h, pow_zero, Nat.mod_one]

theorem toLong_eq (d : LongDouble) :
    d.toLong = if LONG_MIN ≤ spec_truncation d ∧ spec_truncation d ≤ LONG_MAX
      then spec_truncation d else LONG_MIN := rfl

/-- The comparison `d == libjson_floor(d)`: true exactly for the numbers with
no fractional part whose truncation is a `long`. -/
theorem ceq_floor_iff (d : LongDouble) :
    d.ceq (libjson_floor d) = true ↔
      (spec_isWhole d ∧ LONG_MIN ≤ spec_truncation d ∧ spec_truncation d ≤ LONG_MAX) := by
  rw [spec_isWhole_iff]
  unfold libjson_floor
  rw [toLong_eq]
  obtain ⟨neg, mant, exp, canon⟩ := d
  simp only [LongDouble.ceq, LongDouble.ofLong, Bool.or_eq_true, Bool.and_eq_true, beq_iff_eq,
    LongDouble.mk.injEq]
  by_cases hr : LONG_MIN ≤ spec_truncation ⟨neg, mant, exp, canon⟩ ∧
      spec_truncation ⟨neg, mant, exp, canon⟩ ≤ LONG_MAX
  · rw [if_pos hr]
    constructor
    · rintro (⟨h1, _⟩ | ⟨_, _, h3⟩)
      · have : exp = 0 := by
          rcases canon with h0 | h0
          · exact h0
          · rw [h1] at h0
            exact absurd rfl h0
        exact ⟨this, hr⟩
      · exact ⟨h3, hr⟩
    · rintro ⟨h0, _⟩
      subst h0
      unfold spec_truncation
      simp only [pow_zero, Nat.div_one]
      by_cases hm : mant = 0
      · left
        subst hm
        cases neg <;> simp
      · right
        cases neg
        · simp
        · simp
          omega
  · rw [if_neg hr]
    constructor
    · rintro (⟨h1, _⟩ | ⟨h1, h2, h3⟩)
      · exfalso
        apply hr
        subst h1
        unfold spec_truncation LONG_MIN LONG_MAX
        cases neg <;> simp
      · exfalso
        apply hr
        subst h3
        have hm : mant = 2 ^ 63 := by
          rw [h2]
          decide
        subst hm
        have hn : neg = true := by
          rw [h1]
          decide
        subst hn
        unfold spec_truncation LONG_MIN LONG_MAX
        simp
    · rintro ⟨_, h⟩
      exact absurd h hr

/-- C24 (as stated, refuted): the number 2^63 equals its own truncation, and
after `o_setDouble` with it `o_isInt` is false: the truncation goes through a
`long`, and 2^63 is not a `long`. -/
theorem C24_large_integer :
    spec_isWhole ⟨false, 2 ^ 63, 0, Or.inl rfl⟩ ∧
    spec_truncation ⟨false, 2 ^ 63, 0, Or.inl rfl⟩ = 2 ^ 63 ∧
    o_isDouble (o_setDouble o_emptyJSONObject (some ['k']) ⟨false, 2 ^ 63, 0, Or.inl rfl⟩)
      (some ['k']) = true ∧
    o_isInt (o_setDouble o_emptyJSONObject (some ['k']) ⟨false, 2 ^ 63, 0, Or.inl rfl⟩)
      (some ['k']) = false ∧
    a_isInt (a_setDouble a_emptyJSONArray 0 ⟨false, 2 ^ 63, 0, Or.inl rfl⟩) 0 = false :=
  ⟨by decide, by decide, by decide, by decide, by decide⟩

/-- C24 (amended): the integer predicate. `o_isInt` (and `a_isInt`) is true if
and only if the looked-up value has the number tag, its value equals its own
truncation toward zero, and that truncation is a `long`. Hence after
`o_setInt` with a key that is not `NULL` both `o_isInt` and `o_isDouble` are
true for the key, and after `o_setDouble` with a number that has a non-zero
fraction `o_isInt` is false and `o_isDouble` is true. -/
theorem C24_integer_predicate :
    (∀ (json : JSONObject) (key : Option (List Char)),
      o_isInt json key = true ↔
        ((o_getJSONElement json key).type = JSONType.number ∧
          spec_isWhole (o_getJSONElement json key).number ∧
          LONG_MIN ≤ spec_truncation (o_getJSONElement json key).number ∧
          spec_truncation (o_getJSONElement json key).number ≤ LONG_MAX)) ∧
    (∀ (json : JSONArray) (index : Int),
      a_isInt json index = true ↔
        ((a_getJSONElement json index).type = JSONType.number ∧
          spec_isWhole (a_getJSONElement json index).number ∧
          LONG_MIN ≤ spec_truncation (a_getJSONElement json index).number ∧
          spec_truncation (a_getJSONElement json index).number ≤ LONG_MAX)) ∧
    (∀ (json : JSONObject) (k : List Char) (n : Int), json.Valid →
      LONG_MIN ≤ n → n ≤ LONG_MAX →
      o_isInt (o_setInt json (some k) n) (some k) = true ∧
      o_isDouble (o_setInt json (some k) n) (some k) = true) ∧
    (∀ (json : JSONObject) (k : List Char) (d : LongDouble), json.Valid →
      ¬ spec_isWhole d →
      o_isInt (o_setDouble json (some k) d) (some k) = false ∧
      o_isDouble (o_setDouble json (some k) d) (some k) = true) := by
  refine ⟨?_, ?_, ?_, ?_⟩
  · intro json key
    unfold o_isInt
    simp only [Bool.and_eq_true, beq_iff_eq]
    rw [ceq_floor_iff]
  · intro json index
    unfold a_isInt
    simp only [Bool.and_eq_true, beq_iff_eq]
    rw [ceq_floor_iff]
  · intro json k n h h0 h1
    have e : o_getJSONElement (o_setInt json (some k) n) (some k) =
        .mk .number o_emptyJSONObject a_emptyJSONArray false (LongDouble.ofLong n) none :=
      o_getJSONElement_set json h k _
    constructor
    · unfold o_isInt
      simp only [e, JSONElement.type, JSONElement.number, Bool.and_eq_true, beq_iff_eq,
        true_and]
      unfold libjson_floor
      rw [toLong_ofLong n h0 h1]
      simp [LongDouble.ceq]
    · unfold o_isDouble
      rw [e]
      rfl
  · intro json k d h hd
    have e : o_getJSONElement (o_setDouble json (some k) d) (some k) =
        .mk .number o_emptyJSONObject a_emptyJSONArray false d none :=
      o_getJSONElement_set json h k _
    constructor
    · unfold o_isInt
      simp only [e, JSONElement.type, JSONElement.number]
      cases hc : d.ceq (libjson_floor d) with
      | false => rfl
      | true => exact absurd ((ceq_floor_iff d).1 hc).1 hd
    · unfold o_isDouble
      rw [e]
      rfl

/-- C24, witness: in the object `{"a":true}` the key `n` set to the integer 7
and the key `x` set to 2.5. -/
theorem C24_integer_predicate_witness :
    o_isInt (o_setInt (o_setBoolean o_emptyJSONObject (some ['a']) true) (some ['n']) 7)
        (some ['n']) = true ∧
      o_isInt (o_setDouble (o_setBoolean o_emptyJSONObject (some ['a']) true) (some ['x'])
        ⟨false, 25, 1, Or.inr (by decide)⟩) (some ['x']) = false :=
  ⟨(C24_integer_predicate.2.2.1 (o_setBoolean o_emptyJSONObject (some ['a']) true) ['n'] 7
      (by decide) (by decide) (by decide)).1,
    (C24_integer_predicate.2.2.2 (o_setBoolean o_emptyJSONObject (some ['a']) true) ['x']
      ⟨false, 25, 1, Or.inr (by decide)⟩ (by decide) (by decide)).1⟩

/-! ## Claim C25: the closing delimiter after a number -/

/-- C25 (the defect): the number branch of both parsers leaves the cursor one
past the literal, and the `i++` of the loop then jumps over the character
after it. When the last member of a text is a number that character is the
closing delimiter: the scan goes on into what follows. The text `{"a":1}`
parses to the pair `a = 1`, and `{"a":1}` followed by `,"b":2}` parses to the
pairs `a = 1`, `b = 2`; `[1]` followed by `,2]` parses to `[1,2]`. After a
member that is not a number the closing delimiter ends the scan:
`{"a":"x"}` followed by `,"b":2}` parses to the pair `a = "x"`. -/
theorem C25_closing_delimiter_skipped :
    o_parseJSONObject ['{', '"', 'a', '"', ':', '1', '}'] =
      .ok (o_setInt o_emptyJSONObject (some ['a']) 1) ∧
    o_parseJSONObject (['{', '"', 'a', '"', ':', '1', '}'] ++
        [',', '"', 'b', '"', ':', '2', '}']) =
      .ok (o_setInt (o_setInt o_emptyJSONObject (some ['a']) 1) (some ['b']) 2) ∧
    (o_setInt (o_setInt o_emptyJSONObject (some ['a']) 1) (some ['b']) 2).numberOfElements = 2 ∧
    (o_setInt o_emptyJSONObject (some ['a']) 1).numberOfElements = 1 ∧
    a_parseJSONArray ['[', '1', ']'] = .ok (a_setInt a_emptyJSONArray 0 1) ∧
    a_parseJSONArray (['[', '1', ']'] ++ [',', '2', ']']) =
      .ok (a_setInt (a_setInt a_emptyJSONArray 0 1) 1 2) ∧
    o_parseJSONObject (['{', '"', 'a', '"', ':', '"', 'x', '"', '}'] ++
        [',', '"', 'b', '"', ':', '2', '}']) =
      .ok (o_setString o_emptyJSONObject (some ['a']) (some ['x'])) ∧
    o_parseJSONObject ['{', '"', 'a', '"', ':', '"', 'x', '"', '}'] =
      .ok (o_setString o_emptyJSONObject (some ['a']) (some ['x'])) :=
  ⟨rfl, rfl, rfl, rfl, rfl, rfl, rfl, rfl⟩

/-! ## Number literals -/

/-- C29: literals are recognized by their leading character and skipped by
fixed length. In array context, for any characters, `[t` followed by three
characters and `]` parses to the array `[true]`, `[n` followed by three
characters and `]` to `[null]`, and `[f` followed by four characters and `]`
to `[false]`; `[true,false,null]` parses to the elements Bool true, Bool
false, Null in that order. -/
theorem C29_literals (w x y z : Char) :
    a_parseJSONArray ['[', 't', x, y, z, ']'] = .ok (a_setBoolean a_emptyJSONArray 0 true) ∧
    a_parseJSONArray ['[', 'n', x, y, z, ']'] = .ok (a_setNull a_emptyJSONArray 0) ∧
    a_parseJSONArray ['[', 'f', w, x, y, z, ']'] =
      .ok (a_setBoolean a_emptyJSONArray 0 false) ∧
    a_parseJSONArray ['[', 't', 'r', 'u', 'e', ',', 'f', 'a', 'l', 's', 'e', ',', 'n', 'u', 'l',
        'l', ']'] =
      .ok (a_setNull (a_setBoolean (a_setBoolean a_emptyJSONArray 0 true) 1 false) 2) ∧
    (a_setNull (a_setBoolean (a_setBoolean a_emptyJSONArray 0 true) 1 false) 2).numberOfElements
      = 3 ∧
    a_getBoolean (a_setNull (a_setBoolean (a_setBoolean a_emptyJSONArray 0 true) 1 false) 2) 0 =
      true ∧
    a_isBoolean (a_setNull (a_setBoolean (a_setBoolean a_emptyJSONArray 0 true) 1 false) 2) 1 =
      true ∧
    a_getBoolean (a_setNull (a_setBoolean (a_setBoolean a_emptyJSONArray 0 true) 1 false) 2) 1 =
      false ∧
    a_isNull (a_setNull (a_setBoolean (a_setBoolean a_emptyJSONArray 0 true) 1 false) 2) 2 =
      true :=
  ⟨rfl, rfl, rfl, rfl, rfl, rfl, rfl, rfl, rfl⟩

/-! ## The budget of nested calls -/

/-- The token `libjson_extractRaw` cuts from a text is not longer than the
text and starts with its first character. -/
theorem extractRaw_cons (c : Char) (cs : List Char) (op cl : Char) :
    (libjson_extractRaw (c :: cs) op cl).length ≤ cs.length + 1 ∧
      (libjson_extractRaw (c :: cs) op cl).head? = some c := by
  unfold libjson_extractRaw
  rw [List.take_succ_cons]
  constructor
  · rw [List.length_cons, List.length_take]
    omega
  · rfl

/-- The loop of `o_parseJSONObject` only calls the parsers on tokens cut from
the text: two pairs of parsers that agree on the tokens that are not longer
than the text give the same result. -/
theorem o_loop_congr (pO pO' : List Char → Except Fault JSONObject)
    (pA pA' : List Char → Except Fault JSONArray) (text : List Char) :
    ∀ (skip : Nat) (fb : Bool) (o : JSONObject) (key : Option (List Char)) (onValue : Bool),
      (∀ child : List Char, child.length ≤ text.length → child.head? = some '{' →
        pO child = pO' child) →
      (∀ child : List Char, child.length ≤ text.length → child.head? = some '[' →
        pA child = pA' child) →
      o_parseJSONObject_loop pO pA text skip fb o key onValue =
        o_parseJSONObject_loop pO' pA' text skip fb o key onValue := by
  induction text with
  | nil =>
    intro skip fb o key onValue _ _
    rfl
  | cons c cs ih =>
    intro skip fb o key onValue hO hA
    have IH : ∀ (skip : Nat) (fb : Bool) (o : JSONObject) (key : Option (List Char))
        (onValue : Bool),
        o_parseJSONObject_loop pO pA cs skip fb o key onValue =
          o_parseJSONObject_loop pO' pA' cs skip fb o key onValue :=
      fun skip fb o key onValue => ih skip fb o key onValue
        (fun ch hl hh => hO ch (by rw [List.length_cons]; omega) hh)
        (fun ch hl hh => hA ch (by rw [List.length_cons]; omega) hh)
    cases skip with
    | succ k =>
      rw [o_parseJSONObject_loop, o_parseJSONObject_loop]
      exact IH _ _ _ _ _
    | zero =>
      rw [o_parseJSONObject_loop, o_parseJSONObject_loop]
      simp only [IH]
      by_cases h2 : c = '{'
      · subst h2
        have e := hO (libjson_extractRaw ('{' :: cs) '{' '}')
          (extractRaw_cons _ _ _ _).1 (extractRaw_cons _ _ _ _).2
        have n1 : ¬ (('{' : Char) = '[') := by decide
        simp only [e, n1, if_false]
      · by_cases h3 : c = '['
        · subst h3
          have e := hA (libjson_extractRaw ('[' :: cs) '[' ']')
            (extractRaw_cons _ _ _ _).1 (extractRaw_cons _ _ _ _).2
          simp only [e, h2, if_false]
        · simp only [h2, h3, if_false]

/-- The loop of `a_parseJSONArray` only calls the parsers on tokens cut from
the text. -/
theorem a_loop_congr (pO pO' : List Char → Except Fault JSONObject)
    (pA pA' : List Char → Except Fault JSONArray) (text : List Char) :
    ∀ (skip : Nat) (fb : Bool) (a : JSONArray),
      (∀ child : List Char, child.length ≤ text.length → child.head? = some '{' →
        pO child = pO' child) →
      (∀ child : List Char, child.length ≤ text.length → child.head? = some '[' →
        pA child = pA' child) →
      a_parseJSONArray_loop pO pA text skip fb a =
        a_parseJSONArray_loop pO' pA' text skip fb a := by
  induction text with
  | nil =>
    intro skip fb a _ _
    rfl
  | cons c cs ih =>
    intro skip fb a hO hA
    have IH : ∀ (skip : Nat) (fb : Bool) (a : JSONArray),
        a_parseJSONArray_loop pO pA cs skip fb a =
          a_parseJSONArray_loop pO' pA' cs skip fb a :=
      fun skip fb a => ih skip fb a
        (fun ch hl hh => hO ch (by rw [List.length_cons]; omega) hh)
        (fun ch hl hh => hA ch (by rw [List.length_cons]; omega) hh)
    cases skip with
    | succ k =>
      rw [a_parseJSONArray_loop, a_parseJSONArray_loop]
      exact IH _ _ _
    | zero =>
      rw [a_parseJSONArray_loop, a_parseJSONArray_loop]
      simp only [IH]
      by_cases h2 : c = '{'
      · subst h2
        have e := hO (libjson_extractRaw ('{' :: cs) '{' '}')
          (extractRaw_cons _ _ _ _).1 (extractRaw_cons _ _ _ _).2
        have n1 : ¬ (('{' : Char) = '[') := by decide
        simp only [e, n1, if_false]
      · by_cases h3 : c = '['
        · subst h3
          have e := hA (libjson_extractRaw ('[' :: cs) '[' ']')
            (extractRaw_cons _ _ _ _).1 (extractRaw_cons _ _ _ _).2
          simp only [e, h2, if_false]
        · simp only [h2, h3, if_false]

/-- A text that starts with the parser's own opening delimiter is parsed the
same with any two budgets of at least `2 * length + 1` nested calls: the
children are cut from what follows the first character. -/
theorem parseFuel_stable (n : Nat) :
    (∀ str : List Char, str.length ≤ n → str.head? = some '{' → ∀ f1 f2 : Nat,
      2 * str.length + 1 ≤ f1 → 2 * str.length + 1 ≤ f2 →
      o_parseFuel f1 str = o_parseFuel f2 str) ∧
    (∀ str : List Char, str.length ≤ n → str.head? = some '[' → ∀ f1 f2 : Nat,
      2 * str.length + 1 ≤ f1 → 2 * str.length + 1 ≤ f2 →
      a_parseFuel f1 str = a_parseFuel f2 str) := by
  induction n with
  | zero =>
    constructor
    · intro str hl hh
      have : str = [] := List.eq_nil_of_length_eq_zero (by omega)
      subst this
      cases hh
    · intro str hl hh
      have : str = [] := List.eq_nil_of_length_eq_zero (by omega)
      subst this
      cases hh
  | succ n ih =>
    constructor
    · intro str hl hh f1 f2 h1 h2
      cases str with
      | nil => cases hh
      | cons c cs =>
        have hc : c = '{' := by simpa using hh
        subst hc
        rw [List.length_cons] at hl h1 h2
        obtain ⟨g1, rfl⟩ : ∃ g, f1 = g + 1 := ⟨f1 - 1, by omega⟩
        obtain ⟨g2, rfl⟩ : ∃ g, f2 = g + 1 := ⟨f2 - 1, by omega⟩
        rw [o_parseFuel, o_parseFuel]
        have step : ∀ (pO : List Char → Except Fault JSONObject)
            (pA : List Char → Except Fault JSONArray),
            o_parseJSONObject_loop pO pA ('{' :: cs) 0 true o_emptyJSONObject none false =
              o_parseJSONObject_loop pO pA cs 0 false o_emptyJSONObject none false :=
          fun _ _ => rfl
        rw [step, step]
        apply o_loop_congr
        · intro child hcl hch
          exact ih.1 child (by omega) hch g1 g2 (by omega) (by omega)
        · intro child hcl hch
          exact ih.2 child (by omega) hch g1 g2 (by omega) (by omega)
    · intro str hl hh f1 f2 h1 h2
      cases str with
      | nil => cases hh
      | cons c cs =>
        have hc : c = '[' := by simpa using hh
        subst hc
        rw [List.length_cons] at hl h1 h2
        obtain ⟨g1, rfl⟩ : ∃ g, f1 = g + 1 := ⟨f1 - 1, by omega⟩
        obtain ⟨g2, rfl⟩ : ∃ g, f2 = g + 1 := ⟨f2 - 1, by omega⟩
        rw [a_parseFuel, a_parseFuel]
        have step : ∀ (pO : List Char → Except Fault JSONObject)
            (pA : List Char → Except Fault JSONArray),
            a_parseJSONArray_loop pO pA ('[' :: cs) 0 true a_emptyJSONArray =
              a_parseJSONArray_loop pO pA cs 0 false a_emptyJSONArray :=
          fun _ _ => rfl
        rw [step, step]
        apply a_loop_congr
        · intro child hcl hch
          exact ih.1 child (by omega) hch g1 g2 (by omega) (by omega)
        · intro child hcl hch
          exact ih.2 child (by omega) hch g1 g2 (by omega) (by omega)

/-- Any text is parsed the same with any two budgets of at least
`2 * length + 2` nested calls. -/
theorem parseFuel_stable_any (str : List Char) (f1 f2 : Nat) (h1 : 2 * str.length + 2 ≤ f1)
    (h2 : 2 * str.length + 2 ≤ f2) :
    o_parseFuel f1 str = o_parseFuel f2 str ∧ a_parseFuel f1 str = a_parseFuel f2 str := by
  obtain ⟨g1, rfl⟩ : ∃ g, f1 = g + 1 := ⟨f1 - 1, by omega⟩
  obtain ⟨g2, rfl⟩ : ∃ g, f2 = g + 1 := ⟨f2 - 1, by omega⟩
  have hs := parseFuel_stable str.length
  constructor
  · rw [o_parseFuel, o_parseFuel]
    apply o_loop_congr
    · intro child hcl hch
      exact hs.1 child hcl hch g1 g2 (by omega) (by omega)
    · intro child hcl hch
      exact hs.2 child hcl hch g1 g2 (by omega) (by omega)
  · rw [a_parseFuel, a_parseFuel]
    apply a_loop_congr
    · intro child hcl hch
      exact hs.1 child hcl hch g1 g2 (by omega) (by omega)
    · intro child hcl hch
      exact hs.2 child hcl hch g1 g2 (by omega) (by omega)

/-- The nested call on a token that starts with `{`: what `o_parseJSONObject`
returns for it. -/
theorem o_parseFuel_child (child : List Char) (hh : child.head? = some '{') (fuel : Nat)
    (hf : 2 * child.length + 1 ≤ fuel) : o_parseFuel fuel child = o_parseJSONObject child :=
  (parseFuel_stable child.length).1 child (le_refl _) hh _ _ hf (by omega)

/-- The nested call on a token that starts with `[`: what `a_parseJSONArray`
returns for it. -/
theorem a_parseFuel_child (child : List Char) (hh : child.head? = some '[') (fuel : Nat)
    (hf : 2 * child.length + 1 ≤ fuel) : a_parseFuel fuel child = a_parseJSONArray child :=
  (parseFuel_stable child.length).2 child (le_refl _) hh _ _ hf (by omega)

/-! ## Nested containers are delegated -/

/-- The scan of the spec does not look past the closing character it finds. -/
theorem spec_balancedEnd_append (op cl : Char) (rest : List Char) (t : List Char) :
    (∀ (i : Nat) (d : Int) (e : Nat), spec_balancedEnd op cl t i d = some e →
      spec_balancedEnd op cl (t ++ rest) i d = some e) ∧
    (∀ (i : Nat) (d : Int) (run e : Nat), spec_insideString op cl t i d run = some e →
      spec_insideString op cl (t ++ rest) i d run = some e) := by
  induction t with
  | nil => exact ⟨fun _ _ _ h => (by cases h), fun _ _ _ _ h => (by cases h)⟩
  | cons c cs ih =>
    constructor
    · intro i d e h
      rw [spec_balancedEnd] at h
      rw [List.cons_append, spec_balancedEnd]
      by_cases h1 : c = op
      · rw [if_pos h1] at h ⊢
        exact ih.1 _ _ _ h
      · rw [if_neg h1] at h ⊢
        by_cases h2 : c = cl
        · rw [if_pos h2] at h ⊢
          by_cases h3 : d - 1 = 0
          · rw [if_pos h3] at h ⊢
            exact h
          · rw [if_neg h3] at h ⊢
            exact ih.1 _ _ _ h
        · rw [if_neg h2] at h ⊢
          by_cases h3 : c = '"'
          · rw [if_pos h3] at h ⊢
            exact ih.2 _ _ _ _ h
          · rw [if_neg h3] at h ⊢
            exact ih.1 _ _ _ h
    · intro i d run e h
      rw [spec_insideString] at h
      rw [List.cons_append, spec_insideString]
      by_cases h1 : c = '"' ∧ run % 2 = 0
      · rw [if_pos h1] at h ⊢
        exact ih.1 _ _ _ h
      · rw [if_neg h1] at h ⊢
        exact ih.2 _ _ _ _ h

/-- A balanced text is the token cut from any text that starts with it. -/
theorem extractRaw_balanced (op cl : Char) (t rest : List Char) (hne : t ≠ [])
    (h : spec_balancedEnd op cl t 0 0 = some (t.length - 1)) :
    libjson_extractRaw (t ++ rest) op cl = t := by
  have h2 := (spec_balancedEnd_append op cl rest t).1 0 0 _ h
  unfold libjson_extractRaw
  rw [extractRaw_loop_spec op cl (t ++ rest).length (t ++ rest) (le_refl _) 0 0 _ h2]
  have hl : 0 < t.length := List.length_pos.2 hne
  have e : t.length - 1 + 1 = t.length := by omega
  rw [e, List.take_left']
  rfl

/-- The call on a nested container: for every balanced array text `t`,
`a_parseJSONArray` on `[` `t` `]` is what `a_parseJSONArray` gives for `t`,
stored as the only element (and the fault of that call, when it faults); for
every balanced object text `u`, `o_parseJSONObject` on `{"k":` `u` `}` is what
`o_parseJSONObject` gives for `u`, bound to `k`. -/
theorem nested_delegation_map :
    (∀ t : List Char, t.head? = some '[' →
      spec_balancedEnd '[' ']' t 0 0 = some (t.length - 1) →
      a_parseJSONArray (['['] ++ t ++ [']']) =
        (a_parseJSONArray t).map (fun v => a_setJSONArray a_emptyJSONArray 0 v)) ∧
    (∀ u : List Char, u.head? = some '{' →
      spec_balancedEnd '{' '}' u 0 0 = some (u.length - 1) →
      o_parseJSONObject (['{', '"', 'k', '"', ':'] ++ u ++ ['}']) =
        (o_parseJSONObject u).map
          (fun v => o_setJSONObject o_emptyJSONObject (some ['k']) v)) := by
  constructor
  · intro t hh hb
    have hne : t ≠ [] := by
      intro h0
      rw [h0] at hh
      cases hh
    have hx := extractRaw_balanced '[' ']' t [']'] hne hb
    obtain ⟨c, cs, rfl⟩ := List.exists_cons_of_ne_nil hne
    have hc : c = '[' := by simpa using hh
    subst hc
    unfold a_parseJSONArray
    have efuel : 2 * (['['] ++ '[' :: cs ++ [']']).length + 2 =
        (2 * (['['] ++ '[' :: cs ++ [']']).length + 1) + 1 := rfl
    rw [efuel]
    have hchild := a_parseFuel_child ('[' :: cs) rfl
      (2 * (['['] ++ '[' :: cs ++ [']']).length + 1)
      (by simp only [List.length_append, List.length_cons, List.length_nil]; omega)
    unfold a_parseJSONArray at hchild
    generalize 2 * (['['] ++ '[' :: cs ++ [']']).length + 1 = fuel at hchild ⊢
    have step : a_parseFuel (fuel + 1) (['['] ++ '[' :: cs ++ [']']) =
        match a_parseFuel fuel (libjson_extractRaw ('[' :: cs ++ [']']) '[' ']') with
        | .error e => .error e
        | .ok v =>
          a_parseJSONArray_loop (o_parseFuel fuel) (a_parseFuel fuel) (cs ++ [']'])
            ((libjson_extractRaw ('[' :: cs ++ [']']) '[' ']').length - 1) false
            (a_setJSONArray a_emptyJSONArray a_emptyJSONArray.numberOfElements v) := by
      rw [a_parseFuel]
      rfl
    rw [step, hx, hchild]
    cases a_parseFuel (2 * ('[' :: cs).length + 2) ('[' :: cs) with
    | error e => rfl
    | ok v =>
      simp only [List.length_cons, Nat.add_sub_cancel]
      rw [a_loop_skip]
      rfl
  · intro u hh hb
    have hne : u ≠ [] := by
      intro h0
      rw [h0] at hh
      cases hh
    have hx := extractRaw_balanced '{' '}' u ['}'] hne hb
    obtain ⟨c, cs, rfl⟩ := List.exists_cons_of_ne_nil hne
    have hc : c = '{' := by simpa using hh
    subst hc
    unfold o_parseJSONObject
    have efuel : 2 * (['{', '"', 'k', '"', ':'] ++ '{' :: cs ++ ['}']).length + 2 =
        (2 * (['{', '"', 'k', '"', ':'] ++ '{' :: cs ++ ['}']).length + 1) + 1 := rfl
    rw [efuel]
    have hchild := o_parseFuel_child ('{' :: cs) rfl
      (2 * (['{', '"', 'k', '"', ':'] ++ '{' :: cs ++ ['}']).length + 1)
      (by simp only [List.length_append, List.length_cons, List.length_nil]; omega)
    unfold o_parseJSONObject at hchild
    generalize 2 * (['{', '"', 'k', '"', ':'] ++ '{' :: cs ++ ['}']).length + 1 = fuel
      at hchild ⊢
    have step : o_parseFuel (fuel + 1) (['{', '"', 'k', '"', ':'] ++ '{' :: cs ++ ['}']) =
        match o_parseFuel fuel (libjson_extractRaw ('{' :: cs ++ ['}']) '{' '}') with
        | .error e => .error e
        | .ok v =>
          o_parseJSONObject_loop (o_parseFuel fuel) (a_parseFuel fuel) (cs ++ ['}'])
            ((libjson_extractRaw ('{' :: cs ++ ['}']) '{' '}').length - 1) false
            (o_setJSONObject o_emptyJSONObject (some ['k']) v) none false := by
      rw [o_parseFuel]
      rfl
    rw [step, hx, hchild]
    cases o_parseFuel (2 * ('{' :: cs).length + 2) ('{' :: cs) with
    | error e => rfl
    | ok v =>
      simp only [List.length_cons, Nat.add_sub_cancel]
      rw [o_loop_skip]
      rfl

/-! ## Filler: whitespace and commas -/

theorem isspace_cases (c : Char) (h : libjson_isspace c = true) :
    c = ' ' ∨ c = '\t' ∨ c = '\n' ∨ c = '\r' ∨ c = Char.ofNat 12 ∨ c = Char.ofNat 11 := by
  unfold libjson_isspace at h
  simp only [Bool.or_eq_true, beq_iff_eq] at h
  tauto

theorem fill_plain (c : Char) (h : libjson_isspace c = true ∨ c = ',') :
    c ≠ '{' ∧ c ≠ '}' ∧ c ≠ '[' ∧ c ≠ ']' ∧ c ≠ '"' := by
  rcases h with h | h
  · rcases isspace_cases c h with e | e | e | e | e | e <;> (rw [e]; decide)
  · rw [h]; decide

theorem fill_notNum (c : Char) (h : libjson_isspace c = true ∨ c = ',') :
    isNumChar c = false := by
  rcases h with h | h
  · rcases isspace_cases c h with e | e | e | e | e | e <;> (rw [e]; decide)
  · rw [h]; decide

theorem fill_scan (P : Char → Prop) (hP : ∀ c, P c → libjson_isspace c = true ∨ c = ',')
    (g : List Char) (hg : ∀ c ∈ g, P c) : scanPassesBoth g :=
  scanPassesBoth_plain g (fun c hc => fill_plain c (hP c (hg c hc)))

/-! ## Loose texts: the scanner walks over them -/

theorem loosePair_facts (P : Char → Prop)
    (hP : ∀ c, P c → libjson_isspace c = true ∨ c = ',') (k : List Char) (v : JSONElement)
    (hk : quotesEscaped k = true)
    (hv : ∀ tv, looseElement P v tv → scanPassesBoth tv ∧ depthElement v ≤ tv.length)
    (tp : List Char) (h : loosePair P (.mk (some k) v) tp) :
    scanPassesBoth tp ∧ depthElement v ≤ tp.length := by
  rw [loosePair] at h
  obtain ⟨g1, g2, tv, h1, h2, hl, rfl⟩ := h
  obtain ⟨hs, hd⟩ := hv tv hl
  constructor
  · have e : '"' :: ((some k).getD [] ++ '"' :: (g1 ++ ':' :: (g2 ++ tv))) =
        ('"' :: (k ++ ['"'])) ++ (g1 ++ ([':'] ++ (g2 ++ tv))) := by simp
    rw [e]
    exact scanPassesBoth_append _ _ (scanPassesBoth_string k hk)
      (scanPassesBoth_append _ _ (fill_scan P hP g1 h1)
        (scanPassesBoth_append _ _ (scanPassesBoth_plain _ colon_plain)
          (scanPassesBoth_append _ _ (fill_scan P hP g2 h2) hs)))
  · simp only [List.length_cons, List.length_append]
    omega

theorem looseMorePairs_facts (P : Char → Prop)
    (hP : ∀ c, P c → libjson_isspace c = true ∨ c = ',') (ps : List JSONPair)
    (H : ∀ p ∈ ps, ∀ tp, loosePair P p tp → scanPassesBoth tp ∧ depthElement p.value ≤ tp.length) :
    ∀ rest, looseMorePairs P ps rest →
      ∃ body, rest = body ++ ['}'] ∧ scanPassesBoth body ∧ depthPairs ps + 1 ≤ rest.length := by
  induction ps with
  | nil =>
    intro rest h
    rw [looseMorePairs] at h
    obtain ⟨g, hg, rfl⟩ := h
    exact ⟨g, rfl, fill_scan P hP g hg, by rw [depthPairs]; simp⟩
  | cons p ps ih =>
    intro rest h
    rw [looseMorePairs] at h
    obtain ⟨g1, g2, tp, r, h1, h2, hp, hr, rfl⟩ := h
    obtain ⟨body, rfl, hs, hd⟩ := ih (fun q hq => H q (List.mem_cons_of_mem _ hq)) r hr
    obtain ⟨hsp, hdp⟩ := H p (List.mem_cons_self _ _) tp hp
    refine ⟨g1 ++ ([','] ++ (g2 ++ (tp ++ body))), by simp, ?_, ?_⟩
    · exact scanPassesBoth_append _ _ (fill_scan P hP g1 h1)
        (scanPassesBoth_append _ _ (scanPassesBoth_plain _ comma_plain)
          (scanPassesBoth_append _ _ (fill_scan P hP g2 h2) (scanPassesBoth_append _ _ hsp hs)))
    · cases p with
      | mk k v =>
        rw [depthPairs]
        simp only [pair_value_mk] at hdp
        simp only [List.length_cons, List.length_append] at hd ⊢
        rcases max_cases (depthElement v) (depthPairs ps) with ⟨e, _⟩ | ⟨e, _⟩ <;> rw [e] <;>
          omega

theorem loosePairs_facts (P : Char → Prop)
    (hP : ∀ c, P c → libjson_isspace c = true ∨ c = ',') (ps : List JSONPair)
    (H : ∀ p ∈ ps, ∀ tp, loosePair P p tp → scanPassesBoth tp ∧ depthElement p.value ≤ tp.length)
    (text : List Char) (h : loosePairs P ps text) :
    ∃ body, text = body ++ ['}'] ∧ scanPassesBoth body ∧ depthPairs ps + 1 ≤ text.length := by
  cases ps with
  | nil =>
    rw [loosePairs] at h
    obtain ⟨g, hg, rfl⟩ := h
    exact ⟨g, rfl, fill_scan P hP g hg, by rw [depthPairs]; simp⟩
  | cons p ps =>
    rw [loosePairs] at h
    obtain ⟨g, tp, r, h1, hp, hr, rfl⟩ := h
    obtain ⟨body, rfl, hs, hd⟩ := looseMorePairs_facts P hP ps
      (fun q hq => H q (List.mem_cons_of_mem _ hq)) r hr
    obtain ⟨hsp, hdp⟩ := H p (List.mem_cons_self _ _) tp hp
    refine ⟨g ++ (tp ++ body), by simp, ?_, ?_⟩
    · exact scanPassesBoth_append _ _ (fill_scan P hP g h1) (scanPassesBoth_append _ _ hsp hs)
    · cases p with
      | mk k v =>
        rw [depthPairs]
        simp only [pair_value_mk] at hdp
        simp only [List.length_cons, List.length_append] at hd ⊢
        rcases max_cases (depthElement v) (depthPairs ps) with ⟨e, _⟩ | ⟨e, _⟩ <;> rw [e] <;>
          omega

theorem looseMoreElements_facts (P : Char → Prop)
    (hP : ∀ c, P c → libjson_isspace c = true ∨ c = ',') (es : List JSONElement)
    (H : ∀ e ∈ es, ∀ te, looseElement P e te → scanPassesBoth te ∧ depthElement e ≤ te.length) :
    ∀ rest, looseMoreElements P es rest →
      ∃ body, rest = body ++ [']'] ∧ scanPassesBoth body ∧
        depthElements es + 1 ≤ rest.length := by
  induction es with
  | nil =>
    intro rest h
    rw [looseMoreElements] at h
    obtain ⟨g, hg, rfl⟩ := h
    exact ⟨g, rfl, fill_scan P hP g hg, by rw [depthElements]; simp⟩
  | cons p ps ih =>
    intro rest h
    rw [looseMoreElements] at h
    obtain ⟨g1, g2, tp, r, h1, h2, hp, hr, rfl⟩ := h
    obtain ⟨body, rfl, hs, hd⟩ := ih (fun q hq => H q (List.mem_cons_of_mem _ hq)) r hr
    obtain ⟨hsp, hdp⟩ := H p (List.mem_cons_self _ _) tp hp
    refine ⟨g1 ++ ([','] ++ (g2 ++ (tp ++ body))), by simp, ?_, ?_⟩
    · exact scanPassesBoth_append _ _ (fill_scan P hP g1 h1)
        (scanPassesBoth_append _ _ (scanPassesBoth_plain _ comma_plain)
          (scanPassesBoth_append _ _ (fill_scan P hP g2 h2) (scanPassesBoth_append _ _ hsp hs)))
    · rw [depthElements]
      simp only [List.length_cons, List.length_append] at hd ⊢
      rcases max_cases (depthElement p) (depthElements ps) with ⟨e, _⟩ | ⟨e, _⟩ <;> rw [e] <;>
        omega

theorem looseElements_facts (P : Char → Prop)
    (hP : ∀ c, P c → libjson_isspace c = true ∨ c = ',') (es : List JSONElement)
    (H : ∀ e ∈ es, ∀ te, looseElement P e te → scanPassesBoth te ∧ depthElement e ≤ te.length)
    (text : List Char) (h : looseElements P es text) :
    ∃ body, text = body ++ [']'] ∧ scanPassesBoth body ∧ depthElements es + 1 ≤ text.length := by
  cases es with
  | nil =>
    rw [looseElements] at h
    obtain ⟨g, hg, rfl⟩ := h
    exact ⟨g, rfl, fill_scan P hP g hg, by rw [depthElements]; simp⟩
  | cons p ps =>
    rw [looseElements] at h
    obtain ⟨g, tp, r, h1, hp, hr, rfl⟩ := h
    obtain ⟨body, rfl, hs, hd⟩ := looseMoreElements_facts P hP ps
      (fun q hq => H q (List.mem_cons_of_mem _ hq)) r hr
    obtain ⟨hsp, hdp⟩ := H p (List.mem_cons_self _ _) tp hp
    refine ⟨g ++ (tp ++ body), by simp, ?_, ?_⟩
    · exact scanPassesBoth_append _ _ (fill_scan P hP g h1) (scanPassesBoth_append _ _ hsp hs)
    · rw [depthElements]
      simp only [List.length_cons, List.length_append] at hd ⊢
      rcases max_cases (depthElement p) (depthElements ps) with ⟨e, _⟩ | ⟨e, _⟩ <;> rw [e] <;>
        omega

/-- The scanner walks over every loose text of a clean value, and the text is
at least as long as the value is deep. -/
theorem looseElement_facts (P : Char → Prop)
    (hP : ∀ c, P c → libjson_isspace c = true ∨ c = ',') (n : Nat) :
    ∀ (e : JSONElement) (text : List Char), depthElement e = n → cleanElement true e →
      looseElement P e text → scanPassesBoth text ∧ depthElement e ≤ text.length := by
  induction n using Nat.strong_induction_on with
  | _ n ih =>
    intro e text hd hc hl
    cases e with
    | mk type o a bo num s =>
      cases type with
      | object =>
        rw [cleanElement] at hc
        rw [depthElement] at hd
        rw [looseElement] at hl
        cases o with
        | mk es cnt =>
          rw [cleanObject] at hc
          obtain ⟨⟨rfl, _, hps⟩, _⟩ := hc
          rw [depthObject] at hd
          rw [looseObject] at hl
          obtain ⟨body, hb, rfl⟩ := hl
          have hpf : ∀ p ∈ es, ∀ tp, loosePair P p tp →
              scanPassesBoth tp ∧ depthElement p.value ≤ tp.length := by
            intro p hp tp htp
            have hcp := cleanPairs_mem true es hps p hp
            have hdp := depthPairs_mem es p hp
            cases p with
            | mk k v =>
              rw [cleanPair] at hcp
              obtain ⟨⟨t, rfl, ht⟩, hcv⟩ := hcp
              simp only [pair_value_mk] at hdp ⊢
              exact loosePair_facts P hP t v ht
                (fun tv htv => ih (depthElement v) (by omega) v tv rfl hcv htv) tp htp
          obtain ⟨b2, rfl, hs, hdd⟩ := loosePairs_facts P hP es hpf body hb
          constructor
          · exact scanPassesBoth_braces b2 hs
          · rw [depthElement, depthObject]
            simp only [List.length_cons, List.length_append] at hdd ⊢
            omega
      | array =>
        rw [cleanElement] at hc
        rw [depthElement] at hd
        rw [looseElement] at hl
        cases a with
        | mk es cnt =>
          rw [cleanArray] at hc
          obtain ⟨_, ⟨rfl, hes⟩, _⟩ := hc
          rw [depthArray] at hd
          rw [looseArray] at hl
          obtain ⟨body, hb, rfl⟩ := hl
          have hef : ∀ e ∈ es, ∀ te, looseElement P e te →
              scanPassesBoth te ∧ depthElement e ≤ te.length := by
            intro e he te hte
            have hde := depthElements_mem es e he
            exact ih (depthElement e) (by omega) e te rfl (cleanElements_mem true es hes e he) hte
          obtain ⟨b2, rfl, hs, hdd⟩ := looseElements_facts P hP es hef body hb
          constructor
          · exact scanPassesBoth_brackets b2 hs
          · rw [depthElement, depthArray]
            simp only [List.length_cons, List.length_append] at hdd ⊢
            omega
      | boolean =>
        rw [looseElement] at hl
        rw [hl]
        exact ⟨clean_element_scan true _ hc, clean_element_depth true _ hc⟩
      | number =>
        rw [looseElement] at hl
        rw [hl]
        exact ⟨clean_element_scan true _ hc, clean_element_depth true _ hc⟩
      | string =>
        rw [looseElement] at hl
        rw [hl]
        exact ⟨clean_element_scan true _ hc, clean_element_depth true _ hc⟩
      | null =>
        rw [looseElement] at hl
        rw [hl]
        exact ⟨clean_element_scan true _ hc, clean_element_depth true _ hc⟩

/-! ## Loose texts of containers -/

theorem cleanPairs_loose_facts (P : Char → Prop)
    (hP : ∀ c, P c → libjson_isspace c = true ∨ c = ',') (es : List JSONPair)
    (hps : cleanPairs true es) :
    ∀ p ∈ es, ∀ tp, loosePair P p tp →
      scanPassesBoth tp ∧ depthElement p.value ≤ tp.length := by
  intro p hp tp htp
  have hcp := cleanPairs_mem true es hps p hp
  cases p with
  | mk k v =>
    rw [cleanPair] at hcp
    obtain ⟨⟨t, rfl, ht⟩, hcv⟩ := hcp
    simp only [pair_value_mk]
    exact loosePair_facts P hP t v ht
      (fun tv htv => looseElement_facts P hP _ v tv rfl hcv htv) tp htp

/-- A loose text of a clean object: a brace, a body the scanner walks over,
and the closing brace. -/
theorem looseObject_form (P : Char → Prop)
    (hP : ∀ c, P c → libjson_isspace c = true ∨ c = ',') (o : JSONObject)
    (hc : cleanObject true o) (text : List Char) (hl : looseObject P o text) :
    ∃ body, text = '{' :: (body ++ ['}']) ∧ scanPassesBoth body ∧
      depthObject o ≤ text.length := by
  cases o with
  | mk es cnt =>
    rw [cleanObject] at hc
    rw [looseObject] at hl
    obtain ⟨body, hb, rfl⟩ := hl
    obtain ⟨b2, rfl, hs, hdd⟩ := loosePairs_facts P hP es
      (cleanPairs_loose_facts P hP es hc.2.2) body hb
    refine ⟨b2, rfl, hs, ?_⟩
    rw [depthObject]
    simp only [List.length_cons, List.length_append] at hdd ⊢
    omega

/-- A loose text of a clean array: a bracket, a body the scanner walks over,
and the closing bracket. -/
theorem looseArray_form (P : Char → Prop)
    (hP : ∀ c, P c → libjson_isspace c = true ∨ c = ',') (a : JSONArray)
    (hc : cleanArray true a) (text : List Char) (hl : looseArray P a text) :
    ∃ body, text = '[' :: (body ++ [']']) ∧ scanPassesBoth body ∧
      depthArray a ≤ text.length := by
  cases a with
  | mk es cnt =>
    rw [cleanArray] at hc
    rw [looseArray] at hl
    obtain ⟨body, hb, rfl⟩ := hl
    obtain ⟨b2, rfl, hs, hdd⟩ := looseElements_facts P hP es
      (fun e he te hte => looseElement_facts P hP _ e te rfl
        (cleanElements_mem true es hc.2 e he) hte) body hb
    refine ⟨b2, rfl, hs, ?_⟩
    rw [depthArray]
    simp only [List.length_cons, List.length_append] at hdd ⊢
    omega

/-! ## Parser loops: filler -/

theorem o_loop_fill (pO : List Char → Except Fault JSONObject)
    (pA : List Char → Except Fault JSONArray) (g r : List Char)
    (hg : ∀ c ∈ g, libjson_isspace c = true ∨ c = ',') (fb : Bool) (o : JSONObject)
    (key : Option (List Char)) (onValue : Bool) :
    o_parseJSONObject_loop pO pA (g ++ r) 0 fb o key onValue =
      o_parseJSONObject_loop pO pA r 0 fb o key onValue := by
  induction g with
  | nil => rfl
  | cons c cs ih =>
    have hcs := ih (fun x hx => hg x (List.mem_cons_of_mem _ hx))
    rcases hg c (List.mem_cons_self _ _) with h | h
    · rw [List.cons_append, o_parseJSONObject_loop, if_pos h]
      exact hcs
    · subst h
      rw [← hcs]
      rfl

theorem a_loop_fill (pO : List Char → Except Fault JSONObject)
    (pA : List Char → Except Fault JSONArray) (g r : List Char)
    (hg : ∀ c ∈ g, libjson_isspace c = true ∨ c = ',') (fb : Bool) (a : JSONArray) :
    a_parseJSONArray_loop pO pA (g ++ r) 0 fb a = a_parseJSONArray_loop pO pA r 0 fb a := by
  induction g with
  | nil => rfl
  | cons c cs ih =>
    have hcs := ih (fun x hx => hg x (List.mem_cons_of_mem _ hx))
    rcases hg c (List.mem_cons_self _ _) with h | h
    · rw [List.cons_append, a_parseJSONArray_loop, if_pos h]
      exact hcs
    · subst h
      rw [← hcs]
      rfl

/-! ## Parser loops: one value of a loose text -/

theorem depthObject_pos (c : JSONObject) : 1 ≤ depthObject c := by
  cases c with
  | mk es n => rw [depthObject]; omega

theorem depthArray_pos (c : JSONArray) : 1 ≤ depthArray c := by
  cases c with
  | mk es n => rw [depthArray]; omega

/-- In object context, the loop reads a loose text of a clean value and binds
the value to the pending key. -/
theorem o_loose_value (P : Char → Prop)
    (hP : ∀ c, P c → libjson_isspace c = true ∨ c = ',')
    (pO : List Char → Except Fault JSONObject) (pA : List Char → Except Fault JSONArray)
    (m : Nat)
    (HO : ∀ c text, cleanObject true c → depthObject c ≤ m → looseObject P c text →
      pO text = .ok c)
    (HA : ∀ c text, cleanArray true c → depthArray c ≤ m → looseArray P c text →
      pA text = .ok c)
    (v : JSONElement) (hv : cleanElement true v) (hd : depthElement v ≤ m)
    (tv : List Char) (hl : looseElement P v tv)
    (t : List Char) (ht : ∀ c ∈ t.head?, isNumChar c = false)
    (o : JSONObject) (key : Option (List Char)) :
    ∃ t', (t' = t ∨ t' = t.tail) ∧
      o_parseJSONObject_loop pO pA (tv ++ t) 0 false o key true =
        o_parseJSONObject_loop pO pA t' 0 false (o_setJSONElement o key v) none false := by
  have scalar : tv = renderElement v → depthElement v = 0 →
      ∃ t', (t' = t ∨ t' = t.tail) ∧
        o_parseJSONObject_loop pO pA (tv ++ t) 0 false o key true =
          o_parseJSONObject_loop pO pA t' 0 false (o_setJSONElement o key v) none false := by
    intro e h0
    rw [e]
    exact o_loop_value pO pA 0
      (fun c _ h => absurd (depthObject_pos c) (by omega))
      (fun c _ h => absurd (depthArray_pos c) (by omega)) v hv (by omega) t ht o key
  cases v with
  | mk type c a bo num s =>
    cases type with
    | object =>
      have hv' := hv
      rw [cleanElement] at hv'
      obtain ⟨hc, rfl, rfl, rfl, rfl⟩ := hv'
      rw [depthElement] at hd
      rw [looseElement] at hl
      refine ⟨t, Or.inl rfl, ?_⟩
      obtain ⟨body, hb, hs, _⟩ := looseObject_form P hP c hc tv hl
      have hx : libjson_extractRaw (tv ++ t) '{' '}' = tv := by
        rw [hb]
        exact extractRaw_bracketed '{' '}' body t (by decide) hs.1
      have hp := HO c tv hc hd hl
      rw [hb] at hx hp ⊢
      have step : o_parseJSONObject_loop pO pA ('{' :: (body ++ ['}']) ++ t) 0 false o key true =
          (match pO (libjson_extractRaw ('{' :: (body ++ ['}']) ++ t) '{' '}') with
            | .error e => .error e
            | .ok w =>
              o_parseJSONObject_loop pO pA ((body ++ ['}']) ++ t)
                ((libjson_extractRaw ('{' :: (body ++ ['}']) ++ t) '{' '}').length - 1) false
                (o_setJSONObject o key w) none false) := rfl
      rw [step, hx, hp]
      simp only [List.length_cons, Nat.add_sub_cancel]
      rw [o_loop_skip]
      rfl
    | array =>
      have hv' := hv
      rw [cleanElement] at hv'
      obtain ⟨rfl, hc, rfl, rfl, rfl⟩ := hv'
      rw [depthElement] at hd
      rw [looseElement] at hl
      refine ⟨t, Or.inl rfl, ?_⟩
      obtain ⟨body, hb, hs, _⟩ := looseArray_form P hP a hc tv hl
      have hx : libjson_extractRaw (tv ++ t) '[' ']' = tv := by
        rw [hb]
        exact extractRaw_bracketed '[' ']' body t (by decide) hs.2
      have hp := HA a tv hc hd hl
      rw [hb] at hx hp ⊢
      have step : o_parseJSONObject_loop pO pA ('[' :: (body ++ [']']) ++ t) 0 false o key true =
          (match pA (libjson_extractRaw ('[' :: (body ++ [']']) ++ t) '[' ']') with
            | .error e => .error e
            | .ok w =>
              o_parseJSONObject_loop pO pA ((body ++ [']']) ++ t)
                ((libjson_extractRaw ('[' :: (body ++ [']']) ++ t) '[' ']').length - 1) false
                (o_setJSONArray o key w) none false) := rfl
      rw [step, hx, hp]
      simp only [List.length_cons, Nat.add_sub_cancel]
      rw [o_loop_skip]
      rfl
    | boolean =>
      rw [looseElement] at hl
      exact scalar hl (by rw [depthElement])
    | number =>
      rw [looseElement] at hl
      exact scalar hl (by rw [depthElement])
    | string =>
      rw [looseElement] at hl
      exact scalar hl (by rw [depthElement])
    | null =>
      rw [looseElement] at hl
      exact scalar hl (by rw [depthElement])

/-- In array context, the loop reads a loose text of a clean value and appends
the value. -/
theorem a_loose_value (P : Char → Prop)
    (hP : ∀ c, P c → libjson_isspace c = true ∨ c = ',')
    (pO : List Char → Except Fault JSONObject) (pA : List Char → Except Fault JSONArray)
    (m : Nat)
    (HO : ∀ c text, cleanObject true c → depthObject c ≤ m → looseObject P c text →
      pO text = .ok c)
    (HA : ∀ c text, cleanArray true c → depthArray c ≤ m → looseArray P c text →
      pA text = .ok c)
    (v : JSONElement) (hv : cleanElement true v) (hd : depthElement v ≤ m)
    (tv : List Char) (hl : looseElement P v tv)
    (t : List Char) (ht : ∀ c ∈ t.head?, isNumChar c = false)
    (arr : JSONArray) :
    ∃ t', (t' = t ∨ t' = t.tail) ∧
      a_parseJSONArray_loop pO pA (tv ++ t) 0 false arr =
        a_parseJSONArray_loop pO pA t' 0 false
          (a_setJSONElement arr arr.numberOfElements v) := by
  have scalar : tv = renderElement v → depthElement v = 0 →
      ∃ t', (t' = t ∨ t' = t.tail) ∧
        a_parseJSONArray_loop pO pA (tv ++ t) 0 false arr =
          a_parseJSONArray_loop pO pA t' 0 false
            (a_setJSONElement arr arr.numberOfElements v) := by
    intro e h0
    rw [e]
    exact a_loop_value pO pA 0
      (fun c _ h => absurd (depthObject_pos c) (by omega))
      (fun c _ h => absurd (depthArray_pos c) (by omega)) v hv (by omega) t ht arr
  cases v with
  | mk type c a bo num s =>
    cases type with
    | object =>
      have hv' := hv
      rw [cleanElement] at hv'
      obtain ⟨hc, rfl, rfl, rfl, rfl⟩ := hv'
      rw [depthElement] at hd
      rw [looseElement] at hl
      refine ⟨t, Or.inl rfl, ?_⟩
      obtain ⟨body, hb, hs, _⟩ := looseObject_form P hP c hc tv hl
      have hx : libjson_extractRaw (tv ++ t) '{' '}' = tv := by
        rw [hb]
        exact extractRaw_bracketed '{' '}' body t (by decide) hs.1
      have hp := HO c tv hc hd hl
      rw [hb] at hx hp ⊢
      have step : a_parseJSONArray_loop pO pA ('{' :: (body ++ ['}']) ++ t) 0 false arr =
          (match pO (libjson_extractRaw ('{' :: (body ++ ['}']) ++ t) '{' '}') with
            | .error e => .error e
            | .ok w =>
              a_parseJSONArray_loop pO pA ((body ++ ['}']) ++ t)
                ((libjson_extractRaw ('{' :: (body ++ ['}']) ++ t) '{' '}').length - 1) false
                (a_setJSONObject arr arr.numberOfElements w)) := rfl
      rw [step, hx, hp]
      simp only [List.length_cons, Nat.add_sub_cancel]
      rw [a_loop_skip]
      rfl
    | array =>
      have hv' := hv
      rw [cleanElement] at hv'
      obtain ⟨rfl, hc, rfl, rfl, rfl⟩ := hv'
      rw [depthElement] at hd
      rw [looseElement] at hl
      refine ⟨t, Or.inl rfl, ?_⟩
      obtain ⟨body, hb, hs, _⟩ := looseArray_form P hP a hc tv hl
      have hx : libjson_extractRaw (tv ++ t) '[' ']' = tv := by
        rw [hb]
        exact extractRaw_bracketed '[' ']' body t (by decide) hs.2
      have hp := HA a tv hc hd hl
      rw [hb] at hx hp ⊢
      have step : a_parseJSONArray_loop pO pA ('[' :: (body ++ [']']) ++ t) 0 false arr =
          (match pA (libjson_extractRaw ('[' :: (body ++ [']']) ++ t) '[' ']') with
            | .error e => .error e
            | .ok w =>
              a_parseJSONArray_loop pO pA ((body ++ [']']) ++ t)
                ((libjson_extractRaw ('[' :: (body ++ [']']) ++ t) '[' ']').length - 1) false
                (a_setJSONArray arr arr.numberOfElements w)) := rfl
      rw [step, hx, hp]
      simp only [List.length_cons, Nat.add_sub_cancel]
      rw [a_loop_skip]
      rfl
    | boolean =>
      rw [looseElement] at hl
      exact scalar hl (by rw [depthElement])
    | number =>
      rw [looseElement] at hl
      exact scalar hl (by rw [depthElement])
    | string =>
      rw [looseElement] at hl
      exact scalar hl (by rw [depthElement])
    | null =>
      rw [looseElement] at hl
      exact scalar hl (by rw [depthElement])

/-! ## Parser loops: the members of a loose text -/

theorem looseMorePairs_head (P : Char → Prop)
    (hP : ∀ c, P c → libjson_isspace c = true ∨ c = ',') (ps : List JSONPair)
    (rest post : List Char) (h : looseMorePairs P ps rest) :
    ∀ c ∈ (rest ++ post).head?, isNumChar c = false := by
  have key : ∀ (g : List Char) (x : Char) (r : List Char), (∀ c ∈ g, P c) →
      isNumChar x = false → ∀ c ∈ (g ++ x :: r).head?, isNumChar c = false := by
    intro g x r hg hx c hc
    cases g with
    | nil =>
      simp only [List.nil_append, List.head?_cons, Option.mem_def, Option.some.injEq] at hc
      rw [← hc]; exact hx
    | cons y ys =>
      simp only [List.cons_append, List.head?_cons, Option.mem_def, Option.some.injEq] at hc
      rw [← hc]
      exact fill_notNum y (hP y (hg y (List.mem_cons_self _ _)))
  cases ps with
  | nil =>
    rw [looseMorePairs] at h
    obtain ⟨g, hg, rfl⟩ := h
    have e : g ++ ['}'] ++ post = g ++ '}' :: post := by simp
    rw [e]
    exact key g '}' post hg (by decide)
  | cons p ps =>
    rw [looseMorePairs] at h
    obtain ⟨g1, g2, tp, r, h1, _, _, _, rfl⟩ := h
    have e : g1 ++ ',' :: (g2 ++ (tp ++ r)) ++ post = g1 ++ ',' :: (g2 ++ (tp ++ r) ++ post) := by
      simp
    rw [e]
    exact key g1 ',' _ h1 (by decide)

theorem looseMoreElements_head (P : Char → Prop)
    (hP : ∀ c, P c → libjson_isspace c = true ∨ c = ',') (es : List JSONElement)
    (rest post : List Char) (h : looseMoreElements P es rest) :
    ∀ c ∈ (rest ++ post).head?, isNumChar c = false := by
  have key : ∀ (g : List Char) (x : Char) (r : List Char), (∀ c ∈ g, P c) →
      isNumChar x = false → ∀ c ∈ (g ++ x :: r).head?, isNumChar c = false := by
    intro g x r hg hx c hc
    cases g with
    | nil =>
      simp only [List.nil_append, List.head?_cons, Option.mem_def, Option.some.injEq] at hc
      rw [← hc]; exact hx
    | cons y ys =>
      simp only [List.cons_append, List.head?_cons, Option.mem_def, Option.some.injEq] at hc
      rw [← hc]
      exact fill_notNum y (hP y (hg y (List.mem_cons_self _ _)))
  cases es with
  | nil =>
    rw [looseMoreElements] at h
    obtain ⟨g, hg, rfl⟩ := h
    have e : g ++ [']'] ++ post = g ++ ']' :: post := by simp
    rw [e]
    exact key g ']' post hg (by decide)
  | cons p ps =>
    rw [looseMoreElements] at h
    obtain ⟨g1, g2, tp, r, h1, _, _, _, rfl⟩ := h
    have e : g1 ++ ',' :: (g2 ++ (tp ++ r)) ++ post = g1 ++ ',' :: (g2 ++ (tp ++ r) ++ post) := by
      simp
    rw [e]
    exact key g1 ',' _ h1 (by decide)

/-- The loop on filler, a closing character and more filler, and on the same
text without its first character: both end with the container as it is. -/
theorem o_loop_close (pO : List Char → Except Fault JSONObject)
    (pA : List Char → Except Fault JSONArray) (g post : List Char)
    (hg : ∀ c ∈ g, libjson_isspace c = true ∨ c = ',')
    (hpost : ∀ c ∈ post, libjson_isspace c = true ∨ c = ',') (o : JSONObject) :
    o_parseJSONObject_loop pO pA (g ++ ['}'] ++ post) 0 false o none false = .ok o ∧
      o_parseJSONObject_loop pO pA (g ++ ['}'] ++ post).tail 0 false o none false = .ok o := by
  have e : g ++ ['}'] ++ post = g ++ '}' :: post := by simp
  have h0 : o_parseJSONObject_loop pO pA ('}' :: post) 0 false o none false = .ok o := rfl
  have h1 : o_parseJSONObject_loop pO pA post 0 false o none false = .ok o := by
    have := o_loop_fill pO pA post [] hpost false o none false
    rw [List.append_nil] at this
    rw [this]
    rfl
  rw [e]
  constructor
  · rw [o_loop_fill pO pA g _ hg]
    exact h0
  · cases g with
    | nil => exact h1
    | cons c cs =>
      rw [List.cons_append, List.tail_cons,
        o_loop_fill pO pA cs _ (fun x hx => hg x (List.mem_cons_of_mem _ hx))]
      exact h0

theorem a_loop_close (pO : List Char → Except Fault JSONObject)
    (pA : List Char → Except Fault JSONArray) (g post : List Char)
    (hg : ∀ c ∈ g, libjson_isspace c = true ∨ c = ',')
    (hpost : ∀ c ∈ post, libjson_isspace c = true ∨ c = ',') (a : JSONArray) :
    a_parseJSONArray_loop pO pA (g ++ [']'] ++ post) 0 false a = .ok a ∧
      a_parseJSONArray_loop pO pA (g ++ [']'] ++ post).tail 0 false a = .ok a := by
  have e : g ++ [']'] ++ post = g ++ ']' :: post := by simp
  have h0 : a_parseJSONArray_loop pO pA (']' :: post) 0 false a = .ok a := rfl
  have h1 : a_parseJSONArray_loop pO pA post 0 false a = .ok a := by
    have := a_loop_fill pO pA post [] hpost false a
    rw [List.append_nil] at this
    rw [this]
    rfl
  rw [e]
  constructor
  · rw [a_loop_fill pO pA g _ hg]
    exact h0
  · cases g with
    | nil => exact h1
    | cons c cs =>
      rw [List.cons_append, List.tail_cons,
        a_loop_fill pO pA cs _ (fun x hx => hg x (List.mem_cons_of_mem _ hx))]
      exact h0

/-- In object context, the loop reads a loose text of a pair with a clean
value and sets the pair. -/
theorem o_loose_member (P : Char → Prop)
    (hP : ∀ c, P c → libjson_isspace c = true ∨ c = ',')
    (pO : List Char → Except Fault JSONObject) (pA : List Char → Except Fault JSONArray)
    (m : Nat)
    (HO : ∀ c text, cleanObject true c → depthObject c ≤ m → looseObject P c text →
      pO text = .ok c)
    (HA : ∀ c text, cleanArray true c → depthArray c ≤ m → looseArray P c text →
      pA text = .ok c)
    (k : List Char) (hkq : quotesEscaped k = true)
    (v : JSONElement) (hv : cleanElement true v) (hd : depthElement v ≤ m)
    (tp : List Char) (hl : loosePair P (.mk (some k) v) tp)
    (t : List Char) (ht : ∀ c ∈ t.head?, isNumChar c = false) (o : JSONObject) :
    ∃ t', (t' = t ∨ t' = t.tail) ∧
      o_parseJSONObject_loop pO pA (tp ++ t) 0 false o none false =
        o_parseJSONObject_loop pO pA t' 0 false (o_setJSONElement o (some k) v) none false := by
  rw [loosePair] at hl
  obtain ⟨g1, g2, tv, h1, h2, hlv, rfl⟩ := hl
  obtain ⟨t', ht', hval⟩ := o_loose_value P hP pO pA m HO HA v hv hd tv hlv t ht o (some k)
  refine ⟨t', ht', ?_⟩
  rw [← hval]
  have e1 : '"' :: ((some k).getD [] ++ '"' :: (g1 ++ ':' :: (g2 ++ tv))) ++ t =
      '"' :: (k ++ '"' :: (g1 ++ ':' :: (g2 ++ (tv ++ t)))) := by simp
  have step1 : o_parseJSONObject_loop pO pA
      ('"' :: (k ++ '"' :: (g1 ++ ':' :: (g2 ++ (tv ++ t))))) 0 false o none false =
      o_parseJSONObject_loop pO pA (k ++ '"' :: (g1 ++ ':' :: (g2 ++ (tv ++ t))))
        ((libjson_extractString
          ('"' :: (k ++ '"' :: (g1 ++ ':' :: (g2 ++ (tv ++ t)))))).length + 1) false o
        (some (libjson_extractString ('"' :: (k ++ '"' :: (g1 ++ ':' :: (g2 ++ (tv ++ t)))))))
        false := rfl
  have e2 : k ++ '"' :: (g1 ++ ':' :: (g2 ++ (tv ++ t))) =
      (k ++ ['"']) ++ (g1 ++ ':' :: (g2 ++ (tv ++ t))) := by simp
  have e3 : k.length + 1 = (k ++ ['"']).length := by simp
  have step2 : o_parseJSONObject_loop pO pA (':' :: (g2 ++ (tv ++ t))) 0 false o (some k) false =
      o_parseJSONObject_loop pO pA (g2 ++ (tv ++ t)) 0 false o (some k) true := rfl
  rw [e1, step1, extractString_quoted k _ hkq, e2, e3, o_loop_skip,
    o_loop_fill pO pA g1 _ (fun c hc => hP c (h1 c hc)), step2,
    o_loop_fill pO pA g2 _ (fun c hc => hP c (h2 c hc))]

/-- After a member, the loop of `o_parseJSONObject` reads the rest of a loose
text of an object and appends its pairs, whether or not the first character
of that rest was already jumped over. -/
theorem o_loose_more (P : Char → Prop)
    (hP : ∀ c, P c → libjson_isspace c = true ∨ c = ',')
    (pO : List Char → Except Fault JSONObject) (pA : List Char → Except Fault JSONArray)
    (m : Nat)
    (HO : ∀ c text, cleanObject true c → depthObject c ≤ m → looseObject P c text →
      pO text = .ok c)
    (HA : ∀ c text, cleanArray true c → depthArray c ≤ m → looseArray P c text →
      pA text = .ok c)
    (post : List Char) (hpost : ∀ c ∈ post, libjson_isspace c = true ∨ c = ',')
    (ps : List JSONPair) (hps : cleanPairs true ps) (hdp : depthPairs ps ≤ m) :
    ∀ (rest : List Char), looseMorePairs P ps rest → ∀ o : JSONObject, o.WF →
      keysDistinct (o.elements ++ ps) →
      o_parseJSONObject_loop pO pA (rest ++ post) 0 false o none false =
          .ok (.mk (o.elements ++ ps) ((o.elements ++ ps).length : Nat)) ∧
        o_parseJSONObject_loop pO pA (rest ++ post).tail 0 false o none false =
          .ok (.mk (o.elements ++ ps) ((o.elements ++ ps).length : Nat)) := by
  induction ps with
  | nil =>
    intro rest hl o hw _
    rw [looseMorePairs] at hl
    obtain ⟨g, hg, rfl⟩ := hl
    have e : JSONObject.mk (o.elements ++ []) ((o.elements ++ []).length : Nat) = o := by
      rw [List.append_nil]
      exact (o_eq_mk_of_WF o hw).symm
    rw [e]
    exact o_loop_close pO pA g post (fun c hc => hP c (hg c hc)) hpost o
  | cons p ps ih =>
    intro rest hl o hw hk
    rw [looseMorePairs] at hl
    obtain ⟨g1, g2, tp, r, h1, h2, hlp, hlr, rfl⟩ := hl
    cases p with
    | mk key v =>
      rw [cleanPairs, cleanPair] at hps
      obtain ⟨⟨⟨k, rfl, hkq⟩, hv⟩, hps'⟩ := hps
      rw [depthPairs] at hdp
      have hdv : depthElement v ≤ m := le_trans (le_max_left _ _) hdp
      have hdps : depthPairs ps ≤ m := le_trans (le_max_right _ _) hdp
      have main : o_parseJSONObject_loop pO pA (tp ++ (r ++ post)) 0 false o none false =
          .ok (.mk (o.elements ++ JSONPair.mk (some k) v :: ps)
            ((o.elements ++ JSONPair.mk (some k) v :: ps).length : Nat)) := by
        obtain ⟨t', ht', hval⟩ := o_loose_member P hP pO pA m HO HA k hkq v hv hdv tp hlp
          (r ++ post) (looseMorePairs_head P hP ps r post hlr) o
        rw [hval]
        have hk1 : keysDistinct (o.elements ++ [JSONPair.mk (some k) v]) := by
          have : (o.elements ++ [JSONPair.mk (some k) v]).Sublist
              (o.elements ++ JSONPair.mk (some k) v :: ps) := by
            apply List.Sublist.append_left
            exact List.Sublist.cons₂ _ (List.nil_sublist _)
          exact List.Pairwise.sublist this hk
        rw [o_setJSONElement_fresh o hw k v hk1]
        have hih := ih hps' hdps r hlr
          (.mk (o.elements ++ [JSONPair.mk (some k) v])
            ((o.elements ++ [JSONPair.mk (some k) v]).length : Nat)) rfl
          (by rw [o_elements_mk, List.append_assoc]; exact hk)
        rw [o_elements_mk, List.append_assoc, List.singleton_append] at hih
        rcases ht' with rfl | rfl
        · exact hih.1
        · exact hih.2
      have hfill : ∀ c ∈ g1 ++ ',' :: g2, libjson_isspace c = true ∨ c = ',' := by
        intro c hc
        rcases List.mem_append.1 hc with hc | hc
        · exact hP c (h1 c hc)
        · rcases List.mem_cons.1 hc with hc | hc
          · exact Or.inr hc
          · exact hP c (h2 c hc)
      have e : g1 ++ ',' :: (g2 ++ (tp ++ r)) ++ post =
          (g1 ++ ',' :: g2) ++ (tp ++ (r ++ post)) := by simp
      rw [e]
      constructor
      · rw [o_loop_fill pO pA _ _ hfill]
        exact main
      · obtain ⟨c0, f, hf⟩ : ∃ c0 f, g1 ++ ',' :: g2 = c0 :: f := by
          cases g1 with
          | nil => exact ⟨_, _, rfl⟩
          | cons y ys => exact ⟨_, _, rfl⟩
        rw [hf] at hfill ⊢
        rw [List.cons_append, List.tail_cons,
          o_loop_fill pO pA f _ (fun x hx => hfill x (List.mem_cons_of_mem _ hx))]
        exact main

/-- After the opening brace, the loop of `o_parseJSONObject` reads a loose
text of the pairs of an object. -/
theorem o_loose_pairs (P : Char → Prop)
    (hP : ∀ c, P c → libjson_isspace c = true ∨ c = ',')
    (pO : List Char → Except Fault JSONObject) (pA : List Char → Except Fault JSONArray)
    (m : Nat)
    (HO : ∀ c text, cleanObject true c → depthObject c ≤ m → looseObject P c text →
      pO text = .ok c)
    (HA : ∀ c text, cleanArray true c → depthArray c ≤ m → looseArray P c text →
      pA text = .ok c)
    (post : List Char) (hpost : ∀ c ∈ post, libjson_isspace c = true ∨ c = ',')
    (ps : List JSONPair) (hps : cleanPairs true ps) (hdp : depthPairs ps ≤ m)
    (hk : keysDistinct ps) (body : List Char) (hl : loosePairs P ps body) :
    o_parseJSONObject_loop pO pA (body ++ post) 0 false o_emptyJSONObject none false =
      .ok (.mk ps (ps.length : Nat)) := by
  cases ps with
  | nil =>
    rw [loosePairs] at hl
    obtain ⟨g, hg, rfl⟩ := hl
    exact (o_loop_close pO pA g post (fun c hc => hP c (hg c hc)) hpost o_emptyJSONObject).1
  | cons p ps =>
    rw [loosePairs] at hl
    obtain ⟨g, tp, r, h1, hlp, hlr, rfl⟩ := hl
    cases p with
    | mk key v =>
      rw [cleanPairs, cleanPair] at hps
      obtain ⟨⟨⟨k, rfl, hkq⟩, hv⟩, hps'⟩ := hps
      rw [depthPairs] at hdp
      have hdv : depthElement v ≤ m := le_trans (le_max_left _ _) hdp
      have hdps : depthPairs ps ≤ m := le_trans (le_max_right _ _) hdp
      have e : g ++ (tp ++ r) ++ post = g ++ (tp ++ (r ++ post)) := by simp
      rw [e, o_loop_fill pO pA g _ (fun c hc => hP c (h1 c hc))]
      obtain ⟨t', ht', hval⟩ := o_loose_member P hP pO pA m HO HA k hkq v hv hdv tp hlp
        (r ++ post) (looseMorePairs_head P hP ps r post hlr) o_emptyJSONObject
      rw [hval]
      have hk1 : keysDistinct (o_emptyJSONObject.elements ++ [JSONPair.mk (some k) v]) :=
        List.pairwise_singleton _ _
      rw [o_setJSONElement_fresh o_emptyJSONObject rfl k v hk1]
      have hih := o_loose_more P hP pO pA m HO HA post hpost ps hps' hdps r hlr
        (.mk (o_emptyJSONObject.elements ++ [JSONPair.mk (some k) v])
          ((o_emptyJSONObject.elements ++ [JSONPair.mk (some k) v]).length : Nat)) rfl
        (by rw [o_elements_mk]; exact hk)
      rw [o_elements_mk] at hih
      rcases ht' with rfl | rfl
      · exact hih.1
      · exact hih.2

/-- After an element, the loop of `a_parseJSONArray` reads the rest of a loose
text of an array and appends its elements, whether or not the first character
of that rest was already jumped over. -/
theorem a_loose_more (P : Char → Prop)
    (hP : ∀ c, P c → libjson_isspace c = true ∨ c = ',')
    (pO : List Char → Except Fault JSONObject) (pA : List Char → Except Fault JSONArray)
    (m : Nat)
    (HO : ∀ c text, cleanObject true c → depthObject c ≤ m → looseObject P c text →
      pO text = .ok c)
    (HA : ∀ c text, cleanArray true c → depthArray c ≤ m → looseArray P c text →
      pA text = .ok c)
    (post : List Char) (hpost : ∀ c ∈ post, libjson_isspace c = true ∨ c = ',')
    (es : List JSONElement) (hes : cleanElements true es) (hde : depthElements es ≤ m) :
    ∀ (rest : List Char), looseMoreElements P es rest → ∀ arr : JSONArray, arr.WF →
      a_parseJSONArray_loop pO pA (rest ++ post) 0 false arr =
          .ok (.mk (arr.elements ++ es) ((arr.elements ++ es).length : Nat)) ∧
        a_parseJSONArray_loop pO pA (rest ++ post).tail 0 false arr =
          .ok (.mk (arr.elements ++ es) ((arr.elements ++ es).length : Nat)) := by
  induction es with
  | nil =>
    intro rest hl arr hw
    rw [looseMoreElements] at hl
    obtain ⟨g, hg, rfl⟩ := hl
    have e : JSONArray.mk (arr.elements ++ []) ((arr.elements ++ []).length : Nat) = arr := by
      rw [List.append_nil]
      exact (a_eq_mk_of_WF arr hw).symm
    rw [e]
    exact a_loop_close pO pA g post (fun c hc => hP c (hg c hc)) hpost arr
  | cons v es ih =>
    intro rest hl arr hw
    rw [looseMoreElements] at hl
    obtain ⟨g1, g2, te, r, h1, h2, hle, hlr, rfl⟩ := hl
    rw [cleanElements] at hes
    obtain ⟨hv, hes'⟩ := hes
    rw [depthElements] at hde
    have hdv : depthElement v ≤ m := le_trans (le_max_left _ _) hde
    have hdes : depthElements es ≤ m := le_trans (le_max_right _ _) hde
    have main : a_parseJSONArray_loop pO pA (te ++ (r ++ post)) 0 false arr =
        .ok (.mk (arr.elements ++ v :: es) ((arr.elements ++ v :: es).length : Nat)) := by
      obtain ⟨t', ht', hval⟩ := a_loose_value P hP pO pA m HO HA v hv hdv te hle
        (r ++ post) (looseMoreElements_head P hP es r post hlr) arr
      rw [hval]
      have hset : a_setJSONElement arr arr.numberOfElements v =
          .mk (arr.elements ++ [v]) ((arr.elements ++ [v]).length : Nat) := by
        rw [a_eq_mk_of_WF arr hw, a_numberOfElements_mk, a_elements_mk,
          a_setJSONElement_append]
        simp
      rw [hset]
      have hih := ih hes' hdes r hlr
        (.mk (arr.elements ++ [v]) ((arr.elements ++ [v]).length : Nat)) rfl
      rw [a_elements_mk, List.append_assoc, List.singleton_append] at hih
      rcases ht' with rfl | rfl
      · exact hih.1
      · exact hih.2
    have hfill : ∀ c ∈ g1 ++ ',' :: g2, libjson_isspace c = true ∨ c = ',' := by
      intro c hc
      rcases List.mem_append.1 hc with hc | hc
      · exact hP c (h1 c hc)
      · rcases List.mem_cons.1 hc with hc | hc
        · exact Or.inr hc
        · exact hP c (h2 c hc)
    have e : g1 ++ ',' :: (g2 ++ (te ++ r)) ++ post =
        (g1 ++ ',' :: g2) ++ (te ++ (r ++ post)) := by simp
    rw [e]
    constructor
    · rw [a_loop_fill pO pA _ _ hfill]
      exact main
    · obtain ⟨c0, f, hf⟩ : ∃ c0 f, g1 ++ ',' :: g2 = c0 :: f := by
        cases g1 with
        | nil => exact ⟨_, _, rfl⟩
        | cons y ys => exact ⟨_, _, rfl⟩
      rw [hf] at hfill ⊢
      rw [List.cons_append, List.tail_cons,
        a_loop_fill pO pA f _ (fun x hx => hfill x (List.mem_cons_of_mem _ hx))]
      exact main

/-- After the opening bracket, the loop of `a_parseJSONArray` reads a loose
text of the elements of an array. -/
theorem a_loose_elements (P : Char → Prop)
    (hP : ∀ c, P c → libjson_isspace c = true ∨ c = ',')
    (pO : List Char → Except Fault JSONObject) (pA : List Char → Except Fault JSONArray)
    (m : Nat)
    (HO : ∀ c text, cleanObject true c → depthObject c ≤ m → looseObject P c text →
      pO text = .ok c)
    (HA : ∀ c text, cleanArray true c → depthArray c ≤ m → looseArray P c text →
      pA text = .ok c)
    (post : List Char) (hpost : ∀ c ∈ post, libjson_isspace c = true ∨ c = ',')
    (es : List JSONElement) (hes : cleanElements true es) (hde : depthElements es ≤ m)
    (body : List Char) (hl : looseElements P es body) :
    a_parseJSONArray_loop pO pA (body ++ post) 0 false a_emptyJSONArray =
      .ok (.mk es (es.length : Nat)) := by
  cases es with
  | nil =>
    rw [looseElements] at hl
    obtain ⟨g, hg, rfl⟩ := hl
    exact (a_loop_close pO pA g post (fun c hc => hP c (hg c hc)) hpost a_emptyJSONArray).1
  | cons v es =>
    rw [looseElements] at hl
    obtain ⟨g, te, r, h1, hle, hlr, rfl⟩ := hl
    rw [cleanElements] at hes
    obtain ⟨hv, hes'⟩ := hes
    rw [depthElements] at hde
    have hdv : depthElement v ≤ m := le_trans (le_max_left _ _) hde
    have hdes : depthElements es ≤ m := le_trans (le_max_right _ _) hde
    have e : g ++ (te ++ r) ++ post = g ++ (te ++ (r ++ post)) := by simp
    rw [e, a_loop_fill pO pA g _ (fun c hc => hP c (h1 c hc))]
    obtain ⟨t', ht', hval⟩ := a_loose_value P hP pO pA m HO HA v hv hdv te hle
      (r ++ post) (looseMoreElements_head P hP es r post hlr) a_emptyJSONArray
    rw [hval]
    have hset : a_setJSONElement a_emptyJSONArray a_emptyJSONArray.numberOfElements v =
        .mk [v] (([v] : List JSONElement).length : Nat) := rfl
    rw [hset]
    have hih := a_loose_more P hP pO pA m HO HA post hpost es hes' hdes r hlr
      (.mk [v] (([v] : List JSONElement).length : Nat)) rfl
    rw [a_elements_mk, List.singleton_append] at hih
    rcases ht' with rfl | rfl
    · exact hih.1
    · exact hih.2

/-! ## The parsers on loose text -/

/-- With a budget of nested calls that covers the depth, the parsers read a
loose text of a clean container, between filler, as the container. -/
theorem parseFuel_loose (P : Char → Prop)
    (hP : ∀ c, P c → libjson_isspace c = true ∨ c = ',') (fuel : Nat) :
    (∀ o text pre post, cleanObject true o → depthObject o ≤ fuel → looseObject P o text →
      (∀ c ∈ pre, libjson_isspace c = true ∨ c = ',') →
      (∀ c ∈ post, libjson_isspace c = true ∨ c = ',') →
      o_parseFuel fuel (pre ++ text ++ post) = .ok o) ∧
    (∀ a text pre post, cleanArray true a → depthArray a ≤ fuel → looseArray P a text →
      (∀ c ∈ pre, libjson_isspace c = true ∨ c = ',') →
      (∀ c ∈ post, libjson_isspace c = true ∨ c = ',') →
      a_parseFuel fuel (pre ++ text ++ post) = .ok a) := by
  induction fuel with
  | zero =>
    constructor
    · intro o _ _ _ _ hd
      have := depthObject_pos o
      omega
    · intro a _ _ _ _ hd
      have := depthArray_pos a
      omega
  | succ fuel ih =>
    have HO : ∀ c text, cleanObject true c → depthObject c ≤ fuel → looseObject P c text →
        o_parseFuel fuel text = .ok c := by
      intro c text hc hd hl
      have := ih.1 c text [] [] hc hd hl (by simp) (by simp)
      simpa using this
    have HA : ∀ c text, cleanArray true c → depthArray c ≤ fuel → looseArray P c text →
        a_parseFuel fuel text = .ok c := by
      intro c text hc hd hl
      have := ih.2 c text [] [] hc hd hl (by simp) (by simp)
      simpa using this
    constructor
    · intro o text pre post hc hd hl hpre hpost
      cases o with
      | mk es n =>
        rw [cleanObject] at hc
        obtain ⟨rfl, hk, hps⟩ := hc
        rw [depthObject] at hd
        rw [looseObject] at hl
        obtain ⟨body, hb, rfl⟩ := hl
        rw [o_parseFuel]
        have e : pre ++ '{' :: body ++ post = pre ++ ('{' :: (body ++ post)) := by simp
        have step : o_parseJSONObject_loop (o_parseFuel fuel) (a_parseFuel fuel)
            ('{' :: (body ++ post)) 0 true o_emptyJSONObject none false =
            o_parseJSONObject_loop (o_parseFuel fuel) (a_parseFuel fuel)
              (body ++ post) 0 false o_emptyJSONObject none false := rfl
        rw [e, o_loop_fill _ _ pre _ hpre, step]
        exact o_loose_pairs P hP _ _ fuel HO HA post hpost es hps (by omega) hk body hb
    · intro a text pre post hc hd hl hpre hpost
      cases a with
      | mk es n =>
        rw [cleanArray] at hc
        obtain ⟨rfl, hes⟩ := hc
        rw [depthArray] at hd
        rw [looseArray] at hl
        obtain ⟨body, hb, rfl⟩ := hl
        rw [a_parseFuel]
        have e : pre ++ '[' :: body ++ post = pre ++ ('[' :: (body ++ post)) := by simp
        have step : a_parseJSONArray_loop (o_parseFuel fuel) (a_parseFuel fuel)
            ('[' :: (body ++ post)) 0 true a_emptyJSONArray =
            a_parseJSONArray_loop (o_parseFuel fuel) (a_parseFuel fuel)
              (body ++ post) 0 false a_emptyJSONArray := rfl
        rw [e, a_loop_fill _ _ pre _ hpre, step]
        exact a_loose_elements P hP _ _ fuel HO HA post hpost es hes (by omega) body hb

/-! ## Loose texts and the serializer -/

theorem spec_whitespace_isspace (c : Char) (h : spec_whitespace c) :
    libjson_isspace c = true ∨ c = ',' := by
  left
  rcases h with e | e | e | e | e | e <;> (rw [e]; rfl)

theorem spec_comma_fill (c : Char) (h : spec_comma c) :
    libjson_isspace c = true ∨ c = ',' :=
  Or.inr h

theorem looseMorePairs_reread (P : Char → Prop) (ps : List JSONPair)
    (H : ∀ p ∈ ps, ∀ t, loosePair P p t → loosePair P (rereadPair p) t) :
    ∀ text, looseMorePairs P ps text → looseMorePairs P (rereadPairs ps) text := by
  induction ps with
  | nil =>
    intro text h
    rw [rereadPairs]
    exact h
  | cons p ps ih =>
    intro text h
    rw [looseMorePairs] at h
    obtain ⟨g1, g2, tp, rest, h1, h2, hlp, hlr, rfl⟩ := h
    rw [rereadPairs, looseMorePairs]
    exact ⟨g1, g2, tp, rest, h1, h2, H p (List.mem_cons_self _ _) tp hlp,
      ih (fun q hq => H q (List.mem_cons_of_mem _ hq)) rest hlr, rfl⟩

theorem loosePairs_reread (P : Char → Prop) (ps : List JSONPair)
    (H : ∀ p ∈ ps, ∀ t, loosePair P p t → loosePair P (rereadPair p) t) :
    ∀ text, loosePairs P ps text → loosePairs P (rereadPairs ps) text := by
  cases ps with
  | nil =>
    intro text h
    rw [rereadPairs]
    exact h
  | cons p ps =>
    intro text h
    rw [loosePairs] at h
    obtain ⟨g, tp, rest, h1, hlp, hlr, rfl⟩ := h
    rw [rereadPairs, loosePairs]
    exact ⟨g, tp, rest, h1, H p (List.mem_cons_self _ _) tp hlp,
      looseMorePairs_reread P ps (fun q hq => H q (List.mem_cons_of_mem _ hq)) rest hlr, rfl⟩

theorem looseMoreElements_reread (P : Char → Prop) (es : List JSONElement)
    (H : ∀ e ∈ es, ∀ t, looseElement P e t → looseElement P (rereadElement e) t) :
    ∀ text, looseMoreElements P es text → looseMoreElements P (rereadElements es) text := by
  induction es with
  | nil =>
    intro text h
    rw [rereadElements]
    exact h
  | cons p ps ih =>
    intro text h
    rw [looseMoreElements] at h
    obtain ⟨g1, g2, tp, rest, h1, h2, hlp, hlr, rfl⟩ := h
    rw [rereadElements, looseMoreElements]
    exact ⟨g1, g2, tp, rest, h1, h2, H p (List.mem_cons_self _ _) tp hlp,
      ih (fun q hq => H q (List.mem_cons_of_mem _ hq)) rest hlr, rfl⟩

theorem looseElements_reread (P : Char → Prop) (es : List JSONElement)
    (H : ∀ e ∈ es, ∀ t, looseElement P e t → looseElement P (rereadElement e) t) :
    ∀ text, looseElements P es text → looseElements P (rereadElements es) text := by
  cases es with
  | nil =>
    intro text h
    rw [rereadElements]
    exact h
  | cons p ps =>
    intro text h
    rw [looseElements] at h
    obtain ⟨g, tp, rest, h1, hlp, hlr, rfl⟩ := h
    rw [rereadElements, looseElements]
    exact ⟨g, tp, rest, h1, H p (List.mem_cons_self _ _) tp hlp,
      looseMoreElements_reread P ps (fun q hq => H q (List.mem_cons_of_mem _ hq)) rest hlr,
      rfl⟩

/-- A loose text of a value is a loose text of the value with its numbers
reread: the tokens are the same. -/
theorem looseElement_reread (P : Char → Prop) (n : Nat) :
    ∀ (e : JSONElement) (text : List Char), depthElement e = n → looseElement P e text →
      looseElement P (rereadElement e) text := by
  induction n using Nat.strong_induction_on with
  | _ n ih =>
    intro e text hd hl
    cases e with
    | mk type o a bo num s =>
      cases type with
      | object =>
        rw [depthElement] at hd
        rw [looseElement] at hl
        rw [rereadElement, looseElement]
        cases o with
        | mk es cnt =>
          rw [depthObject] at hd
          rw [looseObject] at hl
          obtain ⟨body, hb, rfl⟩ := hl
          rw [rereadObject, looseObject]
          refine ⟨body, loosePairs_reread P es ?_ body hb, rfl⟩
          intro p hp t ht
          have hdp := depthPairs_mem es p hp
          cases p with
          | mk k v =>
            rw [loosePair] at ht
            obtain ⟨g1, g2, tv, h1, h2, hlv, rfl⟩ := ht
            rw [rereadPair, loosePair]
            simp only [pair_value_mk] at hdp
            exact ⟨g1, g2, tv, h1, h2, ih (depthElement v) (by omega) v tv rfl hlv, rfl⟩
      | array =>
        rw [depthElement] at hd
        rw [looseElement] at hl
        rw [rereadElement, looseElement]
        cases a with
        | mk es cnt =>
          rw [depthArray] at hd
          rw [looseArray] at hl
          obtain ⟨body, hb, rfl⟩ := hl
          rw [rereadArray, looseArray]
          refine ⟨body, looseElements_reread P es ?_ body hb, rfl⟩
          intro e he t ht
          have hde := depthElements_mem es e he
          exact ih (depthElement e) (by omega) e t rfl ht
      | boolean =>
        rw [rereadElement]
        exact hl
      | number =>
        rw [looseElement] at hl
        rw [rereadElement, looseElement, hl, renderElement, renderElement,
          (sprintf_sscanf_numText num).1]
      | string =>
        rw [rereadElement]
        exact hl
      | null =>
        rw [rereadElement]
        exact hl

theorem nil_fill (P : Char → Prop) : ∀ c ∈ ([] : List Char), P c :=
  fun _ hc => absurd hc (List.not_mem_nil _)

theorem looseMorePairs_render (P : Char → Prop) (ps : List JSONPair)
    (H : ∀ p ∈ ps, loosePair P p (renderPair p)) :
    looseMorePairs P ps (renderPairsTail ps) := by
  induction ps with
  | nil =>
    rw [looseMorePairs, renderPairsTail]
    exact ⟨[], nil_fill P, rfl⟩
  | cons p ps ih =>
    rw [looseMorePairs, renderPairsTail]
    exact ⟨[], [], renderPair p, renderPairsTail ps, nil_fill P,
      nil_fill P, H p (List.mem_cons_self _ _),
      ih (fun q hq => H q (List.mem_cons_of_mem _ hq)), rfl⟩

theorem looseMoreElements_render (P : Char → Prop) (es : List JSONElement)
    (H : ∀ e ∈ es, looseElement P e (renderElement e)) :
    looseMoreElements P es (renderElementsTail es) := by
  induction es with
  | nil =>
    rw [looseMoreElements, renderElementsTail]
    exact ⟨[], nil_fill P, rfl⟩
  | cons p ps ih =>
    rw [looseMoreElements, renderElementsTail]
    exact ⟨[], [], renderElement p, renderElementsTail ps, nil_fill P,
      nil_fill P, H p (List.mem_cons_self _ _),
      ih (fun q hq => H q (List.mem_cons_of_mem _ hq)), rfl⟩

/-- The text the serializer writes is a loose text: the one with no filler. -/
theorem looseElement_render (P : Char → Prop) (n : Nat) :
    ∀ e : JSONElement, depthElement e = n → looseElement P e (renderElement e) := by
  induction n using Nat.strong_induction_on with
  | _ n ih =>
    intro e hd
    cases e with
    | mk type o a bo num s =>
      cases type with
      | object =>
        rw [depthElement] at hd
        rw [looseElement, renderElement]
        cases o with
        | mk es cnt =>
          rw [depthObject] at hd
          have H : ∀ p ∈ es, loosePair P p (renderPair p) := by
            intro p hp
            have hdp := depthPairs_mem es p hp
            cases p with
            | mk k v =>
              simp only [pair_value_mk] at hdp
              rw [loosePair, renderPair]
              exact ⟨[], [], renderElement v, nil_fill P,
                nil_fill P, ih (depthElement v) (by omega) v rfl, rfl⟩
          rw [looseObject]
          cases es with
          | nil =>
            rw [renderObject]
            refine ⟨['}'], ?_, rfl⟩
            rw [loosePairs]
            exact ⟨[], nil_fill P, rfl⟩
          | cons p ps =>
            rw [renderObject]
            refine ⟨renderPair p ++ renderPairsTail ps, ?_, rfl⟩
            rw [loosePairs]
            exact ⟨[], renderPair p, renderPairsTail ps, nil_fill P,
              H p (List.mem_cons_self _ _),
              looseMorePairs_render P ps (fun q hq => H q (List.mem_cons_of_mem _ hq)), rfl⟩
      | array =>
        rw [depthElement] at hd
        rw [looseElement, renderElement]
        cases a with
        | mk es cnt =>
          rw [depthArray] at hd
          have H : ∀ e ∈ es, looseElement P e (renderElement e) := by
            intro e he
            have hde := depthElements_mem es e he
            exact ih (depthElement e) (by omega) e rfl
          rw [looseArray]
          cases es with
          | nil =>
            rw [renderArray]
            refine ⟨[']'], ?_, rfl⟩
            rw [looseElements]
            exact ⟨[], nil_fill P, rfl⟩
          | cons p ps =>
            rw [renderArray]
            refine ⟨renderElement p ++ renderElementsTail ps, ?_, rfl⟩
            rw [looseElements]
            exact ⟨[], renderElement p, renderElementsTail ps, nil_fill P,
              H p (List.mem_cons_self _ _),
              looseMoreElements_render P ps (fun q hq => H q (List.mem_cons_of_mem _ hq)),
              rfl⟩
      | boolean => rw [looseElement]
      | number => rw [looseElement]
      | string => rw [looseElement]
      | null => rw [looseElement]

theorem reread_array (b : Bool) (a : JSONArray) (h : cleanArray b a) :
    cleanArray true (rereadArray a) ∧ renderArray (rereadArray a) = renderArray a := by
  have := reread_facts b _ _ rfl (cleanElement_array b a h)
  rw [rereadElement, cleanElement, renderElement, renderElement] at this
  exact ⟨this.1.2.1, this.2⟩

/-- The object parser on a loose text of a clean object, between filler:
the object the parser reads from the serializer's text. -/
theorem loose_object_parse (P : Char → Prop)
    (hP : ∀ c, P c → libjson_isspace c = true ∨ c = ',') (b : Bool) (o : JSONObject)
    (hc : cleanObject b o) (pre text post : List Char)
    (hpre : ∀ c ∈ pre, libjson_isspace c = true ∨ c = ',')
    (hl : looseObject P o text)
    (hpost : ∀ c ∈ post, libjson_isspace c = true ∨ c = ',') :
    o_parseJSONObject (pre ++ text ++ post) = .ok (rereadObject o) := by
  obtain ⟨h1, _⟩ := reread_object b o hc
  have hl2 : looseObject P (rereadObject o) text := by
    have := looseElement_reread P _
      (.mk .object o a_emptyJSONArray false LongDouble.zero none) text rfl
      (by rw [looseElement]; exact hl)
    rw [rereadElement, looseElement] at this
    exact this
  obtain ⟨_, _, _, hd⟩ := looseObject_form P hP _ h1 text hl2
  unfold o_parseJSONObject
  refine (parseFuel_loose P hP _).1 _ text pre post h1 ?_ hl2 hpre hpost
  simp only [List.length_append]
  omega

/-- The array parser on a loose text of a clean array, between filler. -/
theorem loose_array_parse (P : Char → Prop)
    (hP : ∀ c, P c → libjson_isspace c = true ∨ c = ',') (b : Bool) (a : JSONArray)
    (hc : cleanArray b a) (pre text post : List Char)
    (hpre : ∀ c ∈ pre, libjson_isspace c = true ∨ c = ',')
    (hl : looseArray P a text)
    (hpost : ∀ c ∈ post, libjson_isspace c = true ∨ c = ',') :
    a_parseJSONArray (pre ++ text ++ post) = .ok (rereadArray a) := by
  obtain ⟨h1, _⟩ := reread_array b a hc
  have hl2 : looseArray P (rereadArray a) text := by
    have := looseElement_reread P _
      (.mk .array o_emptyJSONObject a false LongDouble.zero none) text rfl
      (by rw [looseElement]; exact hl)
    rw [rereadElement, looseElement] at this
    exact this
  obtain ⟨_, _, _, hd⟩ := looseArray_form P hP _ h1 text hl2
  unfold a_parseJSONArray
  refine (parseFuel_loose P hP _).2 _ text pre post h1 ?_ hl2 hpre hpost
  simp only [List.length_append]
  omega

theorem looseObject_render (P : Char → Prop) (o : JSONObject) :
    looseObject P o (renderObject o) := by
  have := looseElement_render P _
    (.mk .object o a_emptyJSONArray false LongDouble.zero none) rfl
  rw [looseElement, renderElement] at this
  exact this

theorem looseArray_render (P : Char → Prop) (a : JSONArray) :
    looseArray P a (renderArray a) := by
  have := looseElement_render P _
    (.mk .array o_emptyJSONObject a false LongDouble.zero none) rfl
  rw [looseElement, renderElement] at this
  exact this

/-- For a tree that satisfies the invariant, the serializer's text is a
loose text of the tree (for any filler), the parser reads it, and the parser
reads every loose text of the tree, between filler, to the same result. -/
theorem loose_object_insignificant (P : Char → Prop)
    (hP : ∀ c, P c → libjson_isspace c = true ∨ c = ',') (json : JSONObject)
    (hc : cleanObject false json) :
    (∃ s, o_JSONObjectToString json = .ok s) ∧
      ∀ s, o_JSONObjectToString json = .ok s →
        looseObject P json s ∧ (∃ r, o_parseJSONObject s = .ok r) ∧
          ∀ pre text post : List Char, (∀ c ∈ pre, P c) → looseObject P json text →
            (∀ c ∈ post, P c) →
            o_parseJSONObject (pre ++ text ++ post) = o_parseJSONObject s := by
  obtain ⟨h1, h2, _⟩ := clean_object_idempotent false json hc
  refine ⟨⟨_, h1⟩, ?_⟩
  intro s hs
  rw [h1] at hs
  cases hs
  refine ⟨looseObject_render P json, ⟨_, h2⟩, ?_⟩
  intro pre text post hpre hl hpost
  rw [h2]
  exact loose_object_parse P hP false json hc pre text post (fun c hc => hP c (hpre c hc)) hl
    (fun c hc => hP c (hpost c hc))

/-- The same for arrays. -/
theorem loose_array_insignificant (P : Char → Prop)
    (hP : ∀ c, P c → libjson_isspace c = true ∨ c = ',') (json : JSONArray)
    (hc : cleanArray false json) :
    (∃ s, a_JSONArrayToString json = .ok s) ∧
      ∀ s, a_JSONArrayToString json = .ok s →
        looseArray P json s ∧ (∃ r, a_parseJSONArray s = .ok r) ∧
          ∀ pre text post : List Char, (∀ c ∈ pre, P c) → looseArray P json text →
            (∀ c ∈ post, P c) →
            a_parseJSONArray (pre ++ text ++ post) = a_parseJSONArray s := by
  have h1 := clean_array_ser false json hc
  have h2 : a_parseJSONArray (renderArray json) = .ok (rereadArray json) := by
    have := loose_array_parse P hP false json hc [] (renderArray json) [] (by simp)
      (looseArray_render P json) (by simp)
    simpa using this
  refine ⟨⟨_, h1⟩, ?_⟩
  intro s hs
  rw [h1] at hs
  cases hs
  refine ⟨looseArray_render P json, ⟨_, h2⟩, ?_⟩
  intro pre text post hpre hl hpost
  rw [h2]
  exact loose_array_parse P hP false json hc pre text post (fun c hc => hP c (hpre c hc)) hl
    (fun c hc => hP c (hpost c hc))

/-! ## Building loose texts -/

theorem looseElement_object (P : Char → Prop) (o : JSONObject) (a : JSONArray) (b : Bool)
    (n : LongDouble) (s : Option (List Char)) (text : List Char) (h : looseObject P o text) :
    looseElement P (.mk .object o a b n s) text := by
  rw [looseElement]
  exact h

theorem looseElement_array (P : Char → Prop) (o : JSONObject) (a : JSONArray) (b : Bool)
    (n : LongDouble) (s : Option (List Char)) (text : List Char) (h : looseArray P a text) :
    looseElement P (.mk .array o a b n s) text := by
  rw [looseElement]
  exact h

theorem loosePair_intro (P : Char → Prop) (key : Option (List Char)) (value : JSONElement)
    (g1 g2 tv : List Char) (h1 : ∀ c ∈ g1, P c) (h2 : ∀ c ∈ g2, P c)
    (h : looseElement P value tv) :
    loosePair P (.mk key value) ('"' :: (key.getD [] ++ '"' :: (g1 ++ ':' :: (g2 ++ tv)))) := by
  rw [loosePair]
  exact ⟨g1, g2, tv, h1, h2, h, rfl⟩

theorem looseObject_intro (P : Char → Prop) (ps : List JSONPair) (n : Int) (body : List Char)
    (h : loosePairs P ps body) : looseObject P (.mk ps n) ('{' :: body) := by
  rw [looseObject]
  exact ⟨body, h, rfl⟩

theorem loosePairs_nil (P : Char → Prop) (g : List Char) (hg : ∀ c ∈ g, P c) :
    loosePairs P [] (g ++ ['}']) := by
  rw [loosePairs]
  exact ⟨g, hg, rfl⟩

theorem loosePairs_cons (P : Char → Prop) (p : JSONPair) (ps : List JSONPair)
    (g tp rest : List Char) (hg : ∀ c ∈ g, P c) (hp : loosePair P p tp)
    (hr : looseMorePairs P ps rest) : loosePairs P (p :: ps) (g ++ (tp ++ rest)) := by
  rw [loosePairs]
  exact ⟨g, tp, rest, hg, hp, hr, rfl⟩

theorem looseMorePairs_nil (P : Char → Prop) (g : List Char) (hg : ∀ c ∈ g, P c) :
    looseMorePairs P [] (g ++ ['}']) := by
  rw [looseMorePairs]
  exact ⟨g, hg, rfl⟩

theorem looseMorePairs_cons (P : Char → Prop) (p : JSONPair) (ps : List JSONPair)
    (g1 g2 tp rest : List Char) (h1 : ∀ c ∈ g1, P c) (h2 : ∀ c ∈ g2, P c)
    (hp : loosePair P p tp) (hr : looseMorePairs P ps rest) :
    looseMorePairs P (p :: ps) (g1 ++ ',' :: (g2 ++ (tp ++ rest))) := by
  rw [looseMorePairs]
  exact ⟨g1, g2, tp, rest, h1, h2, hp, hr, rfl⟩

theorem looseArray_intro (P : Char → Prop) (es : List JSONElement) (n : Int)
    (body : List Char) (h : looseElements P es body) : looseArray P (.mk es n) ('[' :: body) := by
  rw [looseArray]
  exact ⟨body, h, rfl⟩

theorem looseElements_nil (P : Char → Prop) (g : List Char) (hg : ∀ c ∈ g, P c) :
    looseElements P [] (g ++ [']']) := by
  rw [looseElements]
  exact ⟨g, hg, rfl⟩

theorem looseElements_cons (P : Char → Prop) (e : JSONElement) (es : List JSONElement)
    (g te rest : List Char) (hg : ∀ c ∈ g, P c) (he : looseElement P e te)
    (hr : looseMoreElements P es rest) : looseElements P (e :: es) (g ++ (te ++ rest)) := by
  rw [looseElements]
  exact ⟨g, te, rest, hg, he, hr, rfl⟩

theorem looseMoreElements_nil (P : Char → Prop) (g : List Char) (hg : ∀ c ∈ g, P c) :
    looseMoreElements P [] (g ++ [']']) := by
  rw [looseMoreElements]
  exact ⟨g, hg, rfl⟩

theorem looseMoreElements_cons (P : Char → Prop) (e : JSONElement) (es : List JSONElement)
    (g1 g2 te rest : List Char) (h1 : ∀ c ∈ g1, P c) (h2 : ∀ c ∈ g2, P c)
    (he : looseElement P e te) (hr : looseMoreElements P es rest) :
    looseMoreElements P (e :: es) (g1 ++ ',' :: (g2 ++ (te ++ rest))) := by
  rw [looseMoreElements]
  exact ⟨g1, g2, te, rest, h1, h2, he, hr, rfl⟩

/-! ## C28: whitespace after an unescaped quote -/

/-- C28 (as stated, refuted): the tree with `k` bound to the string `a\` and
`j` bound to `b` is serialized as `{"k":"a\","j":"b"}`; with one space after
the string token `"a\"` the parser reads `k` as `a\" ,`, from the serializer's
text it reads `k` as `a\",`. -/
theorem C28_unescaped_quote_whitespace :
    o_JSONObjectToString
        (o_setString (o_setString o_emptyJSONObject (some ['k']) (some ['a', '\\'])) (some ['j'])
          (some ['b'])) =
      .ok ['{', '"', 'k', '"', ':', '"', 'a', '\\', '"', ',', '"', 'j', '"', ':', '"', 'b',
        '"', '}'] ∧
    looseObject spec_whitespace
      (o_setString (o_setString o_emptyJSONObject (some ['k']) (some ['a', '\\'])) (some ['j'])
        (some ['b']))
      ['{', '"', 'k', '"', ':', '"', 'a', '\\', '"', ' ', ',', '"', 'j', '"', ':', '"', 'b',
        '"', '}'] ∧
    o_parseJSONObject ['{', '"', 'k', '"', ':', '"', 'a', '\\', '"', ',', '"', 'j', '"', ':',
        '"', 'b', '"', '}'] =
      .ok (o_setString o_emptyJSONObject (some ['k']) (some ['a', '\\', '"', ','])) ∧
    o_parseJSONObject ['{', '"', 'k', '"', ':', '"', 'a', '\\', '"', ' ', ',', '"', 'j', '"',
        ':', '"', 'b', '"', '}'] =
      .ok (o_setString o_emptyJSONObject (some ['k']) (some ['a', '\\', '"', ' ', ','])) ∧
    (o_parseJSONObject ['{', '"', 'k', '"', ':', '"', 'a', '\\', '"', ' ', ',', '"', 'j', '"',
        ':', '"', 'b', '"', '}']).toOption.map (fun o => o_getString o (some ['k'])) ≠
      (o_parseJSONObject ['{', '"', 'k', '"', ':', '"', 'a', '\\', '"', ',', '"', 'j', '"', ':',
        '"', 'b', '"', '}']).toOption.map (fun o => o_getString o (some ['k'])) := by
  refine ⟨rfl, ?_, rfl, rfl, ?_⟩
  · exact looseObject_intro _ _ _ _
      (loosePairs_cons _ _ _ [] ['"', 'k', '"', ':', '"', 'a', '\\', '"']
        [' ', ',', '"', 'j', '"', ':', '"', 'b', '"', '}'] (by decide)
        (loosePair_intro _ (some ['k']) _ [] [] ['"', 'a', '\\', '"'] (by decide) (by decide)
          (looseElement_render _ _ _ rfl))
        (looseMorePairs_cons _ _ _ [' '] [] ['"', 'j', '"', ':', '"', 'b', '"'] ['}']
          (by decide) (by decide)
          (loosePair_intro _ (some ['j']) _ [] [] ['"', 'b', '"'] (by decide) (by decide)
            (looseElement_render _ _ _ rfl))
          (looseMorePairs_nil _ [] (by decide))))
  · decide

/-! ## C30: commas after an unescaped quote -/

/-- C30 (as stated, refuted): the tree with `k` bound to the string `a\` and
`j` bound to `b` is serialized as `{"k":"a\","j":"b"}`; with the separating
comma doubled the parser reads `k` as `a\",,`, from the serializer's text it
reads `k` as `a\",`. -/
theorem C30_unescaped_quote_commas :
    o_JSONObjectToString
        (o_setString (o_setString o_emptyJSONObject (some ['k']) (some ['a', '\\'])) (some ['j'])
          (some ['b'])) =
      .ok ['{', '"', 'k', '"', ':', '"', 'a', '\\', '"', ',', '"', 'j', '"', ':', '"', 'b',
        '"', '}'] ∧
    looseObject spec_comma
      (o_setString (o_setString o_emptyJSONObject (some ['k']) (some ['a', '\\'])) (some ['j'])
        (some ['b']))
      ['{', '"', 'k', '"', ':', '"', 'a', '\\', '"', ',', ',', '"', 'j', '"', ':', '"', 'b',
        '"', '}'] ∧
    o_parseJSONObject ['{', '"', 'k', '"', ':', '"', 'a', '\\', '"', ',', '"', 'j', '"', ':',
        '"', 'b', '"', '}'] =
      .ok (o_setString o_emptyJSONObject (some ['k']) (some ['a', '\\', '"', ','])) ∧
    o_parseJSONObject ['{', '"', 'k', '"', ':', '"', 'a', '\\', '"', ',', ',', '"', 'j', '"',
        ':', '"', 'b', '"', '}'] =
      .ok (o_setString o_emptyJSONObject (some ['k']) (some ['a', '\\', '"', ',', ','])) ∧
    (o_parseJSONObject ['{', '"', 'k', '"', ':', '"', 'a', '\\', '"', ',', ',', '"', 'j', '"',
        ':', '"', 'b', '"', '}']).toOption.map (fun o => o_getString o (some ['k'])) ≠
      (o_parseJSONObject ['{', '"', 'k', '"', ':', '"', 'a', '\\', '"', ',', '"', 'j', '"', ':',
        '"', 'b', '"', '}']).toOption.map (fun o => o_getString o (some ['k'])) := by
  refine ⟨rfl, ?_, rfl, rfl, ?_⟩
  · exact looseObject_intro _ _ _ _
      (loosePairs_cons _ _ _ [] ['"', 'k', '"', ':', '"', 'a', '\\', '"']
        [',', ',', '"', 'j', '"', ':', '"', 'b', '"', '}'] (by decide)
        (loosePair_intro _ (some ['k']) _ [] [] ['"', 'a', '\\', '"'] (by decide) (by decide)
          (looseElement_render _ _ _ rfl))
        (looseMorePairs_cons _ _ _ [','] [] ['"', 'j', '"', ':', '"', 'b', '"'] ['}']
          (by decide) (by decide)
          (loosePair_intro _ (some ['j']) _ [] [] ['"', 'b', '"'] (by decide) (by decide)
            (looseElement_render _ _ _ rfl))
          (looseMorePairs_nil _ [] (by decide))))
  · decide

/-! ## C33: the `opt` accessors test the tag -/

theorem isNull_iff_type (json : JSONObject) (key : Option (List Char)) :
    o_isNull json key = true ↔ (o_getJSONElement json key).type = JSONType.null := by
  unfold o_isNull
  exact beq_iff_eq

theorem object_ne_succ (x : JSONObject) : JSONObject.mk [] (x.numberOfElements + 1) ≠ x := by
  intro h
  have := congrArg JSONObject.numberOfElements h
  rw [o_numberOfElements_mk] at this
  omega

theorem array_ne_succ (x : JSONArray) : JSONArray.mk [] (x.numberOfElements + 1) ≠ x := by
  intro h
  have := congrArg JSONArray.numberOfElements h
  rw [a_numberOfElements_mk] at this
  omega

theorem longDouble_ne_flip (x : LongDouble) :
    (⟨!x.neg, 0, 0, Or.inl rfl⟩ : LongDouble) ≠ x := by
  intro h
  have := congrArg LongDouble.neg h
  cases hx : x.neg <;> simp [hx] at this

theorem string_ne_cons (x : Option (List Char)) : some ('x' :: x.getD []) ≠ x := by
  cases x with
  | none => simp
  | some s =>
    intro h
    have := congrArg (fun o : Option (List Char) => (o.getD []).length) h
    simp at this

/-- C33: the `o_opt*` accessors fall back on the tag, not on presence. Each
`o_opt*` returns its default when `o_isNull` holds for the key and the field
of the looked-up element otherwise, so the call returns its default for every
default if and only if `o_isNull` holds; after `o_setNull` the key is present
and every `o_opt*` returns the default; and on a key holding a value of
another type the call returns the unused field of that element: `o_optInt` on
a key holding a string returns 0, `o_optBoolean` returns false, `o_optString`
on a key holding an integer returns `NULL`. -/
theorem C33_opt_tag (json : JSONObject) (key : Option (List Char)) :
    ((∀ d, o_optJSONObject json key d =
        if o_isNull json key = true then d else o_getJSONObject json key) ∧
      (∀ d, o_optJSONArray json key d =
        if o_isNull json key = true then d else o_getJSONArray json key) ∧
      (∀ d, o_optBoolean json key d =
        if o_isNull json key = true then d else o_getBoolean json key) ∧
      (∀ d, o_optInt json key d =
        if o_isNull json key = true then d else o_getInt json key) ∧
      (∀ d, o_optDouble json key d =
        if o_isNull json key = true then d else o_getDouble json key) ∧
      (∀ d, o_optString json key d =
        if o_isNull json key = true then d else o_getString json key)) ∧
    (((∀ d, o_optJSONObject json key d = d) ↔ o_isNull json key = true) ∧
      ((∀ d, o_optJSONArray json key d = d) ↔ o_isNull json key = true) ∧
      ((∀ d, o_optBoolean json key d = d) ↔ o_isNull json key = true) ∧
      ((∀ d, o_optInt json key d = d) ↔ o_isNull json key = true) ∧
      ((∀ d, o_optDouble json key d = d) ↔ o_isNull json key = true) ∧
      ((∀ d, o_optString json key d = d) ↔ o_isNull json key = true)) ∧
    (∀ k : List Char, json.Valid →
      o_has (o_setNull json (some k)) (some k) = true ∧
      (∀ d, o_optJSONObject (o_setNull json (some k)) (some k) d = d) ∧
      (∀ d, o_optJSONArray (o_setNull json (some k)) (some k) d = d) ∧
      (∀ d, o_optBoolean (o_setNull json (some k)) (some k) d = d) ∧
      (∀ d, o_optInt (o_setNull json (some k)) (some k) d = d) ∧
      (∀ d, o_optDouble (o_setNull json (some k)) (some k) d = d) ∧
      (∀ d, o_optString (o_setNull json (some k)) (some k) d = d)) ∧
    (∀ (k : List Char) (s : Option (List Char)), json.Valid →
      o_has (o_setString json (some k) s) (some k) = true ∧
      o_isNull (o_setString json (some k) s) (some k) = false ∧
      (∀ d, o_optInt (o_setString json (some k) s) (some k) d = 0) ∧
      (∀ d, o_optBoolean (o_setString json (some k) s) (some k) d = false)) ∧
    (∀ (k : List Char) (n : Int), json.Valid →
      o_has (o_setInt json (some k) n) (some k) = true ∧
      (∀ d, o_optString (o_setInt json (some k) n) (some k) d = none)) := by
  have branch : ∀ {α : Type} (f : JSONElement → α) (d : α),
      (if (o_getJSONElement json key).type = JSONType.null then d
        else f (o_getJSONElement json key)) =
      if o_isNull json key = true then d else f (o_getJSONElement json key) := by
    intro α f d
    by_cases h : (o_getJSONElement json key).type = JSONType.null
    · rw [if_pos h, if_pos ((isNull_iff_type json key).2 h)]
    · rw [if_neg h, if_neg (fun h2 => h ((isNull_iff_type json key).1 h2))]
  have iffd : ∀ {α : Type} (v : α) (other : α), other ≠ v →
      ((∀ d : α, (if o_isNull json key = true then d else v) = d) ↔
        o_isNull json key = true) := by
    intro α v other hne
    constructor
    · intro h
      by_contra hn
      have := h other
      rw [if_neg hn] at this
      exact hne this.symm
    · intro h d
      rw [if_pos h]
  have b1 : ∀ d, o_optJSONObject json key d =
      if o_isNull json key = true then d else o_getJSONObject json key :=
    fun d => branch JSONElement.object d
  have b2 : ∀ d, o_optJSONArray json key d =
      if o_isNull json key = true then d else o_getJSONArray json key :=
    fun d => branch JSONElement.array d
  have b3 : ∀ d, o_optBoolean json key d =
      if o_isNull json key = true then d else o_getBoolean json key :=
    fun d => branch JSONElement.boolean d
  have b4 : ∀ d, o_optInt json key d =
      if o_isNull json key = true then d else o_getInt json key :=
    fun d => branch (fun e => e.number.toLong) d
  have b5 : ∀ d, o_optDouble json key d =
      if o_isNull json key = true then d else o_getDouble json key :=
    fun d => branch JSONElement.number d
  have b6 : ∀ d, o_optString json key d =
      if o_isNull json key = true then d else o_getString json key :=
    fun d => branch JSONElement.string d
  refine ⟨⟨b1, b2, b3, b4, b5, b6⟩, ⟨?_, ?_, ?_, ?_, ?_, ?_⟩, ?_, ?_, ?_⟩
  · simp only [b1]
    exact iffd _ _ (object_ne_succ _)
  · simp only [b2]
    exact iffd _ _ (array_ne_succ _)
  · simp only [b3]
    exact iffd _ (!o_getBoolean json key) (by cases o_getBoolean json key <;> decide)
  · simp only [b4]
    exact iffd _ (o_getInt json key + 1) (by omega)
  · simp only [b5]
    exact iffd _ _ (longDouble_ne_flip _)
  · simp only [b6]
    exact iffd _ _ (string_ne_cons _)
  · intro k hv
    have hg : o_getJSONElement (o_setNull json (some k)) (some k) = libjson_emptyJSONElement :=
      o_getJSONElement_set json hv k _
    refine ⟨o_has_set json hv k _, ?_, ?_, ?_, ?_, ?_, ?_⟩ <;> intro d
    · unfold o_optJSONObject; rw [hg]; rfl
    · unfold o_optJSONArray; rw [hg]; rfl
    · unfold o_optBoolean; rw [hg]; rfl
    · unfold o_optInt; rw [hg]; rfl
    · unfold o_optDouble; rw [hg]; rfl
    · unfold o_optString; rw [hg]; rfl
  · intro k s hv
    have hg : o_getJSONElement (o_setString json (some k) s) (some k) =
        .mk .string o_emptyJSONObject a_emptyJSONArray false LongDouble.zero
          (libjson_strcpy s) := o_getJSONElement_set json hv k _
    refine ⟨o_has_set json hv k _, ?_, ?_, ?_⟩
    · unfold o_isNull; rw [hg]; rfl
    · intro d
      unfold o_optInt
      rw [hg]
      show (if JSONType.string = JSONType.null then d else LongDouble.zero.toLong) = 0
      rw [if_neg (by decide)]
      decide
    · intro d
      unfold o_optBoolean
      rw [hg]
      show (if JSONType.string = JSONType.null then d else false) = false
      rw [if_neg (by decide)]
  · intro k n hv
    have hg : o_getJSONElement (o_setInt json (some k) n) (some k) =
        .mk .number o_emptyJSONObject a_emptyJSONArray false (LongDouble.ofLong n) none :=
      o_getJSONElement_set json hv k _
    refine ⟨o_has_set json hv k _, ?_⟩
    intro d
    unfold o_optString
    rw [hg]
    show (if JSONType.number = JSONType.null then d else none) = none
    rw [if_neg (by decide)]

/-- C33, witness: in the object `{"a":1}`, the key `n` set to null and the
key `s` set to the string `x`, with the default 7. -/
theorem C33_opt_tag_witness :
    o_optInt (o_setNull (o_setInt o_emptyJSONObject (some ['a']) 1) (some ['n'])) (some ['n']) 7
        = 7 ∧
      o_optInt (o_setString (o_setInt o_emptyJSONObject (some ['a']) 1) (some ['s'])
        (some ['x'])) (some ['s']) 7 = 0 ∧
      o_optString (o_setInt (o_setInt o_emptyJSONObject (some ['a']) 1) (some ['i']) 5)
        (some ['i']) (some ['d']) = none :=
  ⟨((C33_opt_tag (o_setInt o_emptyJSONObject (some ['a']) 1) none).2.2.1 ['n']
      (by decide)).2.2.2.2.1 7,
    ((C33_opt_tag (o_setInt o_emptyJSONObject (some ['a']) 1) none).2.2.2.1 ['s'] (some ['x'])
      (by decide)).2.2.1 7,
    ((C33_opt_tag (o_setInt o_emptyJSONObject (some ['a']) 1) none).2.2.2.2 ['i'] 5
      (by decide)).2 (some ['d'])⟩

/-! ## C34: the frame of the object mutators -/

theorem strcmp_other (k k2 : Option (List Char)) (hk : k ≠ k2) (q : Option (List Char))
    (h : libjson_strcmp k q = true) : libjson_strcmp k2 q = false := by
  obtain ⟨s, rfl, rfl⟩ := (libjson_strcmp_iff k q).1 h
  cases hc : libjson_strcmp k2 (some s) with
  | false => rfl
  | true =>
    obtain ⟨t, rfl, ht⟩ := (libjson_strcmp_iff k2 (some s)).1 hc
    exact absurd ht hk

theorem o_getJSONElement_loop_filter (k k2 : Option (List Char)) (hk : k ≠ k2)
    (l : List JSONPair) :
    o_getJSONElement_loop k2 (l.filter (fun p => !libjson_strcmp k p.key))
        (l.filter (fun p => !libjson_strcmp k p.key)).length =
      o_getJSONElement_loop k2 l l.length := by
  induction l with
  | nil => rfl
  | cons p ps ih =>
    cases hp : libjson_strcmp k p.key with
    | true =>
      have h2 := strcmp_other k k2 hk p.key hp
      rw [List.filter_cons_of_neg (by simp [hp]), List.length_cons, o_getJSONElement_loop,
        if_neg (by simp [h2])]
      exact ih
    | false =>
      rw [List.filter_cons_of_pos (by simp [hp]), List.length_cons, List.length_cons,
        o_getJSONElement_loop, o_getJSONElement_loop, ih]

theorem o_has_loop_filter (k k2 : Option (List Char)) (hk : k ≠ k2) (l : List JSONPair) :
    o_has_loop k2 (l.filter (fun p => !libjson_strcmp k p.key))
        (l.filter (fun p => !libjson_strcmp k p.key)).length =
      o_has_loop k2 l l.length := by
  induction l with
  | nil => rfl
  | cons p ps ih =>
    cases hp : libjson_strcmp k p.key with
    | true =>
      have h2 := strcmp_other k k2 hk p.key hp
      rw [List.filter_cons_of_neg (by simp [hp]), List.length_cons, o_has_loop,
        if_neg (by simp [h2])]
      exact ih
    | false =>
      rw [List.filter_cons_of_pos (by simp [hp]), List.length_cons, List.length_cons,
        o_has_loop, o_has_loop, ih]

theorem o_getJSONElement_loop_snoc (k2 : Option (List Char)) (p : JSONPair)
    (hp : libjson_strcmp k2 p.key = false) (l : List JSONPair) :
    o_getJSONElement_loop k2 (l ++ [p]) (l ++ [p]).length =
      o_getJSONElement_loop k2 l l.length := by
  induction l with
  | nil =>
    show o_getJSONElement_loop k2 [p] 1 = _
    rw [o_getJSONElement_loop, if_neg (by simp [hp])]
    rfl
  | cons q qs ih =>
    rw [List.cons_append, List.length_cons, List.length_cons, o_getJSONElement_loop,
      o_getJSONElement_loop, ih]

theorem o_has_loop_snoc (k2 : Option (List Char)) (p : JSONPair)
    (hp : libjson_strcmp k2 p.key = false) (l : List JSONPair) :
    o_has_loop k2 (l ++ [p]) (l ++ [p]).length = o_has_loop k2 l l.length := by
  induction l with
  | nil =>
    show o_has_loop k2 [p] 1 = _
    rw [o_has_loop, if_neg (by simp [hp])]
    rfl
  | cons q qs ih =>
    rw [List.cons_append, List.length_cons, List.length_cons, o_has_loop, o_has_loop, ih]

theorem lookup_of_WF (json : JSONObject) (h : json.WF) (k2 : Option (List Char)) :
    o_getJSONElement json k2 = o_getJSONElement_loop k2 json.elements json.elements.length ∧
      o_has json k2 = o_has_loop k2 json.elements json.elements.length := by
  unfold o_getJSONElement o_has
  rw [h]
  exact ⟨rfl, rfl⟩

/-- The frame of `o_setJSONElement` and of `o_remove`. -/
theorem o_frame (json : JSONObject) (h : json.Valid) (k k2 : Option (List Char))
    (hk : k ≠ k2) :
    (∀ set : JSONElement,
      o_has (o_setJSONElement json k set) k2 = o_has json k2 ∧
      o_getJSONElement (o_setJSONElement json k set) k2 = o_getJSONElement json k2) ∧
    o_has (o_remove json k) k2 = o_has json k2 ∧
    o_getJSONElement (o_remove json k) k2 = o_getJSONElement json k2 := by
  obtain ⟨g0, h0⟩ := lookup_of_WF json h.1 k2
  have hkey : libjson_strcmp k2 k = false := by
    cases hc : libjson_strcmp k2 k with
    | false => rfl
    | true =>
      obtain ⟨s, rfl, rfl⟩ := (libjson_strcmp_iff k2 k).1 hc
      exact absurd rfl hk
  refine ⟨fun set => ?_, ?_⟩
  · obtain ⟨g1, h1⟩ := lookup_of_WF (o_setJSONElement json k set)
      (o_setJSONElement_valid json h k set).1 k2
    rw [g1, h1, g0, h0, o_setJSONElement_eq json h k set, o_elements_mk,
      o_getJSONElement_loop_snoc k2 _ (by simpa using hkey),
      o_has_loop_snoc k2 _ (by simpa using hkey),
      o_getJSONElement_loop_filter k k2 hk, o_has_loop_filter k k2 hk]
    exact ⟨rfl, rfl⟩
  · obtain ⟨g1, h1⟩ := lookup_of_WF (o_remove json k) (o_remove_valid json h k).1 k2
    rw [g1, h1, g0, h0, o_remove_eq json h.1 k, o_elements_mk, eraseP_eq_filter k _ h.2,
      o_getJSONElement_loop_filter k k2 hk, o_has_loop_filter k k2 hk]
    exact ⟨rfl, rfl⟩

/-- C34: the object mutators touch only the named key. For every object of
the data model and every two distinct keys `k` and `k2`, every `o_set*` call
with `k` and `o_remove` with `k` leave `o_has` for `k2` and the element looked
up for `k2` unchanged. -/
theorem C34_mutator_frame (json : JSONObject) (h : json.Valid) (k k2 : Option (List Char))
    (hk : k ≠ k2) :
    (∀ arg : SetArg,
      o_has (o_set json k arg) k2 = o_has json k2 ∧
      o_getJSONElement (o_set json k arg) k2 = o_getJSONElement json k2) ∧
    o_has (o_remove json k) k2 = o_has json k2 ∧
    o_getJSONElement (o_remove json k) k2 = o_getJSONElement json k2 := by
  obtain ⟨h1, h2⟩ := o_frame json h k k2 hk
  refine ⟨fun arg => ?_, h2⟩
  rw [o_set_eq]
  exact h1 _

/-- C34, witness: in the object `{"a":1,"b":true}`, setting `a` to a string
and removing `a` leave the lookup of `b` unchanged. -/
theorem C34_mutator_frame_witness :
    o_getJSONElement
        (o_set (o_setBoolean (o_setInt o_emptyJSONObject (some ['a']) 1) (some ['b']) true)
          (some ['a']) (.string (some ['x']))) (some ['b']) =
      o_getJSONElement
        (o_setBoolean (o_setInt o_emptyJSONObject (some ['a']) 1) (some ['b']) true)
        (some ['b']) ∧
    o_has
        (o_remove (o_setBoolean (o_setInt o_emptyJSONObject (some ['a']) 1) (some ['b']) true)
          (some ['a'])) (some ['b']) =
      o_has (o_setBoolean (o_setInt o_emptyJSONObject (some ['a']) 1) (some ['b']) true)
        (some ['b']) :=
  ⟨((C34_mutator_frame
      (o_setBoolean (o_setInt o_emptyJSONObject (some ['a']) 1) (some ['b']) true) (by decide)
      (some ['a']) (some ['b']) (by decide)).1 (.string (some ['x']))).2,
    (C34_mutator_frame
      (o_setBoolean (o_setInt o_emptyJSONObject (some ['a']) 1) (some ['b']) true) (by decide)
      (some ['a']) (some ['b']) (by decide)).2.1⟩

/-! ## C35: the type predicates -/

/-- C35: the type predicates partition every lookup. For every object and key,
and every array and index (in or out of range), exactly one of
`isJSONObject`, `isJSONArray`, `isBoolean`, `isDouble`, `isString` and
`isNull` is true, and `isInt` implies `isDouble`. -/
theorem C35_type_partition :
    (∀ (json : JSONObject) (key : Option (List Char)),
      [o_isJSONObject json key, o_isJSONArray json key, o_isBoolean json key,
        o_isDouble json key, o_isString json key, o_isNull json key].count true = 1 ∧
      (o_isInt json key = true → o_isDouble json key = true)) ∧
    (∀ (json : JSONArray) (index : Int),
      [a_isJSONObject json index, a_isJSONArray json index, a_isBoolean json index,
        a_isDouble json index, a_isString json index, a_isNull json index].count true = 1 ∧
      (a_isInt json index = true → a_isDouble json index = true)) := by
  constructor
  · intro json key
    unfold o_isJSONObject o_isJSONArray o_isBoolean o_isDouble o_isString o_isNull o_isInt
    generalize o_getJSONElement json key = e
    constructor
    · cases h : e.type <;> decide
    · intro hi
      simp only [Bool.and_eq_true] at hi
      exact hi.1
  · intro json index
    unfold a_isJSONObject a_isJSONArray a_isBoolean a_isDouble a_isString a_isNull a_isInt
    generalize a_getJSONElement json index = e
    constructor
    · cases h : e.type <;> decide
    · intro hi
      simp only [Bool.and_eq_true] at hi
      exact hi.1

/-- C35, witness: the integer 7 under the key `n` and at index 0; the index 5
is out of range. -/
theorem C35_type_partition_witness :
    o_isDouble (o_setInt o_emptyJSONObject (some ['n']) 7) (some ['n']) = true ∧
      a_isDouble (a_setInt a_emptyJSONArray 0 7) 0 = true ∧
      [a_isJSONObject (a_setInt a_emptyJSONArray 0 7) 5,
        a_isJSONArray (a_setInt a_emptyJSONArray 0 7) 5,
        a_isBoolean (a_setInt a_emptyJSONArray 0 7) 5,
        a_isDouble (a_setInt a_emptyJSONArray 0 7) 5,
        a_isString (a_setInt a_emptyJSONArray 0 7) 5,
        a_isNull (a_setInt a_emptyJSONArray 0 7) 5].count true = 1 :=
  ⟨(C35_type_partition.1 (o_setInt o_emptyJSONObject (some ['n']) 7) (some ['n'])).2
      (by decide),
    (C35_type_partition.2 (a_setInt a_emptyJSONArray 0 7) 0).2 (by decide),
    (C35_type_partition.2 (a_setInt a_emptyJSONArray 0 7) 5).1⟩

/-! ## Restricted trees -/

theorem escapedFrom_plain (s : List Char) (h1 : '"' ∉ s) (h2 : '\\' ∉ s) :
    escapedFrom s false = true := by
  induction s with
  | nil => rfl
  | cons c cs ih =>
    have hc1 : c ≠ '"' := fun e => h1 (e ▸ List.mem_cons_self _ _)
    have hc2 : c ≠ '\\' := fun e => h2 (e ▸ List.mem_cons_self _ _)
    rw [escapedFrom, if_neg hc2, if_neg hc1]
    exact ih (fun h => h1 (List.mem_cons_of_mem _ h)) (fun h => h2 (List.mem_cons_of_mem _ h))

theorem spec_plain_escaped (s : List Char) (h : spec_plain s) : quotesEscaped s = true :=
  escapedFrom_plain s h.1 h.2

theorem treePairs_mem (S : List Char → Prop) (N : LongDouble → Prop) (ps : List JSONPair)
    (h : treePairs S N ps) : ∀ p ∈ ps, treePair S N p := by
  induction ps with
  | nil => intro p hp; cases hp
  | cons q qs ih =>
    rw [treePairs] at h
    intro p hp
    rcases List.mem_cons.1 hp with rfl | hp
    · exact h.1
    · exact ih h.2 p hp

theorem treePairs_of_mem (S : List Char → Prop) (N : LongDouble → Prop) (ps : List JSONPair)
    (h : ∀ p ∈ ps, treePair S N p) : treePairs S N ps := by
  induction ps with
  | nil => rw [treePairs]; trivial
  | cons q qs ih =>
    rw [treePairs]
    exact ⟨h q (List.mem_cons_self _ _), ih (fun p hp => h p (List.mem_cons_of_mem _ hp))⟩

theorem treeElements_mem (S : List Char → Prop) (N : LongDouble → Prop) (es : List JSONElement)
    (h : treeElements S N es) : ∀ e ∈ es, treeElement S N e := by
  induction es with
  | nil => intro p hp; cases hp
  | cons q qs ih =>
    rw [treeElements] at h
    intro p hp
    rcases List.mem_cons.1 hp with rfl | hp
    · exact h.1
    · exact ih h.2 p hp

theorem treeElements_of_mem (S : List Char → Prop) (N : LongDouble → Prop)
    (es : List JSONElement) (h : ∀ e ∈ es, treeElement S N e) : treeElements S N es := by
  induction es with
  | nil => rw [treeElements]; trivial
  | cons q qs ih =>
    rw [treeElements]
    exact ⟨h q (List.mem_cons_self _ _), ih (fun p hp => h p (List.mem_cons_of_mem _ hp))⟩

/-- A restricted tree whose strings are escaped and whose numbers fit `tmp`
satisfies the invariant of the round trip. -/
theorem tree_clean (b : Bool) (S : List Char → Prop) (N : LongDouble → Prop)
    (hS : ∀ t, S t → quotesEscaped t = true)
    (hN : ∀ x, N x → x.Fits ∧ (b = true → x.exp ≤ 6)) (n : Nat) :
    ∀ e : JSONElement, depthElement e = n → treeElement S N e → cleanElement b e := by
  induction n using Nat.strong_induction_on with
  | _ n ih =>
    intro e hd ht
    cases e with
    | mk type o a bo num s =>
      cases type with
      | object =>
        rw [treeElement] at ht
        rw [depthElement] at hd
        rw [cleanElement]
        refine ⟨?_, ht.2⟩
        cases o with
        | mk es cnt =>
          obtain ⟨ho, _⟩ := ht
          rw [treeObject] at ho
          rw [depthObject] at hd
          rw [cleanObject]
          refine ⟨ho.1, ho.2.1, cleanPairs_of_mem b es ?_⟩
          intro p hp
          have htp := treePairs_mem S N es ho.2.2 p hp
          have hdp := depthPairs_mem es p hp
          cases p with
          | mk k v =>
            rw [treePair] at htp
            simp only [pair_value_mk] at hdp
            rw [cleanPair]
            obtain ⟨⟨t, hk, hSt⟩, hv⟩ := htp
            exact ⟨⟨t, hk, hS t hSt⟩, ih (depthElement v) (by omega) v rfl hv⟩
      | array =>
        rw [treeElement] at ht
        rw [depthElement] at hd
        rw [cleanElement]
        refine ⟨ht.1, ?_, ht.2.2⟩
        cases a with
        | mk es cnt =>
          obtain ⟨_, ha, _⟩ := ht
          rw [treeArray] at ha
          rw [depthArray] at hd
          rw [cleanArray]
          refine ⟨ha.1, cleanElements_of_mem b es ?_⟩
          intro e he
          have hde := depthElements_mem es e he
          exact ih (depthElement e) (by omega) e rfl (treeElements_mem S N es ha.2 e he)
      | boolean =>
        rw [treeElement] at ht
        rw [cleanElement]
        exact ht
      | number =>
        rw [treeElement] at ht
        rw [cleanElement]
        obtain ⟨h1, h2, h3, h4, h5⟩ := ht
        exact ⟨h1, h2, h3, hN num h4, h5⟩
      | string =>
        rw [treeElement] at ht
        rw [cleanElement]
        obtain ⟨h1, h2, h3, h4, t, h5, h6⟩ := ht
        exact ⟨h1, h2, h3, h4, t, h5, hS t h6⟩
      | null =>
        rw [treeElement] at ht
        rw [cleanElement]
        exact ht

theorem o_ser_loop_ok (ps : List JSONPair) :
    ∀ (i n : Int) (str s : List Char), i + (ps.length : Nat) = n →
      o_JSONObjectToString_loop ps i n str = .ok s →
      ∀ p ∈ ps, ∃ t, libjson_JSONPairToString p = .ok t := by
  induction ps with
  | nil => intro i n str s _ _ p hp; cases hp
  | cons q qs ih =>
    intro i n str s hn h p hp
    simp only [List.length_cons, Nat.cast_add, Nat.cast_one] at hn
    rw [o_JSONObjectToString_loop, if_pos (by omega)] at h
    cases hq : libjson_JSONPairToString q with
    | error e =>
      rw [hq] at h
      cases h
    | ok t =>
      rw [hq] at h
      rcases List.mem_cons.1 hp with rfl | hp
      · exact ⟨t, hq⟩
      · exact ih (i + 1) n _ s (by omega) h p hp

theorem a_ser_loop_ok (es : List JSONElement) :
    ∀ (i n : Int) (str s : List Char), i + (es.length : Nat) = n →
      a_JSONArrayToString_loop es i n str = .ok s →
      ∀ e ∈ es, ∃ t, libjson_JSONElementToString e = .ok t := by
  induction es with
  | nil => intro i n str s _ _ p hp; cases hp
  | cons q qs ih =>
    intro i n str s hn h p hp
    simp only [List.length_cons, Nat.cast_add, Nat.cast_one] at hn
    rw [a_JSONArrayToString_loop, if_pos (by omega)] at h
    cases hq : libjson_JSONElementToString q with
    | error e =>
      rw [hq] at h
      cases h
    | ok t =>
      rw [hq] at h
      rcases List.mem_cons.1 hp with rfl | hp
      · exact ⟨t, hq⟩
      · exact ih (i + 1) n _ s (by omega) h p hp

theorem pair_ser_ok (k : Option (List Char)) (v : JSONElement) (t : List Char)
    (h : libjson_JSONPairToString (.mk k v) = .ok t) :
    ∃ u, libjson_JSONElementToString v = .ok u := by
  rw [libjson_JSONPairToString] at h
  cases hv : libjson_JSONElementToString v with
  | error e =>
    rw [hv] at h
    cases h
  | ok u => exact ⟨u, rfl⟩

/-- When the serializer returns a text for a restricted tree, every number of
the tree fits `tmp`. -/
theorem tree_ser_fits (S : List Char → Prop) (N : LongDouble → Prop) (n : Nat) :
    ∀ e : JSONElement, depthElement e = n → treeElement S N e →
      (∃ s, libjson_JSONElementToString e = .ok s) →
      treeElement S (fun x => N x ∧ x.Fits) e := by
  induction n using Nat.strong_induction_on with
  | _ n ih =>
    intro e hd ht hs
    cases e with
    | mk type o a bo num s =>
      cases type with
      | object =>
        rw [treeElement] at ht ⊢
        rw [depthElement] at hd
        rw [libjson_JSONElementToString] at hs
        refine ⟨?_, ht.2⟩
        cases o with
        | mk es cnt =>
          obtain ⟨ho, _⟩ := ht
          rw [treeObject] at ho ⊢
          rw [depthObject] at hd
          obtain ⟨text, htext⟩ := hs
          rw [o_JSONObjectToString] at htext
          have hok := o_ser_loop_ok es 0 cnt _ text (by rw [ho.1]; simp) htext
          refine ⟨ho.1, ho.2.1, treePairs_of_mem _ _ es ?_⟩
          intro p hp
          have htp := treePairs_mem S N es ho.2.2 p hp
          have hdp := depthPairs_mem es p hp
          obtain ⟨t, hpt⟩ := hok p hp
          cases p with
          | mk k v =>
            rw [treePair] at htp ⊢
            simp only [pair_value_mk] at hdp
            exact ⟨htp.1, ih (depthElement v) (by omega) v rfl htp.2 (pair_ser_ok k v t hpt)⟩
      | array =>
        rw [treeElement] at ht ⊢
        rw [depthElement] at hd
        rw [libjson_JSONElementToString] at hs
        refine ⟨ht.1, ?_, ht.2.2⟩
        cases a with
        | mk es cnt =>
          obtain ⟨_, ha, _⟩ := ht
          rw [treeArray] at ha ⊢
          rw [depthArray] at hd
          obtain ⟨text, htext⟩ := hs
          rw [a_JSONArrayToString] at htext
          have hok := a_ser_loop_ok es 0 cnt _ text (by rw [ha.1]; simp) htext
          refine ⟨ha.1, treeElements_of_mem _ _ es ?_⟩
          intro e he
          have hde := depthElements_mem es e he
          exact ih (depthElement e) (by omega) e rfl (treeElements_mem S N es ha.2 e he)
            (hok e he)
      | boolean =>
        rw [treeElement] at ht ⊢
        exact ht
      | number =>
        rw [treeElement] at ht ⊢
        obtain ⟨h1, h2, h3, h4, h5⟩ := ht
        refine ⟨h1, h2, h3, ⟨h4, ?_⟩, h5⟩
        obtain ⟨text, htext⟩ := hs
        rw [libjson_JSONElementToString] at htext
        unfold libjson_numberToString at htext
        unfold LongDouble.Fits
        by_contra hc
        simp only [] at htext
        rw [if_pos (by omega)] at htext
        cases htext
      | string =>
        rw [treeElement] at ht ⊢
        exact ht
      | null =>
        rw [treeElement] at ht ⊢
        exact ht

theorem treeElement_object (S : List Char → Prop) (N : LongDouble → Prop) (o : JSONObject)
    (h : treeObject S N o) :
    treeElement S N (.mk .object o a_emptyJSONArray false LongDouble.zero none) := by
  rw [treeElement]
  exact ⟨h, rfl, rfl, rfl, rfl⟩

theorem treeElement_array (S : List Char → Prop) (N : LongDouble → Prop) (a : JSONArray)
    (h : treeArray S N a) :
    treeElement S N (.mk .array o_emptyJSONObject a false LongDouble.zero none) := by
  rw [treeElement]
  exact ⟨rfl, h, rfl, rfl, rfl⟩

theorem treeObject_clean (b : Bool) (S : List Char → Prop) (N : LongDouble → Prop)
    (hS : ∀ t, S t → quotesEscaped t = true)
    (hN : ∀ x, N x → x.Fits ∧ (b = true → x.exp ≤ 6)) (o : JSONObject)
    (h : treeObject S N o) : cleanObject b o := by
  have := tree_clean b S N hS hN _ _ rfl (treeElement_object S N o h)
  rw [cleanElement] at this
  exact this.1

theorem treeArray_clean (b : Bool) (S : List Char → Prop) (N : LongDouble → Prop)
    (hS : ∀ t, S t → quotesEscaped t = true)
    (hN : ∀ x, N x → x.Fits ∧ (b = true → x.exp ≤ 6)) (a : JSONArray)
    (h : treeArray S N a) : cleanArray b a := by
  have := tree_clean b S N hS hN _ _ rfl (treeElement_array S N a h)
  rw [cleanElement] at this
  exact this.2.1

theorem treeObject_ser_clean (S : List Char → Prop) (N : LongDouble → Prop)
    (hS : ∀ t, S t → quotesEscaped t = true) (o : JSONObject) (h : treeObject S N o)
    (s : List Char) (hs : o_JSONObjectToString o = .ok s) : cleanObject false o := by
  have h1 := tree_ser_fits S N _ _ rfl (treeElement_object S N o h)
    ⟨s, by rw [libjson_JSONElementToString]; exact hs⟩
  have := tree_clean false S _ hS (fun x hx => ⟨hx.2, fun hf => by cases hf⟩) _ _ rfl h1
  rw [cleanElement] at this
  exact this.1

theorem treeArray_ser_clean (S : List Char → Prop) (N : LongDouble → Prop)
    (hS : ∀ t, S t → quotesEscaped t = true) (a : JSONArray) (h : treeArray S N a)
    (s : List Char) (hs : a_JSONArrayToString a = .ok s) : cleanArray false a := by
  have h1 := tree_ser_fits S N _ _ rfl (treeElement_array S N a h)
    ⟨s, by rw [libjson_JSONElementToString]; exact hs⟩
  have := tree_clean false S _ hS (fun x hx => ⟨hx.2, fun hf => by cases hf⟩) _ _ rfl h1
  rw [cleanElement] at this
  exact this.2.1

/-! ## C31: the restricted round trip -/

/-- C31: the restricted round trip. For every tree with unique keys whose keys
and string values contain no quote and no backslash and whose numbers are
integers or decimals with at most six fractional digits, rendering in fewer
than 128 characters, the serializer writes a text and `o_parseJSONObject` of
that text is the tree itself, with its pairs and its elements in their order;
likewise `a_parseJSONArray` of the text of `a_JSONArrayToString`. -/
theorem C31_restricted_round_trip :
    (∀ tree : JSONObject, treeObject spec_plain spec_sixDigits tree →
      (∃ s, o_JSONObjectToString tree = .ok s) ∧
      (o_JSONObjectToString tree >>= o_parseJSONObject) = .ok tree) ∧
    (∀ arr : JSONArray, treeArray spec_plain spec_sixDigits arr →
      (∃ s, a_JSONArrayToString arr = .ok s) ∧
      (a_JSONArrayToString arr >>= a_parseJSONArray) = .ok arr) := by
  have hN : ∀ x, spec_sixDigits x → x.Fits ∧ (true = true → x.exp ≤ 6) :=
    fun x hx => ⟨hx.2, fun _ => hx.1⟩
  constructor
  · intro tree h
    obtain ⟨h1, h2⟩ := clean_object_round_trip tree
      (treeObject_clean true _ _ spec_plain_escaped hN tree h)
    refine ⟨⟨_, h1⟩, ?_⟩
    rw [h1]
    exact h2
  · intro arr h
    obtain ⟨h1, h2⟩ := clean_array_round_trip arr
      (treeArray_clean true _ _ spec_plain_escaped hN arr h)
    refine ⟨⟨_, h1⟩, ?_⟩
    rw [h1]
    exact h2

/-- C31, witness: the object `{"a":1.5,"b":["x]",-3]}` and the array
`["x]",-3]`. -/
theorem C31_restricted_round_trip_witness :
    (o_JSONObjectToString
        (o_set (o_set o_emptyJSONObject (some ['a'])
          (.double ⟨false, 15, 1, Or.inr (by decide)⟩)) (some ['b'])
          (.jsonArray (a_set (a_set a_emptyJSONArray 0 (.string (some ['x', ']']))) 1
            (.int (-3))))) >>= o_parseJSONObject) =
      .ok (o_set (o_set o_emptyJSONObject (some ['a'])
          (.double ⟨false, 15, 1, Or.inr (by decide)⟩)) (some ['b'])
          (.jsonArray (a_set (a_set a_emptyJSONArray 0 (.string (some ['x', ']']))) 1
            (.int (-3))))) ∧
    (a_JSONArrayToString (a_set (a_set a_emptyJSONArray 0 (.string (some ['x', ']']))) 1
        (.int (-3))) >>= a_parseJSONArray) =
      .ok (a_set (a_set a_emptyJSONArray 0 (.string (some ['x', ']']))) 1 (.int (-3))) := by
  constructor
  · refine (C31_restricted_round_trip.1 _ ?_).2
    show treeObject spec_plain spec_sixDigits
      (JSONObject.mk [JSONPair.mk _ (JSONElement.mk .number _ _ _ _ _),
        JSONPair.mk _ (JSONElement.mk .array _
          (JSONArray.mk [JSONElement.mk .string _ _ _ _ _, JSONElement.mk .number _ _ _ _ _] _)
          _ _ _)] _)
    rw [treeObject, treePairs, treePair, treeElement, treePairs, treePair, treeElement,
      treeArray, treeElements, treeElement, treeElements, treeElement, treeElements, treePairs]
    exact ⟨rfl, by decide, ⟨⟨_, rfl, by decide⟩, rfl, rfl, rfl, by decide, rfl⟩,
      ⟨⟨_, rfl, by decide⟩, rfl, ⟨rfl, ⟨rfl, rfl, rfl, rfl, _, rfl, by decide⟩,
        ⟨rfl, rfl, rfl, by decide, rfl⟩, trivial⟩, rfl, rfl, rfl⟩, trivial⟩
  · refine (C31_restricted_round_trip.2 _ ?_).2
    show treeArray spec_plain spec_sixDigits
      (JSONArray.mk [JSONElement.mk .string _ _ _ _ _, JSONElement.mk .number _ _ _ _ _] _)
    rw [treeArray, treeElements, treeElement, treeElements, treeElement, treeElements]
    exact ⟨rfl, ⟨rfl, rfl, rfl, rfl, _, rfl, by decide⟩, ⟨rfl, rfl, rfl, by decide, rfl⟩,
      trivial⟩

/-! ## C36: serializer output is self-delimiting -/

/-- C36: serializer output is self-delimiting for the scanner. For every tree
whose keys and string values contain no quote and no backslash, every text
`s` the serializer returns for it and every text `t`, `libjson_extractRaw` on
`s` followed by `t` returns exactly `s`, with the braces for an object and the
brackets for an array, also when string values contain bracket characters.
The serializer returns a text for every such tree whose numbers fit `tmp`. -/
theorem C36_self_delimiting :
    (∀ (obj : JSONObject) (s t : List Char), treeObject spec_plain spec_anyNumber obj →
      o_JSONObjectToString obj = .ok s → libjson_extractRaw (s ++ t) '{' '}' = s) ∧
    (∀ (arr : JSONArray) (s t : List Char), treeArray spec_plain spec_anyNumber arr →
      a_JSONArrayToString arr = .ok s → libjson_extractRaw (s ++ t) '[' ']' = s) ∧
    (∀ obj : JSONObject, treeObject spec_plain LongDouble.Fits obj →
      ∃ s, o_JSONObjectToString obj = .ok s) ∧
    (∀ arr : JSONArray, treeArray spec_plain LongDouble.Fits arr →
      ∃ s, a_JSONArrayToString arr = .ok s) := by
  have hN : ∀ x : LongDouble, x.Fits → x.Fits ∧ (false = true → x.exp ≤ 6) :=
    fun x hx => ⟨hx, fun hf => by cases hf⟩
  refine ⟨?_, ?_, ?_, ?_⟩
  · intro obj s t h hs
    have hc := treeObject_ser_clean _ _ spec_plain_escaped obj h s hs
    rw [clean_object_ser false obj hc] at hs
    cases hs
    exact extractRaw_renderObject false obj hc t
  · intro arr s t h hs
    have hc := treeArray_ser_clean _ _ spec_plain_escaped arr h s hs
    rw [clean_array_ser false arr hc] at hs
    cases hs
    exact extractRaw_renderArray false arr hc t
  · intro obj h
    exact ⟨_, clean_object_ser false obj (treeObject_clean false _ _ spec_plain_escaped hN obj h)⟩
  · intro arr h
    exact ⟨_, clean_array_ser false arr (treeArray_clean false _ _ spec_plain_escaped hN arr h)⟩

/-- C36, witness: the object `{"a":"}]{[","n":1}` followed by `}]}`, and the
array `["]","}"]` followed by `]]`; the serializer returns a text for that
object and for the array `["]",2]`. -/
theorem C36_self_delimiting_witness :
    libjson_extractRaw
        (['{', '"', 'a', '"', ':', '"', '}', ']', '{', '[', '"', ',', '"', 'n', '"', ':', '1',
          '}'] ++ ['}', ']', '}']) '{' '}' =
      ['{', '"', 'a', '"', ':', '"', '}', ']', '{', '[', '"', ',', '"', 'n', '"', ':', '1',
        '}'] ∧
    libjson_extractRaw (['[', '"', ']', '"', ',', '"', '}', '"', ']'] ++ [']', ']']) '[' ']' =
      ['[', '"', ']', '"', ',', '"', '}', '"', ']'] ∧
    (∃ s, o_JSONObjectToString
      (o_set (o_set o_emptyJSONObject (some ['a']) (.string (some ['}', ']', '{', '['])))
        (some ['n']) (.int 1)) = .ok s) ∧
    (∃ s, a_JSONArrayToString
      (a_set (a_set a_emptyJSONArray 0 (.string (some [']']))) 1 (.int 2)) = .ok s) := by
  refine ⟨?_, ?_, ?_, ?_⟩
  · refine C36_self_delimiting.1
      (o_set (o_set o_emptyJSONObject (some ['a']) (.string (some ['}', ']', '{', '['])))
        (some ['n']) (.int 1)) _ ['}', ']', '}'] ?_ rfl
    show treeObject spec_plain spec_anyNumber
      (JSONObject.mk [JSONPair.mk _ (JSONElement.mk .string _ _ _ _ _),
        JSONPair.mk _ (JSONElement.mk .number _ _ _ _ _)] _)
    rw [treeObject, treePairs, treePair, treeElement, treePairs, treePair, treeElement,
      treePairs]
    exact ⟨rfl, by decide, ⟨⟨_, rfl, by decide⟩, rfl, rfl, rfl, rfl, _, rfl, by decide⟩,
      ⟨⟨_, rfl, by decide⟩, rfl, rfl, rfl, trivial, rfl⟩, trivial⟩
  · refine C36_self_delimiting.2.1
      (a_set (a_set a_emptyJSONArray 0 (.string (some [']']))) 1 (.string (some ['}'])))
      _ [']', ']'] ?_ rfl
    show treeArray spec_plain spec_anyNumber
      (JSONArray.mk [JSONElement.mk .string _ _ _ _ _, JSONElement.mk .string _ _ _ _ _] _)
    rw [treeArray, treeElements, treeElement, treeElements, treeElement, treeElements]
    exact ⟨rfl, ⟨rfl, rfl, rfl, rfl, _, rfl, by decide⟩, ⟨rfl, rfl, rfl, rfl, _, rfl, by decide⟩,
      trivial⟩
  · refine C36_self_delimiting.2.2.1 _ ?_
    show treeObject spec_plain LongDouble.Fits
      (JSONObject.mk [JSONPair.mk _ (JSONElement.mk .string _ _ _ _ _),
        JSONPair.mk _ (JSONElement.mk .number _ _ _ _ _)] _)
    rw [treeObject, treePairs, treePair, treeElement, treePairs, treePair, treeElement,
      treePairs]
    exact ⟨rfl, by decide, ⟨⟨_, rfl, by decide⟩, rfl, rfl, rfl, rfl, _, rfl, by decide⟩,
      ⟨⟨_, rfl, by decide⟩, rfl, rfl, rfl, by decide, rfl⟩, trivial⟩
  · refine C36_self_delimiting.2.2.2 _ ?_
    show treeArray spec_plain LongDouble.Fits
      (JSONArray.mk [JSONElement.mk .string _ _ _ _ _, JSONElement.mk .number _ _ _ _ _] _)
    rw [treeArray, treeElements, treeElement, treeElements, treeElement, treeElements]
    exact ⟨rfl, ⟨rfl, rfl, rfl, rfl, _, rfl, by decide⟩, ⟨rfl, rfl, rfl, by decide, rfl⟩,
      trivial⟩

/-! ## Faults of the parsers -/

theorem stage_loop_fault (ds : List Char) :
    ∀ (j : Nat) (hp : Bool) (tmp : List Char) (e : Fault),
      libjson_stage_loop ds j hp tmp = .error e → e = .bufferOverrun := by
  induction ds with
  | nil =>
    intro j hp tmp e h
    rw [libjson_stage_loop] at h
    cases h
  | cons d ds ih =>
    intro j hp tmp e h
    rw [libjson_stage_loop] at h
    split at h
    · cases h
    · split at h
      · split at h
        · exact ih _ _ _ _ h
        · cases h
          rfl
      · split at h
        · split at h
          · exact ih _ _ _ _ h
          · cases h
            rfl
        · exact ih _ _ _ _ h

theorem stageNumber_fault (s : List Char) (e : Fault)
    (h : libjson_stageNumber s = .error e) : e = .bufferOverrun := by
  unfold libjson_stageNumber at h
  split at h
  · next e2 he =>
    cases h
    exact stage_loop_fault s _ _ _ _ he
  · split at h
    · cases h
      rfl
    · cases h

theorem stage_loop_short (ds : List Char) :
    ∀ (j : Nat) (hp : Bool) (tmp : List Char), tmp.length = j →
      j + (ds.takeWhile isNumChar).length < 128 →
      ∃ r : List Char × Nat, libjson_stage_loop ds j hp tmp = .ok r ∧ r.1.length < 128 := by
  induction ds with
  | nil =>
    intro j hp tmp ht hj
    rw [libjson_stage_loop]
    refine ⟨(tmp, j), rfl, ?_⟩
    show tmp.length < 128
    omega
  | cons d ds ih =>
    intro j hp tmp ht hj
    rw [libjson_stage_loop]
    by_cases hd : isNumChar d = true
    · rw [List.takeWhile_cons_of_pos hd, List.length_cons] at hj
      have hnot : ¬ (d ≠ '.' ∧ libjson_isdigit d = false ∧ d ≠ '-') := by
        intro hc
        unfold isNumChar at hd
        simp [hc.1, hc.2.1, hc.2.2] at hd
      rw [if_neg hnot]
      have hlen : ∀ x : Char, (tmp ++ [x]).length = j + 1 := by
        intro x
        rw [List.length_append, ht]
        rfl
      split
      · rw [if_pos (by omega)]
        exact ih _ _ _ (hlen _) (by omega)
      · split
        · rw [if_pos (by omega)]
          exact ih _ _ _ (hlen _) (by omega)
        · exact ih _ _ _ (hlen _) (by omega)
    · have hyes : d ≠ '.' ∧ libjson_isdigit d = false ∧ d ≠ '-' := by
        unfold isNumChar at hd
        simp only [Bool.or_eq_true, beq_iff_eq, not_or, Bool.not_eq_true] at hd
        exact ⟨hd.1.2, hd.1.1, hd.2⟩
      rw [if_pos hyes]
      refine ⟨_, rfl, ?_⟩
      show tmp.length < 128
      omega

theorem takeWhile_factor (s : List Char) : s.takeWhile isNumChar <:+: s :=
  (List.takeWhile_prefix _).isInfix

theorem stageNumber_short (s : List Char) (h : spec_shortNumbers s) (e : Fault) :
    libjson_stageNumber s ≠ .error e := by
  have hrun : (s.takeWhile isNumChar).length < 128 :=
    h _ (takeWhile_factor s) (fun c hc => List.mem_takeWhile_imp hc)
  obtain ⟨r, hr, hl⟩ := stage_loop_short s 0 false [] rfl (by omega)
  unfold libjson_stageNumber
  rw [hr]
  have hle : (r.1.takeWhile (fun c => c ≠ Char.ofNat 0)).length ≤ r.1.length :=
    (List.takeWhile_prefix _).length_le
  simp only []
  rw [if_neg (by omega)]
  intro hc
  cases hc

theorem spec_shortNumbers_factor (s t : List Char) (hst : s <:+: t)
    (h : spec_shortNumbers t) : spec_shortNumbers s :=
  fun run hr hn => h run (hr.trans hst) hn

theorem spec_shortNumbers_of_length (t : List Char) (h : t.length < 128) :
    spec_shortNumbers t :=
  fun _ hr _ => lt_of_le_of_lt hr.length_le h

theorem extractRaw_factor (c : Char) (cs : List Char) (op cl : Char) :
    libjson_extractRaw (c :: cs) op cl <:+: c :: cs := by
  unfold libjson_extractRaw
  exact (List.take_prefix _ _).isInfix

/-- The loop of `o_parseJSONObject` returns, or stops on a fault of a nested
call or of the number case. -/
theorem o_loop_returns (Q : Fault → Prop) (pO : List Char → Except Fault JSONObject)
    (pA : List Char → Except Fault JSONArray) (text : List Char) :
    ∀ (skip : Nat) (fb : Bool) (o : JSONObject) (key : Option (List Char)) (onValue : Bool),
      (∀ child : List Char, child <:+: text → child.head? = some '{' →
        returnsOr Q (pO child)) →
      (∀ child : List Char, child <:+: text → child.head? = some '[' →
        returnsOr Q (pA child)) →
      (∀ s : List Char, s <:+ text → ∀ e, libjson_stageNumber s = .error e → Q e) →
      returnsOr Q (o_parseJSONObject_loop pO pA text skip fb o key onValue) := by
  induction text with
  | nil =>
    intro skip fb o key onValue _ _ _
    rw [o_parseJSONObject_loop]
    trivial
  | cons c cs ih =>
    intro skip fb o key onValue hO hA hN
    have IH : ∀ (skip : Nat) (fb : Bool) (o : JSONObject) (key : Option (List Char))
        (onValue : Bool),
        returnsOr Q (o_parseJSONObject_loop pO pA cs skip fb o key onValue) :=
      fun skip fb o key onValue => ih skip fb o key onValue
        (fun ch hl hh => hO ch (hl.trans (List.suffix_cons c cs).isInfix) hh)
        (fun ch hl hh => hA ch (hl.trans (List.suffix_cons c cs).isInfix) hh)
        (fun s hs => hN s (hs.trans (List.suffix_cons c cs)))
    cases skip with
    | succ k =>
      rw [o_parseJSONObject_loop]
      exact IH _ _ _ _ _
    | zero =>
      rw [o_parseJSONObject_loop]
      by_cases h1 : libjson_isspace c = true
      · rw [if_pos h1]
        exact IH _ _ _ _ _
      rw [if_neg h1]
      by_cases h2 : c = '{'
      · subst h2
        rw [if_pos rfl]
        by_cases hfb : fb = true
        · rw [if_pos hfb]
          exact IH _ _ _ _ _
        · rw [if_neg hfb]
          have := hO _ (extractRaw_factor '{' cs '{' '}') (extractRaw_cons _ _ _ _).2
          show returnsOr Q (match pO (libjson_extractRaw ('{' :: cs) '{' '}') with
            | .error e => .error e
            | .ok v => o_parseJSONObject_loop pO pA cs _ fb _ none false)
          split
          · next e he =>
            rw [he] at this
            exact this
          · exact IH _ _ _ _ _
      rw [if_neg h2]
      by_cases h3 : c = '}'
      · rw [if_pos h3]
        trivial
      rw [if_neg h3]
      by_cases h4 : c = '"'
      · rw [if_pos h4]
        show returnsOr Q (if onValue = true then _ else _)
        by_cases hv : onValue = true
        · rw [if_pos hv]
          exact IH _ _ _ _ _
        · rw [if_neg hv]
          exact IH _ _ _ _ _
      rw [if_neg h4]
      by_cases h5 : c = '['
      · subst h5
        rw [if_pos rfl]
        have := hA _ (extractRaw_factor '[' cs '[' ']') (extractRaw_cons _ _ _ _).2
        show returnsOr Q (match pA (libjson_extractRaw ('[' :: cs) '[' ']') with
          | .error e => .error e
          | .ok v => o_parseJSONObject_loop pO pA cs _ fb _ none false)
        split
        · next e he =>
          rw [he] at this
          exact this
        · exact IH _ _ _ _ _
      rw [if_neg h5]
      by_cases h6 : c = 'n'
      · rw [if_pos h6]
        exact IH _ _ _ _ _
      rw [if_neg h6]
      by_cases h7 : c = 't' ∨ c = 'f'
      · rw [if_pos h7]
        exact IH _ _ _ _ _
      rw [if_neg h7]
      by_cases h8 : c = ':'
      · rw [if_pos h8]
        exact IH _ _ _ _ _
      rw [if_neg h8]
      by_cases h9 : c = ','
      · rw [if_pos h9]
        exact IH _ _ _ _ _
      rw [if_neg h9]
      by_cases h10 : libjson_isdigit c = true ∨ c = '-'
      · rw [if_pos h10]
        split
        · next e he => exact hN _ (List.suffix_refl _) e he
        · exact IH _ _ _ _ _
      · rw [if_neg h10]
        exact IH _ _ _ _ _

/-- The loop of `a_parseJSONArray` returns, or stops on a fault of a nested
call or of the number case. -/
theorem a_loop_returns (Q : Fault → Prop) (pO : List Char → Except Fault JSONObject)
    (pA : List Char → Except Fault JSONArray) (text : List Char) :
    ∀ (skip : Nat) (fb : Bool) (a : JSONArray),
      (∀ child : List Char, child <:+: text → child.head? = some '{' →
        returnsOr Q (pO child)) →
      (∀ child : List Char, child <:+: text → child.head? = some '[' →
        returnsOr Q (pA child)) →
      (∀ s : List Char, s <:+ text → ∀ e, libjson_stageNumber s = .error e → Q e) →
      returnsOr Q (a_parseJSONArray_loop pO pA text skip fb a) := by
  induction text with
  | nil =>
    intro skip fb a _ _ _
    rw [a_parseJSONArray_loop]
    trivial
  | cons c cs ih =>
    intro skip fb a hO hA hN
    have IH : ∀ (skip : Nat) (fb : Bool) (a : JSONArray),
        returnsOr Q (a_parseJSONArray_loop pO pA cs skip fb a) :=
      fun skip fb a => ih skip fb a
        (fun ch hl hh => hO ch (hl.trans (List.suffix_cons c cs).isInfix) hh)
        (fun ch hl hh => hA ch (hl.trans (List.suffix_cons c cs).isInfix) hh)
        (fun s hs => hN s (hs.trans (List.suffix_cons c cs)))
    cases skip with
    | succ k =>
      rw [a_parseJSONArray_loop]
      exact IH _ _ _
    | zero =>
      rw [a_parseJSONArray_loop]
      by_cases h1 : libjson_isspace c = true
      · rw [if_pos h1]
        exact IH _ _ _
      rw [if_neg h1]
      by_cases h2 : c = '['
      · subst h2
        rw [if_pos rfl]
        by_cases hfb : fb = true
        · rw [if_pos hfb]
          exact IH _ _ _
        · rw [if_neg hfb]
          have := hA _ (extractRaw_factor '[' cs '[' ']') (extractRaw_cons _ _ _ _).2
          show returnsOr Q (match pA (libjson_extractRaw ('[' :: cs) '[' ']') with
            | .error e => .error e
            | .ok v => a_parseJSONArray_loop pO pA cs _ fb _)
          split
          · next e he =>
            rw [he] at this
            exact this
          · exact IH _ _ _
      rw [if_neg h2]
      by_cases h3 : c = ']'
      · rw [if_pos h3]
        trivial
      rw [if_neg h3]
      by_cases h4 : c = '"'
      · rw [if_pos h4]
        exact IH _ _ _
      rw [if_neg h4]
      by_cases h5 : c = '{'
      · subst h5
        rw [if_pos rfl]
        have := hO _ (extractRaw_factor '{' cs '{' '}') (extractRaw_cons _ _ _ _).2
        show returnsOr Q (match pO (libjson_extractRaw ('{' :: cs) '{' '}') with
          | .error e => .error e
          | .ok v => a_parseJSONArray_loop pO pA cs _ fb _)
        split
        · next e he =>
          rw [he] at this
          exact this
        · exact IH _ _ _
      rw [if_neg h5]
      by_cases h6 : c = 'n'
      · rw [if_pos h6]
        exact IH _ _ _
      rw [if_neg h6]
      by_cases h7 : c = 't' ∨ c = 'f'
      · rw [if_pos h7]
        exact IH _ _ _
      rw [if_neg h7]
      by_cases h9 : c = ','
      · rw [if_pos h9]
        exact IH _ _ _
      rw [if_neg h9]
      by_cases h10 : libjson_isdigit c = true ∨ c = '-'
      · rw [if_pos h10]
        split
        · next e he => exact hN _ (List.suffix_refl _) e he
        · exact IH _ _ _
      · rw [if_neg h10]
        exact IH _ _ _

/-- On a text that starts with the parser's own opening delimiter, a budget
of `2 * length + 1` nested calls is not used up: the parser returns, or stops
on a fault of the number case. -/
theorem parseFuel_returns (Q : Fault → Prop) (P : List Char → Prop)
    (hPi : ∀ s t : List Char, s <:+: t → P t → P s)
    (hPn : ∀ s : List Char, P s → ∀ e, libjson_stageNumber s = .error e → Q e) (n : Nat) :
    (∀ str : List Char, str.length ≤ n → str.head? = some '{' → P str → ∀ f : Nat,
      2 * str.length + 1 ≤ f → returnsOr Q (o_parseFuel f str)) ∧
    (∀ str : List Char, str.length ≤ n → str.head? = some '[' → P str → ∀ f : Nat,
      2 * str.length + 1 ≤ f → returnsOr Q (a_parseFuel f str)) := by
  induction n with
  | zero =>
    constructor
    · intro str hl hh
      have : str = [] := List.eq_nil_of_length_eq_zero (by omega)
      subst this
      cases hh
    · intro str hl hh
      have : str = [] := List.eq_nil_of_length_eq_zero (by omega)
      subst this
      cases hh
  | succ n ih =>
    constructor
    · intro str hl hh hP f hf
      cases str with
      | nil => cases hh
      | cons c cs =>
        have hc : c = '{' := by simpa using hh
        subst hc
        rw [List.length_cons] at hl hf
        obtain ⟨g, rfl⟩ : ∃ g, f = g + 1 := ⟨f - 1, by omega⟩
        rw [o_parseFuel]
        have step : ∀ (pO : List Char → Except Fault JSONObject)
            (pA : List Char → Except Fault JSONArray),
            o_parseJSONObject_loop pO pA ('{' :: cs) 0 true o_emptyJSONObject none false =
              o_parseJSONObject_loop pO pA cs 0 false o_emptyJSONObject none false :=
          fun _ _ => rfl
        rw [step]
        have hcs : ∀ s : List Char, s <:+: cs → P s :=
          fun s hs => hPi s _ (hs.trans (List.suffix_cons _ cs).isInfix) hP
        apply o_loop_returns
        · intro child hci hch
          have := hci.length_le
          exact ih.1 child (by omega) hch (hcs child hci) g (by omega)
        · intro child hci hch
          have := hci.length_le
          exact ih.2 child (by omega) hch (hcs child hci) g (by omega)
        · intro s hs
          exact hPn s (hcs s hs.isInfix)
    · intro str hl hh hP f hf
      cases str with
      | nil => cases hh
      | cons c cs =>
        have hc : c = '[' := by simpa using hh
        subst hc
        rw [List.length_cons] at hl hf
        obtain ⟨g, rfl⟩ : ∃ g, f = g + 1 := ⟨f - 1, by omega⟩
        rw [a_parseFuel]
        have step : ∀ (pO : List Char → Except Fault JSONObject)
            (pA : List Char → Except Fault JSONArray),
            a_parseJSONArray_loop pO pA ('[' :: cs) 0 true a_emptyJSONArray =
              a_parseJSONArray_loop pO pA cs 0 false a_emptyJSONArray :=
          fun _ _ => rfl
        rw [step]
        have hcs : ∀ s : List Char, s <:+: cs → P s :=
          fun s hs => hPi s _ (hs.trans (List.suffix_cons _ cs).isInfix) hP
        apply a_loop_returns
        · intro child hci hch
          have := hci.length_le
          exact ih.1 child (by omega) hch (hcs child hci) g (by omega)
        · intro child hci hch
          have := hci.length_le
          exact ih.2 child (by omega) hch (hcs child hci) g (by omega)
        · intro s hs
          exact hPn s (hcs s hs.isInfix)

/-- On any text a budget of `2 * length + 2` nested calls is not used up. -/
theorem parseFuel_returns_any (Q : Fault → Prop) (P : List Char → Prop)
    (hPi : ∀ s t : List Char, s <:+: t → P t → P s)
    (hPn : ∀ s : List Char, P s → ∀ e, libjson_stageNumber s = .error e → Q e)
    (str : List Char) (hP : P str) (f : Nat) (hf : 2 * str.length + 2 ≤ f) :
    returnsOr Q (o_parseFuel f str) ∧ returnsOr Q (a_parseFuel f str) := by
  obtain ⟨g, rfl⟩ : ∃ g, f = g + 1 := ⟨f - 1, by omega⟩
  have hs := parseFuel_returns Q P hPi hPn str.length
  constructor
  · rw [o_parseFuel]
    apply o_loop_returns
    · intro child hci hch
      have := hci.length_le
      exact hs.1 child this hch (hPi _ _ hci hP) g (by omega)
    · intro child hci hch
      have := hci.length_le
      exact hs.2 child this hch (hPi _ _ hci hP) g (by omega)
    · intro s hsuf
      exact hPn s (hPi _ _ hsuf.isInfix hP)
  · rw [a_parseFuel]
    apply a_loop_returns
    · intro child hci hch
      have := hci.length_le
      exact hs.1 child this hch (hPi _ _ hci hP) g (by omega)
    · intro child hci hch
      have := hci.length_le
      exact hs.2 child this hch (hPi _ _ hci hP) g (by omega)
    · intro s hsuf
      exact hPn s (hPi _ _ hsuf.isInfix hP)

theorem returnsOr_overrun {α : Type} (r : Except Fault α)
    (h : returnsOr (fun e => e = Fault.bufferOverrun) r) :
    (∃ v, r = .ok v) ∨ r = .error .bufferOverrun := by
  cases r with
  | ok v => exact Or.inl ⟨v, rfl⟩
  | error e =>
    have he : e = Fault.bufferOverrun := h
    rw [he]
    exact Or.inr rfl

theorem returnsOr_never {α : Type} (r : Except Fault α)
    (h : returnsOr (fun _ => False) r) : ∃ v, r = .ok v := by
  cases r with
  | ok v => exact ⟨v, rfl⟩
  | error e => exact absurd h (fun hf => hf)

/-! ## C32: termination of the parsers -/

set_option maxRecDepth 100000 in
/-- C32 (as stated, refuted): the number case of both parsers copies the
literal into the 128 cells of `tmp` with no check of the index. On `[`, 200
digits, `]` the copy writes past the end of `tmp`; on `{"k":`, 128 digits,
`}` it fills `tmp` to its last cell and leaves no terminator for `sscanf`. The
parsers do not return a value on these texts. -/
theorem C32_number_overrun :
    a_parseJSONArray (['['] ++ List.replicate 200 '1' ++ [']']) = .error .bufferOverrun ∧
      o_parseJSONObject (['{', '"', 'k', '"', ':'] ++ List.replicate 128 '1' ++ ['}']) =
        .error .bufferOverrun :=
  ⟨rfl, rfl⟩

/-- C32 (amended): the parsers terminate. On every text `o_parseJSONObject`
and `a_parseJSONArray` stop after finitely many steps: the budget of
`2 * length + 2` nested calls is never used up and a larger budget gives the
same result, and the only fault is the overrun of `tmp` by a number literal.
On every text whose runs of number characters are shorter than 128 characters
both parsers return a value. The token `libjson_extractRaw` cuts from a text
is not longer than the text and starts with its first character, so a nested
call is made on a text that is shorter or starts with the opening delimiter
of the callee. -/
theorem C32_parsers_terminate (str : List Char) :
    (((∃ o, o_parseJSONObject str = .ok o) ∨ o_parseJSONObject str = .error .bufferOverrun) ∧
      ((∃ a, a_parseJSONArray str = .ok a) ∨ a_parseJSONArray str = .error .bufferOverrun)) ∧
    (spec_shortNumbers str →
      (∃ o, o_parseJSONObject str = .ok o) ∧ (∃ a, a_parseJSONArray str = .ok a)) ∧
    (∀ fuel : Nat, 2 * str.length + 2 ≤ fuel →
      o_parseFuel fuel str = o_parseJSONObject str ∧
      a_parseFuel fuel str = a_parseJSONArray str) ∧
    (∀ (c : Char) (cs : List Char) (open_ close : Char),
      (libjson_extractRaw (c :: cs) open_ close).length ≤ (c :: cs).length ∧
      (libjson_extractRaw (c :: cs) open_ close).head? = some c) := by
  refine ⟨?_, ?_, ?_, ?_⟩
  · have := parseFuel_returns_any (fun e => e = Fault.bufferOverrun) (fun _ => True)
      (fun _ _ _ _ => trivial) (fun s _ e he => stageNumber_fault s e he) str trivial
      (2 * str.length + 2) (le_refl _)
    exact ⟨returnsOr_overrun _ this.1, returnsOr_overrun _ this.2⟩
  · intro h
    have := parseFuel_returns_any (fun _ => False) spec_shortNumbers
      spec_shortNumbers_factor (fun s hs e he => stageNumber_short s hs e he) str h
      (2 * str.length + 2) (le_refl _)
    exact ⟨returnsOr_never _ this.1, returnsOr_never _ this.2⟩
  · intro fuel hf
    exact parseFuel_stable_any str fuel (2 * str.length + 2) hf (le_refl _)
  · intro c cs op cl
    exact extractRaw_cons c cs op cl

/-- C32, witness: the malformed text `{"a":[1,{"b` (short number runs) is
parsed to a value by both parsers, and with a budget of 100 nested calls as
with the budget of the entry point. -/
theorem C32_parsers_terminate_witness :
    ((∃ o, o_parseJSONObject ['{', '"', 'a', '"', ':', '[', '1', ',', '{', '"', 'b'] = .ok o) ∧
      (∃ a, a_parseJSONArray ['{', '"', 'a', '"', ':', '[', '1', ',', '{', '"', 'b'] = .ok a)) ∧
    (o_parseFuel 100 ['{', '"', 'a', '"', ':', '[', '1', ',', '{', '"', 'b'] =
        o_parseJSONObject ['{', '"', 'a', '"', ':', '[', '1', ',', '{', '"', 'b'] ∧
      a_parseFuel 100 ['{', '"', 'a', '"', ':', '[', '1', ',', '{', '"', 'b'] =
        a_parseJSONArray ['{', '"', 'a', '"', ':', '[', '1', ',', '{', '"', 'b']) :=
  ⟨(C32_parsers_terminate ['{', '"', 'a', '"', ':', '[', '1', ',', '{', '"', 'b']).2.1
      (spec_shortNumbers_of_length _ (by decide)),
    (C32_parsers_terminate ['{', '"', 'a', '"', ':', '[', '1', ',', '{', '"', 'b']).2.2.1 100
      (by decide)⟩

/-! ## Trees of the data model and the mutation API -/

theorem spec_escaped_quotes (t : List Char) (h : spec_escaped t) : quotesEscaped t = true :=
  h

theorem fits_clean (x : LongDouble) (h : x.Fits) : x.Fits ∧ (false = true → x.exp ≤ 6) :=
  ⟨h, fun hf => by cases hf⟩

theorem sixDigits_clean (x : LongDouble) (h : spec_sixDigits x) :
    x.Fits ∧ (true = true → x.exp ≤ 6) :=
  ⟨h.2, fun _ => h.1⟩

/-- A value that satisfies the invariant of the mutation API is a tree of the
data model with escaped strings. -/
theorem clean_tree (b : Bool) (N : LongDouble → Prop)
    (hN : ∀ x : LongDouble, x.Fits ∧ (b = true → x.exp ≤ 6) → N x) (n : Nat) :
    ∀ e : JSONElement, depthElement e = n → cleanElement b e →
      treeElement spec_escaped N e := by
  induction n using Nat.strong_induction_on with
  | _ n ih =>
    intro e hd ht
    cases e with
    | mk type o a bo num s =>
      cases type with
      | object =>
        rw [cleanElement] at ht
        rw [depthElement] at hd
        rw [treeElement]
        refine ⟨?_, ht.2⟩
        cases o with
        | mk es cnt =>
          obtain ⟨ho, _⟩ := ht
          rw [cleanObject] at ho
          rw [depthObject] at hd
          rw [treeObject]
          refine ⟨ho.1, ho.2.1, treePairs_of_mem _ _ es ?_⟩
          intro p hp
          have htp := cleanPairs_mem b es ho.2.2 p hp
          have hdp := depthPairs_mem es p hp
          cases p with
          | mk k v =>
            rw [cleanPair] at htp
            simp only [pair_value_mk] at hdp
            rw [treePair]
            obtain ⟨⟨t, hk, hSt⟩, hv⟩ := htp
            exact ⟨⟨t, hk, hSt⟩, ih (depthElement v) (by omega) v rfl hv⟩
      | array =>
        rw [cleanElement] at ht
        rw [depthElement] at hd
        rw [treeElement]
        refine ⟨ht.1, ?_, ht.2.2⟩
        cases a with
        | mk es cnt =>
          obtain ⟨_, ha, _⟩ := ht
          rw [cleanArray] at ha
          rw [depthArray] at hd
          rw [treeArray]
          refine ⟨ha.1, treeElements_of_mem _ _ es ?_⟩
          intro e he
          have hde := depthElements_mem es e he
          exact ih (depthElement e) (by omega) e rfl (cleanElements_mem b es ha.2 e he)
      | boolean =>
        rw [cleanElement] at ht
        rw [treeElement]
        exact ht
      | number =>
        rw [cleanElement] at ht
        rw [treeElement]
        obtain ⟨h1, h2, h3, h4, h5⟩ := ht
        exact ⟨h1, h2, h3, hN num h4, h5⟩
      | string =>
        rw [cleanElement] at ht
        rw [treeElement]
        obtain ⟨h1, h2, h3, h4, t, h5, h6⟩ := ht
        exact ⟨h1, h2, h3, h4, t, h5, h6⟩
      | null =>
        rw [cleanElement] at ht
        rw [treeElement]
        exact ht

/-- The trees the mutation API builds are trees of the data model: an object
built from `o_emptyJSONObject` by `o_set*`, with array values built from
`a_emptyJSONArray` by `a_set*` at the end, from keys and strings that are not
`NULL` and have their quotes escaped, integers that are a `long` and doubles
whose text fits `tmp` (with `exact`: of at most six fractional digits). -/
theorem built_tree (json : JSONObject) :
    (Built true (.object json) → treeObject spec_escaped spec_sixDigits json) ∧
      (Built false (.object json) → treeObject spec_escaped LongDouble.Fits json) := by
  constructor
  · intro h
    have hc : cleanObject true json := built_clean true _ h
    have := clean_tree true spec_sixDigits (fun x hx => ⟨hx.2 rfl, hx.1⟩) _ _ rfl
      (cleanElement_object true json hc)
    rw [treeElement] at this
    exact this.1
  · intro h
    have hc : cleanObject false json := built_clean false _ h
    have := clean_tree false LongDouble.Fits (fun x hx => hx.1) _ _ rfl
      (cleanElement_object false json hc)
    rw [treeElement] at this
    exact this.1

/-- The object `{"a":3.25,"b":["x\"y",-3]}`, with an escaped quote in a
string, is a tree with at most six fractional digits. -/
theorem tree_example_exact :
    treeObject spec_escaped spec_sixDigits
      (o_set (o_set o_emptyJSONObject (some ['a'])
        (.double ⟨false, 325, 2, Or.inr (by decide)⟩)) (some ['b'])
        (.jsonArray (a_set (a_set a_emptyJSONArray 0 (.string (some ['x', '\\', '"', 'y']))) 1
          (.int (-3))))) := by
  show treeObject spec_escaped spec_sixDigits
    (JSONObject.mk [JSONPair.mk _ (JSONElement.mk .number _ _ _ _ _),
      JSONPair.mk _ (JSONElement.mk .array _
        (JSONArray.mk [JSONElement.mk .string _ _ _ _ _, JSONElement.mk .number _ _ _ _ _] _)
        _ _ _)] _)
  rw [treeObject, treePairs, treePair, treeElement, treePairs, treePair, treeElement,
    treeArray, treeElements, treeElement, treeElements, treeElement, treeElements, treePairs]
  exact ⟨rfl, by decide, ⟨⟨_, rfl, by decide⟩, rfl, rfl, rfl, by decide, rfl⟩,
    ⟨⟨_, rfl, by decide⟩, rfl, ⟨rfl, ⟨rfl, rfl, rfl, rfl, _, rfl, by decide⟩,
      ⟨rfl, rfl, rfl, by decide, rfl⟩, trivial⟩, rfl, rfl, rfl⟩, trivial⟩

/-- The object with `a` bound to 0.0078125, a number of seven fractional
digits, and `b` bound to `["x\"y",-3]` is a tree whose numbers fit `tmp`. -/
theorem tree_example_fits :
    treeObject spec_escaped LongDouble.Fits
      (o_set (o_set o_emptyJSONObject (some ['a'])
        (.double ⟨false, 78125, 7, Or.inr (by decide)⟩)) (some ['b'])
        (.jsonArray (a_set (a_set a_emptyJSONArray 0 (.string (some ['x', '\\', '"', 'y']))) 1
          (.int (-3))))) := by
  show treeObject spec_escaped LongDouble.Fits
    (JSONObject.mk [JSONPair.mk _ (JSONElement.mk .number _ _ _ _ _),
      JSONPair.mk _ (JSONElement.mk .array _
        (JSONArray.mk [JSONElement.mk .string _ _ _ _ _, JSONElement.mk .number _ _ _ _ _] _)
        _ _ _)] _)
  rw [treeObject, treePairs, treePair, treeElement, treePairs, treePair, treeElement,
    treeArray, treeElements, treeElement, treeElements, treeElement, treeElements, treePairs]
  exact ⟨rfl, by decide, ⟨⟨_, rfl, by decide⟩, rfl, rfl, rfl, by decide, rfl⟩,
    ⟨⟨_, rfl, by decide⟩, rfl, ⟨rfl, ⟨rfl, rfl, rfl, rfl, _, rfl, by decide⟩,
      ⟨rfl, rfl, rfl, by decide, rfl⟩, trivial⟩, rfl, rfl, rfl⟩, trivial⟩

/-- The object `{"a":1,"b":[true]}` is a tree. -/
theorem tree_example_object :
    treeObject spec_escaped LongDouble.Fits
      (o_set (o_set o_emptyJSONObject (some ['a']) (.int 1)) (some ['b'])
        (.jsonArray (a_set a_emptyJSONArray 0 (.boolean true)))) := by
  show treeObject spec_escaped LongDouble.Fits
    (JSONObject.mk [JSONPair.mk _ (JSONElement.mk .number _ _ _ _ _),
      JSONPair.mk _ (JSONElement.mk .array _
        (JSONArray.mk [JSONElement.mk .boolean _ _ _ _ _] _) _ _ _)] _)
  rw [treeObject, treePairs, treePair, treeElement, treePairs, treePair, treeElement,
    treeArray, treeElements, treeElement, treeElements, treePairs]
  exact ⟨rfl, by decide, ⟨⟨_, rfl, by decide⟩, rfl, rfl, rfl, by decide, rfl⟩,
    ⟨⟨_, rfl, by decide⟩, rfl, ⟨rfl, ⟨rfl, rfl, rfl, rfl⟩, trivial⟩, rfl, rfl, rfl⟩, trivial⟩

/-- The array `[1,2]` is a tree. -/
theorem tree_example_array :
    treeArray spec_escaped LongDouble.Fits
      (a_set (a_set a_emptyJSONArray 0 (.int 1)) 1 (.int 2)) := by
  show treeArray spec_escaped LongDouble.Fits
    (JSONArray.mk [JSONElement.mk .number _ _ _ _ _, JSONElement.mk .number _ _ _ _ _] _)
  rw [treeArray, treeElements, treeElement, treeElements, treeElement, treeElements]
  exact ⟨rfl, ⟨rfl, rfl, rfl, by decide, rfl⟩, ⟨rfl, rfl, rfl, by decide, rfl⟩, trivial⟩

/-! ## C1 and C2: round trip and idempotence -/

/-- C1 (amended): round trip. For every object tree of the data model (every
count is the size of its buffer, the keys of an object are different from
each other, the fields a tag does not select are as the setters leave them)
whose keys and strings are not `NULL` and have their quotes escaped, and
whose numbers are finite with at most six fractional digits and a text that
fits `tmp`, the serializer writes a text and parsing that text gives the
object back. -/
theorem C1_round_trip (json : JSONObject) (h : treeObject spec_escaped spec_sixDigits json) :
    (∃ s, o_JSONObjectToString json = .ok s) ∧
      (o_JSONObjectToString json >>= o_parseJSONObject) = .ok json := by
  obtain ⟨h1, h2⟩ := clean_object_round_trip json
    (treeObject_clean true _ _ spec_escaped_quotes sixDigits_clean json h)
  refine ⟨⟨_, h1⟩, ?_⟩
  rw [h1]
  exact h2

/-- C1, witness: the object `{"a":3.25,"b":["x\"y",-3]}`. -/
theorem C1_round_trip_witness :
    (o_JSONObjectToString
        (o_set (o_set o_emptyJSONObject (some ['a'])
          (.double ⟨false, 325, 2, Or.inr (by decide)⟩)) (some ['b'])
          (.jsonArray (a_set (a_set a_emptyJSONArray 0
            (.string (some ['x', '\\', '"', 'y']))) 1 (.int (-3)))))
        >>= o_parseJSONObject) =
      .ok (o_set (o_set o_emptyJSONObject (some ['a'])
          (.double ⟨false, 325, 2, Or.inr (by decide)⟩)) (some ['b'])
          (.jsonArray (a_set (a_set a_emptyJSONArray 0
            (.string (some ['x', '\\', '"', 'y']))) 1 (.int (-3))))) :=
  (C1_round_trip _ tree_example_exact).2

/-- C2 (amended): idempotence. For every object tree of the data model whose
keys and strings are not `NULL` and have their quotes escaped, and whose
numbers are finite with a text that fits `tmp`, the serializer succeeds and
serializing what the parser reads from its text gives that text again. -/
theorem C2_idempotence (json : JSONObject) (h : treeObject spec_escaped LongDouble.Fits json) :
    (o_JSONObjectToString json >>= o_parseJSONObject >>= o_JSONObjectToString) =
        o_JSONObjectToString json ∧
      ∃ s, o_JSONObjectToString json = .ok s := by
  obtain ⟨h1, h2, h3⟩ := clean_object_idempotent false json
    (treeObject_clean false _ _ spec_escaped_quotes fits_clean json h)
  refine ⟨?_, _, h1⟩
  rw [h1]
  show (o_parseJSONObject (renderObject json) >>= o_JSONObjectToString) = _
  rw [h2]
  exact h3

/-- C2, witness: the object with `a` bound to 0.0078125, a number of seven
fractional digits, and `b` bound to `["x\"y",-3]`. -/
theorem C2_idempotence_witness :
    (o_JSONObjectToString
        (o_set (o_set o_emptyJSONObject (some ['a'])
          (.double ⟨false, 78125, 7, Or.inr (by decide)⟩)) (some ['b'])
          (.jsonArray (a_set (a_set a_emptyJSONArray 0
            (.string (some ['x', '\\', '"', 'y']))) 1 (.int (-3)))))
        >>= o_parseJSONObject >>= o_JSONObjectToString) =
      o_JSONObjectToString
        (o_set (o_set o_emptyJSONObject (some ['a'])
          (.double ⟨false, 78125, 7, Or.inr (by decide)⟩)) (some ['b'])
          (.jsonArray (a_set (a_set a_emptyJSONArray 0
            (.string (some ['x', '\\', '"', 'y']))) 1 (.int (-3))))) :=
  (C2_idempotence _ tree_example_fits).1

/-! ## C28 and C30: layout between the tokens -/

/-- C28 (amended): whitespace is insignificant. For every tree of the data
model whose keys and strings are not `NULL` and have their quotes escaped, and
whose numbers are finite with a text that fits `tmp`, the serializer writes a
text, the parser reads it, and inserting any number of the six whitespace
characters before the text, after it, or between any two of its tokens leaves
the result of the parser unchanged; for objects and for arrays. -/
theorem C28_whitespace_insignificant :
    (∀ json : JSONObject, treeObject spec_escaped LongDouble.Fits json →
      (∃ s, o_JSONObjectToString json = .ok s) ∧
        ∀ s, o_JSONObjectToString json = .ok s →
          looseObject spec_whitespace json s ∧ (∃ r, o_parseJSONObject s = .ok r) ∧
            ∀ pre text post : List Char, (∀ c ∈ pre, spec_whitespace c) →
              looseObject spec_whitespace json text → (∀ c ∈ post, spec_whitespace c) →
              o_parseJSONObject (pre ++ text ++ post) = o_parseJSONObject s) ∧
    (∀ json : JSONArray, treeArray spec_escaped LongDouble.Fits json →
      (∃ s, a_JSONArrayToString json = .ok s) ∧
        ∀ s, a_JSONArrayToString json = .ok s →
          looseArray spec_whitespace json s ∧ (∃ r, a_parseJSONArray s = .ok r) ∧
            ∀ pre text post : List Char, (∀ c ∈ pre, spec_whitespace c) →
              looseArray spec_whitespace json text → (∀ c ∈ post, spec_whitespace c) →
              a_parseJSONArray (pre ++ text ++ post) = a_parseJSONArray s) :=
  ⟨fun json h => loose_object_insignificant spec_whitespace spec_whitespace_isspace json
      (treeObject_clean false _ _ spec_escaped_quotes fits_clean json h),
    fun json h => loose_array_insignificant spec_whitespace spec_whitespace_isspace json
      (treeArray_clean false _ _ spec_escaped_quotes fits_clean json h)⟩

/-- C28, witness: the object `{"a":1,"b":[true]}` with a space or tab around
every token, a space before and a newline after, and the array `[1,2]` laid
out as `[ 1 ,\t2\n]` after a form feed and before a vertical tab. -/
theorem C28_whitespace_insignificant_witness :
    o_parseJSONObject [' ', '{', ' ', '"', 'a', '"', ' ', ':', ' ', '1', ' ', ',', ' ', '"', 'b',
        '"', ' ', ':', '\t', '[', ' ', 't', 'r', 'u', 'e', ' ', ']', ' ', '}', '\n'] =
      o_parseJSONObject ['{', '"', 'a', '"', ':', '1', ',', '"', 'b', '"', ':', '[', 't', 'r',
        'u', 'e', ']', '}'] ∧
    a_parseJSONArray [Char.ofNat 12, '[', ' ', '1', ' ', ',', '\t', '2', '\n', ']',
        Char.ofNat 11] =
      a_parseJSONArray ['[', '1', ',', '2', ']'] :=
  ⟨((C28_whitespace_insignificant.1
      (o_set (o_set o_emptyJSONObject (some ['a']) (.int 1)) (some ['b'])
        (.jsonArray (a_set a_emptyJSONArray 0 (.boolean true))))
      tree_example_object).2
      ['{', '"', 'a', '"', ':', '1', ',', '"', 'b', '"', ':', '[', 't', 'r', 'u', 'e', ']', '}']
      rfl).2.2 [' ']
      ['{', ' ', '"', 'a', '"', ' ', ':', ' ', '1', ' ', ',', ' ', '"', 'b', '"', ' ', ':', '\t',
        '[', ' ', 't', 'r', 'u', 'e', ' ', ']', ' ', '}'] ['\n'] (by decide)
      (looseObject_intro _ _ _ _
        (loosePairs_cons _ _ _ [' '] ['"', 'a', '"', ' ', ':', ' ', '1']
          [' ', ',', ' ', '"', 'b', '"', ' ', ':', '\t', '[', ' ', 't', 'r', 'u', 'e', ' ', ']',
            ' ', '}'] (by decide)
          (loosePair_intro _ (some ['a']) _ [' '] [' '] ['1'] (by decide) (by decide)
            (looseElement_render _ _ _ rfl))
          (looseMorePairs_cons _ _ _ [' '] [' ']
            ['"', 'b', '"', ' ', ':', '\t', '[', ' ', 't', 'r', 'u', 'e', ' ', ']'] [' ', '}']
            (by decide) (by decide)
            (loosePair_intro _ (some ['b']) _ [' '] ['\t'] ['[', ' ', 't', 'r', 'u', 'e', ' ', ']']
              (by decide) (by decide)
              (looseElement_array _ _ _ _ _ _ _
                (looseArray_intro _ _ _ _
                  (looseElements_cons _ _ _ [' '] ['t', 'r', 'u', 'e'] [' ', ']'] (by decide)
                    (looseElement_render _ _ _ rfl)
                    (looseMoreElements_nil _ [' '] (by decide))))))
            (looseMorePairs_nil _ [' '] (by decide)))))
      (by decide),
    ((C28_whitespace_insignificant.2
      (a_set (a_set a_emptyJSONArray 0 (.int 1)) 1 (.int 2))
      tree_example_array).2
      ['[', '1', ',', '2', ']'] rfl).2.2 [Char.ofNat 12]
      ['[', ' ', '1', ' ', ',', '\t', '2', '\n', ']'] [Char.ofNat 11] (by decide)
      (looseArray_intro _ _ _ _
        (looseElements_cons _ _ _ [' '] ['1'] [' ', ',', '\t', '2', '\n', ']'] (by decide)
          (looseElement_render _ _ _ rfl)
          (looseMoreElements_cons _ _ _ [' '] ['\t'] ['2'] ['\n', ']'] (by decide) (by decide)
            (looseElement_render _ _ _ rfl)
            (looseMoreElements_nil _ ['\n'] (by decide)))))
      (by decide)⟩

/-- C30 (amended): commas are structurally insignificant. For every tree of
the data model whose keys and strings are not `NULL` and have their quotes
escaped, and whose numbers are finite with a text that fits `tmp`, the
serializer writes a text, the parser reads it, and replacing each
separating comma by any positive number of commas, or adding commas after the
last member (or between any two other tokens), leaves the result of the parser
unchanged; for objects and for arrays. -/
theorem C30_commas_insignificant :
    (∀ json : JSONObject, treeObject spec_escaped LongDouble.Fits json →
      (∃ s, o_JSONObjectToString json = .ok s) ∧
        ∀ s, o_JSONObjectToString json = .ok s →
          looseObject spec_comma json s ∧ (∃ r, o_parseJSONObject s = .ok r) ∧
            ∀ text : List Char, looseObject spec_comma json text →
              o_parseJSONObject text = o_parseJSONObject s) ∧
    (∀ json : JSONArray, treeArray spec_escaped LongDouble.Fits json →
      (∃ s, a_JSONArrayToString json = .ok s) ∧
        ∀ s, a_JSONArrayToString json = .ok s →
          looseArray spec_comma json s ∧ (∃ r, a_parseJSONArray s = .ok r) ∧
            ∀ text : List Char, looseArray spec_comma json text →
              a_parseJSONArray text = a_parseJSONArray s) := by
  constructor
  · intro json h
    obtain ⟨h1, h2⟩ := loose_object_insignificant spec_comma spec_comma_fill json
      (treeObject_clean false _ _ spec_escaped_quotes fits_clean json h)
    refine ⟨h1, fun s hs => ?_⟩
    obtain ⟨h3, h4, h5⟩ := h2 s hs
    refine ⟨h3, h4, fun text hl => ?_⟩
    have := h5 [] text [] (nil_fill _) hl (nil_fill _)
    simpa using this
  · intro json h
    obtain ⟨h1, h2⟩ := loose_array_insignificant spec_comma spec_comma_fill json
      (treeArray_clean false _ _ spec_escaped_quotes fits_clean json h)
    refine ⟨h1, fun s hs => ?_⟩
    obtain ⟨h3, h4, h5⟩ := h2 s hs
    refine ⟨h3, h4, fun text hl => ?_⟩
    have := h5 [] text [] (nil_fill _) hl (nil_fill _)
    simpa using this

/-- C30, witness: the object `{"a":1,"b":[true]}` written as
`{"a":1,,"b":[true,],}` (doubled separator, a comma after the last member of
the array and of the object), and the array `[1,2]` written as `[1,,,2,]`. -/
theorem C30_commas_insignificant_witness :
    o_parseJSONObject ['{', '"', 'a', '"', ':', '1', ',', ',', '"', 'b', '"', ':', '[', 't', 'r',
        'u', 'e', ',', ']', ',', '}'] =
      o_parseJSONObject ['{', '"', 'a', '"', ':', '1', ',', '"', 'b', '"', ':', '[', 't', 'r',
        'u', 'e', ']', '}'] ∧
    a_parseJSONArray ['[', '1', ',', ',', ',', '2', ',', ']'] =
      a_parseJSONArray ['[', '1', ',', '2', ']'] :=
  ⟨((C30_commas_insignificant.1
      (o_set (o_set o_emptyJSONObject (some ['a']) (.int 1)) (some ['b'])
        (.jsonArray (a_set a_emptyJSONArray 0 (.boolean true))))
      tree_example_object).2
      ['{', '"', 'a', '"', ':', '1', ',', '"', 'b', '"', ':', '[', 't', 'r', 'u', 'e', ']', '}']
      rfl).2.2
      ['{', '"', 'a', '"', ':', '1', ',', ',', '"', 'b', '"', ':', '[', 't', 'r', 'u', 'e', ',',
        ']', ',', '}']
      (looseObject_intro _ _ _ _
        (loosePairs_cons _ _ _ [] ['"', 'a', '"', ':', '1']
          [',', ',', '"', 'b', '"', ':', '[', 't', 'r', 'u', 'e', ',', ']', ',', '}'] (by decide)
          (loosePair_intro _ (some ['a']) _ [] [] ['1'] (by decide) (by decide)
            (looseElement_render _ _ _ rfl))
          (looseMorePairs_cons _ _ _ [] [',']
            ['"', 'b', '"', ':', '[', 't', 'r', 'u', 'e', ',', ']'] [',', '}']
            (by decide) (by decide)
            (loosePair_intro _ (some ['b']) _ [] [] ['[', 't', 'r', 'u', 'e', ',', ']']
              (by decide) (by decide)
              (looseElement_array _ _ _ _ _ _ _
                (looseArray_intro _ _ _ _
                  (looseElements_cons _ _ _ [] ['t', 'r', 'u', 'e'] [',', ']'] (by decide)
                    (looseElement_render _ _ _ rfl)
                    (looseMoreElements_nil _ [','] (by decide))))))
            (looseMorePairs_nil _ [','] (by decide))))),
    ((C30_commas_insignificant.2
      (a_set (a_set a_emptyJSONArray 0 (.int 1)) 1 (.int 2))
      tree_example_array).2
      ['[', '1', ',', '2', ']'] rfl).2.2
      ['[', '1', ',', ',', ',', '2', ',', ']']
      (looseArray_intro _ _ _ _
        (looseElements_cons _ _ _ [] ['1'] [',', ',', ',', '2', ',', ']'] (by decide)
          (looseElement_render _ _ _ rfl)
          (looseMoreElements_cons _ _ _ [','] [','] ['2'] [',', ']'] (by decide) (by decide)
            (looseElement_render _ _ _ rfl)
            (looseMoreElements_nil _ [','] (by decide)))))⟩

/-! ## C26: number literals -/

/-- Both parsers return on every text, with a value or with the overrun of
`tmp` by a number literal. -/
theorem parse_returns (str : List Char) :
    ((∃ o, o_parseJSONObject str = .ok o) ∨ o_parseJSONObject str = .error .bufferOverrun) ∧
      ((∃ a, a_parseJSONArray str = .ok a) ∨ a_parseJSONArray str = .error .bufferOverrun) := by
  have := parseFuel_returns_any (fun e => e = Fault.bufferOverrun) (fun _ => True)
    (fun _ _ _ _ => trivial) (fun s _ e he => stageNumber_fault s e he) str trivial
    (2 * str.length + 2) (le_refl _)
  exact ⟨returnsOr_overrun _ this.1, returnsOr_overrun _ this.2⟩

/-- Both parsers return a value on every text whose runs of number characters
are shorter than 128 characters. -/
theorem parse_short_returns (str : List Char) (h : spec_shortNumbers str) :
    (∃ o, o_parseJSONObject str = .ok o) ∧ (∃ a, a_parseJSONArray str = .ok a) := by
  have := parseFuel_returns_any (fun _ => False) spec_shortNumbers
    spec_shortNumbers_factor (fun s hs e he => stageNumber_short s hs e he) str h
    (2 * str.length + 2) (le_refl _)
  exact ⟨returnsOr_never _ this.1, returnsOr_never _ this.2⟩

/-- C27: a nested container is delegated and parsed recursively. For every
balanced array text `t` (it starts with `[` and its matching `]` is its last
character), `a_parseJSONArray` returns on `t` and on `[` `t` `]`: either the
call on `t` returns an Array `v` and the call on `[` `t` `]` returns the
one-element array whose only element is `v`, or a number literal in `t`
overruns `tmp` and both calls stop on that fault; when no run of number
characters in `t` has 128 characters, it is the first. For every balanced
object text `u`, likewise `o_parseJSONObject` on `{"k":` `u` `}` returns the
one-pair object binding `k` to the Object that `o_parseJSONObject` returns
for `u`. Only the first opening delimiter is taken as the container's own. -/
theorem C27_nested_delegation :
    (∀ t : List Char, t.head? = some '[' →
      spec_balancedEnd '[' ']' t 0 0 = some (t.length - 1) →
      a_parseJSONArray (['['] ++ t ++ [']']) =
          (a_parseJSONArray t).map (fun v => a_setJSONArray a_emptyJSONArray 0 v) ∧
        ((∃ v, a_parseJSONArray t = .ok v ∧
            a_parseJSONArray (['['] ++ t ++ [']']) =
              .ok (a_setJSONArray a_emptyJSONArray 0 v) ∧
            (a_setJSONArray a_emptyJSONArray 0 v).numberOfElements = 1 ∧
            a_getJSONArray (a_setJSONArray a_emptyJSONArray 0 v) 0 = v) ∨
          (a_parseJSONArray t = .error .bufferOverrun ∧
            a_parseJSONArray (['['] ++ t ++ [']']) = .error .bufferOverrun)) ∧
        (spec_shortNumbers t →
          ∃ v, a_parseJSONArray t = .ok v ∧
            a_parseJSONArray (['['] ++ t ++ [']']) =
              .ok (a_setJSONArray a_emptyJSONArray 0 v))) ∧
    (∀ u : List Char, u.head? = some '{' →
      spec_balancedEnd '{' '}' u 0 0 = some (u.length - 1) →
      o_parseJSONObject (['{', '"', 'k', '"', ':'] ++ u ++ ['}']) =
          (o_parseJSONObject u).map
            (fun v => o_setJSONObject o_emptyJSONObject (some ['k']) v) ∧
        ((∃ v, o_parseJSONObject u = .ok v ∧
            o_parseJSONObject (['{', '"', 'k', '"', ':'] ++ u ++ ['}']) =
              .ok (o_setJSONObject o_emptyJSONObject (some ['k']) v) ∧
            (o_setJSONObject o_emptyJSONObject (some ['k']) v).numberOfElements = 1 ∧
            o_getJSONObject (o_setJSONObject o_emptyJSONObject (some ['k']) v) (some ['k']) =
              v) ∨
          (o_parseJSONObject u = .error .bufferOverrun ∧
            o_parseJSONObject (['{', '"', 'k', '"', ':'] ++ u ++ ['}']) =
              .error .bufferOverrun)) ∧
        (spec_shortNumbers u →
          ∃ v, o_parseJSONObject u = .ok v ∧
            o_parseJSONObject (['{', '"', 'k', '"', ':'] ++ u ++ ['}']) =
              .ok (o_setJSONObject o_emptyJSONObject (some ['k']) v))) := by
  constructor
  · intro t hh hb
    have hmap := nested_delegation_map.1 t hh hb
    refine ⟨hmap, ?_, ?_⟩
    · rcases (parse_returns t).2 with ⟨v, hv⟩ | he
      · left
        refine ⟨v, hv, ?_, rfl, rfl⟩
        rw [hmap, hv]
        rfl
      · right
        refine ⟨he, ?_⟩
        rw [hmap, he]
        rfl
    · intro hs
      obtain ⟨v, hv⟩ := (parse_short_returns t hs).2
      refine ⟨v, hv, ?_⟩
      rw [hmap, hv]
      rfl
  · intro u hh hb
    have hmap := nested_delegation_map.2 u hh hb
    refine ⟨hmap, ?_, ?_⟩
    · rcases (parse_returns u).1 with ⟨v, hv⟩ | he
      · left
        refine ⟨v, hv, ?_, rfl, rfl⟩
        rw [hmap, hv]
        rfl
      · right
        refine ⟨he, ?_⟩
        rw [hmap, he]
        rfl
    · intro hs
      obtain ⟨v, hv⟩ := (parse_short_returns u hs).1
      refine ⟨v, hv, ?_⟩
      rw [hmap, hv]
      rfl

/-- C27, witness: the array text `[1,[2]]` inside brackets and the object text
`{"a":{}}` under the key `k`; both nested calls return a value, which the
outer call stores as its only member. -/
theorem C27_nested_delegation_witness :
    (∃ v, a_parseJSONArray ['[', '1', ',', '[', '2', ']', ']'] = .ok v ∧
      a_parseJSONArray (['['] ++ ['[', '1', ',', '[', '2', ']', ']'] ++ [']']) =
        .ok (a_setJSONArray a_emptyJSONArray 0 v)) ∧
    (∃ v, o_parseJSONObject ['{', '"', 'a', '"', ':', '{', '}', '}'] = .ok v ∧
      o_parseJSONObject (['{', '"', 'k', '"', ':'] ++ ['{', '"', 'a', '"', ':', '{', '}', '}'] ++
          ['}']) =
        .ok (o_setJSONObject o_emptyJSONObject (some ['k']) v)) :=
  ⟨(C27_nested_delegation.1 ['[', '1', ',', '[', '2', ']', ']'] rfl (by decide)).2.2
      (spec_shortNumbers_of_length _ (by decide)),
    (C27_nested_delegation.2 ['{', '"', 'a', '"', ':', '{', '}', '}'] rfl (by decide)).2.2
      (spec_shortNumbers_of_length _ (by decide))⟩

end LibJson
